import Mathlib

/-! Radix-tree router of `pkg/route/tree.go`

A shallow embedding of the route tree (`checkPahtValid`, `addRoute`, `insert`, `find`)
and the properties of registration and lookup proved about it.

Conventions of the embedding

* A Go `string` is a byte sequence.  It is modelled as a `List Char`, one `Char` per byte;
  the code only ever compares bytes with each other and with `':'`, `'*'` and `'/'`.
* A handler function is opaque to the tree, it is identified by a number.  A handler chain is
  an `Option (List HandlerFunc)`: `none` is the nil slice, `some []` an allocated empty one
  (the code distinguishes `h == nil` from `len(h) == 0`).
* The tree owns its nodes and `parent` is the only back-reference.  A tree is modelled as the
  value of its root node; the cursor of `find` carries the list of its ancestors, whose head
  is `cn.parent`.  The back-references themselves are studied on a second embedding of
  `insert` and `addRoute`, the arena `Heap`, in which a reference is the index of a node and
  the nodes are written in place (`HBuilt.parentsOk`, `Heap.addRoute_budget`).
* A Go panic is a value of `Panic`; registration returns the tree as the panic leaves it.
* Loops are recursive functions with a step budget; a budget that runs out is reported as
  `Panic.outOfBudget`, which is no panic of the source.  The budgets are large enough for the
  loops to end: `insertLoop_spec` and `addRouteLoop_spec` for registration on the trees that
  registration builds, `explore_sim` for the lookup (three steps for each node).
* `Engine.addRoute` registers only chains that are not empty, and the caller of `find`
  supplies a buffer that has room for the wildcards of every registered pattern; the
  theorems on the lookup that need these take them as hypotheses.
* `find` is studied with `unescape = false`.  With the buffer `make(Params, 0, cap)` its
  loop is related to `explore`, a depth-first search of the tree (`find_built`); runs with
  other buffers and runs on two trees that hold the same keys are related step by step
  (`findLoop_below`, `findLoop_paired`).
-/

namespace route

/-- Go `string`: a sequence of bytes. -/
abbrev Str := List Char

/-- One `server.HandlerFunc`, identified by a number. -/
abbrev HandlerFunc := Nat

/-- The type `server.HandlersChain`: `none` is the nil slice. -/
abbrev HandlersChain := Option (List HandlerFunc)

/-- The panics of the package, with the run-time panics of Go that the code can raise. -/
inductive Panic where
  /-- "empty path" -/
  | emptyPath
  /-- "path must begin with '/'" -/
  | noLeadingSlash
  /-- "wildcards must be named with a non-empty name in path ..." -/
  | emptyWildcardName
  /-- "only one wildcard per path segment is allowed, find multi in path ..." -/
  | multiWildcard
  /-- " no / before wildcards in path ..." -/
  | noSlashBeforeWildcard
  /-- "catch-all routes are only allowed at the end of the path in path ..." -/
  | catchAllNotAtEnd
  /-- "Adding route without handler function: ..." -/
  | noHandler
  /-- "handlers are already registered for path '" + ppath + "'" -/
  | duplicate (ppath : Str)
  /-- "path should not be ''" (`Engine.addRoute`) -/
  | pathShouldNotBeEmpty
  /-- "there must be at least one handler" (`Engine.addRoute`) -/
  | atLeastOneHandler
  /-- Go run-time panic: index or slice bound out of range -/
  | outOfRange
  /-- The step budget of a loop of the embedding ran out (not a panic of the source). -/
  | outOfBudget
  deriving DecidableEq, Repr

/-- The node kinds `skind`, `pkind`, `akind` (`iota` 0, 1, 2). -/
inductive kind where
  | skind
  | pkind
  | akind
  deriving DecidableEq, Repr

/-- The value `k + 1` for the kinds below `akind`, as used by `backtrackToNextNodeKind`. -/
def kind.succ : kind → kind
  | .skind => .pkind
  | .pkind => .akind
  | .akind => .akind

/-- The struct `node` without its `parent` back-reference; `pfx` is the field `prefix`. -/
inductive node where
  | mk (kind : kind) (label : Char) (pfx : Str) (children : List node) (ppath : Str)
      (pnames : List Str) (handlers : HandlersChain) (paramChild : Option node)
      (anyChild : Option node) (isLeaf : Bool) : node
  deriving Repr

namespace node

def kind : node → route.kind
  | mk k _ _ _ _ _ _ _ _ _ => k

def label : node → Char
  | mk _ l _ _ _ _ _ _ _ _ => l

def pfx : node → Str
  | mk _ _ p _ _ _ _ _ _ _ => p

def children : node → List node
  | mk _ _ _ cs _ _ _ _ _ _ => cs

def ppath : node → Str
  | mk _ _ _ _ pp _ _ _ _ _ => pp

def pnames : node → List Str
  | mk _ _ _ _ _ pn _ _ _ _ => pn

def handlers : node → HandlersChain
  | mk _ _ _ _ _ _ h _ _ _ => h

def paramChild : node → Option node
  | mk _ _ _ _ _ _ _ pc _ _ => pc

def anyChild : node → Option node
  | mk _ _ _ _ _ _ _ _ ac _ => ac

def isLeaf : node → Bool
  | mk _ _ _ _ _ _ _ _ _ lf => lf

end node

/-- The zero value `&node{}` with which `NewEngine` and the tests start a tree. -/
def emptyRoot : node :=
  .mk .skind (Char.ofNat 0) [] [] [] [] none none none false

/-! ## Validation -/

/-- Inner loop of the `':'` case of `checkPahtValid`, run on `path[i+1:]`: up to the next
`'/'` neither `':'` nor `'*'` may occur.  `true` when the loop ends without a panic. -/
def scanParamName : Str → Bool
  | [] => true
  | c :: cs =>
    if c = '/' then true
    else if c = ':' ∨ c = '*' then false
    else scanParamName cs

/-- Inner loop of the `'*'` case of `checkPahtValid`, run on `path[i:]`: no `'/'` may
follow.  `true` when the loop ends without a panic. -/
def scanCatchAll : Str → Bool
  | [] => true
  | c :: cs => if c = '/' then false else scanCatchAll cs

/-- Body of the `range` loop of `checkPahtValid` for index `i` and byte `c`. -/
def checkByte (path : Str) (i : Nat) (c : Char) : Except Panic Unit :=
  if c = ':' then
    if (i < path.length - 1 ∧ path.get? (i + 1) = some '/') ∨ i = path.length - 1 then
      .error .emptyWildcardName
    else if scanParamName (path.drop (i + 1)) then .ok ()
    else .error .multiWildcard
  else if c = '*' then
    if i = path.length - 1 then .error .emptyWildcardName
    else if 0 < i ∧ path.get? (i - 1) ≠ some '/' then .error .noSlashBeforeWildcard
    else if scanCatchAll (path.drop i) then .ok ()
    else .error .catchAllNotAtEnd
  else .ok ()

/-- The loop `for i, c := range []byte(path)`: `rest` is `path[i:]`. -/
def checkLoop (path : Str) : Nat → Str → Except Panic Unit
  | _, [] => .ok ()
  | i, c :: rest =>
    match checkByte path i c with
    | .error p => .error p
    | .ok _ => checkLoop path (i + 1) rest

/-- The function `checkPahtValid`: `.ok ()` when it returns, `.error p` when it panics. -/
def checkPahtValid (path : Str) : Except Panic Unit :=
  if path = [] then .error .emptyPath
  else if path.head? ≠ some '/' then .error .noLeadingSlash
  else checkLoop path 0 path

/-! ## Insertion -/

/-- The function `newNode`; it reads `pre[0]`. -/
def newNode (t : kind) (pre : Str) (child : List node) (mh : HandlersChain) (ppath : Str)
    (pnames : List Str) (paramChildren anyChildren : Option node) : Except Panic node :=
  match pre with
  | [] => .error .outOfRange
  | c :: _ =>
    .ok (.mk t c pre child ppath pnames mh paramChildren anyChildren
      (child.isEmpty && paramChildren.isNone && anyChildren.isNone))

/-- The method `findChild`: the first static child whose label is `l`. -/
def findChild (n : node) (l : Char) : Option node :=
  n.children.find? (fun c => c.label == l)

/-- The method `findChildWithLabel`. -/
def findChildWithLabel (n : node) (l : Char) : Option node :=
  match n.children.find? (fun c => c.label == l) with
  | some c => some c
  | none =>
    if l = ':' then n.paramChild
    else if l = '*' then n.anyChild
    else none

/-- Replace the first element that satisfies `p`. -/
def replaceFirst (p : node → Bool) (c' : node) : List node → List node
  | [] => []
  | c :: cs => if p c then c' :: cs else c :: replaceFirst p c' cs

/-- The node `n` after the child that `findChildWithLabel n l` returns has been mutated in
place into `c'`. -/
def setChildWithLabel (n : node) (l : Char) (c' : node) : node :=
  match n with
  | .mk k lab pre cs pp pn h pc ac lf =>
    if cs.any (fun c => c.label == l) then
      .mk k lab pre (replaceFirst (fun c => c.label == l) c' cs) pp pn h pc ac lf
    else if l = ':' then .mk k lab pre cs pp pn h (pc.map (fun _ => c')) ac lf
    else if l = '*' then .mk k lab pre cs pp pn h pc (ac.map (fun _ => c')) lf
    else n

/-- Length of the longest common prefix, the loop
`for ; lcpLen < max && search[lcpLen] == currentNode.prefix[lcpLen]; lcpLen++`. -/
def lcp : Str → Str → Nat
  | a :: as, b :: bs => if a = b then lcp as bs + 1 else 0
  | _, _ => 0

/-- The loop of `insert`, `cur` being `currentNode`; the result is `cur` after the mutation.
Every panic precedes the first write, so a panic leaves the tree as it was. -/
def insertLoop (h : HandlersChain) (t : kind) (ppath : Str) (pnames : List Str) :
    Nat → node → Str → Except Panic node
  | 0, _, _ => .error .outOfBudget
  | budget + 1, .mk k lab pre cs pp pn hs pc ac lf, search =>
    let lcpLen := lcp search pre
    if lcpLen = 0 then
      match search with
      | [] => .error .outOfRange
      | c0 :: _ =>
        let leaf := cs.isEmpty && pc.isNone && ac.isNone
        if h.isSome then .ok (.mk t c0 search cs ppath pnames h pc ac leaf)
        else .ok (.mk k c0 search cs pp pn hs pc ac leaf)
    else if lcpLen < pre.length then
      match newNode k (pre.drop lcpLen) cs hs pp pn pc ac, pre with
      | .error p, _ => .error p
      | .ok _, [] => .error .outOfRange
      | .ok n, p0 :: _ =>
        if lcpLen = search.length then
          .ok (.mk t p0 (pre.take lcpLen) [n] ppath pnames h none none false)
        else
          match newNode t (search.drop lcpLen) [] h ppath pnames none none with
          | .error p => .error p
          | .ok n2 => .ok (.mk .skind p0 (pre.take lcpLen) [n, n2] [] [] none none none false)
    else if lcpLen < search.length then
      match search.drop lcpLen with
      | [] => .error .outOfRange
      | c0 :: rest =>
        match findChildWithLabel (.mk k lab pre cs pp pn hs pc ac lf) c0 with
        | some c =>
          match insertLoop h t ppath pnames budget c (c0 :: rest) with
          | .error p => .error p
          | .ok c' => .ok (setChildWithLabel (.mk k lab pre cs pp pn hs pc ac lf) c0 c')
        | none =>
          match newNode t (c0 :: rest) [] h ppath pnames none none with
          | .error p => .error p
          | .ok n =>
            match t with
            | .skind => .ok (.mk k lab pre (cs ++ [n]) pp pn hs pc ac false)
            | .pkind =>
              .ok (.mk k lab pre cs pp pn hs (some n) ac false)
            | .akind =>
              .ok (.mk k lab pre cs pp pn hs pc (some n) false)
    else
      if hs.isSome ∧ h.isSome then .error (.duplicate ppath)
      else if h.isSome then .ok (.mk k lab pre cs ppath pnames h pc ac lf)
      else .ok (.mk k lab pre cs pp pn hs pc ac lf)

/-- The method `insert` on the tree with root `r`.  Each turn of its loop that continues
strips at least one byte of `search`, so `len(path) + 1` turns are enough. -/
def insert (r : node) (path : Str) (h : HandlersChain) (t : kind) (ppath : Str)
    (pnames : List Str) : Except Panic node :=
  insertLoop h t ppath pnames (path.length + 1) r path


/-- What a call of `addRoute` leaves: the tree after it returned, or the panic it raised
with the tree as the panic leaves it. -/
inductive Outcome where
  | ok (r : node)
  | panicked (p : Panic) (r : node)
  deriving Repr

/-- The loop `for ; i < lcpIndex && path[i] != '/'; i++ {}`: the index it stops at. -/
def skipToSlash (path : Str) (i : Nat) : Nat :=
  i + ((path.drop i).takeWhile (fun c => c != '/')).length

/-- The loop `for i, lcpIndex := 0, len(path); i < lcpIndex; i++` of `addRoute` with the
final static insert; `r` is the tree, `path`, `pnames` and `i` the variables of the loop. -/
def addRouteLoop (ppath : Str) (h : HandlersChain) :
    Nat → node → Str → List Str → Nat → Outcome
  | 0, r, _, _, _ => .panicked .outOfBudget r
  | budget + 1, r, path, pnames, i =>
    if i < path.length then
      if path.get? i = some ':' then
        let j := i + 1
        match insert r (path.take i) none .skind [] [] with
        | .error p => .panicked p r
        | .ok r1 =>
          let i1 := skipToSlash path i
          let pnames1 := pnames ++ [(path.take i1).drop j]
          let path1 := path.take j ++ path.drop i1
          if j = path1.length then
            match insert r1 (path1.take j) h .pkind [] pnames1 with
            | .error p => .panicked p r1
            | .ok r2 => .ok r2
          else
            match insert r1 (path1.take j) none .pkind [] pnames1 with
            | .error p => .panicked p r1
            | .ok r2 => addRouteLoop ppath h budget r2 path1 pnames1 (j + 1)
      else if path.get? i = some '*' then
        match insert r (path.take i) none .skind [] [] with
        | .error p => .panicked p r
        | .ok r1 =>
          let pnames1 := pnames ++ [path.drop (i + 1)]
          match insert r1 (path.take (i + 1)) h .akind ppath pnames1 with
          | .error p => .panicked p r1
          | .ok r2 => .ok r2
      else addRouteLoop ppath h budget r path pnames (i + 1)
    else
      match insert r path h .skind ppath pnames with
      | .error p => .panicked p r
      | .ok r1 => .ok r1

/-- The method `RadixTree.addRoute` on the tree with root `r`.  Every turn of its loop
shortens `path[i:]`, so `len(path) + 1` turns are enough. -/
def addRoute (r : node) (path : Str) (h : HandlersChain) : Outcome :=
  match checkPahtValid path with
  | .error p => .panicked p r
  | .ok _ =>
    if h.isNone then .panicked .noHandler r
    else addRouteLoop path h (path.length + 1) r path [] 0

/-- The method `Engine.addRoute` on the tree of the engine. -/
def Engine.addRoute (tree : node) (path : Str) (handlers : HandlersChain) : Outcome :=
  if path.length = 0 then .panicked .pathShouldNotBeEmpty tree
  else if path.head? ≠ some '/' then .panicked .noLeadingSlash tree
  else if ¬ 0 < (handlers.getD []).length then .panicked .atLeastOneHandler tree
  else route.addRoute tree path handlers

/-- The tree that a registration leaves, whether it returned or panicked. -/
def Outcome.tree : Outcome → node
  | .ok r => r
  | .panicked _ r => r

/-- A sequence of `addRoute` calls that stops at the first panic. -/
def addRoutes : node → List (Str × HandlersChain) → Outcome
  | r, [] => .ok r
  | r, (p, h) :: rest =>
    match addRoute r p h with
    | .ok r1 => addRoutes r1 rest
    | .panicked e r1 => .panicked e r1

/-! ## Lookup -/

/-- One `server.Param`. -/
structure Param where
  Key : Str
  Value : Str
  deriving DecidableEq, Repr

/-- The slice `*paramsPointer`: its backing array, whose length is the capacity, and its
length. -/
structure Params where
  arr : List Param
  len : Nat
  deriving DecidableEq, Repr

namespace Params

/-- The slice expression `ps[:n]`. -/
def reslice (ps : Params) (n : Nat) : Except Panic Params :=
  if n ≤ ps.arr.length then .ok { arr := ps.arr, len := n } else .error .outOfRange

/-- The read `ps[i].Value`. -/
def value (ps : Params) (i : Nat) : Except Panic Str :=
  if i < ps.len then
    match ps.arr.get? i with
    | some p => .ok p.Value
    | none => .error .outOfRange
  else .error .outOfRange

/-- The assignment `ps[i].Value = v`. -/
def setValue (ps : Params) (i : Nat) (v : Str) : Except Panic Params :=
  if i < ps.len then
    match ps.arr.get? i with
    | some p => .ok { arr := ps.arr.set i { Key := p.Key, Value := v }, len := ps.len }
    | none => .error .outOfRange
  else .error .outOfRange

/-- The assignment `ps[i].Key = k`. -/
def setKey (ps : Params) (i : Nat) (k : Str) : Except Panic Params :=
  if i < ps.len then
    match ps.arr.get? i with
    | some p => .ok { arr := ps.arr.set i { Key := k, Value := p.Value }, len := ps.len }
    | none => .error .outOfRange
  else .error .outOfRange

/-- The elements of the slice, `ps[0] .. ps[len-1]`. -/
def toList (ps : Params) : List Param := ps.arr.take ps.len

/-- The buffer `make(Params, 0, cap)`. -/
def make (cap : Nat) : Params := { arr := List.replicate cap ⟨[], []⟩, len := 0 }

end Params

/-- The struct `nodeValue`. -/
structure nodeValue where
  handlers : HandlersChain
  tsr : Bool
  fullPath : Str
  deriving DecidableEq, Repr

/-- The local state of `find`: the cursor `cn` with its ancestors (`parents.head?` is
`cn.parent`), `search`, `searchIndex`, `paramIndex`, the slice `*paramsPointer` and
`res.tsr`. -/
structure Cursor where
  cn : node
  parents : List node
  search : Str
  searchIndex : Nat
  paramIndex : Nat
  params : Params
  tsr : Bool
  deriving Repr

/-- What the closure `backtrackToNextNodeKind` leaves: the new `cn` (`none` is nil) and
the variables it rewinds, with the kind it returns; `valid` is `cn != nil`. -/
structure Back where
  cn : Option node
  parents : List node
  search : Str
  searchIndex : Nat
  paramIndex : Nat
  params : Params
  nextNodeKind : kind
  deriving Repr

/-- The closure `backtrackToNextNodeKind` of `find`. -/
def backtrackToNextNodeKind (path : Str) (s : Cursor) (fromKind : kind) :
    Except Panic Back :=
  let previous := s.cn
  let nk := if previous.kind = .akind then kind.skind else previous.kind.succ
  if fromKind = .skind then
    .ok { cn := s.parents.head?, parents := s.parents.tail, search := s.search,
          searchIndex := s.searchIndex, paramIndex := s.paramIndex, params := s.params,
          nextNodeKind := nk }
  else if previous.kind = .skind then
    if previous.pfx.length ≤ s.searchIndex ∧ s.searchIndex - previous.pfx.length ≤ path.length
    then
      .ok { cn := s.parents.head?, parents := s.parents.tail,
            search := path.drop (s.searchIndex - previous.pfx.length),
            searchIndex := s.searchIndex - previous.pfx.length,
            paramIndex := s.paramIndex, params := s.params, nextNodeKind := nk }
    else .error .outOfRange
  else
    if 0 < s.paramIndex then
      match s.params.value (s.paramIndex - 1) with
      | .error p => .error p
      | .ok v =>
        if v.length ≤ s.searchIndex ∧ s.searchIndex - v.length ≤ path.length then
          match s.params.reslice (s.paramIndex - 1) with
          | .error p => .error p
          | .ok ps =>
            .ok { cn := s.parents.head?, parents := s.parents.tail,
                  search := path.drop (s.searchIndex - v.length),
                  searchIndex := s.searchIndex - v.length,
                  paramIndex := s.paramIndex - 1, params := ps, nextNodeKind := nk }
        else .error .outOfRange
    else .error .outOfRange

/-- The loop `for i, name := range cn.pnames { (*paramsPointer)[i].Key = name }`. -/
def assignKeys : List Str → Nat → Params → Except Panic Params
  | [], _, ps => .ok ps
  | name :: names, i, ps =>
    match ps.setKey i name with
    | .error p => .error p
    | .ok ps1 => assignKeys names (i + 1) ps1

/-- The tail of `find` after its loop: `fullPath` and the keys are taken from `cn` when it
is not nil. -/
def finish (cn : Option node) (handlers : HandlersChain) (tsr : Bool) (ps : Params) :
    Except Panic (nodeValue × Params) :=
  match cn with
  | none => .ok ({ handlers := handlers, tsr := tsr, fullPath := [] }, ps)
  | some n =>
    match assignKeys n.pnames 0 ps with
    | .error p => .error p
    | .ok ps1 => .ok ({ handlers := handlers, tsr := tsr, fullPath := n.ppath }, ps1)

/-- The points of `find` at which a turn of its loop is entered: the head of the `for`
and the labels `Param` and `Any`. -/
inductive Label where
  | top
  | param
  | any
  deriving DecidableEq, Repr

/-- The effect of running `find` from a label up to the next jump. -/
inductive Step where
  | jump (l : Label) (s : Cursor)
  | done (r : Except Panic (nodeValue × Params))

/-- Condition `cd != nil && (cd.handlers != nil || cd.anyChild != nil)` on
`cd := n.findChild('/')`. -/
def slashChildServes (n : node) : Bool :=
  match findChild n '/' with
  | some cd => cd.handlers.isSome || cd.anyChild.isSome
  | none => false

/-- From the head of the loop: the static block, the exact match, the descent on the
label and the redirect checks, down to the label `Param`. -/
def stepTop (path : Str) (s : Cursor) : Step :=
  let cn := s.cn
  if cn.kind = .skind ∧ ¬ (cn.pfx.length ≤ s.search.length ∧ cn.pfx = s.search.take cn.pfx.length)
  then
    let tsr := s.tsr ||
      (cn.pfx.length == s.search.length + 1 && cn.pfx.get? s.search.length == some '/' &&
        cn.pfx.take s.search.length == s.search &&
        (cn.handlers.isSome || cn.anyChild.isSome))
    match backtrackToNextNodeKind path s .skind with
    | .error p => .done (.error p)
    | .ok b =>
      match b.cn with
      | none => .done (.ok ({ handlers := none, tsr := tsr, fullPath := [] }, b.params))
      | some c =>
        if b.nextNodeKind = .pkind then
          .jump .param { cn := c, parents := b.parents, search := b.search,
                         searchIndex := b.searchIndex, paramIndex := b.paramIndex,
                         params := b.params, tsr := tsr }
        else .done (finish (some c) none tsr b.params)
  else
    let search := if cn.kind = .skind then s.search.drop cn.pfx.length else s.search
    let searchIndex := if cn.kind = .skind then s.searchIndex + cn.pfx.length else s.searchIndex
    if search = [] ∧ cn.handlers.getD [] ≠ [] then
      .done (finish (some cn) cn.handlers s.tsr s.params)
    else
      match search with
      | c0 :: rest =>
        let tsr := s.tsr || (rest.isEmpty && c0 == '/' && cn.handlers.isSome)
        match findChild cn c0 with
        | some child =>
          .jump .top { cn := child, parents := cn :: s.parents, search := c0 :: rest,
                       searchIndex := searchIndex, paramIndex := s.paramIndex,
                       params := s.params, tsr := tsr }
        | none =>
          .jump .param { cn := cn, parents := s.parents, search := c0 :: rest,
                         searchIndex := searchIndex, paramIndex := s.paramIndex,
                         params := s.params, tsr := tsr }
      | [] =>
        .jump .param { cn := cn, parents := s.parents, search := [],
                       searchIndex := searchIndex, paramIndex := s.paramIndex,
                       params := s.params, tsr := s.tsr || slashChildServes cn }

/-- From the label `Param`: the capture of one segment, or on to the label `Any`.
`unescaped` is the result of `url.QueryUnescape` when `unescape` is set. -/
def stepParam (unescaped : Str → Option Str) (unescape : Bool) (s : Cursor) : Step :=
  match s.cn.paramChild with
  | some child =>
    if s.search ≠ [] then
      let i := (s.search.takeWhile (fun c => c != '/')).length
      match s.params.reslice (s.paramIndex + 1) with
      | .error p => .done (.error p)
      | .ok ps =>
        let val := if unescape then (unescaped (s.search.take i)).getD (s.search.take i)
                   else s.search.take i
        match ps.setValue s.paramIndex val with
        | .error p => .done (.error p)
        | .ok ps1 =>
          let search := s.search.drop i
          .jump .top { cn := child, parents := s.cn :: s.parents, search := search,
                       searchIndex := s.searchIndex + i, paramIndex := s.paramIndex + 1,
                       params := ps1,
                       tsr := s.tsr || (search.isEmpty && slashChildServes child) }
    else .jump .any s
  | none => .jump .any s

/-- From the label `Any`: the capture of the rest of the path, or the backtrack with its
jumps. -/
def stepAny (unescaped : Str → Option Str) (unescape : Bool) (path : Str) (s : Cursor) :
    Step :=
  match s.cn.anyChild with
  | some child =>
    match s.params.reslice (s.paramIndex + 1) with
    | .error p => .done (.error p)
    | .ok ps =>
      let val := if unescape then (unescaped s.search).getD s.search else s.search
      if 0 < child.pnames.length then
        match ps.setValue (child.pnames.length - 1) val with
        | .error p => .done (.error p)
        | .ok ps1 => .done (finish (some child) child.handlers s.tsr ps1)
      else .done (.error .outOfRange)
  | none =>
    match backtrackToNextNodeKind path s .akind with
    | .error p => .done (.error p)
    | .ok b =>
      match b.cn with
      | none => .done (finish none none s.tsr b.params)
      | some c =>
        let s1 : Cursor := { cn := c, parents := b.parents, search := b.search,
                             searchIndex := b.searchIndex, paramIndex := b.paramIndex,
                             params := b.params, tsr := s.tsr }
        if b.nextNodeKind = .pkind then .jump .param s1
        else if b.nextNodeKind = .akind then .jump .any s1
        else .done (finish (some c) none s.tsr b.params)

/-- One step of `find` from a label. -/
def step (unescaped : Str → Option Str) (unescape : Bool) (path : Str) :
    Label → Cursor → Step
  | .top, s => stepTop path s
  | .param, s => stepParam unescaped unescape s
  | .any, s => stepAny unescaped unescape path s

/-- The loop of `find` run for at most `budget` steps. -/
def findLoop (unescaped : Str → Option Str) (unescape : Bool) (path : Str) :
    Nat → Label → Cursor → Except Panic (nodeValue × Params)
  | 0, _, _ => .error .outOfBudget
  | budget + 1, l, s =>
    match step unescaped unescape path l s with
    | .done r => r
    | .jump l1 s1 => findLoop unescaped unescape path budget l1 s1

/-- Number of nodes of a tree. -/
def node.size : node → Nat
  | .mk _ _ _ cs _ _ _ pc ac _ =>
    1 + sizeList cs + (match pc with | none => 0 | some c => c.size)
      + (match ac with | none => 0 | some c => c.size)
where
  /-- Number of nodes of a list of trees. -/
  sizeList : List node → Nat
  | [] => 0
  | c :: cs => c.size + sizeList cs

/-- The method `RadixTree.find` on the tree with root `r`: the returned `nodeValue` and
the slice left in `*paramsPointer`.  The lookup enters every node at most once at each of
the three labels, so `3 * size + 1` steps are enough. -/
def find (unescaped : Str → Option Str) (r : node) (path : Str) (ps : Params)
    (unescape : Bool) : Except Panic (nodeValue × Params) :=
  findLoop unescaped unescape path (3 * r.size + 1) .top
    { cn := r, parents := [], search := path, searchIndex := 0, paramIndex := 0,
      params := ps, tsr := false }

/-! ## Patterns, as the specification describes them -/

/-- A piece of a route pattern: a literal byte, a named parameter `:name` or the trailing
catch-all `*name`. -/
inductive Seg where
  | lit (c : Char)
  | param (name : Str)
  | catchAll (name : Str)
  deriving DecidableEq, Repr

/-- The pieces of a pattern, read left to right.  The first argument is the name being
read while inside a `:name`, which ends at the next `/` or at the end; a `*` outside a name
takes the rest of the pattern as its name. -/
def parseSegs : Option Str → Str → List Seg
  | none, [] => []
  | some name, [] => [.param name]
  | none, c :: p =>
    if c = ':' then parseSegs (some []) p
    else if c = '*' then [.catchAll p]
    else .lit c :: parseSegs none p
  | some name, c :: p =>
    if c = '/' then .param name :: .lit '/' :: parseSegs none p
    else parseSegs (some (name ++ [c])) p

/-- The pieces of a pattern. -/
def parsePattern (p : Str) : List Seg := parseSegs none p

/-- The text that stands for a piece in the collapsed form of a pattern: a wildcard is
replaced by its marker alone. -/
def Seg.key : Seg → Str
  | .lit c => [c]
  | .param _ => [':']
  | .catchAll _ => ['*']

/-- The collapsed form of a list of pieces. -/
def segsKey : List Seg → Str
  | [] => []
  | sg :: rest => sg.key ++ segsKey rest

/-- The collapsed form of a pattern: its text with every wildcard name removed. -/
def collapse (p : Str) : Str := segsKey (parsePattern p)

/-- The wildcard names of a list of pieces, in order. -/
def segsNames : List Seg → List Str
  | [] => []
  | .lit _ :: rest => segsNames rest
  | .param name :: rest => name :: segsNames rest
  | .catchAll name :: rest => name :: segsNames rest

/-- The wildcard names of a pattern, in order. -/
def wildcardNames (p : Str) : List Str := segsNames (parsePattern p)

/-- The path obtained from the pieces by replacing the wildcards, left to right, by the
values; `none` when the number of values is not the number of wildcards. -/
def instantiateSegs : List Seg → List Str → Option Str
  | [], [] => some []
  | [], _ :: _ => none
  | .lit c :: rest, vals => (instantiateSegs rest vals).map (fun s => c :: s)
  | .param _ :: _, [] => none
  | .param _ :: rest, v :: vals => (instantiateSegs rest vals).map (fun s => v ++ s)
  | .catchAll _ :: _, [] => none
  | .catchAll _ :: rest, v :: vals => (instantiateSegs rest vals).map (fun s => v ++ s)

/-- The path obtained from a pattern by replacing its wildcards, left to right, by the
values. -/
def instantiate (p : Str) (vals : List Str) : Option Str :=
  instantiateSegs (parsePattern p) vals

/-- The values given to the `:name` parameters contain no `/`; when `strict` is set they
are not empty either.  The value of a catch-all is arbitrary. -/
def valuesOk (strict : Bool) : List Seg → List Str → Bool
  | [], _ => true
  | .lit _ :: rest, vals => valuesOk strict rest vals
  | .param _ :: _, [] => true
  | .param _ :: rest, v :: vals =>
    (!strict || !v.isEmpty) && v.all (fun c => c != '/') && valuesOk strict rest vals
  | .catchAll _ :: _, [] => true
  | .catchAll _ :: rest, _ :: vals => valuesOk strict rest vals

/-- The path is the pattern with its wildcards replaced by `vals`, every `:name` value
being free of `/` (and not empty when `strict` is set). -/
def IsInstance (strict : Bool) (p : Str) (vals : List Str) (path : Str) : Prop :=
  instantiate p vals = some path ∧ valuesOk strict (parsePattern p) vals = true

/-- The priority of a byte of a collapsed pattern: static text first, then `:`, then `*`. -/
def rank (c : Char) : Nat :=
  if c = ':' then 1 else if c = '*' then 2 else 0

/-- The collapsed pattern `K1` takes priority over the collapsed pattern `K2` in the
lookup: at the first byte at which they differ `K1` has the kind of higher priority (static
text before `:`, `:` before `*`), or `K1` ends where `K2` goes on with its `*` (the exact
match comes before the catch-all). -/
def outranks : Str → Str → Bool
  | [], c2 :: _ => c2 == '*'
  | _, [] => false
  | c1 :: t1, c2 :: t2 => if c1 = c2 then outranks t1 t2 else decide (rank c1 < rank c2)

/-- The tree holds the routes `rs` (pattern and chain, in the order of registration): it
is built from the empty root by successful calls of `addRoute`. -/
inductive Built : node → List (Str × List HandlerFunc) → Prop where
  | empty : Built emptyRoot []
  | add {r r1 : node} {rs : List (Str × List HandlerFunc)} (p : Str) (h : List HandlerFunc) :
      Built r rs → addRoute r p (some h) = .ok r1 → Built r1 (rs ++ [(p, h)])

/-! ## Notions used in the proofs -/

/-- Neither `:` nor `*` occurs in the text. -/
def NoWild (s : Str) : Prop := ∀ c ∈ s, c ≠ ':' ∧ c ≠ '*'

/-- The node `m` is reached from `n` along the key `K`, the concatenation of the prefixes
from `n` down to `m`. -/
inductive At : node → Str → node → Prop where
  | here (n : node) : At n n.pfx n
  | child {n c m : node} {K : Str} : c ∈ n.children → At c K m → At n (n.pfx ++ K) m
  | param {n c m : node} {K : Str} : n.paramChild = some c → At c K m → At n (n.pfx ++ K) m
  | any {n c m : node} {K : Str} : n.anyChild = some c → At c K m → At n (n.pfx ++ K) m

/-- The shape of the subtree at a node below which the path from the root holds `d`
wildcard nodes (the node itself included) and no path holds more than `N`. -/
inductive Inv (N : Nat) : Nat → node → Prop where
  | mk {d : Nat} {k : kind} {lab : Char} {pre : Str} {cs : List node} {pp : Str}
      {pn : List Str} {hs : HandlersChain} {pc ac : Option node} {lf : Bool} :
      d ≤ N →
      pre.head? = some lab →
      (k = .skind → NoWild pre) →
      (hs.isSome → pn.length = d) →
      (∀ c ∈ cs, c.kind = .skind) →
      (∀ c ∈ cs, Inv N d c) →
      (cs.map node.label).Nodup →
      (∀ c, pc = some c → c.kind = .pkind ∧ c.pfx = [':']) →
      (∀ c, pc = some c → Inv N (d + 1) c) →
      (∀ c, ac = some c → c.kind = .akind ∧ c.pfx = ['*'] ∧ c.children = [] ∧
        c.paramChild = none ∧ c.anyChild = none ∧ c.handlers.isSome) →
      (∀ c, ac = some c → Inv N (d + 1) c) →
      Inv N d (.mk k lab pre cs pp pn hs pc ac lf)

/-- The lookup of `find` on a collapsed pattern: static bytes are compared, a `:` takes
the bytes up to the next `/` of a path that is not exhausted, a `*` takes the rest. -/
def keyMatch : Str → Str → Option (List Str)
  | [], [] => some []
  | [], _ :: _ => none
  | c :: K, s =>
    if c = ':' then
      if s = [] then none
      else (keyMatch K (s.dropWhile (fun a => a != '/'))).map
        (fun vs => s.takeWhile (fun a => a != '/') :: vs)
    else if c = '*' then some [s]
    else
      match s with
      | [] => none
      | a :: s1 => if a = c then keyMatch K s1 else none

/-- What the exploration of a subtree by `find` ends in. -/
inductive Found where
  /-- the subtree holds no match, `find` backtracks out of it -/
  | fail
  /-- the parameter buffer is too small for the next capture -/
  | panic
  /-- the node `m`, reached along `key`, ends the lookup with the captured values `vals` -/
  | hit (key : Str) (vals : List Str) (m : node)

/-- The result under a node with the prefix `pre`: the key of a hit is extended. -/
def Found.under (pre : Str) : Found → Found
  | .hit K vs m => .hit (pre ++ K) vs m
  | .panic => .panic
  | .fail => .fail

/-- The result after the capture of the value `v`. -/
def Found.capture (v : Str) : Found → Found
  | .hit K vs m => .hit K (v :: vs) m
  | .panic => .panic
  | .fail => .fail

/-- The next alternative is tried when the first one fails. -/
def Found.orElse : Found → Found → Found
  | .fail, r => r
  | .panic, _ => .panic
  | .hit K vs m, _ => .hit K vs m

/-- The alternative of the catch-all child of a node: it takes the rest `s1` of the path. -/
def exploreAny (cap : Nat) (ac : Option node) (d : Nat) (s1 : Str) : Found :=
  match ac with
  | some c => if d + 1 ≤ cap then .hit c.pfx [s1] c else .panic
  | none => .fail

/-- The exploration of the subtree at a node by `find`, entered at the head of the loop
with the rest `s` of the path, `d` captured values and a buffer of capacity `cap`, as a
depth-first search: the prefix of a static node, the exact match, the static child on the
next byte, the param child, the catch-all child. -/
def explore (cap : Nat) : node → Nat → Str → Found
  | .mk k lab pre cs pp pn hs pc ac lf, d, s =>
    if k = .skind ∧ ¬ (pre.length ≤ s.length ∧ pre = s.take pre.length) then .fail
    else
      let s1 := if k = .skind then s.drop pre.length else s
      if s1 = [] ∧ hs.getD [] ≠ [] then .hit pre [] (.mk k lab pre cs pp pn hs pc ac lf)
      else
        Found.under pre
          (Found.orElse
            (match s1 with
             | c0 :: _ => exploreList cap cs c0 d s1
             | [] => Found.fail)
            (Found.orElse
              (match pc with
               | some c =>
                 if s1 ≠ [] then
                   if d + 1 ≤ cap then
                     Found.capture (s1.takeWhile (fun a => a != '/'))
                       (explore cap c (d + 1)
                         (s1.drop (s1.takeWhile (fun a => a != '/')).length))
                   else .panic
                 else .fail
               | none => .fail)
              (exploreAny cap ac d s1)))
where
  /-- The exploration of the first node of the list whose label is `c0`. -/
  exploreList (cap : Nat) : List node → Char → Nat → Str → Found
  | [], _, _, _ => .fail
  | c :: cs, c0, d, s =>
    if c.label == c0 then explore cap c d s else exploreList cap cs c0 d s

/-- Number of wildcard markers in a text. -/
def wcount : Str → Nat
  | [] => 0
  | c :: s => (if c = ':' ∨ c = '*' then 1 else 0) + wcount s

/-- A `*` occurs in the text of an insert only as the last byte of a catch-all insert. -/
def StarOk (t : kind) (search : Str) : Prop :=
  ∀ a b, search = a ++ '*' :: b → t = .akind ∧ b = []

/-- What an insert of kind `t` may add below a key that the tree holds. -/
def TailOk (t : kind) (u : Str) : Prop :=
  (t = .skind → NoWild u) ∧ (t = .pkind → u = [':'] ∨ u = []) ∧
    (t = .akind → u = ['*'] ∨ u = [])

/-- The situation in which the loop of `insert` stands at `cur` with `search` left to
place: the subtree is well shaped and `search` either continues a key of the subtree by a
tail of the kind inserted, or is static text entering a static node. -/
structure InsertPre (N d : Nat) (cur : node) (h : HandlersChain) (t : kind)
    (pnames : List Str) (search : Str) : Prop where
  inv : Inv N d cur
  star : StarOk t search
  anyH : t = .akind → h.isSome
  names : h.isSome → pnames.length + wcount cur.pfx = d + wcount search
  bound : d + wcount search ≤ N + wcount cur.pfx
  shape : (∃ w u m, search = w ++ u ∧ At cur w m ∧ TailOk t u) ∨
    (t = .skind ∧ cur.kind = .skind ∧ NoWild search ∧ search ≠ [] ∧
      search.head? = cur.pfx.head?)

/-- Where a key `K` of the tree that `insert` returns comes from: it was a key of the
tree `cur`, or it is the inserted text `search`, or it is the common start of `search` and
of a key of `cur` (the upper half of a node that the insertion split). -/
def GenKey (cur : node) (search K : Str) : Prop :=
  (∃ m, At cur K m) ∨ K = search ∨
    ∃ K1 m1, At cur K1 m1 ∧ K = search.take (lcp search K1)

/-- A set of keys that holds the common start of any two of its members. -/
def KeyClosed (Z : Str → Prop) : Prop := ∀ a b, Z a → Z b → Z (a.take (lcp a b))

/-- A set of keys that holds the key `F` and the keys at the wildcard markers of `F`. -/
def Bnd (F : Str) (Z : Str → Prop) : Prop :=
  Z F ∧ ∀ a c b, F = a ++ c :: b → (c = ':' ∨ c = '*') → (a = [] ∨ Z a) ∧ Z (a ++ [c])

/-- What the loop of `insert` leaves of the subtree `cur` when it returns `cur1`. -/
structure InsertPost (N d : Nat) (h : HandlersChain) (pnames : List Str) (search : Str)
    (cur cur1 : node) : Prop where
  inv : Inv N d cur1
  kindEq : cur1.kind = cur.kind
  labelEq : cur1.label = cur.label
  pfxEq : cur.kind ≠ .skind → cur1.pfx = cur.pfx
  headEq : cur1.pfx.head? = cur.pfx.head?
  keep : ∀ K m, At cur K m → (K ≠ search ∨ h = none) →
    ∃ m1, At cur1 K m1 ∧ m1.handlers = m.handlers ∧ m1.pnames = m.pnames
  added : ∃ m1, At cur1 search m1 ∧ (h.isSome → m1.handlers = h ∧ m1.pnames = pnames)
  back : ∀ K m1, At cur1 K m1 → m1.handlers.isSome →
    (K = search ∧ h.isSome ∧ m1.handlers = h ∧ m1.pnames = pnames) ∨
      ∃ m, At cur K m ∧ m.handlers = m1.handlers ∧ m.pnames = m1.pnames
  noop : h = none → (∃ m, At cur search m) → cur1 = cur
  gen : ∀ K m1, At cur1 K m1 → GenKey cur search K

/-- The tree below `n` holds a route at the key `K`: a node with a handler chain. -/
def HasRoute (n : node) (K : Str) : Prop := ∃ m, At n K m ∧ m.handlers.isSome = true

/-- The trees on which registration works: the empty root, or a well shaped tree whose
root is static and starts with `/`. -/
def GoodTree (N : Nat) (r : node) : Prop :=
  r = emptyRoot ∨ (Inv N 0 r ∧ r.kind = .skind ∧ r.pfx.head? = some '/')

/-- The situation in which `insert` is called on the tree `r` with the text `path`. -/
structure RootPre (N : Nat) (r : node) (h : HandlersChain) (t : kind) (pnames : List Str)
    (path : Str) : Prop where
  good : GoodTree N r
  head : path.head? = some '/'
  star : StarOk t path
  anyH : t = .akind → h.isSome
  names : h.isSome → pnames.length = wcount path
  bound : wcount path ≤ N
  shape : (∃ w u m, path = w ++ u ∧ w ≠ [] ∧ At r w m ∧ TailOk t u) ∨
    (t = .skind ∧ NoWild path)

/-- What a call of `insert` leaves of the routes of the tree `r` when it returns `r1`. -/
structure RootPost (N : Nat) (h : HandlersChain) (pnames : List Str) (path : Str)
    (r r1 : node) : Prop where
  inv : Inv N 0 r1
  kind : r1.kind = .skind
  head : r1.pfx.head? = some '/'
  keep : ∀ K m, At r K m → m.handlers.isSome → (K ≠ path ∨ h = none) →
    ∃ m1, At r1 K m1 ∧ m1.handlers = m.handlers ∧ m1.pnames = m.pnames
  added : ∃ m1, At r1 path m1 ∧ (h.isSome → m1.handlers = h ∧ m1.pnames = pnames)
  back : ∀ K m1, At r1 K m1 → m1.handlers.isSome →
    (K = path ∧ h.isSome ∧ m1.handlers = h ∧ m1.pnames = pnames) ∨
      ∃ m, At r K m ∧ m.handlers = m1.handlers ∧ m.pnames = m1.pnames
  noop : h = none → (∃ m, At r path m) → r1 = r
  keepAll : ∀ K m, At r K m → K ≠ [] → ∃ m1, At r1 K m1
  gen : ∀ K m1, At r1 K m1 → GenKey r path K

/-- What a call of `addRoute` that registers the chain `hh` under the key `F` with the
wildcard names `names` leaves of the routes of the tree `r` when it returns `r1`. -/
structure AddPost (N : Nat) (hh : List HandlerFunc) (names : List Str) (F : Str)
    (r r1 : node) : Prop where
  inv : Inv N 0 r1
  kind : r1.kind = .skind
  head : r1.pfx.head? = some '/'
  keep : ∀ K m, At r K m → m.handlers.isSome →
    ∃ m1, At r1 K m1 ∧ m1.handlers = m.handlers ∧ m1.pnames = m.pnames
  added : ∃ m1, At r1 F m1 ∧ m1.handlers = some hh ∧ m1.pnames = names
  back : ∀ K m1, At r1 K m1 → m1.handlers.isSome →
    (K = F ∧ m1.handlers = some hh ∧ m1.pnames = names) ∨
      ∃ m, At r K m ∧ m.handlers = m1.handlers ∧ m.pnames = m1.pnames
  keepAll : ∀ K m, At r K m → K ≠ [] → ∃ m1, At r1 K m1
  gen : ∀ Z : Str → Prop, KeyClosed Z → (∀ K m, At r K m → K ≠ [] → Z K) → Bnd F Z →
    ∀ K m1, At r1 K m1 → Z K

/-- The part `cp` of a pattern that `addRoute` has scanned: it holds no `*`, and what
follows its last `:` is static text below a key that the tree holds. -/
def CpShape (r : node) (cp : Str) : Prop :=
  (∀ a b, cp ≠ a ++ '*' :: b) ∧
    ∃ w u, cp = w ++ u ∧ NoWild u ∧ (w = [] ∨ ∃ m, At r w m)

/-- The values held by the first `d` elements of the backing array of the buffer. -/
def Params.values (ps : Params) (d : Nat) : List Str := (ps.arr.take d).map Param.Value

/-- The state of `find` when it stands at the node `n` below the ancestors `parents`, with
`path[i:]` left to read and `d` captured values in a buffer of capacity `cap`. -/
structure Pos (path : Str) (cap : Nat) (S : Cursor) (n : node) (parents : List node)
    (i d : Nat) : Prop where
  cn : S.cn = n
  parents : S.parents = parents
  search : S.search = path.drop i
  index : S.searchIndex = i
  le : i ≤ path.length
  pidx : S.paramIndex = d
  len : S.params.len = d
  capEq : S.params.arr.length = cap
  dle : d ≤ cap

/-- The loop of `find`, entered at the label `l` in the state `S` with the captured values
`base`, does what the result of an exploration says, in at most `bound` steps: it ends at
the node of a hit with the values of the hit after `base`; it panics; or it fails and
leaves the subtree, which ends the lookup without handlers and with `dB` elements in the
buffer at the root, and otherwise goes on at the label `back` of the parent with the
position `iB` and `dB` captured values. -/
def Sim (unescaped : Str → Option Str) (path : Str) (cap : Nat) (l : Label) (S : Cursor)
    (base : List Str) (parents : List node) (back : Label) (iB dB bound : Nat) :
    Found → Prop
  | .hit _ vs m => ∃ j tsr ps1, 1 ≤ j ∧ j ≤ bound ∧
      (∀ f, findLoop unescaped false path (j + f) l S = finish (some m) m.handlers tsr ps1) ∧
      ps1.len = base.length + vs.length ∧ ps1.arr.length = cap ∧
      base.length + vs.length ≤ cap ∧ ps1.values (base.length + vs.length) = base ++ vs
  | .panic => ∃ j, 1 ≤ j ∧ j ≤ bound ∧
      ∀ f, findLoop unescaped false path (j + f) l S = .error .outOfRange
  | .fail => ∃ j, 1 ≤ j ∧ j ≤ bound ∧
      ((parents = [] ∧ ∃ tsr ps1, (∀ f, findLoop unescaped false path (j + f) l S =
          .ok ({ handlers := none, tsr := tsr, fullPath := [] }, ps1)) ∧ ps1.len = dB) ∨
        (∃ p ps S1, parents = p :: ps ∧
          (∀ f, findLoop unescaped false path (j + f) l S =
            findLoop unescaped false path f back S1) ∧
          Pos path cap S1 p ps iB dB ∧ S1.params.values dB = base.take dB))

/-- The buffer `q` has at least the capacity and the length of the buffer `p`, and the
values of its first `k` elements are those of `p`. -/
structure Params.Below (p q : Params) (k : Nat) : Prop where
  cap : p.arr.length ≤ q.arr.length
  len : p.len ≤ q.len
  vals : ∀ i, i < k → (p.arr.get? i).map Param.Value = (q.arr.get? i).map Param.Value

/-- Two states of `find` that differ only in the buffer, the buffer of the second having
room for what the first holds, with the same captured values. -/
structure Cursor.Below (S T : Cursor) : Prop where
  cn : T.cn = S.cn
  parents : T.parents = S.parents
  search : T.search = S.search
  searchIndex : T.searchIndex = S.searchIndex
  paramIndex : T.paramIndex = S.paramIndex
  tsr : T.tsr = S.tsr
  params : Params.Below S.params T.params S.paramIndex

/-- When the first run returns, the second run returns the same `nodeValue`. -/
def ResultBelow (r t : Except Panic (nodeValue × Params)) : Prop :=
  ∀ nv p1, r = .ok (nv, p1) → ∃ q1, t = .ok (nv, q1)

/-- The second step does what the first does, when the first does not panic. -/
def Step.Below : Step → Step → Prop
  | .jump l1 S1, t => ∃ S2, t = .jump l1 S2 ∧ Cursor.Below S1 S2
  | .done r, t => ∀ nv p1, r = .ok (nv, p1) → ∃ q1, t = .done (.ok (nv, q1))


/-- Every run of the loop of `find` from the label `l` in the state `S` that returns,
returns with the redirect hint set. -/
def Fires (unescaped : Str → Option Str) (path : Str) (l : Label) (S : Cursor) : Prop :=
  ∀ budget nv ps, findLoop unescaped false path budget l S = .ok (nv, ps) → nv.tsr = true

/-- The step leaves the redirect hint set: in the state it jumps to, or in what it
returns. -/
def Step.HasTsr : Step → Prop
  | .jump _ S1 => S1.tsr = true
  | .done r => ∀ nv ps, r = .ok (nv, ps) → nv.tsr = true

/-- Every value that a `:` of the collapsed pattern captures is not empty. -/
def capturesOk : Str → List Str → Bool
  | [], _ => true
  | c :: K, vs =>
    if c = ':' then
      match vs with
      | v :: vs1 => !v.isEmpty && capturesOk K vs1
      | [] => true
    else if c = '*' then true
    else capturesOk K vs

/-! ## Two trees that hold the same routes -/

/-- Every key of `n` is a key of `n1`, with the same handler chain and, at a node that
holds a chain, the same parameter names. -/
def SameKeys (n n1 : node) : Prop :=
  ∀ K m, At n K m → ∃ m1, At n1 K m1 ∧ m1.handlers = m.handlers ∧
    (m.handlers.isSome → m1.pnames = m.pnames)

/-- Two well shaped subtrees of the same kind and depth that hold the same keys. -/
def Twin (n n1 : node) : Prop :=
  (∃ N d, Inv N d n ∧ Inv N d n1) ∧ n1.kind = n.kind ∧ SameKeys n n1 ∧ SameKeys n1 n

/-- Two states of `find`, one on each of two trees that hold the same keys: the cursors and
their ancestors are twins, the other variables are equal. -/
structure Cursor.Paired (S T : Cursor) : Prop where
  cn : Twin S.cn T.cn
  kind : S.cn.kind ≠ .akind
  parents : List.Forall₂ (fun a b => Twin a b ∧ a.kind ≠ .akind) S.parents T.parents
  search : T.search = S.search
  searchIndex : T.searchIndex = S.searchIndex
  paramIndex : T.paramIndex = S.paramIndex
  params : T.params = S.params
  tsr : T.tsr = S.tsr

/-- What a caller of `find` reads: the handler chain, the redirect hint and the parameter
slice, or the panic. -/
def observed (r : Except Panic (nodeValue × Params)) :
    Except Panic (HandlersChain × Bool × Params) :=
  match r with
  | .ok (nv, ps) => .ok (nv.handlers, nv.tsr, ps)
  | .error e => .error e

/-- The two steps jump to the same label in paired states, or end with the same
observation. -/
def Step.Paired : Step → Step → Prop
  | .jump l S, .jump l1 T => l1 = l ∧ Cursor.Paired S T
  | .done r, .done t => observed r = observed t
  | _, _ => False

/-! ## The routes of a tree, the naive matcher, the handler chains of a group -/

/-- The routes that the subtree at a node holds, `acc` being the concatenation of the
prefixes above the node: for every node that holds handlers, the concatenation of the
prefixes from the root to the node, its handlers and its parameter names. -/
def node.routes : node → Str → List (Str × HandlersChain × List Str)
  | .mk _ _ pre cs _ pn hs pc ac _, acc =>
    (if hs.isSome then [(acc ++ pre, hs, pn)] else []) ++
      (routesList cs (acc ++ pre) ++
        ((match pc with
          | some c => c.routes (acc ++ pre)
          | none => []) ++
         (match ac with
          | some c => c.routes (acc ++ pre)
          | none => [])))
where
  /-- The routes of a list of subtrees. -/
  routesList : List node → Str → List (Str × HandlersChain × List Str)
  | [], _ => []
  | c :: cs, acc => c.routes acc ++ routesList cs acc

/-- The first of two alternatives that succeeds. -/
def firstOf {α : Type} : Option α → Option α → Option α
  | some a, _ => some a
  | none, b => b

/-- The naive recursive matcher of the specification: at a node it first consumes the
static prefix of the node, succeeds when the path is exhausted at a node that carries a
handler chain that is not empty, and otherwise tries in order the static child whose label
is the next byte, the param child (capturing up to the next `/`, only if the rest of the
path is not empty) and the catch-all child (capturing everything), returning the first
success: the chain of the node at which it ends and the values captured, in order. -/
def naiveMatch : node → Str → Option (HandlersChain × List Str)
  | .mk k _ pre cs _ _ hs pc ac _, s =>
    if k = .skind ∧ ¬ (pre.length ≤ s.length ∧ pre = s.take pre.length) then none
    else
      let s1 := if k = .skind then s.drop pre.length else s
      if s1 = [] ∧ hs.getD [] ≠ [] then some (hs, [])
      else
        firstOf
          (match s1 with
           | c0 :: _ => naiveList cs c0 s1
           | [] => none)
          (firstOf
            (match pc with
             | some c =>
               if s1 ≠ [] then
                 (naiveMatch c (s1.drop (s1.takeWhile (fun a => a != '/')).length)).map
                   (fun r => (r.1, s1.takeWhile (fun a => a != '/') :: r.2))
               else none
             | none => none)
            (match ac with
             | some c => some (c.handlers, [s1])
             | none => none))
where
  /-- The matcher on the first node of the list whose label is `c0`. -/
  naiveList : List node → Char → Str → Option (HandlersChain × List Str)
  | [], _, _ => none
  | c :: cs, c0, s => if c.label == c0 then naiveMatch c s else naiveList cs c0 s

/-- The panic of `combineHandlers`. -/
inductive GroupPanic where
  /-- "too many handlers" -/
  | tooManyHandlers
  deriving DecidableEq, Repr

/-- The method `RouterGroup.combineHandlers`, `group` being `group.Handlers`: the chain
made by `make` is not nil, the two `copy` calls fill it with the handlers of the group
followed by the handlers given. -/
def combineHandlers (group handlers : HandlersChain) : Except GroupPanic HandlersChain :=
  let finalSize := (group.getD []).length + (handlers.getD []).length
  if finalSize ≥ 63 then .error .tooManyHandlers
  else .ok (some (group.getD [] ++ handlers.getD []))

/-- What a caller reads of the result of the exploration: the chain of the node at which
it ends and the values captured; nothing when it fails. -/
def Found.view : Found → Option (HandlersChain × List Str)
  | .hit _ vs m => some (m.handlers, vs)
  | .panic => none
  | .fail => none

/-! ## The turns of the loop of `insert` and the calls of `insert` by `addRoute` -/

/-- The branch that a turn of the loop of `insert` takes. -/
inductive Branch where
  /-- `lcpLen == 0`: the node adopts `search` as its prefix -/
  | adopt
  /-- `lcpLen < prefixLen`: the node is split -/
  | split
  /-- `lcpLen < searchLen` and a child holds the next byte: the loop continues there -/
  | descend
  /-- `lcpLen < searchLen` and no child holds the next byte: a child is created -/
  | attach
  /-- the node is the node of `search` -/
  | exact
  deriving DecidableEq, Repr

/-- The turns of the loop of `insert` started at `cur` with `search`: for each turn the
node `currentNode`, the text `search` and the branch taken. -/
def insertTrace : Nat → node → Str → List (node × Str × Branch)
  | 0, _, _ => []
  | budget + 1, cur, search =>
    let lcpLen := lcp search cur.pfx
    if lcpLen = 0 then [(cur, search, .adopt)]
    else if lcpLen < cur.pfx.length then [(cur, search, .split)]
    else if lcpLen < search.length then
      match search.drop lcpLen with
      | [] => []
      | c0 :: rest =>
        match findChildWithLabel cur c0 with
        | some c => (cur, search, .descend) :: insertTrace budget c (c0 :: rest)
        | none => [(cur, search, .attach)]
    else [(cur, search, .exact)]

/-- The calls of `insert` that the loop of `addRoute` makes, in order: the tree on which
each call is made and the text it is given.  The loop ends at the first call that
panics. -/
def insertCalls : Nat → node → Str → List Str → Nat → List (node × Str)
  | 0, _, _, _, _ => []
  | budget + 1, r, path, pnames, i =>
    if i < path.length then
      if path.get? i = some ':' then
        let j := i + 1
        (r, path.take i) ::
          match insert r (path.take i) none .skind [] [] with
          | .error _ => []
          | .ok r1 =>
            let i1 := skipToSlash path i
            let pnames1 := pnames ++ [(path.take i1).drop j]
            let path1 := path.take j ++ path.drop i1
            if j = path1.length then [(r1, path1.take j)]
            else
              (r1, path1.take j) ::
                match insert r1 (path1.take j) none .pkind [] pnames1 with
                | .error _ => []
                | .ok r2 => insertCalls budget r2 path1 pnames1 (j + 1)
      else if path.get? i = some '*' then
        (r, path.take i) ::
          match insert r (path.take i) none .skind [] [] with
          | .error _ => []
          | .ok r1 => [(r1, path.take (i + 1))]
      else insertCalls budget r path pnames (i + 1)
    else [(r, path)]

/-- The calls of `insert` that a call of `addRoute` makes. -/
def addRouteCalls (r : node) (path : Str) (h : HandlersChain) : List (node × Str) :=
  match checkPahtValid path with
  | .error _ => []
  | .ok _ =>
    if h.isNone then []
    else insertCalls (path.length + 1) r path [] 0

/-- A `:name` parameter that ends the pattern has a value that is not empty. -/
def endValueOk : List Seg → List Str → Bool
  | [], _ => true
  | .lit _ :: rest, vals => endValueOk rest vals
  | .param _ :: _, [] => true
  | .param _ :: rest, v :: vals => (!rest.isEmpty || !v.isEmpty) && endValueOk rest vals
  | .catchAll _ :: _, [] => true
  | .catchAll _ :: rest, _ :: vals => endValueOk rest vals

/-! ## The tree as an arena: the nodes with their `parent` back-reference -/

/-- The struct `node` with its field `parent`: a reference `*node` is the index of a node
of the arena, `none` is nil. -/
structure HNode where
  kind : kind
  label : Char
  pfx : Str
  parent : Option Nat
  children : List Nat
  ppath : Str
  pnames : List Str
  handlers : HandlersChain
  paramChild : Option Nat
  anyChild : Option Nat
  isLeaf : Bool
  deriving Repr

/-- The zero value `node{}`. -/
def HNode.zero : HNode :=
  { kind := .skind, label := Char.ofNat 0, pfx := [], parent := none, children := [],
    ppath := [], pnames := [], handlers := none, paramChild := none, anyChild := none,
    isLeaf := false }

/-- The arena: the nodes allocated so far are those of the indices below `size`; the root
of the tree is the node 0. -/
structure Heap where
  size : Nat
  node : Nat → HNode

/-- The tree `RadixTree{root: &node{}}`. -/
def Heap.empty : Heap := { size := 1, node := fun _ => HNode.zero }

/-- The write of a node through a reference. -/
def Heap.set (H : Heap) (i : Nat) (n : HNode) : Heap :=
  { size := H.size, node := fun j => if j = i then n else H.node j }

/-- The allocation `&node{...}`: the new node gets the index `H.size`. -/
def Heap.alloc (H : Heap) (n : HNode) : Heap :=
  { size := H.size + 1, node := fun j => if j = H.size then n else H.node j }

/-- The assignment `c.parent = p`. -/
def Heap.setParent (H : Heap) (c p : Nat) : Heap :=
  H.set c { H.node c with parent := some p }

/-- The loop `for _, child := range children { child.parent = p }`. -/
def Heap.setParents (H : Heap) : List Nat → Nat → Heap
  | [], _ => H
  | c :: cs, p => (H.setParent c p).setParents cs p

/-- The statement `if c != nil { c.parent = p }`. -/
def Heap.setParentOpt (H : Heap) : Option Nat → Nat → Heap
  | some c, p => H.setParent c p
  | none, _ => H

/-- The function `newNode` with its argument `p`, the parent; it reads `pre[0]`. -/
def HNode.new (t : route.kind) (pre : Str) (p : Option Nat) (child : List Nat)
    (mh : HandlersChain) (ppath : Str) (pnames : List Str)
    (paramChildren anyChildren : Option Nat) : Except Panic HNode :=
  match pre with
  | [] => .error .outOfRange
  | c :: _ =>
    .ok { kind := t, label := c, pfx := pre, parent := p, children := child, ppath := ppath,
          pnames := pnames, handlers := mh, paramChild := paramChildren,
          anyChild := anyChildren,
          isLeaf := child.isEmpty && paramChildren.isNone && anyChildren.isNone }

/-- The method `findChildWithLabel` on the node `n` of the arena. -/
def Heap.findChildWithLabel (H : Heap) (n : Nat) (l : Char) : Option Nat :=
  match (H.node n).children.find? (fun c => (H.node c).label == l) with
  | some c => some c
  | none =>
    if l = ':' then (H.node n).paramChild
    else if l = '*' then (H.node n).anyChild
    else none

/-- The loop of `insert` on the arena, `cur` being `currentNode`: the arena after the
mutation. -/
def Heap.insertLoop (h : HandlersChain) (t : kind) (ppath : Str) (pnames : List Str) :
    Nat → Heap → Nat → Str → Except Panic Heap
  | 0, _, _, _ => .error .outOfBudget
  | budget + 1, H, cur, search =>
    let c := H.node cur
    let lcpLen := lcp search c.pfx
    if lcpLen = 0 then
      match search with
      | [] => .error .outOfRange
      | c0 :: _ =>
        let leaf := c.children.isEmpty && c.paramChild.isNone && c.anyChild.isNone
        if h.isSome then
          .ok (H.set cur { c with label := c0, pfx := search, kind := t, handlers := h,
                                  ppath := ppath, pnames := pnames, isLeaf := leaf })
        else .ok (H.set cur { c with label := c0, pfx := search, isLeaf := leaf })
    else if lcpLen < c.pfx.length then
      match HNode.new c.kind (c.pfx.drop lcpLen) (some cur) c.children c.handlers c.ppath
          c.pnames c.paramChild c.anyChild, c.pfx with
      | .error p, _ => .error p
      | .ok _, [] => .error .outOfRange
      | .ok n, p0 :: _ =>
        let ni := H.size
        let H1 := H.alloc n
        let H2 := H1.setParents c.children ni
        let H3 := H2.setParentOpt c.paramChild ni
        let H4 := H3.setParentOpt c.anyChild ni
        let top : HNode :=
          { kind := .skind, label := p0, pfx := c.pfx.take lcpLen,
            parent := (H4.node cur).parent, children := [ni], ppath := [], pnames := [],
            handlers := none, paramChild := none, anyChild := none, isLeaf := false }
        if lcpLen = search.length then
          .ok (H4.set cur { top with kind := t, handlers := h, ppath := ppath,
                                     pnames := pnames })
        else
          match HNode.new t (search.drop lcpLen) (some cur) [] h ppath pnames none none with
          | .error p => .error p
          | .ok n2 =>
            .ok ((H4.alloc n2).set cur { top with children := [ni, H4.size] })
    else if lcpLen < search.length then
      match search.drop lcpLen with
      | [] => .error .outOfRange
      | c0 :: rest =>
        match H.findChildWithLabel cur c0 with
        | some ci => Heap.insertLoop h t ppath pnames budget H ci (c0 :: rest)
        | none =>
          match HNode.new t (c0 :: rest) (some cur) [] h ppath pnames none none with
          | .error p => .error p
          | .ok n =>
            let ni := H.size
            let H1 := H.alloc n
            match t with
            | .skind =>
              .ok (H1.set cur { c with children := c.children ++ [ni], isLeaf := false })
            | .pkind => .ok (H1.set cur { c with paramChild := some ni, isLeaf := false })
            | .akind => .ok (H1.set cur { c with anyChild := some ni, isLeaf := false })
    else
      if c.handlers.isSome ∧ h.isSome then .error (.duplicate ppath)
      else if h.isSome then
        .ok (H.set cur { c with handlers := h, ppath := ppath, pnames := pnames })
      else .ok H

/-- The method `insert` on the arena: the loop starts at the root, the node 0. -/
def Heap.insert (H : Heap) (path : Str) (h : HandlersChain) (t : kind) (ppath : Str)
    (pnames : List Str) : Except Panic Heap :=
  Heap.insertLoop h t ppath pnames (path.length + 1) H 0 path

/-- The loop of `addRoute` on the arena, with the final static insert. -/
def Heap.addRouteLoop (ppath : Str) (h : HandlersChain) :
    Nat → Heap → Str → List Str → Nat → Except Panic Heap
  | 0, _, _, _, _ => .error .outOfBudget
  | budget + 1, H, path, pnames, i =>
    if i < path.length then
      if path.get? i = some ':' then
        let j := i + 1
        match H.insert (path.take i) none .skind [] [] with
        | .error p => .error p
        | .ok H1 =>
          let i1 := skipToSlash path i
          let pnames1 := pnames ++ [(path.take i1).drop j]
          let path1 := path.take j ++ path.drop i1
          if j = path1.length then H1.insert (path1.take j) h .pkind [] pnames1
          else
            match H1.insert (path1.take j) none .pkind [] pnames1 with
            | .error p => .error p
            | .ok H2 => Heap.addRouteLoop ppath h budget H2 path1 pnames1 (j + 1)
      else if path.get? i = some '*' then
        match H.insert (path.take i) none .skind [] [] with
        | .error p => .error p
        | .ok H1 =>
          let pnames1 := pnames ++ [path.drop (i + 1)]
          H1.insert (path.take (i + 1)) h .akind ppath pnames1
      else Heap.addRouteLoop ppath h budget H path pnames (i + 1)
    else H.insert path h .skind ppath pnames

/-- The method `RadixTree.addRoute` on the arena: the arena when the call returns, the
panic otherwise. -/
def Heap.addRoute (H : Heap) (path : Str) (h : HandlersChain) : Except Panic Heap :=
  match checkPahtValid path with
  | .error p => .error p
  | .ok _ =>
    if h.isNone then .error .noHandler
    else Heap.addRouteLoop path h (path.length + 1) H path [] 0

/-- The arena after a call of `addRoute` that returns. -/
def Heap.after (H : Heap) (path : Str) (h : HandlersChain) : Heap :=
  match H.addRoute path h with
  | .ok H1 => H1
  | .error _ => H

/-- The arenas built from the empty tree by successful calls of `addRoute`. -/
inductive HBuilt : Heap → Prop where
  | empty : HBuilt Heap.empty
  | add {H H1 : Heap} (p : Str) (h : List HandlerFunc) :
      HBuilt H → H.addRoute p (some h) = .ok H1 → HBuilt H1

/-- The tree below the node `i` of the arena, as a value; `fuel` bounds the depth. -/
def Heap.toTree (H : Heap) : Nat → Nat → route.node
  | 0, i =>
    .mk (H.node i).kind (H.node i).label (H.node i).pfx [] (H.node i).ppath (H.node i).pnames
      (H.node i).handlers none none (H.node i).isLeaf
  | fuel + 1, i =>
    .mk (H.node i).kind (H.node i).label (H.node i).pfx
      ((H.node i).children.map (H.toTree fuel)) (H.node i).ppath (H.node i).pnames
      (H.node i).handlers ((H.node i).paramChild.map (H.toTree fuel))
      ((H.node i).anyChild.map (H.toTree fuel)) (H.node i).isLeaf

/-- The node holds the reference `c`: in its children list, as its param child or as its
catch-all child. -/
def HNode.Holds (n : HNode) (c : Nat) : Prop :=
  c ∈ n.children ∨ n.paramChild = some c ∨ n.anyChild = some c

/-- The back-references of the arena are consistent: the root is allocated and has no
parent, and a reference held by an allocated node `n` is that of an allocated node whose
parent is `n`. -/
def ParentsOk (H : Heap) : Prop :=
  0 < H.size ∧ (H.node 0).parent = none ∧
    ∀ n c, n < H.size → (H.node n).Holds c → c < H.size ∧ (H.node c).parent = some n

end route


namespace route

/-! ## Validation and registration failures -/

theorem checkLoop_error_of_checkByte (path : Str) :
    ∀ (rest : Str) (k i : Nat) (c : Char) (e : Panic), rest.get? i = some c →
      checkByte path (k + i) c = .error e → ∃ e1, checkLoop path k rest = .error e1 := by
  intro rest
  induction rest with
  | nil => intro k i c e h; simp at h
  | cons a rest ih =>
    intro k i c e hget hbyte
    cases i with
    | zero =>
      simp at hget
      subst hget
      simp only [Nat.add_zero] at hbyte
      exact ⟨e, by simp [checkLoop, hbyte]⟩
    | succ i =>
      simp at hget
      cases hb : checkByte path k a with
      | error e1 => exact ⟨e1, by simp [checkLoop, hb]⟩
      | ok u =>
        have hk : k + (i + 1) = (k + 1) + i := by omega
        rw [hk] at hbyte
        obtain ⟨e1, he1⟩ := ih (k + 1) i c e (by simpa using hget) hbyte
        exact ⟨e1, by simp [checkLoop, hb, he1]⟩

theorem checkPahtValid_error_of_checkByte (path : Str) (i : Nat) (c : Char) (e : Panic)
    (hget : path.get? i = some c) (hbyte : checkByte path i c = .error e) :
    ∃ e1, checkPahtValid path = .error e1 := by
  unfold checkPahtValid
  by_cases h1 : path = []
  · exact ⟨.emptyPath, by simp [h1]⟩
  · by_cases h2 : path.head? ≠ some '/'
    · exact ⟨.noLeadingSlash, by simp [h1, h2]⟩
    · obtain ⟨e1, he1⟩ := checkLoop_error_of_checkByte path path 0 i c e hget (by simpa using hbyte)
      exact ⟨e1, by simp [h1, h2, he1]⟩

theorem addRoute_of_checkPahtValid_error (r : node) (path : Str) (h : HandlersChain)
    (e : Panic) (he : checkPahtValid path = .error e) :
    addRoute r path h = .panicked e r := by
  simp [addRoute, he]

end route


namespace route

/-! ## Texts -/

theorem lcp_le_left : ∀ (a b : Str), lcp a b ≤ a.length
  | [], _ => by simp [lcp]
  | _ :: _, [] => by simp [lcp]
  | x :: a, y :: b => by
    by_cases h : x = y
    · have := lcp_le_left a b
      simp [lcp, h]; omega
    · simp [lcp, h]

theorem lcp_le_right : ∀ (a b : Str), lcp a b ≤ b.length
  | [], _ => by simp [lcp]
  | _ :: _, [] => by simp [lcp]
  | x :: a, y :: b => by
    by_cases h : x = y
    · have := lcp_le_right a b
      simp [lcp, h]; omega
    · simp [lcp, h]

theorem lcp_take : ∀ (a b : Str), a.take (lcp a b) = b.take (lcp a b)
  | [], _ => by simp [lcp]
  | _ :: _, [] => by simp [lcp]
  | x :: a, y :: b => by
    by_cases h : x = y
    · have := lcp_take a b
      simp [lcp, h, this]
    · simp [lcp, h]

theorem lcp_mismatch : ∀ (a b : Str), lcp a b < a.length → lcp a b < b.length →
    a.get? (lcp a b) ≠ b.get? (lcp a b)
  | [], _ => by simp [lcp]
  | _ :: _, [] => by simp [lcp]
  | x :: a, y :: b => by
    by_cases h : x = y
    · intro h1 h2
      simp only [lcp, h, if_true, List.length_cons] at h1 h2 ⊢
      have := lcp_mismatch a b (by omega) (by omega)
      simpa using this
    · intro _ _
      simp [lcp, h]

theorem lcp_append_self : ∀ (p u : Str), lcp (p ++ u) p = p.length
  | [], u => by cases u <;> simp [lcp]
  | x :: p, u => by simp [lcp, lcp_append_self p u]

theorem lcp_pos_of_head {a b : Str} {c : Char} (ha : a.head? = some c)
    (hb : b.head? = some c) : 0 < lcp a b := by
  cases a with
  | nil => simp at ha
  | cons x a =>
    cases b with
    | nil => simp at hb
    | cons y b =>
      simp at ha hb
      simp [lcp, ha, hb]

theorem lcp_eq_zero_of_nil (a : Str) : lcp a [] = 0 := by
  cases a <;> simp [lcp]

theorem head_eq_of_lcp_pos {a b : Str} (h : 0 < lcp a b) : a.head? = b.head? := by
  cases a with
  | nil => simp [lcp] at h
  | cons x a =>
    cases b with
    | nil => simp [lcp] at h
    | cons y b =>
      by_cases hxy : x = y
      · simp [hxy]
      · simp [lcp, hxy] at h

theorem eq_append_of_lcp_eq_length {a b : Str} (h : lcp a b = b.length) :
    a = b ++ a.drop b.length := by
  have h1 := lcp_take a b
  rw [h, List.take_length] at h1
  conv_lhs => rw [← List.take_append_drop b.length a, h1]

theorem NoWild.append {a b : Str} (ha : NoWild a) (hb : NoWild b) : NoWild (a ++ b) := by
  intro c hc
  rcases List.mem_append.mp hc with h | h
  · exact ha c h
  · exact hb c h

theorem NoWild.of_append_left {a b : Str} (h : NoWild (a ++ b)) : NoWild a :=
  fun c hc => h c (List.mem_append_left b hc)

theorem NoWild.of_append_right {a b : Str} (h : NoWild (a ++ b)) : NoWild b :=
  fun c hc => h c (List.mem_append_right a hc)

theorem NoWild.take {a : Str} (h : NoWild a) (n : Nat) : NoWild (a.take n) :=
  fun c hc => h c (List.mem_of_mem_take hc)

theorem NoWild.drop {a : Str} (h : NoWild a) (n : Nat) : NoWild (a.drop n) :=
  fun c hc => h c (List.mem_of_mem_drop hc)

theorem NoWild.nil : NoWild [] := by
  intro c hc; simp at hc

theorem wcount_append : ∀ (a b : Str), wcount (a ++ b) = wcount a + wcount b
  | [], b => by simp [wcount]
  | c :: a, b => by simp [wcount, wcount_append a b]; omega

theorem wcount_of_noWild : ∀ {a : Str}, NoWild a → wcount a = 0
  | [], _ => by simp [wcount]
  | c :: a, h => by
    have hc := h c (List.mem_cons_self c a)
    have ha : NoWild a := fun x hx => h x (List.mem_cons_of_mem c hx)
    simp [wcount, hc.1, hc.2, wcount_of_noWild ha]

/-! ## Nodes -/

@[simp] theorem node.kind_mk (k lab pre cs pp pn hs pc ac lf) :
    (node.mk k lab pre cs pp pn hs pc ac lf).kind = k := rfl

@[simp] theorem node.label_mk (k lab pre cs pp pn hs pc ac lf) :
    (node.mk k lab pre cs pp pn hs pc ac lf).label = lab := rfl

@[simp] theorem node.pfx_mk (k lab pre cs pp pn hs pc ac lf) :
    (node.mk k lab pre cs pp pn hs pc ac lf).pfx = pre := rfl

@[simp] theorem node.children_mk (k lab pre cs pp pn hs pc ac lf) :
    (node.mk k lab pre cs pp pn hs pc ac lf).children = cs := rfl

@[simp] theorem node.ppath_mk (k lab pre cs pp pn hs pc ac lf) :
    (node.mk k lab pre cs pp pn hs pc ac lf).ppath = pp := rfl

@[simp] theorem node.pnames_mk (k lab pre cs pp pn hs pc ac lf) :
    (node.mk k lab pre cs pp pn hs pc ac lf).pnames = pn := rfl

@[simp] theorem node.handlers_mk (k lab pre cs pp pn hs pc ac lf) :
    (node.mk k lab pre cs pp pn hs pc ac lf).handlers = hs := rfl

@[simp] theorem node.paramChild_mk (k lab pre cs pp pn hs pc ac lf) :
    (node.mk k lab pre cs pp pn hs pc ac lf).paramChild = pc := rfl

@[simp] theorem node.anyChild_mk (k lab pre cs pp pn hs pc ac lf) :
    (node.mk k lab pre cs pp pn hs pc ac lf).anyChild = ac := rfl

/-- Induction over a tree: a property holds of every node when it holds of a node whose
children all have it. -/
theorem node.induct {P : node → Prop}
    (step : ∀ k lab pre cs pp pn hs pc ac lf, (∀ c ∈ cs, P c) → (∀ c, pc = some c → P c) →
      (∀ c, ac = some c → P c) → P (.mk k lab pre cs pp pn hs pc ac lf)) :
    ∀ n, P n := by
  intro n
  refine @node.rec P (fun l => ∀ c ∈ l, P c)
    (fun o => ∀ c, o = some c → P c) ?_ ?_ ?_ ?_ ?_ n
  · intro k lab pre cs pp pn hs pc ac lf h1 h2 h3
    exact step k lab pre cs pp pn hs pc ac lf h1 h2 h3
  · intro c hc; simp at hc
  · intro hd tl h1 h2 c hc
    rcases List.mem_cons.mp hc with h | h
    · exact h ▸ h1
    · exact h2 c h
  · intro c hc; simp at hc
  · intro v hv c hc
    cases hc
    exact hv

end route


namespace route

/-! ## Keys of a tree -/

theorem At.cases_on_key {n m : node} {K : Str} (h : At n K m) :
    (K = n.pfx ∧ m = n) ∨
      ∃ c K1, K = n.pfx ++ K1 ∧ At c K1 m ∧
        (c ∈ n.children ∨ n.paramChild = some c ∨ n.anyChild = some c) := by
  cases h with
  | here => exact Or.inl ⟨rfl, rfl⟩
  | child hc hat => exact Or.inr ⟨_, _, rfl, hat, Or.inl hc⟩
  | param hc hat => exact Or.inr ⟨_, _, rfl, hat, Or.inr (Or.inl hc)⟩
  | any hc hat => exact Or.inr ⟨_, _, rfl, hat, Or.inr (Or.inr hc)⟩

theorem At.prefix_key {n m : node} {K : Str} (h : At n K m) : ∃ K1, K = n.pfx ++ K1 := by
  rcases h.cases_on_key with ⟨h1, _⟩ | ⟨c, K1, h1, _, _⟩
  · exact ⟨[], by simp [h1]⟩
  · exact ⟨K1, h1⟩

theorem Inv.head {N d : Nat} {n : node} (h : Inv N d n) : n.pfx.head? = some n.label := by
  cases h with
  | mk _ hh _ _ _ _ _ _ _ _ _ => exact hh

theorem Inv.pfx_ne_nil {N d : Nat} {n : node} (h : Inv N d n) : n.pfx ≠ [] := by
  intro h0
  have := h.head
  rw [h0] at this
  simp at this

theorem Inv.le {N d : Nat} {n : node} (h : Inv N d n) : d ≤ N := by
  cases h with
  | mk hd _ _ _ _ _ _ _ _ _ _ => exact hd

theorem Inv.noWild {N d : Nat} {n : node} (h : Inv N d n) (hk : n.kind = .skind) :
    NoWild n.pfx := by
  cases h with
  | mk _ _ hnw _ _ _ _ _ _ _ _ => exact hnw hk

theorem Inv.names {N d : Nat} {n : node} (h : Inv N d n) (hs : n.handlers.isSome) :
    n.pnames.length = d := by
  cases h with
  | mk _ _ _ hpn _ _ _ _ _ _ _ => exact hpn hs

theorem Inv.child_kind {N d : Nat} {n c : node} (h : Inv N d n) (hc : c ∈ n.children) :
    c.kind = .skind := by
  cases h with
  | mk _ _ _ _ hck _ _ _ _ _ _ => exact hck c hc

theorem Inv.child {N d : Nat} {n c : node} (h : Inv N d n) (hc : c ∈ n.children) :
    Inv N d c := by
  cases h with
  | mk _ _ _ _ _ hci _ _ _ _ _ => exact hci c hc

theorem Inv.nodup {N d : Nat} {n : node} (h : Inv N d n) :
    (n.children.map node.label).Nodup := by
  cases h with
  | mk _ _ _ _ _ _ hnd _ _ _ _ => exact hnd

theorem Inv.param_shape {N d : Nat} {n c : node} (h : Inv N d n)
    (hc : n.paramChild = some c) : c.kind = .pkind ∧ c.pfx = [':'] := by
  cases h with
  | mk _ _ _ _ _ _ _ hpk _ _ _ => exact hpk c hc

theorem Inv.param {N d : Nat} {n c : node} (h : Inv N d n) (hc : n.paramChild = some c) :
    Inv N (d + 1) c := by
  cases h with
  | mk _ _ _ _ _ _ _ _ hpi _ _ => exact hpi c hc

theorem Inv.any_shape {N d : Nat} {n c : node} (h : Inv N d n) (hc : n.anyChild = some c) :
    c.kind = .akind ∧ c.pfx = ['*'] ∧ c.children = [] ∧ c.paramChild = none ∧
      c.anyChild = none ∧ c.handlers.isSome := by
  cases h with
  | mk _ _ _ _ _ _ _ _ _ hak _ => exact hak c hc

theorem Inv.any {N d : Nat} {n c : node} (h : Inv N d n) (hc : n.anyChild = some c) :
    Inv N (d + 1) c := by
  cases h with
  | mk _ _ _ _ _ _ _ _ _ _ hai => exact hai c hc

theorem Inv.child_label_noWild {N d : Nat} {n c : node} (h : Inv N d n)
    (hc : c ∈ n.children) : c.label ≠ ':' ∧ c.label ≠ '*' := by
  have hh := (h.child hc).head
  have hnw := (h.child hc).noWild (h.child_kind hc)
  cases hp : c.pfx with
  | nil => rw [hp] at hh; simp at hh
  | cons x xs =>
    rw [hp] at hh hnw
    simp at hh
    rw [← hh]
    exact hnw x (List.mem_cons_self x xs)

theorem Inv.mono {N N1 : Nat} (hN : N ≤ N1) : ∀ (n : node) (d : Nat), Inv N d n → Inv N1 d n := by
  intro n
  induction n using node.induct with
  | step k lab pre cs pp pn hs pc ac lf ihc ihp iha =>
    intro d h
    cases h with
    | mk hd hh hnw hpn hck hci hnd hpk hpi hak hai =>
      exact Inv.mk (le_trans hd hN) hh hnw hpn hck (fun c hc => ihc c hc d (hci c hc)) hnd hpk
        (fun c hc => ihp c hc (d + 1) (hpi c hc)) hak (fun c hc => iha c hc (d + 1) (hai c hc))

theorem At.key_ne_nil {N d : Nat} {n m : node} {K : Str} (hi : Inv N d n) (h : At n K m) :
    K ≠ [] := by
  obtain ⟨K1, hK⟩ := h.prefix_key
  intro h0
  rw [h0] at hK
  have := hi.pfx_ne_nil
  cases hp : n.pfx with
  | nil => exact this hp
  | cons x xs => rw [hp] at hK; simp at hK

/-- The key of a leaf is its prefix. -/
theorem At.of_leaf {n m : node} {K : Str} (h : At n K m) (h1 : n.children = [])
    (h2 : n.paramChild = none) (h3 : n.anyChild = none) : K = n.pfx ∧ m = n := by
  rcases h.cases_on_key with h0 | ⟨c, K1, _, _, hc | hc | hc⟩
  · exact h0
  · rw [h1] at hc; simp at hc
  · rw [h2] at hc; simp at hc
  · rw [h3] at hc; simp at hc

/-! ## Static children and their labels -/

theorem find?_label_eq_some {cs : List node} {l : Char} {c : node}
    (h : cs.find? (fun x => x.label == l) = some c) : c ∈ cs ∧ c.label = l := by
  have h1 := List.find?_some h
  have h2 := List.mem_of_find?_eq_some h
  exact ⟨h2, by simpa using h1⟩

theorem find?_label_of_mem : ∀ {cs : List node} {c : node},
    (cs.map node.label).Nodup → c ∈ cs → cs.find? (fun x => x.label == c.label) = some c
  | [], _, _, hc => by simp at hc
  | x :: cs, c, hnd, hc => by
    simp only [List.map_cons, List.nodup_cons] at hnd
    rcases List.mem_cons.mp hc with h | h
    · subst h
      simp [List.find?]
    · have hne : x.label ≠ c.label := by
        intro he
        exact hnd.1 (he ▸ List.mem_map_of_mem node.label h)
      simp only [List.find?]
      have : (x.label == c.label) = false := by simpa using hne
      rw [this]
      exact find?_label_of_mem hnd.2 h

theorem find?_label_eq_none {cs : List node} {l : Char}
    (h : cs.find? (fun x => x.label == l) = none) : ∀ c ∈ cs, c.label ≠ l := by
  intro c hc he
  have := List.find?_eq_none.mp h c hc
  simp [he] at this

theorem replaceFirst_spec {l : Char} {c1 : node} (h1 : c1.label = l) :
    ∀ {cs : List node}, (cs.map node.label).Nodup → (∃ c ∈ cs, c.label = l) →
      (replaceFirst (fun x => x.label == l) c1 cs).map node.label = cs.map node.label ∧
        ∀ x, x ∈ replaceFirst (fun x => x.label == l) c1 cs ↔
          x = c1 ∨ (x ∈ cs ∧ x.label ≠ l)
  | [], _, hex => by
    obtain ⟨c, hc, _⟩ := hex
    simp at hc
  | y :: cs, hnd, hex => by
    simp only [List.map_cons, List.nodup_cons] at hnd
    by_cases hy : y.label = l
    · have hyb : (y.label == l) = true := by simpa using hy
      have hrf : replaceFirst (fun x => x.label == l) c1 (y :: cs) = c1 :: cs := by
        simp [replaceFirst, hy]
      rw [hrf]
      refine ⟨by simp [h1, hy], ?_⟩
      intro x
      constructor
      · intro hx
        rcases List.mem_cons.mp hx with h | h
        · exact Or.inl h
        · refine Or.inr ⟨List.mem_cons_of_mem y h, ?_⟩
          intro hxl
          exact hnd.1 (by rw [hy, ← hxl]; exact List.mem_map_of_mem node.label h)
      · intro hx
        rcases hx with h | ⟨h, hne⟩
        · exact h ▸ List.mem_cons_self c1 cs
        · rcases List.mem_cons.mp h with h | h
          · exact absurd (h ▸ hy) hne
          · exact List.mem_cons_of_mem c1 h
    · have hyb : (y.label == l) = false := by simpa using hy
      have hex1 : ∃ c ∈ cs, c.label = l := by
        obtain ⟨c, hc, hcl⟩ := hex
        rcases List.mem_cons.mp hc with h | h
        · exact absurd (h ▸ hcl) hy
        · exact ⟨c, h, hcl⟩
      obtain ⟨ih1, ih2⟩ := replaceFirst_spec h1 hnd.2 hex1
      have hrf : replaceFirst (fun x => x.label == l) c1 (y :: cs) =
          y :: replaceFirst (fun x => x.label == l) c1 cs := by
        simp [replaceFirst, hy]
      rw [hrf]
      refine ⟨by simp [ih1], ?_⟩
      intro x
      constructor
      · intro hx
        rcases List.mem_cons.mp hx with h | h
        · exact Or.inr ⟨h ▸ List.mem_cons_self y cs, h ▸ hy⟩
        · rcases (ih2 x).mp h with h | ⟨h, hne⟩
          · exact Or.inl h
          · exact Or.inr ⟨List.mem_cons_of_mem y h, hne⟩
      · intro hx
        rcases hx with h | ⟨h, hne⟩
        · exact List.mem_cons_of_mem y ((ih2 x).mpr (Or.inl h))
        · rcases List.mem_cons.mp h with h | h
          · exact h ▸ List.mem_cons_self y _
          · exact List.mem_cons_of_mem y ((ih2 x).mpr (Or.inr ⟨h, hne⟩))

theorem replaceFirst_self {p : node → Bool} {c : node} :
    ∀ {cs : List node}, cs.find? p = some c → replaceFirst p c cs = cs
  | [], h => by simp at h
  | y :: cs, h => by
    by_cases hp : p y = true
    · simp only [List.find?, hp] at h
      cases h
      simp [replaceFirst, hp]
    · have hp1 : p y = false := by simpa using hp
      simp only [List.find?, hp1] at h
      simp [replaceFirst, hp1, replaceFirst_self h]

theorem any_label_of_find? {cs : List node} {l : Char} {c : node}
    (h : cs.find? (fun x => x.label == l) = some c) :
    cs.any (fun x => x.label == l) = true := by
  obtain ⟨h1, h2⟩ := find?_label_eq_some h
  exact List.any_eq_true.mpr ⟨c, h1, by simpa using h2⟩

theorem any_label_of_find?_none {cs : List node} {l : Char}
    (h : cs.find? (fun x => x.label == l) = none) :
    cs.any (fun x => x.label == l) = false := by
  have := find?_label_eq_none h
  rw [Bool.eq_false_iff]
  intro ht
  obtain ⟨c, hc, hl⟩ := List.any_eq_true.mp ht
  exact this c hc (by simpa using hl)

theorem label_inj {N d : Nat} {n x y : node} (h : Inv N d n) (hx : x ∈ n.children)
    (hy : y ∈ n.children) (hl : x.label = y.label) : x = y :=
  List.inj_on_of_nodup_map h.nodup hx hy hl

/-- The static child that `findChild` picks on the first byte of a key is the child that
holds the key. -/
theorem find?_of_child_key {N d : Nat} {n x m : node} {K : Str} {c0 : Char} {rest : Str}
    (h : Inv N d n) (hx : x ∈ n.children) (hat : At x K m) (hK : K = c0 :: rest) :
    n.children.find? (fun y => y.label == c0) = some x := by
  obtain ⟨K1, hK1⟩ := hat.prefix_key
  have hh := (h.child hx).head
  cases hp : x.pfx with
  | nil => exact absurd hp (h.child hx).pfx_ne_nil
  | cons a as =>
    rw [hp] at hh hK1
    have hc0 : c0 = x.label := by
      rw [hK] at hK1
      simp only [List.head?_cons, Option.some.injEq] at hh
      simp only [List.cons_append, List.cons.injEq] at hK1
      rw [hK1.1, hh]
    rw [hc0]
    exact find?_label_of_mem h.nodup hx

end route


namespace route

/-! ## The child that `findChildWithLabel` returns -/

theorem findChildWithLabel_cases {n c : node} {c0 : Char}
    (hf : findChildWithLabel n c0 = some c) :
    n.children.find? (fun x => x.label == c0) = some c ∨
      (n.children.find? (fun x => x.label == c0) = none ∧ c0 = ':' ∧
        n.paramChild = some c) ∨
      (n.children.find? (fun x => x.label == c0) = none ∧ c0 = '*' ∧ n.anyChild = some c) := by
  unfold findChildWithLabel at hf
  cases hfind : n.children.find? (fun x => x.label == c0) with
  | some y =>
    rw [hfind] at hf
    simp at hf
    exact Or.inl (by rw [hf])
  | none =>
    rw [hfind] at hf
    simp only at hf
    by_cases h1 : c0 = ':'
    · rw [if_pos h1] at hf
      exact Or.inr (Or.inl ⟨rfl, h1, hf⟩)
    · rw [if_neg h1] at hf
      by_cases h2 : c0 = '*'
      · rw [if_pos h2] at hf
        exact Or.inr (Or.inr ⟨rfl, h2, hf⟩)
      · rw [if_neg h2] at hf
        exact Option.noConfusion hf

theorem find?_wild_none {N d : Nat} {n : node} (h : Inv N d n) {c0 : Char}
    (hc0 : c0 = ':' ∨ c0 = '*') : n.children.find? (fun x => x.label == c0) = none := by
  apply List.find?_eq_none.mpr
  intro x hx
  have := h.child_label_noWild hx
  rcases hc0 with h0 | h0 <;> simp [h0, this.1, this.2]

/-- What the three slots of a node hold on the first byte of the rest of a key. -/
theorem slot_of_key {N d : Nat} {n x m : node} {K1 : Str} {c0 : Char} {rest : Str}
    (h : Inv N d n) (hat : At x K1 m) (hK : K1 = c0 :: rest)
    (hx : x ∈ n.children ∨ n.paramChild = some x ∨ n.anyChild = some x) :
    findChildWithLabel n c0 = some x := by
  obtain ⟨K2, hK2⟩ := hat.prefix_key
  rcases hx with hx | hx | hx
  · have := find?_of_child_key h hx hat hK
    simp [findChildWithLabel, this]
  · have hp := (h.param_shape hx).2
    rw [hp, hK] at hK2
    simp only [List.cons_append, List.nil_append, List.cons.injEq] at hK2
    have hc0 : c0 = ':' := hK2.1
    subst hc0
    have hnone := find?_wild_none h (Or.inl rfl)
    simp [findChildWithLabel, hnone, hx]
  · have hp := (h.any_shape hx).2.1
    rw [hp, hK] at hK2
    simp only [List.cons_append, List.nil_append, List.cons.injEq] at hK2
    have hc0 : c0 = '*' := hK2.1
    subst hc0
    have hnone := find?_wild_none h (Or.inr rfl)
    have hne : ('*' : Char) ≠ ':' := by decide
    simp [findChildWithLabel, hnone, hx, hne]

theorem at_via_slot {N d : Nat} {n c : node} {c0 : Char} {rest : Str} (h : Inv N d n)
    (hf : findChildWithLabel n c0 = some c) (m : node) :
    At n (n.pfx ++ c0 :: rest) m ↔ At c (c0 :: rest) m := by
  constructor
  · intro hat
    rcases hat.cases_on_key with ⟨h0, _⟩ | ⟨x, K1, hK, hx, hslot⟩
    · have := congrArg List.length h0
      simp at this
    · have hK1 : K1 = c0 :: rest := (List.append_cancel_left hK).symm
      have := slot_of_key h hx hK1 hslot
      rw [hf] at this
      cases this
      rw [← hK1]
      exact hx
  · intro hat
    rcases findChildWithLabel_cases hf with h1 | ⟨_, _, h1⟩ | ⟨_, _, h1⟩
    · exact At.child (find?_label_eq_some h1).1 hat
    · exact At.param h1 hat
    · exact At.any h1 hat

theorem no_key_of_slot_none {N d : Nat} {n : node} {c0 : Char} {rest : Str}
    (h : Inv N d n) (hf : findChildWithLabel n c0 = none) :
    ¬ ∃ m, At n (n.pfx ++ c0 :: rest) m := by
  rintro ⟨m, hat⟩
  rcases hat.cases_on_key with ⟨h0, _⟩ | ⟨x, K1, hK, hx, hslot⟩
  · have := congrArg List.length h0
    simp at this
  · have hK1 : K1 = c0 :: rest := (List.append_cancel_left hK).symm
    have := slot_of_key h hx hK1 hslot
    rw [hf] at this
    exact Option.noConfusion this

theorem key_eq_pfx_unique {N d : Nat} {n m : node} (h : Inv N d n) (hat : At n n.pfx m) :
    m = n := by
  rcases hat.cases_on_key with ⟨_, h0⟩ | ⟨x, K1, hK, hx, hslot⟩
  · exact h0
  · have hK1 : K1 = [] := by
      have := congrArg List.length hK
      simpa using this
    have hxi : ∃ d1, Inv N d1 x := by
      rcases hslot with hs | hs | hs
      · exact ⟨d, h.child hs⟩
      · exact ⟨d + 1, h.param hs⟩
      · exact ⟨d + 1, h.any hs⟩
    obtain ⟨d1, hxi⟩ := hxi
    exact absurd hK1 (At.key_ne_nil hxi hx)

end route


namespace route

/-! ## Where the keys of the result of `insert` come from -/

theorem lcp_append_left : ∀ (p a b : Str), lcp (p ++ a) (p ++ b) = p.length + lcp a b
  | [], a, b => by simp
  | c :: p, a, b => by
    show (if c = c then lcp (p ++ a) (p ++ b) + 1 else 0) = _
    rw [if_pos rfl, lcp_append_left p a b, List.length_cons]
    omega

theorem take_lcp_append (p a b : Str) :
    (p ++ a).take (lcp (p ++ a) (p ++ b)) = p ++ a.take (lcp a b) := by
  rw [lcp_append_left, List.take_append]

theorem lcp_cons_ne {a b : Char} (h : a ≠ b) (s t : Str) : lcp (a :: s) (b :: t) = 0 := by
  show (if a = b then lcp s t + 1 else 0) = 0
  rw [if_neg h]

theorem GenKey.old {cur : node} {search K : Str} {m : node} (h : At cur K m) :
    GenKey cur search K := Or.inl ⟨m, h⟩

theorem GenKey.lift {n c : node} {p s K1 : Str}
    (hemb : ∀ K m, At c K m → At n (p ++ K) m) (h : GenKey c s K1) :
    GenKey n (p ++ s) (p ++ K1) := by
  rcases h with ⟨m, hat⟩ | hs | ⟨K2, m2, hat, hK⟩
  · exact Or.inl ⟨m, hemb _ _ hat⟩
  · exact Or.inr (Or.inl (by rw [hs]))
  · refine Or.inr (Or.inr ⟨p ++ K2, m2, hemb _ _ hat, ?_⟩)
    rw [take_lcp_append, hK]

/-! ## What a turn of the loop of `insert` leaves -/

theorem post_child {N d : Nat} {h : HandlersChain} {pnames : List Str} {k : kind}
    {lab : Char} {pre : Str} {cs : List node} {pp : Str} {pn : List Str}
    {hs : HandlersChain} {pc ac : Option node} {lf : Bool} {c c1 : node} {c0 : Char}
    {rest : Str}
    (hinv : Inv N d (.mk k lab pre cs pp pn hs pc ac lf))
    (hfind : cs.find? (fun x => x.label == c0) = some c)
    (hpost : InsertPost N d h pnames (c0 :: rest) c c1) :
    InsertPost N d h pnames (pre ++ c0 :: rest) (.mk k lab pre cs pp pn hs pc ac lf)
      (.mk k lab pre (replaceFirst (fun x => x.label == c0) c1 cs) pp pn hs pc ac lf) := by
  have hc := find?_label_eq_some hfind
  have hspec := replaceFirst_spec (l := c0) (hpost.labelEq.trans hc.2)
    hinv.nodup ⟨c, hc.1, hc.2⟩
  simp only [node.children_mk] at hspec
  have hslot : findChildWithLabel (.mk k lab pre cs pp pn hs pc ac lf) c0 = some c := by
    simp [findChildWithLabel, hfind]
  have hmem1 : c1 ∈ replaceFirst (fun x => x.label == c0) c1 cs := (hspec.2 c1).mpr (Or.inl rfl)
  refine ⟨?_, rfl, rfl, fun _ => rfl, rfl, ?_, ?_, ?_, ?_, ?_⟩
  · cases hinv with
    | mk hd hh hnw hpn hck hci hnd hpk hpi hak hai =>
      refine Inv.mk hd hh hnw hpn ?_ ?_ ?_ hpk hpi hak hai
      · intro x hx
        rcases (hspec.2 x).mp hx with h1 | ⟨h1, _⟩
        · rw [h1]; exact hpost.kindEq.trans (hck c hc.1)
        · exact hck x h1
      · intro x hx
        rcases (hspec.2 x).mp hx with h1 | ⟨h1, _⟩
        · rw [h1]; exact hpost.inv
        · exact hci x h1
      · rw [hspec.1]; exact hnd
  · intro K m hat hcond
    rcases hat.cases_on_key with ⟨hK, hm⟩ | ⟨x, K1, hK, hx, hsl⟩
    · subst hm
      refine ⟨node.mk k lab pre (replaceFirst (fun x => x.label == c0) c1 cs) pp pn hs pc ac lf,
        ?_, rfl, rfl⟩
      rw [hK]
      exact At.here (node.mk k lab pre (replaceFirst (fun x => x.label == c0) c1 cs) pp pn hs pc ac lf)
    · rcases hsl with hsl | hsl | hsl
      · by_cases hxc : x = c
        · subst hxc
          have hcond1 : K1 ≠ c0 :: rest ∨ h = none := by
            rcases hcond with h1 | h1
            · left
              intro h2
              exact h1 (by rw [hK, h2]; rfl)
            · exact Or.inr h1
          obtain ⟨m1, hat1, hh1, hp1⟩ := hpost.keep K1 m hx hcond1
          refine ⟨m1, ?_, hh1, hp1⟩
          rw [hK]
          exact At.child (n := node.mk k lab pre (replaceFirst (fun x => x.label == c0) c1 cs) pp pn hs pc ac lf) hmem1 hat1
        · have hne : x.label ≠ c0 := by
            intro hl
            exact hxc (label_inj hinv hsl hc.1 (hl.trans hc.2.symm))
          refine ⟨m, ?_, rfl, rfl⟩
          rw [hK]
          exact At.child (n := node.mk k lab pre (replaceFirst (fun x => x.label == c0) c1 cs) pp pn hs pc ac lf)
            ((hspec.2 x).mpr (Or.inr ⟨hsl, hne⟩)) hx
      · refine ⟨m, ?_, rfl, rfl⟩
        rw [hK]
        exact At.param (n := node.mk k lab pre (replaceFirst (fun x => x.label == c0) c1 cs) pp pn hs pc ac lf) hsl hx
      · refine ⟨m, ?_, rfl, rfl⟩
        rw [hK]
        exact At.any (n := node.mk k lab pre (replaceFirst (fun x => x.label == c0) c1 cs) pp pn hs pc ac lf) hsl hx
  · obtain ⟨m1, hat1, hh1⟩ := hpost.added
    exact ⟨m1, At.child (n := node.mk k lab pre (replaceFirst (fun x => x.label == c0) c1 cs) pp pn hs pc ac lf) hmem1 hat1, hh1⟩
  · intro K m1 hat hsome
    rcases hat.cases_on_key with ⟨hK, hm⟩ | ⟨x, K1, hK, hx, hsl⟩
    · right
      refine ⟨.mk k lab pre cs pp pn hs pc ac lf, ?_, ?_, ?_⟩
      · rw [hK]; exact At.here (node.mk k lab pre cs pp pn hs pc ac lf)
      · rw [hm]; rfl
      · rw [hm]; rfl
    · rcases hsl with hsl | hsl | hsl
      · rcases (hspec.2 x).mp hsl with h1 | ⟨h1, _⟩
        · subst h1
          rcases hpost.back K1 m1 hx hsome with ⟨hk1, hrest⟩ | ⟨m, hat0, hrest⟩
          · left
            exact ⟨by rw [hK, hk1]; rfl, hrest⟩
          · right
            refine ⟨m, ?_, hrest⟩
            rw [hK]
            exact At.child (n := node.mk k lab pre cs pp pn hs pc ac lf) hc.1 hat0
        · right
          refine ⟨m1, ?_, rfl, rfl⟩
          rw [hK]
          exact At.child (n := node.mk k lab pre cs pp pn hs pc ac lf) h1 hx
      · right
        refine ⟨m1, ?_, rfl, rfl⟩
        rw [hK]
        exact At.param (n := node.mk k lab pre cs pp pn hs pc ac lf) hsl hx
      · right
        refine ⟨m1, ?_, rfl, rfl⟩
        rw [hK]
        exact At.any (n := node.mk k lab pre cs pp pn hs pc ac lf) hsl hx
  · rintro hn ⟨m, hat⟩
    have hat1 := (at_via_slot hinv hslot m).mp hat
    have := hpost.noop hn ⟨m, hat1⟩
    rw [this, replaceFirst_self hfind]
  · intro K m1 hat
    rcases hat.cases_on_key with ⟨hK, hm⟩ | ⟨x, K1, hK, hx, hsl⟩
    · rw [hK]
      exact GenKey.old (At.here (node.mk k lab pre cs pp pn hs pc ac lf))
    · rw [hK]
      rcases hsl with hsl | hsl | hsl
      · rcases (hspec.2 x).mp hsl with h1 | ⟨h1, _⟩
        · subst h1
          exact GenKey.lift (fun K2 m2 h2 =>
            At.child (n := node.mk k lab pre cs pp pn hs pc ac lf) hc.1 h2) (hpost.gen K1 m1 hx)
        · exact GenKey.old (At.child (n := node.mk k lab pre cs pp pn hs pc ac lf) h1 hx)
      · exact GenKey.old (At.param (n := node.mk k lab pre cs pp pn hs pc ac lf) hsl hx)
      · exact GenKey.old (At.any (n := node.mk k lab pre cs pp pn hs pc ac lf) hsl hx)

theorem post_param {N d : Nat} {h : HandlersChain} {pnames : List Str} {k : kind}
    {lab : Char} {pre : Str} {cs : List node} {pp : Str} {pn : List Str}
    {hs : HandlersChain} {ac : Option node} {lf : Bool} {c c1 : node} {rest : Str}
    (hinv : Inv N d (.mk k lab pre cs pp pn hs (some c) ac lf))
    (hpost : InsertPost N (d + 1) h pnames (':' :: rest) c c1) :
    InsertPost N d h pnames (pre ++ ':' :: rest) (.mk k lab pre cs pp pn hs (some c) ac lf)
      (.mk k lab pre cs pp pn hs (some c1) ac lf) := by
  have hslot : findChildWithLabel (.mk k lab pre cs pp pn hs (some c) ac lf) ':' = some c := by
    have := find?_wild_none hinv (Or.inl rfl)
    simp only [node.children_mk] at this
    simp [findChildWithLabel, this]
  have hshape := hinv.param_shape (c := c) rfl
  refine ⟨?_, rfl, rfl, fun _ => rfl, rfl, ?_, ?_, ?_, ?_, ?_⟩
  · cases hinv with
    | mk hd hh hnw hpn hck hci hnd hpk hpi hak hai =>
      refine Inv.mk hd hh hnw hpn hck hci hnd ?_ ?_ hak hai
      · intro x hx
        cases hx
        exact ⟨hpost.kindEq.trans hshape.1,
          (hpost.pfxEq (by rw [hshape.1]; decide)).trans hshape.2⟩
      · intro x hx
        cases hx
        exact hpost.inv
  · intro K m hat hcond
    rcases hat.cases_on_key with ⟨hK, hm⟩ | ⟨x, K1, hK, hx, hsl⟩
    · subst hm
      refine ⟨node.mk k lab pre cs pp pn hs (some c1) ac lf, ?_, rfl, rfl⟩
      rw [hK]
      exact At.here (node.mk k lab pre cs pp pn hs (some c1) ac lf)
    · rcases hsl with hsl | hsl | hsl
      · refine ⟨m, ?_, rfl, rfl⟩
        rw [hK]
        exact At.child (n := node.mk k lab pre cs pp pn hs (some c1) ac lf) hsl hx
      · simp only [node.paramChild_mk, Option.some.injEq] at hsl
        subst hsl
        have hcond1 : K1 ≠ ':' :: rest ∨ h = none := by
          rcases hcond with h1 | h1
          · left
            intro h2
            exact h1 (by rw [hK, h2]; rfl)
          · exact Or.inr h1
        obtain ⟨m1, hat1, hh1, hp1⟩ := hpost.keep K1 m hx hcond1
        refine ⟨m1, ?_, hh1, hp1⟩
        rw [hK]
        exact At.param (n := node.mk k lab pre cs pp pn hs (some c1) ac lf) rfl hat1
      · refine ⟨m, ?_, rfl, rfl⟩
        rw [hK]
        exact At.any (n := node.mk k lab pre cs pp pn hs (some c1) ac lf) hsl hx
  · obtain ⟨m1, hat1, hh1⟩ := hpost.added
    exact ⟨m1, At.param (n := node.mk k lab pre cs pp pn hs (some c1) ac lf) rfl hat1, hh1⟩
  · intro K m1 hat hsome
    rcases hat.cases_on_key with ⟨hK, hm⟩ | ⟨x, K1, hK, hx, hsl⟩
    · right
      refine ⟨.mk k lab pre cs pp pn hs (some c) ac lf, ?_, ?_, ?_⟩
      · rw [hK]; exact At.here (node.mk k lab pre cs pp pn hs (some c) ac lf)
      · rw [hm]; rfl
      · rw [hm]; rfl
    · rcases hsl with hsl | hsl | hsl
      · right
        refine ⟨m1, ?_, rfl, rfl⟩
        rw [hK]
        exact At.child (n := node.mk k lab pre cs pp pn hs (some c) ac lf) hsl hx
      · simp only [node.paramChild_mk, Option.some.injEq] at hsl
        subst hsl
        rcases hpost.back K1 m1 hx hsome with ⟨hk1, hrest⟩ | ⟨m, hat0, hrest⟩
        · left
          exact ⟨by rw [hK, hk1]; rfl, hrest⟩
        · right
          refine ⟨m, ?_, hrest⟩
          rw [hK]
          exact At.param (n := node.mk k lab pre cs pp pn hs (some c) ac lf) rfl hat0
      · right
        refine ⟨m1, ?_, rfl, rfl⟩
        rw [hK]
        exact At.any (n := node.mk k lab pre cs pp pn hs (some c) ac lf) hsl hx
  · rintro hn ⟨m, hat⟩
    have hat1 := (at_via_slot hinv hslot m).mp hat
    have := hpost.noop hn ⟨m, hat1⟩
    rw [this]
  · intro K m1 hat
    rcases hat.cases_on_key with ⟨hK, hm⟩ | ⟨x, K1, hK, hx, hsl⟩
    · rw [hK]
      exact GenKey.old (At.here (node.mk k lab pre cs pp pn hs (some c) ac lf))
    · rw [hK]
      rcases hsl with hsl | hsl | hsl
      · exact GenKey.old (At.child (n := node.mk k lab pre cs pp pn hs (some c) ac lf) hsl hx)
      · simp only [node.paramChild_mk, Option.some.injEq] at hsl
        subst hsl
        exact GenKey.lift (fun K2 m2 h2 =>
          At.param (n := node.mk k lab pre cs pp pn hs (some c) ac lf) rfl h2) (hpost.gen K1 m1 hx)
      · exact GenKey.old (At.any (n := node.mk k lab pre cs pp pn hs (some c) ac lf) hsl hx)

theorem inv_leaf {N d : Nat} {k : kind} {c0 : Char} {rest pp : Str} {pn : List Str}
    {h : HandlersChain} {lf : Bool} (hd : d ≤ N) (hnw : k = .skind → NoWild (c0 :: rest))
    (hpn : h.isSome → pn.length = d) :
    Inv N d (.mk k c0 (c0 :: rest) [] pp pn h none none lf) :=
  Inv.mk hd rfl hnw hpn (fun c hc => by simp at hc) (fun c hc => by simp at hc)
    (by simp) (fun c hc => by simp at hc) (fun c hc => by simp at hc)
    (fun c hc => by simp at hc) (fun c hc => by simp at hc)

theorem post_newStatic {N d : Nat} {h : HandlersChain} {pnames : List Str} {k : kind}
    {lab : Char} {pre : Str} {cs : List node} {pp : Str} {pn : List Str}
    {hs : HandlersChain} {pc ac : Option node} {lf lf1 lf2 : Bool} {c0 : Char}
    {rest ppath : Str}
    (hinv : Inv N d (.mk k lab pre cs pp pn hs pc ac lf))
    (hfind : cs.find? (fun x => x.label == c0) = none)
    (hnw : NoWild (c0 :: rest)) (hnames : h.isSome → pnames.length = d)
    (hno : ¬ ∃ m, At (.mk k lab pre cs pp pn hs pc ac lf) (pre ++ c0 :: rest) m) :
    InsertPost N d h pnames (pre ++ c0 :: rest) (.mk k lab pre cs pp pn hs pc ac lf)
      (.mk k lab pre (cs ++ [.mk .skind c0 (c0 :: rest) [] ppath pnames h none none lf1])
        pp pn hs pc ac lf2) := by
  refine ⟨?_, rfl, rfl, fun _ => rfl, rfl, ?_, ?_, ?_, ?_, ?_⟩
  · have hleaf : Inv N d (.mk .skind c0 (c0 :: rest) [] ppath pnames h none none lf1) :=
      inv_leaf hinv.le (fun _ => hnw) hnames
    cases hinv with
    | mk hd hh hnw1 hpn hck hci hnd hpk hpi hak hai =>
      refine Inv.mk hd hh hnw1 hpn ?_ ?_ ?_ hpk hpi hak hai
      · intro x hx
        rcases List.mem_append.mp hx with h1 | h1
        · exact hck x h1
        · simp only [List.mem_singleton] at h1
          rw [h1]; rfl
      · intro x hx
        rcases List.mem_append.mp hx with h1 | h1
        · exact hci x h1
        · simp only [List.mem_singleton] at h1
          rw [h1]; exact hleaf
      · rw [List.map_append, List.nodup_append]
        refine ⟨hnd, by simp, ?_⟩
        intro a ha hb
        simp only [List.map_cons, List.map_nil, List.mem_singleton, node.label_mk] at hb
        obtain ⟨x, hx, hxa⟩ := List.mem_map.mp ha
        exact find?_label_eq_none hfind x hx (hxa.trans hb)
  · intro K m hat _
    rcases hat.cases_on_key with ⟨hK, hm⟩ | ⟨x, K1, hK, hx, hsl⟩
    · subst hm
      refine ⟨.mk k lab pre (cs ++ [.mk .skind c0 (c0 :: rest) [] ppath pnames h none none lf1])
        pp pn hs pc ac lf2, ?_, rfl, rfl⟩
      rw [hK]
      exact At.here (node.mk k lab pre (cs ++ [.mk .skind c0 (c0 :: rest) [] ppath pnames h none none lf1])
        pp pn hs pc ac lf2)
    · refine ⟨m, ?_, rfl, rfl⟩
      rw [hK]
      rcases hsl with hsl | hsl | hsl
      · exact At.child (n := node.mk k lab pre (cs ++ [.mk .skind c0 (c0 :: rest) [] ppath pnames h none none lf1])
          pp pn hs pc ac lf2) (List.mem_append_left _ hsl) hx
      · exact At.param (n := node.mk k lab pre (cs ++ [.mk .skind c0 (c0 :: rest) [] ppath pnames h none none lf1])
          pp pn hs pc ac lf2) hsl hx
      · exact At.any (n := node.mk k lab pre (cs ++ [.mk .skind c0 (c0 :: rest) [] ppath pnames h none none lf1])
          pp pn hs pc ac lf2) hsl hx
  · refine ⟨.mk .skind c0 (c0 :: rest) [] ppath pnames h none none lf1, ?_, fun _ => ⟨rfl, rfl⟩⟩
    exact At.child (n := node.mk k lab pre (cs ++ [.mk .skind c0 (c0 :: rest) [] ppath pnames h none none lf1])
      pp pn hs pc ac lf2) (List.mem_append_right _ (List.mem_singleton_self _))
      (At.here (node.mk .skind c0 (c0 :: rest) [] ppath pnames h none none lf1))
  · intro K m1 hat hsome
    rcases hat.cases_on_key with ⟨hK, hm⟩ | ⟨x, K1, hK, hx, hsl⟩
    · right
      refine ⟨.mk k lab pre cs pp pn hs pc ac lf, ?_, ?_, ?_⟩
      · rw [hK]; exact At.here (node.mk k lab pre cs pp pn hs pc ac lf)
      · rw [hm]; rfl
      · rw [hm]; rfl
    · rcases hsl with hsl | hsl | hsl
      · rcases List.mem_append.mp hsl with h1 | h1
        · right
          refine ⟨m1, ?_, rfl, rfl⟩
          rw [hK]
          exact At.child (n := node.mk k lab pre cs pp pn hs pc ac lf) h1 hx
        · simp only [List.mem_singleton] at h1
          subst h1
          obtain ⟨hk1, hm1⟩ := hx.of_leaf rfl rfl rfl
          left
          subst hm1
          exact ⟨by rw [hK, hk1]; rfl, hsome, rfl, rfl⟩
      · right
        refine ⟨m1, ?_, rfl, rfl⟩
        rw [hK]
        exact At.param (n := node.mk k lab pre cs pp pn hs pc ac lf) hsl hx
      · right
        refine ⟨m1, ?_, rfl, rfl⟩
        rw [hK]
        exact At.any (n := node.mk k lab pre cs pp pn hs pc ac lf) hsl hx
  · intro _ hex
    exact absurd hex hno
  · intro K m1 hat
    rcases hat.cases_on_key with ⟨hK, hm⟩ | ⟨x, K1, hK, hx, hsl⟩
    · rw [hK]
      exact GenKey.old (At.here (node.mk k lab pre cs pp pn hs pc ac lf))
    · rw [hK]
      rcases hsl with hsl | hsl | hsl
      · rcases List.mem_append.mp hsl with h1 | h1
        · exact GenKey.old (At.child (n := node.mk k lab pre cs pp pn hs pc ac lf) h1 hx)
        · simp only [List.mem_singleton] at h1
          subst h1
          obtain ⟨hk1, _⟩ := hx.of_leaf rfl rfl rfl
          exact Or.inr (Or.inl (by rw [hk1]; rfl))
      · exact GenKey.old (At.param (n := node.mk k lab pre cs pp pn hs pc ac lf) hsl hx)
      · exact GenKey.old (At.any (n := node.mk k lab pre cs pp pn hs pc ac lf) hsl hx)

theorem post_newParam {N d : Nat} {h : HandlersChain} {pnames : List Str} {k : kind}
    {lab : Char} {pre : Str} {cs : List node} {pp : Str} {pn : List Str}
    {hs : HandlersChain} {ac : Option node} {lf lf1 lf2 : Bool} {ppath : Str}
    (hinv : Inv N d (.mk k lab pre cs pp pn hs none ac lf))
    (hd1 : d + 1 ≤ N) (hnames : h.isSome → pnames.length = d + 1)
    (hno : ¬ ∃ m, At (.mk k lab pre cs pp pn hs none ac lf) (pre ++ [':']) m) :
    InsertPost N d h pnames (pre ++ [':']) (.mk k lab pre cs pp pn hs none ac lf)
      (.mk k lab pre cs pp pn hs (some (.mk .pkind ':' [':'] [] ppath pnames h none none lf1))
        ac lf2) := by
  refine ⟨?_, rfl, rfl, fun _ => rfl, rfl, ?_, ?_, ?_, ?_, ?_⟩
  · have hleaf : Inv N (d + 1) (.mk .pkind ':' [':'] [] ppath pnames h none none lf1) :=
      inv_leaf hd1 (fun hk => by cases hk) hnames
    cases hinv with
    | mk hd hh hnw1 hpn hck hci hnd hpk hpi hak hai =>
      refine Inv.mk hd hh hnw1 hpn hck hci hnd ?_ ?_ hak hai
      · intro x hx
        cases hx
        exact ⟨rfl, rfl⟩
      · intro x hx
        cases hx
        exact hleaf
  · intro K m hat _
    rcases hat.cases_on_key with ⟨hK, hm⟩ | ⟨x, K1, hK, hx, hsl⟩
    · subst hm
      refine ⟨.mk k lab pre cs pp pn hs
        (some (.mk .pkind ':' [':'] [] ppath pnames h none none lf1)) ac lf2, ?_, rfl, rfl⟩
      rw [hK]
      exact At.here (node.mk k lab pre cs pp pn hs
        (some (.mk .pkind ':' [':'] [] ppath pnames h none none lf1)) ac lf2)
    · refine ⟨m, ?_, rfl, rfl⟩
      rw [hK]
      rcases hsl with hsl | hsl | hsl
      · exact At.child (n := node.mk k lab pre cs pp pn hs
          (some (.mk .pkind ':' [':'] [] ppath pnames h none none lf1)) ac lf2) hsl hx
      · simp at hsl
      · exact At.any (n := node.mk k lab pre cs pp pn hs
          (some (.mk .pkind ':' [':'] [] ppath pnames h none none lf1)) ac lf2) hsl hx
  · refine ⟨.mk .pkind ':' [':'] [] ppath pnames h none none lf1, ?_, fun _ => ⟨rfl, rfl⟩⟩
    exact At.param (n := node.mk k lab pre cs pp pn hs
      (some (.mk .pkind ':' [':'] [] ppath pnames h none none lf1)) ac lf2) rfl
      (At.here (node.mk .pkind ':' [':'] [] ppath pnames h none none lf1))
  · intro K m1 hat hsome
    rcases hat.cases_on_key with ⟨hK, hm⟩ | ⟨x, K1, hK, hx, hsl⟩
    · right
      refine ⟨.mk k lab pre cs pp pn hs none ac lf, ?_, ?_, ?_⟩
      · rw [hK]; exact At.here (node.mk k lab pre cs pp pn hs none ac lf)
      · rw [hm]; rfl
      · rw [hm]; rfl
    · rcases hsl with hsl | hsl | hsl
      · right
        refine ⟨m1, ?_, rfl, rfl⟩
        rw [hK]
        exact At.child (n := node.mk k lab pre cs pp pn hs none ac lf) hsl hx
      · simp only [node.paramChild_mk, Option.some.injEq] at hsl
        subst hsl
        obtain ⟨hk1, hm1⟩ := hx.of_leaf rfl rfl rfl
        left
        subst hm1
        exact ⟨by rw [hK, hk1]; rfl, hsome, rfl, rfl⟩
      · right
        refine ⟨m1, ?_, rfl, rfl⟩
        rw [hK]
        exact At.any (n := node.mk k lab pre cs pp pn hs none ac lf) hsl hx
  · intro _ hex
    exact absurd hex hno
  · intro K m1 hat
    rcases hat.cases_on_key with ⟨hK, hm⟩ | ⟨x, K1, hK, hx, hsl⟩
    · rw [hK]
      exact GenKey.old (At.here (node.mk k lab pre cs pp pn hs none ac lf))
    · rw [hK]
      rcases hsl with hsl | hsl | hsl
      · exact GenKey.old (At.child (n := node.mk k lab pre cs pp pn hs none ac lf) hsl hx)
      · simp only [node.paramChild_mk, Option.some.injEq] at hsl
        subst hsl
        obtain ⟨hk1, _⟩ := hx.of_leaf rfl rfl rfl
        exact Or.inr (Or.inl (by rw [hk1]; rfl))
      · exact GenKey.old (At.any (n := node.mk k lab pre cs pp pn hs none ac lf) hsl hx)

theorem post_newAny {N d : Nat} {h : HandlersChain} {pnames : List Str} {k : kind}
    {lab : Char} {pre : Str} {cs : List node} {pp : Str} {pn : List Str}
    {hs : HandlersChain} {pc : Option node} {lf lf1 lf2 : Bool} {ppath : Str}
    (hinv : Inv N d (.mk k lab pre cs pp pn hs pc none lf))
    (hd1 : d + 1 ≤ N) (hh : h.isSome) (hnames : pnames.length = d + 1)
    (hno : ¬ ∃ m, At (.mk k lab pre cs pp pn hs pc none lf) (pre ++ ['*']) m) :
    InsertPost N d h pnames (pre ++ ['*']) (.mk k lab pre cs pp pn hs pc none lf)
      (.mk k lab pre cs pp pn hs pc (some (.mk .akind '*' ['*'] [] ppath pnames h none none lf1))
        lf2) := by
  refine ⟨?_, rfl, rfl, fun _ => rfl, rfl, ?_, ?_, ?_, ?_, ?_⟩
  · have hleaf : Inv N (d + 1) (.mk .akind '*' ['*'] [] ppath pnames h none none lf1) :=
      inv_leaf hd1 (fun hk => by cases hk) (fun _ => hnames)
    cases hinv with
    | mk hd hh1 hnw1 hpn hck hci hnd hpk hpi hak hai =>
      refine Inv.mk hd hh1 hnw1 hpn hck hci hnd hpk hpi ?_ ?_
      · intro x hx
        cases hx
        exact ⟨rfl, rfl, rfl, rfl, rfl, hh⟩
      · intro x hx
        cases hx
        exact hleaf
  · intro K m hat _
    rcases hat.cases_on_key with ⟨hK, hm⟩ | ⟨x, K1, hK, hx, hsl⟩
    · subst hm
      refine ⟨.mk k lab pre cs pp pn hs pc
        (some (.mk .akind '*' ['*'] [] ppath pnames h none none lf1)) lf2, ?_, rfl, rfl⟩
      rw [hK]
      exact At.here (node.mk k lab pre cs pp pn hs pc
        (some (.mk .akind '*' ['*'] [] ppath pnames h none none lf1)) lf2)
    · refine ⟨m, ?_, rfl, rfl⟩
      rw [hK]
      rcases hsl with hsl | hsl | hsl
      · exact At.child (n := node.mk k lab pre cs pp pn hs pc
          (some (.mk .akind '*' ['*'] [] ppath pnames h none none lf1)) lf2) hsl hx
      · exact At.param (n := node.mk k lab pre cs pp pn hs pc
          (some (.mk .akind '*' ['*'] [] ppath pnames h none none lf1)) lf2) hsl hx
      · simp at hsl
  · refine ⟨.mk .akind '*' ['*'] [] ppath pnames h none none lf1, ?_, fun _ => ⟨rfl, rfl⟩⟩
    exact At.any (n := node.mk k lab pre cs pp pn hs pc
      (some (.mk .akind '*' ['*'] [] ppath pnames h none none lf1)) lf2) rfl
      (At.here (node.mk .akind '*' ['*'] [] ppath pnames h none none lf1))
  · intro K m1 hat hsome
    rcases hat.cases_on_key with ⟨hK, hm⟩ | ⟨x, K1, hK, hx, hsl⟩
    · right
      refine ⟨.mk k lab pre cs pp pn hs pc none lf, ?_, ?_, ?_⟩
      · rw [hK]; exact At.here (node.mk k lab pre cs pp pn hs pc none lf)
      · rw [hm]; rfl
      · rw [hm]; rfl
    · rcases hsl with hsl | hsl | hsl
      · right
        refine ⟨m1, ?_, rfl, rfl⟩
        rw [hK]
        exact At.child (n := node.mk k lab pre cs pp pn hs pc none lf) hsl hx
      · right
        refine ⟨m1, ?_, rfl, rfl⟩
        rw [hK]
        exact At.param (n := node.mk k lab pre cs pp pn hs pc none lf) hsl hx
      · simp only [node.anyChild_mk, Option.some.injEq] at hsl
        subst hsl
        obtain ⟨hk1, hm1⟩ := hx.of_leaf rfl rfl rfl
        left
        subst hm1
        exact ⟨by rw [hK, hk1]; rfl, hsome, rfl, rfl⟩
  · intro _ hex
    exact absurd hex hno
  · intro K m1 hat
    rcases hat.cases_on_key with ⟨hK, hm⟩ | ⟨x, K1, hK, hx, hsl⟩
    · rw [hK]
      exact GenKey.old (At.here (node.mk k lab pre cs pp pn hs pc none lf))
    · rw [hK]
      rcases hsl with hsl | hsl | hsl
      · exact GenKey.old (At.child (n := node.mk k lab pre cs pp pn hs pc none lf) hsl hx)
      · exact GenKey.old (At.param (n := node.mk k lab pre cs pp pn hs pc none lf) hsl hx)
      · simp only [node.anyChild_mk, Option.some.injEq] at hsl
        subst hsl
        obtain ⟨hk1, _⟩ := hx.of_leaf rfl rfl rfl
        exact Or.inr (Or.inl (by rw [hk1]; rfl))

end route


namespace route

theorem post_refl {N d : Nat} {pnames : List Str} {search : Str} {cur : node}
    (hinv : Inv N d cur) (hex : ∃ m, At cur search m) :
    InsertPost N d none pnames search cur cur := by
  refine ⟨hinv, rfl, rfl, fun _ => rfl, rfl, ?_, ?_, ?_, fun _ _ => rfl,
    fun K m1 hat => GenKey.old hat⟩
  · intro K m hat _
    exact ⟨m, hat, rfl, rfl⟩
  · obtain ⟨m, hat⟩ := hex
    exact ⟨m, hat, fun hh => by simp at hh⟩
  · intro K m1 hat _
    exact Or.inr ⟨m1, hat, rfl, rfl⟩

theorem post_exact {N d : Nat} {h : HandlersChain} {pnames : List Str} {k : kind}
    {lab : Char} {pre : Str} {cs : List node} {pp : Str} {pn : List Str}
    {hs : HandlersChain} {pc ac : Option node} {lf : Bool} {ppath : Str}
    (hinv : Inv N d (.mk k lab pre cs pp pn hs pc ac lf))
    (hh : h.isSome) (hnames : pnames.length = d) :
    InsertPost N d h pnames pre (.mk k lab pre cs pp pn hs pc ac lf)
      (.mk k lab pre cs ppath pnames h pc ac lf) := by
  have hne : h ≠ none := by
    intro h0; rw [h0] at hh; simp at hh
  refine ⟨?_, rfl, rfl, fun _ => rfl, rfl, ?_, ?_, ?_, ?_, ?_⟩
  · cases hinv with
    | mk hd hh1 hnw1 hpn hck hci hnd hpk hpi hak hai =>
      exact Inv.mk hd hh1 hnw1 (fun _ => hnames) hck hci hnd hpk hpi hak hai
  · intro K m hat hcond
    have hK : K ≠ pre := by
      rcases hcond with h1 | h1
      · exact h1
      · exact absurd h1 hne
    rcases hat.cases_on_key with ⟨hK1, _⟩ | ⟨x, K1, hK1, hx, hsl⟩
    · exact absurd hK1 hK
    · refine ⟨m, ?_, rfl, rfl⟩
      rw [hK1]
      rcases hsl with hsl | hsl | hsl
      · exact At.child (n := node.mk k lab pre cs ppath pnames h pc ac lf) hsl hx
      · exact At.param (n := node.mk k lab pre cs ppath pnames h pc ac lf) hsl hx
      · exact At.any (n := node.mk k lab pre cs ppath pnames h pc ac lf) hsl hx
  · exact ⟨.mk k lab pre cs ppath pnames h pc ac lf,
      At.here (node.mk k lab pre cs ppath pnames h pc ac lf), fun _ => ⟨rfl, rfl⟩⟩
  · intro K m1 hat hsome
    rcases hat.cases_on_key with ⟨hK, hm⟩ | ⟨x, K1, hK, hx, hsl⟩
    · left
      subst hm
      exact ⟨hK, hh, rfl, rfl⟩
    · right
      refine ⟨m1, ?_, rfl, rfl⟩
      rw [hK]
      rcases hsl with hsl | hsl | hsl
      · exact At.child (n := node.mk k lab pre cs pp pn hs pc ac lf) hsl hx
      · exact At.param (n := node.mk k lab pre cs pp pn hs pc ac lf) hsl hx
      · exact At.any (n := node.mk k lab pre cs pp pn hs pc ac lf) hsl hx
  · intro h0 _
    exact absurd h0 hne
  · intro K m1 hat
    rcases hat.cases_on_key with ⟨hK, hm⟩ | ⟨x, K1, hK, hx, hsl⟩
    · exact Or.inr (Or.inl hK)
    · rw [hK]
      rcases hsl with hsl | hsl | hsl
      · exact GenKey.old (At.child (n := node.mk k lab pre cs pp pn hs pc ac lf) hsl hx)
      · exact GenKey.old (At.param (n := node.mk k lab pre cs pp pn hs pc ac lf) hsl hx)
      · exact GenKey.old (At.any (n := node.mk k lab pre cs pp pn hs pc ac lf) hsl hx)

/-- A key of a node does not end inside the prefix of the node. -/
theorem no_key_inside_pfx {n m : node} {l : Nat} {s2 : Str} (hl : l < n.pfx.length)
    (hs2 : s2.head? ≠ (n.pfx.drop l).head?) : ¬ At n (n.pfx.take l ++ s2) m := by
  intro hat
  obtain ⟨K1, hK⟩ := hat.prefix_key
  have h1 : n.pfx.take l ++ s2 = n.pfx.take l ++ (n.pfx.drop l ++ K1) := by
    rw [← List.append_assoc, List.take_append_drop]
    exact hK
  have h2 := List.append_cancel_left h1
  apply hs2
  rw [h2]
  cases hd : n.pfx.drop l with
  | nil =>
    have := congrArg List.length hd
    simp at this
    omega
  | cons a as => simp

theorem inv_split_copy {N d : Nat} {lab : Char} {pre : Str} {cs : List node} {pp : Str}
    {pn : List Str} {hs : HandlersChain} {pc ac : Option node} {lf lf1 : Bool} {l : Nat}
    {pl : Char} (hinv : Inv N d (.mk .skind lab pre cs pp pn hs pc ac lf))
    (hpl : (pre.drop l).head? = some pl) :
    Inv N d (.mk .skind pl (pre.drop l) cs pp pn hs pc ac lf1) := by
  cases hinv with
  | mk hd hh hnw hpn hck hci hnd hpk hpi hak hai =>
    exact Inv.mk hd hpl (fun _ => (hnw rfl).drop l) hpn hck hci hnd hpk hpi hak hai

theorem at_split_copy {lab : Char} {pre : Str} {cs : List node} {pp : Str}
    {pn : List Str} {hs : HandlersChain} {pc ac : Option node} {lf lf1 : Bool} {l : Nat}
    {pl : Char} {K : Str} {m : node}
    (hat : At (.mk .skind lab pre cs pp pn hs pc ac lf) K m) :
    ∃ K1 m1, K = pre.take l ++ K1 ∧
      At (.mk .skind pl (pre.drop l) cs pp pn hs pc ac lf1) K1 m1 ∧
      m1.handlers = m.handlers ∧ m1.pnames = m.pnames := by
  rcases hat.cases_on_key with ⟨hK, hm⟩ | ⟨x, K1, hK, hx, hsl⟩
  · refine ⟨pre.drop l, .mk .skind pl (pre.drop l) cs pp pn hs pc ac lf1, ?_, ?_, ?_, ?_⟩
    · rw [hK, List.take_append_drop]; rfl
    · exact At.here (node.mk .skind pl (pre.drop l) cs pp pn hs pc ac lf1)
    · rw [hm]; rfl
    · rw [hm]; rfl
  · refine ⟨pre.drop l ++ K1, m, ?_, ?_, rfl, rfl⟩
    · rw [hK, ← List.append_assoc, List.take_append_drop]; rfl
    · rcases hsl with hsl | hsl | hsl
      · exact At.child (n := node.mk .skind pl (pre.drop l) cs pp pn hs pc ac lf1) hsl hx
      · exact At.param (n := node.mk .skind pl (pre.drop l) cs pp pn hs pc ac lf1) hsl hx
      · exact At.any (n := node.mk .skind pl (pre.drop l) cs pp pn hs pc ac lf1) hsl hx

theorem at_split_copy_back {lab : Char} {pre : Str} {cs : List node} {pp : Str}
    {pn : List Str} {hs : HandlersChain} {pc ac : Option node} {lf lf1 : Bool} {l : Nat}
    {pl : Char} {K1 : Str} {m1 : node}
    (hat : At (.mk .skind pl (pre.drop l) cs pp pn hs pc ac lf1) K1 m1) :
    ∃ m, At (.mk .skind lab pre cs pp pn hs pc ac lf) (pre.take l ++ K1) m ∧
      m.handlers = m1.handlers ∧ m.pnames = m1.pnames := by
  rcases hat.cases_on_key with ⟨hK, hm⟩ | ⟨x, K2, hK, hx, hsl⟩
  · refine ⟨.mk .skind lab pre cs pp pn hs pc ac lf, ?_, ?_, ?_⟩
    · rw [hK]
      simp only [node.pfx_mk, List.take_append_drop]
      exact At.here (node.mk .skind lab pre cs pp pn hs pc ac lf)
    · rw [hm]; rfl
    · rw [hm]; rfl
  · refine ⟨m1, ?_, rfl, rfl⟩
    rw [hK]
    simp only [node.pfx_mk, ← List.append_assoc, List.take_append_drop]
    rcases hsl with hsl | hsl | hsl
    · exact At.child (n := node.mk .skind lab pre cs pp pn hs pc ac lf) hsl hx
    · exact At.param (n := node.mk .skind lab pre cs pp pn hs pc ac lf) hsl hx
    · exact At.any (n := node.mk .skind lab pre cs pp pn hs pc ac lf) hsl hx

theorem head?_take_pos {s : Str} {l : Nat} (hl : 0 < l) : (s.take l).head? = s.head? := by
  cases s with
  | nil => simp
  | cons a as =>
    cases l with
    | zero => omega
    | succ l => simp

theorem take_lcp_diverge_aux (p : Str) {a sl : Char} (hne : sl ≠ a) (as srest : Str) :
    (p ++ sl :: srest).take (lcp (p ++ sl :: srest) (p ++ a :: as)) = p := by
  rw [lcp_append_left, lcp_cons_ne hne, Nat.add_zero, List.take_left]

theorem take_lcp_diverge {pre : Str} {l : Nat} {pl sl : Char}
    (hpl : (pre.drop l).head? = some pl) (hne : sl ≠ pl) (srest : Str) :
    (pre.take l ++ sl :: srest).take (lcp (pre.take l ++ sl :: srest) pre) = pre.take l := by
  cases hd : pre.drop l with
  | nil => rw [hd] at hpl; simp at hpl
  | cons a as =>
    rw [hd] at hpl
    simp only [List.head?_cons, Option.some.injEq] at hpl
    subst hpl
    have hpre : pre.take l ++ a :: as = pre := by
      rw [← hd, List.take_append_drop]
    have h := take_lcp_diverge_aux (pre.take l) hne as srest
    rw [hpre] at h
    exact h

theorem post_split1 {N d : Nat} {h : HandlersChain} {pnames : List Str}
    {lab : Char} {pre : Str} {cs : List node} {pp : Str} {pn : List Str}
    {hs : HandlersChain} {pc ac : Option node} {lf lf1 : Bool} {l : Nat} {p0 pl : Char}
    {ppath : Str}
    (hinv : Inv N d (.mk .skind lab pre cs pp pn hs pc ac lf))
    (hl0 : 0 < l) (hl : l < pre.length) (hp0 : pre.head? = some p0)
    (hpl : (pre.drop l).head? = some pl) (hnames : h.isSome → pnames.length = d) :
    InsertPost N d h pnames (pre.take l) (.mk .skind lab pre cs pp pn hs pc ac lf)
      (.mk .skind p0 (pre.take l) [.mk .skind pl (pre.drop l) cs pp pn hs pc ac lf1]
        ppath pnames h none none false) := by
  have hlab : p0 = lab := by
    have := hinv.head
    simp only [node.pfx_mk, node.label_mk] at this
    rw [hp0] at this
    exact Option.some.inj this
  have hnwp : NoWild pre := hinv.noWild rfl
  refine ⟨?_, rfl, hlab, fun hk => absurd rfl hk, head?_take_pos hl0, ?_, ?_, ?_, ?_, ?_⟩
  · refine Inv.mk hinv.le ?_ (fun _ => hnwp.take l) hnames ?_ ?_ (by simp)
      (fun c hc => by simp at hc) (fun c hc => by simp at hc)
      (fun c hc => by simp at hc) (fun c hc => by simp at hc)
    · rw [head?_take_pos hl0]; exact hp0
    · intro x hx
      simp only [List.mem_singleton] at hx
      rw [hx]; rfl
    · intro x hx
      simp only [List.mem_singleton] at hx
      rw [hx]; exact inv_split_copy hinv hpl
  · intro K m hat _
    obtain ⟨K1, m1, hK, hat1, hh1, hp1⟩ := at_split_copy (l := l) hat
    refine ⟨m1, ?_, hh1, hp1⟩
    rw [hK]
    exact At.child (n := node.mk .skind p0 (pre.take l) [.mk .skind pl (pre.drop l) cs pp pn hs pc ac lf1]
        ppath pnames h none none false) (List.mem_singleton_self _) hat1
  · exact ⟨_, At.here (node.mk .skind p0 (pre.take l) [.mk .skind pl (pre.drop l) cs pp pn hs pc ac lf1]
        ppath pnames h none none false), fun _ => ⟨rfl, rfl⟩⟩
  · intro K m1 hat hsome
    rcases hat.cases_on_key with ⟨hK, hm⟩ | ⟨x, K1, hK, hx, hsl⟩
    · left
      subst hm
      exact ⟨hK, hsome, rfl, rfl⟩
    · right
      rcases hsl with hsl | hsl | hsl
      · simp only [node.children_mk, List.mem_singleton] at hsl
        subst hsl
        rw [hK]
        exact at_split_copy_back hx
      · simp at hsl
      · simp at hsl
  · rintro _ ⟨m, hat⟩
    exfalso
    have := @no_key_inside_pfx (.mk .skind lab pre cs pp pn hs pc ac lf) m l [] hl (by
        simp only [node.pfx_mk, hpl]
        simp)
    apply this
    simpa using hat
  · intro K m1 hat
    rcases hat.cases_on_key with ⟨hK, hm⟩ | ⟨x, K1, hK, hx, hsl⟩
    · exact Or.inr (Or.inl hK)
    · rcases hsl with hsl | hsl | hsl
      · simp only [node.children_mk, List.mem_singleton] at hsl
        subst hsl
        rw [hK]
        obtain ⟨m, hat0, _⟩ := @at_split_copy_back lab pre cs pp pn hs pc ac lf lf1 l pl K1 m1 hx
        exact GenKey.old hat0
      · simp at hsl
      · simp at hsl

theorem post_split2 {N d : Nat} {h : HandlersChain} {pnames : List Str}
    {lab : Char} {pre : Str} {cs : List node} {pp : Str} {pn : List Str}
    {hs : HandlersChain} {pc ac : Option node} {lf lf1 lf2 : Bool} {l : Nat}
    {p0 pl sl : Char} {srest ppath : Str}
    (hinv : Inv N d (.mk .skind lab pre cs pp pn hs pc ac lf))
    (hl0 : 0 < l) (hl : l < pre.length) (hp0 : pre.head? = some p0)
    (hpl : (pre.drop l).head? = some pl) (hne : sl ≠ pl) (hnw : NoWild (sl :: srest))
    (hnames : h.isSome → pnames.length = d) :
    InsertPost N d h pnames (pre.take l ++ sl :: srest)
      (.mk .skind lab pre cs pp pn hs pc ac lf)
      (.mk .skind p0 (pre.take l) [.mk .skind pl (pre.drop l) cs pp pn hs pc ac lf1,
        .mk .skind sl (sl :: srest) [] ppath pnames h none none lf2] [] [] none none none
        false) := by
  have hlab : p0 = lab := by
    have := hinv.head
    simp only [node.pfx_mk, node.label_mk] at this
    rw [hp0] at this
    exact Option.some.inj this
  have hnwp : NoWild pre := hinv.noWild rfl
  refine ⟨?_, rfl, hlab, fun hk => absurd rfl hk, head?_take_pos hl0, ?_, ?_, ?_, ?_, ?_⟩
  · refine Inv.mk hinv.le ?_ (fun _ => hnwp.take l) (fun hh => by simp at hh) ?_ ?_ ?_
      (fun c hc => by simp at hc) (fun c hc => by simp at hc)
      (fun c hc => by simp at hc) (fun c hc => by simp at hc)
    · rw [head?_take_pos hl0]; exact hp0
    · intro x hx
      simp only [List.mem_cons, List.mem_singleton, List.not_mem_nil, or_false] at hx
      rcases hx with hx | hx <;> (rw [hx]; rfl)
    · intro x hx
      simp only [List.mem_cons, List.mem_singleton, List.not_mem_nil, or_false] at hx
      rcases hx with hx | hx
      · rw [hx]; exact inv_split_copy hinv hpl
      · rw [hx]; exact inv_leaf hinv.le (fun _ => hnw) hnames
    · simp only [List.map_cons, node.label_mk, List.map_nil, List.nodup_cons,
        List.mem_singleton, List.not_mem_nil, not_false_eq_true, List.nodup_nil, and_true]
      exact fun he => hne he.symm
  · intro K m hat _
    obtain ⟨K1, m1, hK, hat1, hh1, hp1⟩ := at_split_copy (l := l) hat
    refine ⟨m1, ?_, hh1, hp1⟩
    rw [hK]
    exact At.child (n := node.mk .skind p0 (pre.take l) [.mk .skind pl (pre.drop l) cs pp pn hs pc ac lf1,
        .mk .skind sl (sl :: srest) [] ppath pnames h none none lf2] [] [] none none none
        false) (List.mem_cons_self _ _) hat1
  · refine ⟨.mk .skind sl (sl :: srest) [] ppath pnames h none none lf2, ?_, fun _ => ⟨rfl, rfl⟩⟩
    exact At.child (n := node.mk .skind p0 (pre.take l) [.mk .skind pl (pre.drop l) cs pp pn hs pc ac lf1,
        .mk .skind sl (sl :: srest) [] ppath pnames h none none lf2] [] [] none none none
        false) (List.mem_cons_of_mem _ (List.mem_singleton_self _))
      (At.here (node.mk .skind sl (sl :: srest) [] ppath pnames h none none lf2))
  · intro K m1 hat hsome
    rcases hat.cases_on_key with ⟨hK, hm⟩ | ⟨x, K1, hK, hx, hsl⟩
    · subst hm
      simp at hsome
    · rcases hsl with hsl | hsl | hsl
      · simp only [node.children_mk, List.mem_cons, List.mem_singleton, List.not_mem_nil,
          or_false] at hsl
        rcases hsl with hsl | hsl
        · right
          subst hsl
          rw [hK]
          exact at_split_copy_back hx
        · left
          subst hsl
          obtain ⟨hk1, hm1⟩ := hx.of_leaf rfl rfl rfl
          subst hm1
          exact ⟨by rw [hK, hk1]; rfl, hsome, rfl, rfl⟩
      · simp at hsl
      · simp at hsl
  · rintro _ ⟨m, hat⟩
    exfalso
    exact @no_key_inside_pfx (.mk .skind lab pre cs pp pn hs pc ac lf) m l (sl :: srest)
      hl (by
        simp only [node.pfx_mk, hpl, List.head?_cons]
        exact fun he => hne (Option.some.inj he)) hat
  · intro K m1 hat
    rcases hat.cases_on_key with ⟨hK, hm⟩ | ⟨x, K1, hK, hx, hsl⟩
    · refine Or.inr (Or.inr ⟨pre, _, At.here (node.mk .skind lab pre cs pp pn hs pc ac lf), ?_⟩)
      rw [hK]
      exact (take_lcp_diverge hpl hne srest).symm
    · rcases hsl with hsl | hsl | hsl
      · simp only [node.children_mk, List.mem_cons, List.mem_singleton, List.not_mem_nil,
          or_false] at hsl
        rcases hsl with hsl | hsl
        · subst hsl
          rw [hK]
          obtain ⟨m, hat0, _⟩ := @at_split_copy_back lab pre cs pp pn hs pc ac lf lf1 l pl K1 m1 hx
          exact GenKey.old hat0
        · subst hsl
          obtain ⟨hk1, _⟩ := hx.of_leaf rfl rfl rfl
          exact Or.inr (Or.inl (by rw [hK, hk1]; rfl))
      · simp at hsl
      · simp at hsl

end route


namespace route

/-! ## The loop of `insert` -/

theorem StarOk.of_append {t : kind} {a s : Str} (h : StarOk t (a ++ s)) : StarOk t s := by
  intro x y hs
  exact h (a ++ x) y (by rw [hs, List.append_assoc])

theorem wcount_cons_wild {c : Char} {s : Str} (hc : c = ':' ∨ c = '*') :
    wcount (c :: s) = 1 + wcount s := by
  simp [wcount, hc]

/-- The precondition of the loop at a static child entered with static text. -/
theorem insertPre_static_child {N d : Nat} {h : HandlersChain} {pnames : List Str}
    {c : node} {c0 : Char} {rest : Str} (hinv : Inv N d c) (hk : c.kind = .skind)
    (hlab : c.label = c0) (hnw : NoWild (c0 :: rest))
    (hnames : h.isSome → pnames.length = d) :
    InsertPre N d c h .skind pnames (c0 :: rest) := by
  have hw : wcount (c0 :: rest) = 0 := wcount_of_noWild hnw
  have hwp : wcount c.pfx = 0 := wcount_of_noWild (hinv.noWild hk)
  refine ⟨hinv, ?_, (fun ht => by cases ht), ?_, ?_, Or.inr ⟨rfl, hk, hnw, by simp, ?_⟩⟩
  · intro a b hs
    have : '*' ∈ c0 :: rest := by rw [hs]; simp
    exact absurd rfl (hnw '*' this).2
  · intro hh
    rw [hw, hwp, hnames hh]
  · rw [hw, hwp]
    exact Nat.le_trans (by omega) hinv.le
  · rw [hinv.head, hlab]; rfl

theorem InsertPre.step {N d : Nat} {h : HandlersChain} {t : kind} {pnames : List Str}
    {k : kind} {lab : Char} {pre : Str} {cs : List node} {pp : Str} {pn : List Str}
    {hs : HandlersChain} {pc ac : Option node} {lf : Bool} {c0 : Char} {rest : Str}
    (hpre : InsertPre N d (.mk k lab pre cs pp pn hs pc ac lf) h t pnames
      (pre ++ c0 :: rest)) :
    (c0 ≠ ':' ∧ c0 ≠ '*' ∧
      (∀ c, cs.find? (fun x => x.label == c0) = some c →
        InsertPre N d c h t pnames (c0 :: rest)) ∧
      (cs.find? (fun x => x.label == c0) = none →
        t = .skind ∧ NoWild (c0 :: rest) ∧ (h.isSome → pnames.length = d))) ∨
    (c0 = ':' ∧ (∀ c, pc = some c → InsertPre N (d + 1) c h t pnames (':' :: rest)) ∧
      (pc = none → t = .pkind ∧ rest = [] ∧ d + 1 ≤ N ∧
        (h.isSome → pnames.length = d + 1))) ∨
    (c0 = '*' ∧ rest = [] ∧ t = .akind ∧ h.isSome ∧ d + 1 ≤ N ∧ pnames.length = d + 1) := by
  have hinv := hpre.inv
  have hnames : h.isSome → pnames.length = d + wcount (c0 :: rest) := by
    intro hh
    have := hpre.names hh
    simp only [node.pfx_mk, wcount_append] at this
    omega
  have hbound : d + wcount (c0 :: rest) ≤ N := by
    have := hpre.bound
    simp only [node.pfx_mk, wcount_append] at this
    omega
  have hstar : StarOk t (c0 :: rest) := hpre.star.of_append
  -- the alternative of static text
  have hstatic : t = .skind → NoWild (c0 :: rest) →
      (c0 ≠ ':' ∧ c0 ≠ '*' ∧
        (∀ c, cs.find? (fun x => x.label == c0) = some c →
          InsertPre N d c h t pnames (c0 :: rest)) ∧
        (cs.find? (fun x => x.label == c0) = none →
          t = .skind ∧ NoWild (c0 :: rest) ∧ (h.isSome → pnames.length = d))) := by
    intro ht hnw
    have hc0 := hnw c0 (List.mem_cons_self c0 rest)
    have hn : h.isSome → pnames.length = d := by
      intro hh
      rw [hnames hh, wcount_of_noWild hnw]; rfl
    refine ⟨hc0.1, hc0.2, ?_, fun _ => ⟨ht, hnw, hn⟩⟩
    intro c hc
    obtain ⟨hmem, hlab⟩ := find?_label_eq_some hc
    subst ht
    exact insertPre_static_child (hinv.child hmem) (hinv.child_kind hmem) hlab hnw hn
  rcases hpre.shape with ⟨w, u, m, hsplit, hat, htail⟩ | ⟨ht, _, hnw, _, _⟩
  · rcases hat.cases_on_key with ⟨hw, _⟩ | ⟨x, K1, hw, hx, hsl⟩
    · -- the key ends at this node, the tail starts here
      simp only [node.pfx_mk] at hw
      rw [hw] at hsplit
      have hu : u = c0 :: rest := (List.append_cancel_left hsplit).symm
      cases t with
      | skind => exact Or.inl (hstatic rfl (hu ▸ htail.1 rfl))
      | pkind =>
        rcases htail.2.1 rfl with h1 | h1
        · rw [h1] at hu
          simp only [List.cons.injEq] at hu
          obtain ⟨hc0, hrest⟩ := hu
          subst hc0
          subst hrest
          have hW : wcount [':'] = 1 := by simp [wcount]
          refine Or.inr (Or.inl ⟨rfl, ?_, fun _ => ⟨rfl, rfl, by omega, fun hh => by
            rw [hnames hh, hW]⟩⟩)
          intro c hc
          have hshape := hinv.param_shape (c := c) hc
          refine ⟨hinv.param hc, hstar, (fun ht => by cases ht), ?_, ?_,
            Or.inl ⟨[':'], [], c, by simp, ?_,
              (fun ht => by cases ht), (fun _ => Or.inr rfl), (fun ht => by cases ht)⟩⟩
          · intro hh
            rw [hshape.2, hnames hh, hW]
          · rw [hshape.2, hW]
            omega
          · have := At.here c
            rw [hshape.2] at this
            exact this
        · rw [h1] at hu
          cases hu
      | akind =>
        rcases htail.2.2 rfl with h1 | h1
        · rw [h1] at hu
          simp only [List.cons.injEq] at hu
          obtain ⟨hc0, hrest⟩ := hu
          subst hc0
          subst hrest
          have hW : wcount ['*'] = 1 := by simp [wcount]
          exact Or.inr (Or.inr ⟨rfl, rfl, rfl, hpre.anyH rfl, by omega, by
            rw [hnames (hpre.anyH rfl), hW]⟩)
        · rw [h1] at hu
          cases hu
    · -- the key goes on below a child
      simp only [node.pfx_mk] at hw
      rw [hw, List.append_assoc] at hsplit
      have hK : c0 :: rest = K1 ++ u := List.append_cancel_left hsplit
      obtain ⟨K2, hK2⟩ := hx.prefix_key
      rcases hsl with hsl | hsl | hsl
      · simp only [node.children_mk] at hsl
        have hxi := hinv.child hsl
        have hlabx := hinv.child_label_noWild hsl
        have hc0 : c0 = x.label := by
          have hh := hxi.head
          cases hp : x.pfx with
          | nil => exact absurd hp hxi.pfx_ne_nil
          | cons a as =>
            rw [hp] at hh hK2
            rw [hK2] at hK
            simp only [List.cons_append, List.cons.injEq] at hK
            simp only [List.head?_cons, Option.some.injEq] at hh
            rw [hK.1, hh]
        have hfind : cs.find? (fun y => y.label == c0) = some x := by
          rw [hc0]
          exact find?_label_of_mem hinv.nodup hsl
        refine Or.inl ⟨hc0 ▸ hlabx.1, hc0 ▸ hlabx.2, ?_, fun hn => by
          rw [hfind] at hn; cases hn⟩
        intro c hc
        rw [hfind] at hc
        cases hc
        have hwp : wcount x.pfx = 0 := wcount_of_noWild (hxi.noWild (hinv.child_kind hsl))
        refine ⟨hxi, hstar, hpre.anyH, ?_, ?_, Or.inl ⟨K1, u, m, hK, hx, htail⟩⟩
        · intro hh
          rw [hwp, hnames hh]; rfl
        · rw [hwp]; exact hbound
      · simp only [node.paramChild_mk] at hsl
        have hshape := hinv.param_shape (c := x) hsl
        have hc0 : c0 = ':' := by
          rw [hshape.2] at hK2
          rw [hK2] at hK
          simp only [List.cons_append, List.nil_append, List.cons.injEq] at hK
          exact hK.1
        subst hc0
        have hW : wcount (':' :: rest) = 1 + wcount rest := wcount_cons_wild (Or.inl rfl)
        have hwp : wcount x.pfx = 1 := by rw [hshape.2]; simp [wcount]
        refine Or.inr (Or.inl ⟨rfl, ?_, fun hn => by rw [hsl] at hn; cases hn⟩)
        intro c hc
        rw [hsl] at hc
        cases hc
        refine ⟨hinv.param hsl, hstar, hpre.anyH, ?_, ?_, Or.inl ⟨K1, u, m, hK, hx, htail⟩⟩
        · intro hh
          rw [hwp, hnames hh, hW]; omega
        · rw [hwp, hW]
          rw [hW] at hbound
          omega
      · simp only [node.anyChild_mk] at hsl
        have hshape := hinv.any_shape (c := x) hsl
        have hc0 : c0 = '*' := by
          rw [hshape.2.1] at hK2
          rw [hK2] at hK
          simp only [List.cons_append, List.nil_append, List.cons.injEq] at hK
          exact hK.1
        subst hc0
        obtain ⟨ht, hrest⟩ := hpre.star pre rest rfl
        subst hrest
        have hW : wcount ['*'] = 1 := by simp [wcount]
        exact Or.inr (Or.inr ⟨rfl, rfl, ht, hpre.anyH ht, by omega, by
          rw [hnames (hpre.anyH ht), hW]⟩)
  · exact Or.inl (hstatic ht hnw.of_append_right)

end route


namespace route

theorem insertLoop_succ (h : HandlersChain) (t : kind) (ppath : Str) (pnames : List Str) (budget : Nat) (k lab pre cs pp pn hs pc ac lf) (search : Str) :
  insertLoop h t ppath pnames (budget+1) (.mk k lab pre cs pp pn hs pc ac lf) search =
    (let lcpLen := lcp search pre
    if lcpLen = 0 then
      match search with
      | [] => .error .outOfRange
      | c0 :: _ =>
        let leaf := cs.isEmpty && pc.isNone && ac.isNone
        if h.isSome then .ok (.mk t c0 search cs ppath pnames h pc ac leaf)
        else .ok (.mk k c0 search cs pp pn hs pc ac leaf)
    else if lcpLen < pre.length then
      match newNode k (pre.drop lcpLen) cs hs pp pn pc ac, pre with
      | .error p, _ => .error p
      | .ok _, [] => .error .outOfRange
      | .ok n, p0 :: _ =>
        if lcpLen = search.length then
          .ok (.mk t p0 (pre.take lcpLen) [n] ppath pnames h none none false)
        else
          match newNode t (search.drop lcpLen) [] h ppath pnames none none with
          | .error p => .error p
          | .ok n2 => .ok (.mk .skind p0 (pre.take lcpLen) [n, n2] [] [] none none none false)
    else if lcpLen < search.length then
      match search.drop lcpLen with
      | [] => .error .outOfRange
      | c0 :: rest =>
        match findChildWithLabel (.mk k lab pre cs pp pn hs pc ac lf) c0 with
        | some c =>
          match insertLoop h t ppath pnames budget c (c0 :: rest) with
          | .error p => .error p
          | .ok c' => .ok (setChildWithLabel (.mk k lab pre cs pp pn hs pc ac lf) c0 c')
        | none =>
          match newNode t (c0 :: rest) [] h ppath pnames none none with
          | .error p => .error p
          | .ok n =>
            match t with
            | .skind => .ok (.mk k lab pre (cs ++ [n]) pp pn hs pc ac false)
            | .pkind =>
              .ok (.mk k lab pre cs pp pn hs (some n) ac false)
            | .akind =>
              .ok (.mk k lab pre cs pp pn hs pc (some n) false)
    else
      if hs.isSome ∧ h.isSome then .error (.duplicate ppath)
      else if h.isSome then .ok (.mk k lab pre cs ppath pnames h pc ac lf)
      else .ok (.mk k lab pre cs pp pn hs pc ac lf)) := by
  cases search <;> cases t <;> rfl


theorem newNode_cons (t : kind) (c : Char) (s : Str) (child : List node) (mh : HandlersChain)
    (ppath : Str) (pnames : List Str) (pcs acs : Option node) :
    newNode t (c :: s) child mh ppath pnames pcs acs =
      .ok (.mk t c (c :: s) child ppath pnames mh pcs acs
        (child.isEmpty && pcs.isNone && acs.isNone)) := rfl

theorem hasRoute_via_slot {N d : Nat} {n c : node} {c0 : Char} {rest : Str} (h : Inv N d n)
    (hf : findChildWithLabel n c0 = some c) :
    HasRoute n (n.pfx ++ c0 :: rest) ↔ HasRoute c (c0 :: rest) := by
  constructor
  · rintro ⟨m, hat, hm⟩
    exact ⟨m, (at_via_slot h hf m).mp hat, hm⟩
  · rintro ⟨m, hat, hm⟩
    exact ⟨m, (at_via_slot h hf m).mpr hat, hm⟩

theorem insertLoop_spec (h : HandlersChain) (t : kind) (ppath : Str) (pnames : List Str) :
    ∀ (budget N d : Nat) (cur : node) (search : Str),
      InsertPre N d cur h t pnames search → search.length < budget →
      (h.isSome ∧ HasRoute cur search ∧
          insertLoop h t ppath pnames budget cur search = .error (.duplicate ppath)) ∨
        (¬ (h.isSome ∧ HasRoute cur search) ∧
          ∃ cur1, insertLoop h t ppath pnames budget cur search = .ok cur1 ∧
            InsertPost N d h pnames search cur cur1) := by
  intro budget
  induction budget with
  | zero => intro N d cur search _ hlen; omega
  | succ b ih =>
    intro N d cur search hpre hlen
    cases cur with
    | mk k lab pre cs pp pn hs pc ac lf =>
    have hinv := hpre.inv
    have hpne : pre ≠ [] := hinv.pfx_ne_nil
    have hplen : 0 < pre.length := List.length_pos.mpr hpne
    have hl0 : 0 < lcp search pre := by
      rcases hpre.shape with ⟨w, u, m, hsplit, hat, _⟩ | ⟨_, _, _, _, hhead⟩
      · obtain ⟨K1, hK⟩ := hat.prefix_key
        simp only [node.pfx_mk] at hK
        rw [hsplit, hK, List.append_assoc, lcp_append_self]
        exact hplen
      · have := hinv.head
        simp only [node.pfx_mk, node.label_mk] at this hhead
        exact lcp_pos_of_head (hhead.trans this) this
    have hne0 : ¬ lcp search pre = 0 := by omega
    rw [insertLoop_succ]
    simp only [hne0, if_false]
    by_cases hlt : lcp search pre < pre.length
    · -- the node is split
      have hshape : t = .skind ∧ k = .skind ∧ NoWild search := by
        rcases hpre.shape with ⟨w, u, m, hsplit, hat, _⟩ | ⟨ht, hk, hnw, _, _⟩
        · obtain ⟨K1, hK⟩ := hat.prefix_key
          simp only [node.pfx_mk] at hK
          rw [hsplit, hK, List.append_assoc, lcp_append_self] at hlt
          omega
        · exact ⟨ht, hk, hnw⟩
      obtain ⟨ht, hk, hnw⟩ := hshape
      subst ht
      subst hk
      have htake := lcp_take search pre
      have hmis := lcp_mismatch search pre
      have hnames : h.isSome → pnames.length = d := by
        intro hh
        have := hpre.names hh
        rw [wcount_of_noWild hnw, wcount_of_noWild (hinv.noWild rfl)] at this
        omega
      generalize lcp search pre = l at *
      simp only [hlt, if_true]
      obtain ⟨p0, ptail, hp⟩ : ∃ p0 ptail, pre = p0 :: ptail := by
        cases pre with
        | nil => exact absurd rfl hpne
        | cons a as => exact ⟨a, as, rfl⟩
      subst hp
      obtain ⟨pl, pltail, hpl⟩ : ∃ pl pltail, (p0 :: ptail).drop l = pl :: pltail := by
        cases hd : (p0 :: ptail).drop l with
        | nil =>
          have := congrArg List.length hd
          simp only [List.length_drop, List.length_nil] at this
          omega
        | cons a as => exact ⟨a, as, rfl⟩
      have hplh : ((p0 :: ptail).drop l).head? = some pl := by rw [hpl]; rfl
      have hp0h : (p0 :: ptail).head? = some p0 := rfl
      by_cases hls : l = search.length
      · have hsrch : search = (p0 :: ptail).take l := by
          rw [← htake, hls, List.take_length]
        rw [hpl, newNode_cons]
        simp only []
        rw [if_pos hls]
        right
        refine ⟨?_, ?_⟩
        · rintro ⟨_, m, hat, _⟩
          rw [hsrch] at hat
          exact @no_key_inside_pfx (.mk .skind lab (p0 :: ptail) cs pp pn hs pc ac lf) m
            l [] hlt (by simp [hplh]) (by simpa using hat)
        · refine ⟨_, rfl, ?_⟩
          have := @post_split1 _ _ _ _ _ _ _ _ _ _ _ _ _ (cs.isEmpty && pc.isNone && ac.isNone)
            _ _ _ ppath hinv hl0 hlt hp0h hplh hnames
          rw [hpl] at this
          rw [hsrch]
          exact this
      · have hlt2 : l < search.length := by
          have h1 : (search.take l).length = ((p0 :: ptail).take l).length := by rw [htake]
          simp only [List.length_take] at h1
          omega
        obtain ⟨sl, srest, hsl⟩ : ∃ sl srest, search.drop l = sl :: srest := by
          cases hd : search.drop l with
          | nil =>
            have := congrArg List.length hd
            simp only [List.length_drop, List.length_nil] at this
            omega
          | cons a as => exact ⟨a, as, rfl⟩
        have hsrch : search = (p0 :: ptail).take l ++ sl :: srest := by
          rw [← htake, ← hsl, List.take_append_drop]
        have hne : sl ≠ pl := by
          intro he
          apply hmis hlt2 hlt
          rw [List.get?_eq_getElem?, List.get?_eq_getElem?, ← List.head?_drop, ← List.head?_drop,
            hsl, hpl, he]
          rfl
        have hnw2 : NoWild (sl :: srest) := by
          rw [← hsl]; exact hnw.drop l
        rw [hpl, newNode_cons]
        simp only []
        rw [if_neg hls, hsl, newNode_cons]
        simp only []
        right
        refine ⟨?_, ?_⟩
        · rintro ⟨_, m, hat, _⟩
          rw [hsrch] at hat
          exact @no_key_inside_pfx (.mk .skind lab (p0 :: ptail) cs pp pn hs pc ac lf) m
            l (sl :: srest) hlt (by
              simp only [node.pfx_mk, hplh, List.head?_cons]
              exact fun he => hne (Option.some.inj he)) hat
        · refine ⟨_, rfl, ?_⟩
          have := @post_split2 _ _ _ _ _ _ _ _ _ _ _ _ _ (cs.isEmpty && pc.isNone && ac.isNone)
            (([] : List node).isEmpty && (none : Option node).isNone &&
              (none : Option node).isNone) _ _ _ _ _ ppath hinv hl0 hlt hp0h
            hplh hne hnw2 hnames
          rw [hpl] at this
          rw [hsrch]
          exact this
    · have hleq : lcp search pre = pre.length := by
        have := lcp_le_right search pre
        omega
      have hsearch : search = pre ++ search.drop pre.length := eq_append_of_lcp_eq_length hleq
      simp only [hleq, Nat.lt_irrefl, if_false]
      by_cases hlt2 : pre.length < search.length
      · simp only [hlt2, if_true]
        cases hdrop : search.drop pre.length with
        | nil =>
          have := congrArg List.length hdrop
          simp at this
          omega
        | cons c0 rest =>
          rw [hdrop] at hsearch
          simp only []
          subst hsearch
          have hstep := hpre.step
          have hlenc : (c0 :: rest).length < b := by
            simp only [List.length_append, List.length_cons] at hlen ⊢
            omega
          cases hf : findChildWithLabel (.mk k lab pre cs pp pn hs pc ac lf) c0 with
          | some c =>
            simp only []
            rcases hstep with ⟨hc1, hc2, hS, _⟩ | ⟨hc0, hP, _⟩ | ⟨hc0, hrest, ht, hh, _, _⟩
            · -- a static child
              have hfind : cs.find? (fun x => x.label == c0) = some c := by
                rcases findChildWithLabel_cases hf with h1 | ⟨_, h1, _⟩ | ⟨_, h1, _⟩
                · exact h1
                · exact absurd h1 hc1
                · exact absurd h1 hc2
              rcases ih N d c (c0 :: rest) (hS c hfind) hlenc with
                ⟨hh, hr, he⟩ | ⟨hnr, c1, hok, hpost⟩
              · left
                refine ⟨hh, (hasRoute_via_slot hinv hf).mpr hr, ?_⟩
                rw [he]
              · right
                refine ⟨fun hx => hnr ⟨hx.1, (hasRoute_via_slot hinv hf).mp hx.2⟩, ?_⟩
                rw [hok]
                simp only [setChildWithLabel, any_label_of_find? hfind, if_true]
                exact ⟨_, rfl, post_child hinv hfind hpost⟩
            · -- the param child
              subst hc0
              have hnone := find?_wild_none hinv (Or.inl rfl)
              simp only [node.children_mk] at hnone
              have hpc : pc = some c := by
                rcases findChildWithLabel_cases hf with h1 | ⟨_, _, h1⟩ | ⟨_, h1, _⟩
                · simp only [node.children_mk] at h1
                  rw [hnone] at h1
                  cases h1
                · exact h1
                · exact absurd h1 (by decide)
              subst hpc
              rcases ih N (d + 1) c (':' :: rest) (hP c rfl) hlenc with
                ⟨hh, hr, he⟩ | ⟨hnr, c1, hok, hpost⟩
              · left
                refine ⟨hh, (hasRoute_via_slot hinv hf).mpr hr, ?_⟩
                rw [he]
              · right
                refine ⟨fun hx => hnr ⟨hx.1, (hasRoute_via_slot hinv hf).mp hx.2⟩, ?_⟩
                rw [hok]
                simp only [setChildWithLabel, any_label_of_find?_none hnone, Bool.false_eq_true,
                  if_false, if_true, Option.map_some']
                exact ⟨_, rfl, post_param hinv hpost⟩
            · -- the catch-all child holds handlers: the insert is a duplicate
              subst hc0
              subst hrest
              have hnone := find?_wild_none hinv (Or.inr rfl)
              simp only [node.children_mk] at hnone
              have hac : ac = some c := by
                rcases findChildWithLabel_cases hf with h1 | ⟨_, h1, _⟩ | ⟨_, _, h1⟩
                · simp only [node.children_mk] at h1
                  rw [hnone] at h1
                  cases h1
                · exact absurd h1 (by decide)
                · exact h1
              have hshape := hinv.any_shape (c := c) hac
              left
              refine ⟨hh, (hasRoute_via_slot hinv hf).mpr ⟨c, ?_, hshape.2.2.2.2.2⟩, ?_⟩
              · have := At.here c
                rw [hshape.2.1] at this
                exact this
              · obtain ⟨b1, hb1⟩ : ∃ b1, b = b1 + 1 := ⟨b - 1, by
                  simp only [List.length_cons, List.length_nil] at hlenc
                  omega⟩
                subst hb1
                cases c with
                | mk k1 lab1 pre1 cs1 pp1 pn1 hs1 pc1 ac1 lf1 =>
                  simp only [node.pfx_mk, node.handlers_mk] at hshape
                  obtain ⟨_, hp1, _, _, _, hhs1⟩ := hshape
                  subst hp1
                  rw [insertLoop_succ]
                  simp [lcp, hhs1, hh]
          | none =>
            simp only []
            have hno := @no_key_of_slot_none _ _ _ _ rest hinv hf
            simp only [node.pfx_mk] at hno
            have hnr : ¬ (h.isSome = true ∧
                HasRoute (.mk k lab pre cs pp pn hs pc ac lf) (pre ++ c0 :: rest)) := by
              rintro ⟨_, m, hat, _⟩
              exact hno ⟨m, hat⟩
            rw [newNode_cons]
            simp only []
            right
            refine ⟨hnr, ?_⟩
            rcases hstep with ⟨hc1, hc2, _, hN⟩ | ⟨hc0, _, hN⟩ | ⟨hc0, hrest, ht, hh, hd1, hn⟩
            · have hfind : cs.find? (fun x => x.label == c0) = none := by
                cases hfd : cs.find? (fun x => x.label == c0) with
                | none => rfl
                | some y =>
                  simp [findChildWithLabel, hfd] at hf
              obtain ⟨ht, hnw, hn⟩ := hN hfind
              subst ht
              exact ⟨_, rfl, post_newStatic hinv hfind hnw hn hno⟩
            · subst hc0
              have hnone := find?_wild_none hinv (Or.inl rfl)
              simp only [node.children_mk] at hnone
              have hpc : pc = none := by
                simpa [findChildWithLabel, hnone] using hf
              subst hpc
              obtain ⟨ht, hrest, hd1, hn⟩ := hN rfl
              subst ht
              subst hrest
              exact ⟨_, rfl, post_newParam hinv hd1 hn hno⟩
            · subst hc0
              subst hrest
              subst ht
              have hnone := find?_wild_none hinv (Or.inr rfl)
              simp only [node.children_mk] at hnone
              have hac : ac = none := by
                have hne : ('*' : Char) ≠ ':' := by decide
                simpa [findChildWithLabel, hnone, hne] using hf
              subst hac
              exact ⟨_, rfl, post_newAny hinv hd1 hh hn hno⟩
      · simp only [hlt2, if_false]
        have hsp : search = pre := by
          have hd : search.drop pre.length = [] := by
            apply List.drop_eq_nil_of_le
            omega
          rw [hd] at hsearch
          simpa using hsearch
        subst hsp
        by_cases hdup : hs.isSome = true ∧ h.isSome = true
        · left
          exact ⟨hdup.2, ⟨_, At.here (node.mk k lab search cs pp pn hs pc ac lf), hdup.1⟩, by
            rw [if_pos hdup]⟩
        · right
          have hnr : ¬ (h.isSome = true ∧
              HasRoute (.mk k lab search cs pp pn hs pc ac lf) search) := by
            rintro ⟨hh, m, hat, hm⟩
            have := key_eq_pfx_unique hinv hat
            subst this
            exact hdup ⟨hm, hh⟩
          rw [if_neg hdup]
          by_cases hh : h.isSome = true
          · refine ⟨hnr, _, by rw [if_pos hh], post_exact hinv hh ?_⟩
            have := hpre.names hh
            simp only [node.pfx_mk] at this
            omega
          · have h0 : h = none := by
              cases h with
              | none => rfl
              | some v => simp at hh
            subst h0
            exact ⟨hnr, _, by rw [if_neg hh],
              post_refl hinv ⟨_, At.here (node.mk k lab search cs pp pn hs pc ac lf)⟩⟩

end route


namespace route

/-! ## `insert` on a tree -/

theorem at_emptyRoot {K : Str} {m : node} (h : At emptyRoot K m) : K = [] ∧ m = emptyRoot :=
  h.of_leaf rfl rfl rfl

theorem insert_emptyRoot (h : HandlersChain) (ppath : Str) (pnames : List Str) (c0 : Char)
    (rest : Str) :
    insert emptyRoot (c0 :: rest) h .skind ppath pnames =
      .ok (if h.isSome then .mk .skind c0 (c0 :: rest) [] ppath pnames h none none true
        else .mk .skind c0 (c0 :: rest) [] [] [] none none none true) := by
  unfold insert
  simp only [List.length_cons, emptyRoot]
  rw [insertLoop_succ]
  simp only [lcp_eq_zero_of_nil, if_true]
  by_cases hh : h.isSome = true
  · simp [hh]
  · simp [hh]

theorem insert_spec (h : HandlersChain) (t : kind) (ppath : Str) (pnames : List Str)
    (N : Nat) (r : node) (path : Str) (hpre : RootPre N r h t pnames path) :
    (h.isSome ∧ HasRoute r path ∧
        insert r path h t ppath pnames = .error (.duplicate ppath)) ∨
      (¬ (h.isSome ∧ HasRoute r path) ∧
        ∃ r1, insert r path h t ppath pnames = .ok r1 ∧ RootPost N h pnames path r r1) := by
  rcases hpre.good with hr | ⟨hinv, hkind, hhead⟩
  · -- the first insert into the empty root
    subst hr
    have hshape : t = .skind ∧ NoWild path := by
      rcases hpre.shape with ⟨w, u, m, _, hw, hat, _⟩ | h2
      · exact absurd (at_emptyRoot hat).1 hw
      · exact h2
    obtain ⟨ht, hnw⟩ := hshape
    subst ht
    cases path with
    | nil => have := hpre.head; simp at this
    | cons c0 rest =>
      have hc0 : c0 = '/' := by
        have := hpre.head
        simpa using this
      have hnr : ¬ (h.isSome = true ∧ HasRoute emptyRoot (c0 :: rest)) := by
        rintro ⟨_, m, hat, _⟩
        have := (at_emptyRoot hat).1
        cases this
      have hnames : h.isSome = true → pnames.length = 0 := by
        intro hh
        rw [hpre.names hh, wcount_of_noWild hnw]
      right
      refine ⟨hnr, _, insert_emptyRoot h ppath pnames c0 rest, ?_⟩
      by_cases hh : h.isSome = true
      · simp only [hh, if_true]
        refine ⟨inv_leaf (Nat.zero_le N) (fun _ => hnw) (fun _ => hnames hh), rfl, by
          simp [hc0], ?_, ?_, ?_, ?_, ?_, ?_⟩
        · intro K m hat hm
          have := (at_emptyRoot hat).2
          subst this
          simp [emptyRoot] at hm
        · exact ⟨_, At.here (node.mk .skind c0 (c0 :: rest) [] ppath pnames h none none true),
            fun _ => ⟨rfl, rfl⟩⟩
        · intro K m1 hat hsome
          obtain ⟨hK, hm⟩ := hat.of_leaf rfl rfl rfl
          subst hm
          exact Or.inl ⟨hK, hh, rfl, rfl⟩
        · intro h0
          rw [h0] at hh
          simp at hh
        · intro K m hat hK
          exact absurd (at_emptyRoot hat).1 hK
        · intro K m1 hat
          exact Or.inr (Or.inl (hat.of_leaf rfl rfl rfl).1)
      · simp only [hh, Bool.false_eq_true, if_false]
        refine ⟨inv_leaf (Nat.zero_le N) (fun _ => hnw) (fun hx => by simp at hx), rfl, by
          simp [hc0], ?_, ?_, ?_, ?_, ?_, ?_⟩
        · intro K m hat hm
          have := (at_emptyRoot hat).2
          subst this
          simp [emptyRoot] at hm
        · exact ⟨_, At.here (node.mk .skind c0 (c0 :: rest) [] [] [] none none none true),
            fun hx => absurd hx hh⟩
        · intro K m1 hat hsome
          obtain ⟨hK, hm⟩ := hat.of_leaf rfl rfl rfl
          subst hm
          simp at hsome
        · rintro _ ⟨m, hat⟩
          have := (at_emptyRoot hat).1
          cases this
        · intro K m hat hK
          exact absurd (at_emptyRoot hat).1 hK
        · intro K m1 hat
          exact Or.inr (Or.inl (hat.of_leaf rfl rfl rfl).1)
  · -- a tree that holds routes
    have hwp : wcount r.pfx = 0 := wcount_of_noWild (hinv.noWild hkind)
    have hipre : InsertPre N 0 r h t pnames path := by
      refine ⟨hinv, hpre.star, hpre.anyH, ?_, ?_, ?_⟩
      · intro hh
        rw [hwp, hpre.names hh]; omega
      · rw [hwp]
        have := hpre.bound
        omega
      · rcases hpre.shape with ⟨w, u, m, hsplit, _, hat, htail⟩ | ⟨ht, hnw⟩
        · exact Or.inl ⟨w, u, m, hsplit, hat, htail⟩
        · refine Or.inr ⟨ht, hkind, hnw, ?_, ?_⟩
          · intro h0
            have := hpre.head
            rw [h0] at this
            simp at this
          · rw [hpre.head, hhead]
    rcases insertLoop_spec h t ppath pnames (path.length + 1) N 0 r path hipre
      (Nat.lt_succ_self _) with ⟨hh, hr, he⟩ | ⟨hnr, r1, hok, hpost⟩
    · exact Or.inl ⟨hh, hr, he⟩
    · right
      refine ⟨hnr, r1, hok, hpost.inv, hpost.kindEq.trans hkind, hpost.headEq.trans hhead, ?_,
        hpost.added, hpost.back, hpost.noop, ?_, hpost.gen⟩
      · intro K m hat _ hcond
        exact hpost.keep K m hat hcond
      · intro K m hat _
        by_cases hK : K = path
        · obtain ⟨m1, hat1, _⟩ := hpost.added
          exact ⟨m1, by rw [hK]; exact hat1⟩
        · obtain ⟨m1, hat1, _⟩ := hpost.keep K m hat (Or.inl hK)
          exact ⟨m1, hat1⟩

end route


namespace route

/-! ## Pieces of a pattern -/

theorem parseSegs_plain {c : Char} (s : Str) (h1 : c ≠ ':') (h2 : c ≠ '*') :
    parseSegs none (c :: s) = .lit c :: parseSegs none s := by
  simp [parseSegs, h1, h2]

theorem parseSegs_star (s : Str) : parseSegs none ('*' :: s) = [.catchAll s] := by
  have h : ('*' : Char) ≠ ':' := by decide
  simp [parseSegs, h]

theorem parseSegs_colon (s : Str) : parseSegs none (':' :: s) = parseSegs (some []) s := by
  simp [parseSegs]

theorem parseSegs_name : ∀ (s acc : Str),
    parseSegs (some acc) s =
      match s.dropWhile (fun a => a != '/') with
      | [] => [.param (acc ++ s.takeWhile (fun a => a != '/'))]
      | _ :: s2 => .param (acc ++ s.takeWhile (fun a => a != '/')) :: .lit '/' ::
          parseSegs none s2
  | [], acc => by simp [parseSegs]
  | c :: s, acc => by
    by_cases hc : c = '/'
    · subst hc
      simp [parseSegs, List.dropWhile, List.takeWhile]
    · have ih := parseSegs_name s (acc ++ [c])
      have hb : (c != '/') = true := by simpa using hc
      simp only [parseSegs, hc, if_false, List.dropWhile, List.takeWhile, hb]
      rw [ih]
      simp

theorem dropWhile_head_slash {s : Str} {x : Char} {s2 : Str}
    (h : s.dropWhile (fun a => a != '/') = x :: s2) : x = '/' := by
  have := List.head_dropWhile_not (fun a => a != '/') s (by rw [h]; simp)
  simp only [h, List.head_cons] at this
  simpa using this

/-! ## Keys at the wildcard markers -/

theorem key_boundary {n m : node} {K : Str} (hat : At n K m) :
    ∀ (N d : Nat) (a : Str) (c : Char) (b : Str), Inv N d n → K = a ++ c :: b →
      (c = ':' ∨ c = '*') → (n.kind = .skind ∨ n.pfx = [':'] ∨ n.pfx = ['*']) →
      (a = [] ∨ ∃ m1, At n a m1) ∧ ∃ m2, At n (a ++ [c]) m2 := by
  -- the position of the marker: inside the prefix of the node, or below it
  have hpos : ∀ (n : node) (N d : Nat) (a : Str) (c : Char) (b K1 : Str), Inv N d n →
      n.pfx ++ K1 = a ++ c :: b → (c = ':' ∨ c = '*') →
      (n.kind = .skind ∨ n.pfx = [':'] ∨ n.pfx = ['*']) →
      (a = [] ∧ n.pfx = [c]) ∨ ∃ a1, a = n.pfx ++ a1 ∧ K1 = a1 ++ c :: b := by
    intro n N d a c b K1 hinv hK hc hn
    rcases List.append_eq_append_iff.mp hK with ⟨a', ha, hb⟩ | ⟨a', ha, hb⟩
    · exact Or.inr ⟨a', ha, hb⟩
    · cases a' with
      | nil =>
        simp only [List.append_nil] at ha
        simp only [List.nil_append] at hb
        exact Or.inr ⟨[], by simp [ha], by simp [hb]⟩
      | cons x a'' =>
        simp only [List.cons_append, List.cons.injEq] at hb
        obtain ⟨hx, _⟩ := hb
        subst hx
        have hmem : c ∈ n.pfx := by rw [ha]; simp
        rcases hn with hk | hp | hp
        · have := hinv.noWild hk c hmem
          rcases hc with h1 | h1
          · exact absurd h1 this.1
          · exact absurd h1 this.2
        · rw [hp] at ha hmem
          simp only [List.mem_singleton] at hmem
          subst hmem
          cases a with
          | nil => exact Or.inl ⟨rfl, hp⟩
          | cons y ys =>
            have := congrArg List.length ha
            simp at this
        · rw [hp] at ha hmem
          simp only [List.mem_singleton] at hmem
          subst hmem
          cases a with
          | nil => exact Or.inl ⟨rfl, hp⟩
          | cons y ys =>
            have := congrArg List.length ha
            simp at this
  induction hat with
  | here n =>
    intro N d a c b hinv hK hc hn
    rcases hpos n N d a c b [] hinv (by simpa using hK) hc hn with ⟨ha, hp⟩ | ⟨a1, _, h2⟩
    · subst ha
      refine ⟨Or.inl rfl, n, ?_⟩
      have := At.here n
      rw [hp] at this
      exact this
    · have := congrArg List.length h2
      simp only [List.length_nil, List.length_append, List.length_cons] at this
      omega
  | @child n x m K1 hx hat1 ih =>
    intro N d a c b hinv hK hc hn
    rcases hpos n N d a c b K1 hinv hK hc hn with ⟨ha, hp⟩ | ⟨a1, ha, hK1⟩
    · subst ha
      refine ⟨Or.inl rfl, n, ?_⟩
      have := At.here n
      rw [hp] at this
      exact this
    · obtain ⟨h1, m2, h2⟩ := ih N d a1 c b (hinv.child hx) hK1 hc (Or.inl (hinv.child_kind hx))
      subst ha
      refine ⟨Or.inr ?_, m2, ?_⟩
      · rcases h1 with h1 | ⟨m1, h1⟩
        · subst h1
          exact ⟨n, by simpa using At.here n⟩
        · exact ⟨m1, At.child hx h1⟩
      · rw [List.append_assoc]
        exact At.child hx h2
  | @param n x m K1 hx hat1 ih =>
    intro N d a c b hinv hK hc hn
    rcases hpos n N d a c b K1 hinv hK hc hn with ⟨ha, hp⟩ | ⟨a1, ha, hK1⟩
    · subst ha
      refine ⟨Or.inl rfl, n, ?_⟩
      have := At.here n
      rw [hp] at this
      exact this
    · obtain ⟨h1, m2, h2⟩ := ih N (d + 1) a1 c b (hinv.param hx) hK1 hc
        (Or.inr (Or.inl (hinv.param_shape hx).2))
      subst ha
      refine ⟨Or.inr ?_, m2, ?_⟩
      · rcases h1 with h1 | ⟨m1, h1⟩
        · subst h1
          exact ⟨n, by simpa using At.here n⟩
        · exact ⟨m1, At.param hx h1⟩
      · rw [List.append_assoc]
        exact At.param hx h2
  | @any n x m K1 hx hat1 ih =>
    intro N d a c b hinv hK hc hn
    rcases hpos n N d a c b K1 hinv hK hc hn with ⟨ha, hp⟩ | ⟨a1, ha, hK1⟩
    · subst ha
      refine ⟨Or.inl rfl, n, ?_⟩
      have := At.here n
      rw [hp] at this
      exact this
    · obtain ⟨h1, m2, h2⟩ := ih N (d + 1) a1 c b (hinv.any hx) hK1 hc
        (Or.inr (Or.inr (hinv.any_shape hx).2.1))
      subst ha
      refine ⟨Or.inr ?_, m2, ?_⟩
      · rcases h1 with h1 | ⟨m1, h1⟩
        · subst h1
          exact ⟨n, by simpa using At.here n⟩
        · exact ⟨m1, At.any hx h1⟩
      · rw [List.append_assoc]
        exact At.any hx h2

/-! ## Chaining the inserts of one registration -/

theorem RootPost.hasRoute_iff {N : Nat} {pn : List Str} {p : Str} {r r1 : node}
    (hp : RootPost N none pn p r r1) (K : Str) : HasRoute r1 K ↔ HasRoute r K := by
  constructor
  · rintro ⟨m1, hat, hm⟩
    rcases hp.back K m1 hat hm with ⟨_, hh, _⟩ | ⟨m, hat0, hh, _⟩
    · simp at hh
    · exact ⟨m, hat0, by rw [hh]; exact hm⟩
  · rintro ⟨m, hat, hm⟩
    obtain ⟨m1, hat1, hh, _⟩ := hp.keep K m hat hm (Or.inr rfl)
    exact ⟨m1, hat1, by rw [hh]; exact hm⟩

theorem RootPost.good {N : Nat} {h : HandlersChain} {pn : List Str} {p : Str} {r r1 : node}
    (hp : RootPost N h pn p r r1) : GoodTree N r1 :=
  Or.inr ⟨hp.inv, hp.kind, hp.head⟩

/-- A key that `insert` generates lies in every closed set of keys that holds the text
inserted and the keys of the tree. -/
theorem GenKey.closed {Z : Str → Prop} {r r1 : node} {s K : Str} {N : Nat} {m1 : node}
    (hZ : KeyClosed Z) (hold : ∀ K m, At r K m → K ≠ [] → Z K) (hs : Z s)
    (hinv : Inv N 0 r1) (hat : At r1 K m1) (h : GenKey r s K) :
    Z K := by
  have hKne : K ≠ [] := by
    obtain ⟨K1, hK1⟩ := hat.prefix_key
    intro h0
    rw [h0] at hK1
    have := hinv.pfx_ne_nil
    cases hp : r1.pfx with
    | nil => exact this hp
    | cons a as => rw [hp] at hK1; cases hK1
  rcases h with ⟨m, hat0⟩ | hs1 | ⟨K2, m2, hat2, hK⟩
  · exact hold K m hat0 hKne
  · rw [hs1]; exact hs
  · rw [hK]
    by_cases hK2 : K2 = []
    · exfalso
      apply hKne
      rw [hK, hK2, lcp_eq_zero_of_nil]
      rfl
    · exact hZ s K2 hs (hold K2 m2 hat2 hK2)

theorem Bnd.left {F : Str} {Z : Str → Prop} {a : Str} {c : Char} {b : Str} (h : Bnd F Z)
    (hF : F = a ++ c :: b) (hc : c = ':' ∨ c = '*') (ha : a ≠ []) : Z a := by
  rcases (h.2 a c b hF hc).1 with h0 | h0
  · exact absurd h0 ha
  · exact h0

theorem Bnd.mark {F : Str} {Z : Str → Prop} {a : Str} {c : Char} {b : Str} (h : Bnd F Z)
    (hF : F = a ++ c :: b) (hc : c = ':' ∨ c = '*') : Z (a ++ [c]) :=
  (h.2 a c b hF hc).2

theorem RootPost.toAdd {N : Nat} {hh : List HandlerFunc} {names : List Str} {F : Str}
    {r r1 : node} (hp : RootPost N (some hh) names F r r1) (hno : ¬ HasRoute r F) :
    AddPost N hh names F r r1 := by
  refine ⟨hp.inv, hp.kind, hp.head, ?_, ?_, ?_, hp.keepAll, ?_⟩
  · intro K m hat hm
    refine hp.keep K m hat hm (Or.inl ?_)
    intro hK
    subst hK
    exact hno ⟨m, hat, hm⟩
  · obtain ⟨m1, hat, hx⟩ := hp.added
    exact ⟨m1, hat, hx rfl⟩
  · intro K m1 hat hm
    rcases hp.back K m1 hat hm with ⟨hK, _, h1, h2⟩ | hr
    · exact Or.inl ⟨hK, h1, h2⟩
    · exact Or.inr hr
  · intro Z hZ hold hb K m1 hat
    exact GenKey.closed hZ hold hb.1 hp.inv hat (hp.gen K m1 hat)

theorem AddPost.after {N : Nat} {hh : List HandlerFunc} {names pn : List Str} {F p : Str}
    {r r1 r2 : node} (h1 : RootPost N none pn p r r1) (h2 : AddPost N hh names F r1 r2)
    (hp : ∀ Z : Str → Prop, Bnd F Z → Z p) :
    AddPost N hh names F r r2 := by
  refine ⟨h2.inv, h2.kind, h2.head, ?_, h2.added, ?_, ?_, ?_⟩
  · intro K m hat hm
    obtain ⟨m1, hat1, hh1, hp1⟩ := h1.keep K m hat hm (Or.inr rfl)
    obtain ⟨m2, hat2, hh2, hp2⟩ := h2.keep K m1 hat1 (by rw [hh1]; exact hm)
    exact ⟨m2, hat2, hh2.trans hh1, hp2.trans hp1⟩
  · intro K m2 hat hm
    rcases h2.back K m2 hat hm with hl | ⟨m1, hat1, hh1, hp1⟩
    · exact Or.inl hl
    · rcases h1.back K m1 hat1 (by rw [hh1]; exact hm) with ⟨_, hx, _⟩ | ⟨m, hat0, hh0, hp0⟩
      · simp at hx
      · exact Or.inr ⟨m, hat0, hh0.trans hh1, hp0.trans hp1⟩
  · intro K m hat hK
    obtain ⟨m1, hat1⟩ := h1.keepAll K m hat hK
    exact h2.keepAll K m1 hat1 hK
  · intro Z hZ hold hb K m2 hat
    refine h2.gen Z hZ ?_ hb K m2 hat
    intro K1 m1 hat1 _
    exact GenKey.closed hZ hold (hp Z hb) h1.inv hat1 (h1.gen K1 m1 hat1)

end route


namespace route

/-! ## The loop of `addRoute` -/

theorem take_takeWhile_length (p : Char → Bool) (s : Str) :
    s.take (s.takeWhile p).length = s.takeWhile p := by
  have := @List.take_left' _ (s.takeWhile p) (s.dropWhile p) _ rfl
  rwa [List.takeWhile_append_dropWhile] at this

theorem drop_takeWhile_length (p : Char → Bool) (s : Str) :
    s.drop (s.takeWhile p).length = s.dropWhile p := by
  have := @List.drop_left' _ (s.takeWhile p) (s.dropWhile p) _ rfl
  rwa [List.takeWhile_append_dropWhile] at this

theorem get?_append_length (cp : Str) (c : Char) (rest : Str) :
    (cp ++ c :: rest).get? cp.length = some c := by
  rw [List.get?_eq_getElem?, List.getElem?_append_right (le_refl _)]
  simp

theorem addRouteLoop_succ (ppath : Str) (h : HandlersChain) (budget : Nat) (r : node)
    (path : Str) (pnames : List Str) (i : Nat) :
    addRouteLoop ppath h (budget + 1) r path pnames i =
      if i < path.length then
        if path.get? i = some ':' then
          match insert r (path.take i) none .skind [] [] with
          | .error p => .panicked p r
          | .ok r1 =>
            if i + 1 = (path.take (i + 1) ++ path.drop (skipToSlash path i)).length then
              match insert r1 ((path.take (i + 1) ++ path.drop (skipToSlash path i)).take (i + 1))
                  h .pkind [] (pnames ++ [(path.take (skipToSlash path i)).drop (i + 1)]) with
              | .error p => .panicked p r1
              | .ok r2 => .ok r2
            else
              match insert r1 ((path.take (i + 1) ++ path.drop (skipToSlash path i)).take (i + 1))
                  none .pkind [] (pnames ++ [(path.take (skipToSlash path i)).drop (i + 1)]) with
              | .error p => .panicked p r1
              | .ok r2 =>
                addRouteLoop ppath h budget r2
                  (path.take (i + 1) ++ path.drop (skipToSlash path i))
                  (pnames ++ [(path.take (skipToSlash path i)).drop (i + 1)]) (i + 1 + 1)
        else if path.get? i = some '*' then
          match insert r (path.take i) none .skind [] [] with
          | .error p => .panicked p r
          | .ok r1 =>
            match insert r1 (path.take (i + 1)) h .akind ppath (pnames ++ [path.drop (i + 1)]) with
            | .error p => .panicked p r1
            | .ok r2 => .ok r2
        else addRouteLoop ppath h budget r path pnames (i + 1)
      else
        match insert r path h .skind ppath pnames with
        | .error p => .panicked p r
        | .ok r1 => .ok r1 := by
  rfl

theorem addRouteLoop_end (ppath : Str) (h : HandlersChain) (budget : Nat) (r : node)
    (cp : Str) (pnames : List Str) :
    addRouteLoop ppath h (budget + 1) r cp pnames cp.length =
      match insert r cp h .skind ppath pnames with
      | .error p => .panicked p r
      | .ok r1 => .ok r1 := by
  rw [addRouteLoop_succ]
  simp

theorem addRouteLoop_plain (ppath : Str) (h : HandlersChain) (budget : Nat) (r : node)
    (cp : Str) (c : Char) (rest1 : Str) (pnames : List Str) (h1 : c ≠ ':') (h2 : c ≠ '*') :
    addRouteLoop ppath h (budget + 1) r (cp ++ c :: rest1) pnames cp.length =
      addRouteLoop ppath h budget r ((cp ++ [c]) ++ rest1) pnames (cp ++ [c]).length := by
  have hlt : cp.length < (cp ++ c :: rest1).length := by simp
  have hget := get?_append_length cp c rest1
  have e1 : ¬ ((cp ++ c :: rest1).get? cp.length = some ':') := by
    rw [hget]; simpa using h1
  have e2 : ¬ ((cp ++ c :: rest1).get? cp.length = some '*') := by
    rw [hget]; simpa using h2
  rw [addRouteLoop_succ, if_pos hlt, if_neg e1, if_neg e2]
  simp

theorem addRouteLoop_star (ppath : Str) (h : HandlersChain) (budget : Nat) (r : node)
    (cp : Str) (rest1 : Str) (pnames : List Str) :
    addRouteLoop ppath h (budget + 1) r (cp ++ '*' :: rest1) pnames cp.length =
      match insert r cp none .skind [] [] with
      | .error p => .panicked p r
      | .ok r1 =>
        match insert r1 (cp ++ ['*']) h .akind ppath (pnames ++ [rest1]) with
        | .error p => .panicked p r1
        | .ok r2 => .ok r2 := by
  rw [addRouteLoop_succ]
  have hlt : cp.length < (cp ++ '*' :: rest1).length := by simp
  have hget := get?_append_length cp '*' rest1
  have hne : ('*' : Char) ≠ ':' := by decide
  have ht1 : (cp ++ '*' :: rest1).take cp.length = cp := by simp
  have ht2 : (cp ++ '*' :: rest1).take (cp.length + 1) = cp ++ ['*'] := by
    rw [List.take_append_eq_append_take]
    simp
  have hd : (cp ++ '*' :: rest1).drop (cp.length + 1) = rest1 := by
    rw [List.drop_append_eq_append_drop]
    simp
  simp only [hlt, if_true, hget, Option.some.injEq, hne, if_false, ht1, ht2, hd]

theorem addRouteLoop_colon (ppath : Str) (h : HandlersChain) (budget : Nat) (r : node)
    (cp : Str) (rest1 : Str) (pnames : List Str) :
    addRouteLoop ppath h (budget + 1) r (cp ++ ':' :: rest1) pnames cp.length =
      match insert r cp none .skind [] [] with
      | .error p => .panicked p r
      | .ok r1 =>
        match rest1.dropWhile (fun a => a != '/') with
        | [] =>
          match insert r1 (cp ++ [':']) h .pkind []
              (pnames ++ [rest1.takeWhile (fun a => a != '/')]) with
          | .error p => .panicked p r1
          | .ok r2 => .ok r2
        | x :: rest2 =>
          match insert r1 (cp ++ [':']) none .pkind []
              (pnames ++ [rest1.takeWhile (fun a => a != '/')]) with
          | .error p => .panicked p r1
          | .ok r2 =>
            addRouteLoop ppath h budget r2 ((cp ++ [':', x]) ++ rest2)
              (pnames ++ [rest1.takeWhile (fun a => a != '/')]) (cp ++ [':', x]).length := by
  rw [addRouteLoop_succ]
  have hlt : cp.length < (cp ++ ':' :: rest1).length := by simp
  have hget := get?_append_length cp ':' rest1
  have ht1 : (cp ++ ':' :: rest1).take cp.length = cp := by simp
  have hskip : skipToSlash (cp ++ ':' :: rest1) cp.length =
      cp.length + 1 + (rest1.takeWhile (fun a => a != '/')).length := by
    unfold skipToSlash
    have hd : (cp ++ ':' :: rest1).drop cp.length = ':' :: rest1 := by simp
    have hc : ((':' : Char) != '/') = true := by decide
    rw [hd, List.takeWhile_cons, hc]
    simp only [if_true, List.length_cons]
    omega
  have hname : ((cp ++ ':' :: rest1).take (cp.length + 1 +
      (rest1.takeWhile (fun a => a != '/')).length)).drop (cp.length + 1) =
      rest1.takeWhile (fun a => a != '/') := by
    rw [List.take_append_eq_append_take, List.drop_append_eq_append_drop]
    have h1 : cp.length + 1 + (rest1.takeWhile (fun a => a != '/')).length - cp.length =
        (rest1.takeWhile (fun a => a != '/')).length + 1 := by omega
    have h2 : cp.length + 1 - (List.take (cp.length + 1 +
        (rest1.takeWhile (fun a => a != '/')).length) cp).length = 1 := by
      simp
      omega
    rw [h1, h2]
    simp [take_takeWhile_length]
  have hpath : (cp ++ ':' :: rest1).take (cp.length + 1) ++
      (cp ++ ':' :: rest1).drop (cp.length + 1 +
        (rest1.takeWhile (fun a => a != '/')).length) =
      cp ++ ':' :: rest1.dropWhile (fun a => a != '/') := by
    rw [List.take_append_eq_append_take, List.drop_append_eq_append_drop]
    have h1 : cp.length + 1 + (rest1.takeWhile (fun a => a != '/')).length - cp.length =
        (rest1.takeWhile (fun a => a != '/')).length + 1 := by omega
    have e1 : List.take (cp.length + 1) cp = cp := List.take_of_length_le (by omega)
    have e2 : List.drop (cp.length + 1 + (rest1.takeWhile (fun a => a != '/')).length) cp =
        [] := List.drop_eq_nil_of_le (by omega)
    rw [h1]
    simp [drop_takeWhile_length, e1, e2]
  simp only [hlt, if_true, hget, ht1, hskip, hname, hpath]
  cases hi : insert r cp none .skind [] [] with
  | error p => rfl
  | ok r1 =>
    simp only []
    cases hdw : rest1.dropWhile (fun a => a != '/') with
    | nil =>
      have ht : (cp ++ [':']).take (cp.length + 1) = cp ++ [':'] := by
        rw [List.take_of_length_le]; simp
      simp [ht]
    | cons x rest2 =>
      have ht : (cp ++ ':' :: x :: rest2).take (cp.length + 1) = cp ++ [':'] := by
        rw [List.take_append_eq_append_take]
        simp
      have hne : ¬ (cp.length + 1 = (cp ++ ':' :: x :: rest2).length) := by
        simp
      simp only [hne, if_false, ht]
      cases hi2 : insert r1 (cp ++ [':']) none .pkind []
          (pnames ++ [rest1.takeWhile (fun a => a != '/')]) with
      | error p => rfl
      | ok r2 =>
        simp only []
        congr 1
        · simp
        · simp

end route


namespace route

theorem rootPre_static {N : Nat} {r : node} {h : HandlersChain} {pnames : List Str}
    {cp : Str} (hg : GoodTree N r) (hhead : cp.head? = some '/') (hcp : CpShape r cp)
    (hb : wcount cp ≤ N) (hn : h.isSome → pnames.length = wcount cp) :
    RootPre N r h .skind pnames cp := by
  refine ⟨hg, hhead, ?_, (fun ht => by cases ht), hn, hb, ?_⟩
  · intro a b hab
    exact absurd hab (hcp.1 a b)
  · obtain ⟨w, u, hwu, hnw, hw⟩ := hcp.2
    by_cases hw0 : w = []
    · subst hw0
      exact Or.inr ⟨rfl, by simpa [hwu] using hnw⟩
    · rcases hw with hw | ⟨m, hat⟩
      · exact absurd hw hw0
      · exact Or.inl ⟨w, u, m, hwu, hw0, hat, fun _ => hnw, (fun ht => by cases ht),
          (fun ht => by cases ht)⟩

theorem noStar_append_singleton {cp : Str} {c : Char} (hcp : ∀ a b, cp ≠ a ++ '*' :: b)
    {a b : Str} (hab : cp ++ [c] = a ++ '*' :: b) : c = '*' ∧ b = [] := by
  rcases List.append_eq_append_iff.mp hab with ⟨a', ha, hb⟩ | ⟨a', ha, hb⟩
  · cases a' with
    | nil =>
      simp only [List.nil_append, List.cons.injEq] at hb
      exact ⟨hb.1, hb.2.symm⟩
    | cons y ys =>
      simp only [List.cons_append, List.cons.injEq] at hb
      have := congrArg List.length hb.2
      simp only [List.length_nil, List.length_cons, List.length_append] at this
      omega
  · cases a' with
    | nil =>
      simp only [List.nil_append, List.cons.injEq] at hb
      exact ⟨hb.1.symm, hb.2⟩
    | cons y ys =>
      simp only [List.cons_append, List.cons.injEq] at hb
      exact absurd (hb.1 ▸ ha) (hcp a ys)

theorem rootPre_param {N : Nat} {r : node} {h : HandlersChain} {pnames : List Str}
    {cp : Str} (hg : GoodTree N r) (hhead : cp.head? = some '/')
    (hstar : ∀ a b, cp ≠ a ++ '*' :: b) (hat : ∃ m, At r cp m)
    (hb : wcount cp + 1 ≤ N) (hn : h.isSome → pnames.length = wcount cp + 1) :
    RootPre N r h .pkind pnames (cp ++ [':']) := by
  have hne : cp ≠ [] := by
    intro h0; rw [h0] at hhead; simp at hhead
  have hw : wcount (cp ++ [':']) = wcount cp + 1 := by
    rw [wcount_append]; simp [wcount]
  obtain ⟨m, hat⟩ := hat
  refine ⟨hg, ?_, ?_, (fun ht => by cases ht), ?_, ?_,
    Or.inl ⟨cp, [':'], m, rfl, hne, hat, (fun ht => by cases ht), (fun _ => Or.inl rfl),
      (fun ht => by cases ht)⟩⟩
  · cases cp with
    | nil => exact absurd rfl hne
    | cons a as => simpa using hhead
  · intro a b hab
    have := (noStar_append_singleton hstar hab).1
    exact absurd this (by decide)
  · intro hh; rw [hw]; exact hn hh
  · rw [hw]; exact hb

theorem rootPre_any {N : Nat} {r : node} {h : HandlersChain} {pnames : List Str}
    {cp : Str} (hg : GoodTree N r) (hhead : cp.head? = some '/')
    (hstar : ∀ a b, cp ≠ a ++ '*' :: b) (hat : ∃ m, At r cp m) (hh : h.isSome)
    (hb : wcount cp + 1 ≤ N) (hn : pnames.length = wcount cp + 1) :
    RootPre N r h .akind pnames (cp ++ ['*']) := by
  have hne : cp ≠ [] := by
    intro h0; rw [h0] at hhead; simp at hhead
  have hw : wcount (cp ++ ['*']) = wcount cp + 1 := by
    rw [wcount_append]; simp [wcount]
  obtain ⟨m, hat⟩ := hat
  refine ⟨hg, ?_, ?_, (fun _ => hh), ?_, ?_,
    Or.inl ⟨cp, ['*'], m, rfl, hne, hat, (fun ht => by cases ht), (fun ht => by cases ht),
      (fun _ => Or.inl rfl)⟩⟩
  · cases cp with
    | nil => exact absurd rfl hne
    | cons a as => simpa using hhead
  · intro a b hab
    exact ⟨rfl, (noStar_append_singleton hstar hab).2⟩
  · intro _; rw [hw]; exact hn
  · rw [hw]; exact hb

/-- A tree that holds a route below a key is not the empty root, and holds the keys at the
wildcard markers of the key. -/
theorem keys_of_route {N : Nat} {r : node} {cp : Str} {c : Char} {b : Str}
    (hg : GoodTree N r) (hne : cp ≠ []) (hc : c = ':' ∨ c = '*')
    (hr : HasRoute r (cp ++ c :: b)) : (∃ m, At r cp m) ∧ ∃ m, At r (cp ++ [c]) m := by
  obtain ⟨m, hat, hm⟩ := hr
  rcases hg with h0 | ⟨hinv, hk, _⟩
  · subst h0
    have := (at_emptyRoot hat).2
    subst this
    simp [emptyRoot] at hm
  · obtain ⟨h1, h2⟩ := key_boundary hat N 0 cp c b hinv rfl hc (Or.inl hk)
    rcases h1 with h1 | h1
    · exact absurd h1 hne
    · exact ⟨h1, h2⟩

end route


namespace route

theorem length_dropWhile_le (p : Char → Bool) (s : Str) : (s.dropWhile p).length ≤ s.length := by
  have := congrArg List.length (List.takeWhile_append_dropWhile p s)
  simp only [List.length_append] at this
  omega

theorem wcount_cons_plain {c : Char} {s : Str} (h1 : c ≠ ':') (h2 : c ≠ '*') :
    wcount (c :: s) = wcount s := by
  simp [wcount, h1, h2]

theorem CpShape.snoc {r : node} {cp : Str} {c : Char} (h : CpShape r cp) (h1 : c ≠ ':')
    (h2 : c ≠ '*') : CpShape r (cp ++ [c]) := by
  refine ⟨?_, ?_⟩
  · intro a b hab
    exact h2 (noStar_append_singleton h.1 hab).1
  · obtain ⟨w, u, hwu, hnw, hw⟩ := h.2
    refine ⟨w, u ++ [c], by rw [hwu, List.append_assoc], ?_, hw⟩
    apply hnw.append
    intro x hx
    simp only [List.mem_singleton] at hx
    subst hx
    exact ⟨h1, h2⟩

theorem addRouteLoop_spec (ppath : Str) (hh : List HandlerFunc) :
    ∀ (budget N : Nat) (r : node) (cp rest : Str) (pnames : List Str),
      GoodTree N r → (cp ++ rest).head? = some '/' → CpShape r cp →
      pnames.length = wcount cp →
      wcount cp + wcount (segsKey (parseSegs none rest)) ≤ N → rest.length < budget →
      (HasRoute r (cp ++ segsKey (parseSegs none rest)) ∧
          ∃ X, addRouteLoop ppath (some hh) budget r (cp ++ rest) pnames cp.length =
            .panicked (.duplicate X) r) ∨
        (¬ HasRoute r (cp ++ segsKey (parseSegs none rest)) ∧
          ∃ r1, addRouteLoop ppath (some hh) budget r (cp ++ rest) pnames cp.length = .ok r1 ∧
            AddPost N hh (pnames ++ segsNames (parseSegs none rest))
              (cp ++ segsKey (parseSegs none rest)) r r1) := by
  intro budget
  induction budget with
  | zero => intro N r cp rest pnames _ _ _ _ _ hlen; omega
  | succ b ih =>
    intro N r cp rest pnames hg hhead hcp hnames hbound hlen
    cases rest with
    | nil =>
      simp only [List.append_nil] at hhead ⊢
      simp only [parseSegs, segsKey, segsNames, List.append_nil, wcount, Nat.add_zero] at hbound ⊢
      rw [addRouteLoop_end]
      have hpre := @rootPre_static N r (some hh) pnames cp hg hhead hcp hbound
        (fun _ => hnames)
      rcases insert_spec (some hh) .skind ppath pnames N r cp hpre with
        ⟨_, hr, he⟩ | ⟨hnr, r1, hok, hpost⟩
      · left
        exact ⟨hr, ppath, by rw [he]⟩
      · right
        have hno : ¬ HasRoute r cp := fun hx => hnr ⟨rfl, hx⟩
        exact ⟨hno, r1, by rw [hok], hpost.toAdd hno⟩
    | cons c rest1 =>
      by_cases hc1 : c = ':'
      · -- a named parameter
        subst hc1
        have hcne : cp ≠ [] := by
          intro h0
          rw [h0] at hhead
          simp at hhead
        have hcphead : cp.head? = some '/' := by
          cases cp with
          | nil => exact absurd rfl hcne
          | cons a as => simpa using hhead
        rw [addRouteLoop_colon, parseSegs_colon, parseSegs_name]
        rw [parseSegs_colon, parseSegs_name] at hbound
        have hcpN : wcount cp ≤ N := Nat.le_trans (Nat.le_add_right _ _) hbound
        have hpre1 := @rootPre_static N r none [] cp hg hcphead hcp hcpN
          (fun hx => by simp at hx)
        rcases insert_spec none .skind [] [] N r cp hpre1 with
          ⟨hx, _⟩ | ⟨_, r1, hok1, hpost1⟩
        · simp at hx
        rw [hok1]
        simp only []
        cases hdw : rest1.dropWhile (fun a => a != '/') with
        | nil =>
          simp only [hdw, List.nil_append, segsKey, Seg.key, segsNames, List.append_nil] at hbound ⊢
          have hW : wcount [':'] = 1 := by simp [wcount]
          have hpre2 := @rootPre_param N r1 (some hh)
            (pnames ++ [rest1.takeWhile (fun a => a != '/')]) cp hpost1.good hcphead
            hcp.1 (by obtain ⟨m, hm, _⟩ := hpost1.added; exact ⟨m, hm⟩) (by omega)
            (fun _ => by simp [hnames])
          rcases insert_spec (some hh) .pkind [] _ N r1 (cp ++ [':']) hpre2 with
            ⟨_, hr, he⟩ | ⟨hnr, r2, hok2, hpost2⟩
          · left
            have hr0 := (hpost1.hasRoute_iff _).mp hr
            have hkeys := keys_of_route hg hcne (Or.inl rfl) hr0
            have h10 : r1 = r := hpost1.noop rfl hkeys.1
            refine ⟨hr0, [], ?_⟩
            rw [he, h10]
          · right
            have hno1 : ¬ HasRoute r1 (cp ++ [':']) := fun hx => hnr ⟨rfl, hx⟩
            refine ⟨fun hx => hno1 ((hpost1.hasRoute_iff _).mpr hx), r2, by rw [hok2], ?_⟩
            exact AddPost.after hpost1 (hpost2.toAdd hno1)
              (fun Z hb => Bnd.left (a := cp) (c := ':') (b := []) hb rfl (Or.inl rfl) hcne)
        | cons x rest2 =>
          have hx : x = '/' := dropWhile_head_slash hdw
          subst hx
          simp only [hdw, List.nil_append, segsKey, Seg.key, segsNames, List.cons_append,
            List.nil_append] at hbound ⊢
          have hW : wcount (':' :: '/' :: segsKey (parseSegs none rest2)) =
              1 + wcount (segsKey (parseSegs none rest2)) := by
            simp [wcount]
          rw [hW] at hbound
          have hpre2 := @rootPre_param N r1 none
            (pnames ++ [rest1.takeWhile (fun a => a != '/')]) cp hpost1.good hcphead
            hcp.1 (by obtain ⟨m, hm, _⟩ := hpost1.added; exact ⟨m, hm⟩) (by omega)
            (fun hx => by simp at hx)
          rcases insert_spec none .pkind [] _ N r1 (cp ++ [':']) hpre2 with
            ⟨hx, _⟩ | ⟨_, r2, hok2, hpost2⟩
          · simp at hx
          rw [hok2]
          simp only []
          have hlen2 : rest2.length < b := by
            have h1 := length_dropWhile_le (fun a => a != '/') rest1
            rw [hdw] at h1
            simp only [List.length_cons] at h1 hlen
            omega
          have hshape2 : CpShape r2 (cp ++ [':', '/']) := by
            refine ⟨?_, cp ++ [':'], ['/'], by simp, ?_, Or.inr ?_⟩
            · intro a b0 hab
              have h1 : (cp ++ [':']) ++ ['/'] = a ++ '*' :: b0 := by simpa using hab
              have h2 : ∀ a b, cp ++ [':'] ≠ a ++ '*' :: b := by
                intro a b hab2
                have := (noStar_append_singleton hcp.1 hab2).1
                exact absurd this (by decide)
              have := (noStar_append_singleton h2 h1).1
              exact absurd this (by decide)
            · intro y hy
              simp only [List.mem_singleton] at hy
              subst hy
              exact ⟨by decide, by decide⟩
            · obtain ⟨m, hm, _⟩ := hpost2.added
              exact ⟨m, hm⟩
          have hwc : wcount (cp ++ [':', '/']) = wcount cp + 1 := by
            rw [wcount_append]; simp [wcount]
          have hkey : cp ++ ':' :: '/' :: segsKey (parseSegs none rest2) =
              (cp ++ [':', '/']) ++ segsKey (parseSegs none rest2) := by simp
          have hnm : pnames ++ rest1.takeWhile (fun a => a != '/') ::
              segsNames (parseSegs none rest2) =
              (pnames ++ [rest1.takeWhile (fun a => a != '/')]) ++
                segsNames (parseSegs none rest2) := by simp
          rw [hkey, hnm]
          rcases ih N r2 (cp ++ [':', '/']) rest2
              (pnames ++ [rest1.takeWhile (fun a => a != '/')]) hpost2.good
              (by
                cases cp with
                | nil => exact absurd rfl hcne
                | cons a as => simpa using hhead)
              hshape2 (by simp [hnames, hwc]) (by rw [hwc]; omega) hlen2 with
            ⟨hr, X, he⟩ | ⟨hnr, r3, hok3, hpost3⟩
          · left
            have hr1 := (hpost2.hasRoute_iff _).mp hr
            have hr0 := (hpost1.hasRoute_iff _).mp hr1
            have hkeys := keys_of_route (b := '/' :: segsKey (parseSegs none rest2)) hg hcne
              (Or.inl rfl) (by simpa using hr0)
            have h10 : r1 = r := hpost1.noop rfl hkeys.1
            have h21 : r2 = r1 := hpost2.noop rfl (by rw [h10]; exact hkeys.2)
            refine ⟨hr0, X, ?_⟩
            rw [he, h21, h10]
          · right
            refine ⟨fun hx => hnr ((hpost2.hasRoute_iff _).mpr ((hpost1.hasRoute_iff _).mpr hx)),
              r3, hok3, ?_⟩
            exact AddPost.after hpost1 (AddPost.after hpost2 hpost3
                (fun Z hb => by
                  have := Bnd.mark (a := cp) (c := ':')
                    (b := '/' :: segsKey (parseSegs none rest2)) hb (by simp) (Or.inl rfl)
                  exact this))
              (fun Z hb => Bnd.left (a := cp) (c := ':')
                (b := '/' :: segsKey (parseSegs none rest2)) hb (by simp) (Or.inl rfl) hcne)
      · by_cases hc2 : c = '*'
        · -- the catch-all
          subst hc2
          have hcne : cp ≠ [] := by
            intro h0
            rw [h0] at hhead
            simp at hhead
          have hcphead : cp.head? = some '/' := by
            cases cp with
            | nil => exact absurd rfl hcne
            | cons a as => simpa using hhead
          rw [addRouteLoop_star, parseSegs_star]
          rw [parseSegs_star] at hbound
          simp only [segsKey, Seg.key, segsNames, List.append_nil] at hbound ⊢
          have hW : wcount ['*'] = 1 := by simp [wcount]
          have hpre1 := @rootPre_static N r none [] cp hg hcphead hcp (by omega)
            (fun hx => by simp at hx)
          rcases insert_spec none .skind [] [] N r cp hpre1 with
            ⟨hx, _⟩ | ⟨_, r1, hok1, hpost1⟩
          · simp at hx
          rw [hok1]
          simp only []
          have hpre2 := @rootPre_any N r1 (some hh) (pnames ++ [rest1]) cp hpost1.good
            hcphead hcp.1 (by obtain ⟨m, hm, _⟩ := hpost1.added; exact ⟨m, hm⟩) rfl (by omega)
            (by simp [hnames])
          rcases insert_spec (some hh) .akind ppath _ N r1 (cp ++ ['*']) hpre2 with
            ⟨_, hr, he⟩ | ⟨hnr, r2, hok2, hpost2⟩
          · left
            have hr0 := (hpost1.hasRoute_iff _).mp hr
            have hkeys := keys_of_route hg hcne (Or.inr rfl) hr0
            have h10 : r1 = r := hpost1.noop rfl hkeys.1
            refine ⟨hr0, ppath, ?_⟩
            rw [he, h10]
          · right
            have hno1 : ¬ HasRoute r1 (cp ++ ['*']) := fun hx => hnr ⟨rfl, hx⟩
            refine ⟨fun hx => hno1 ((hpost1.hasRoute_iff _).mpr hx), r2, by rw [hok2], ?_⟩
            exact AddPost.after hpost1 (hpost2.toAdd hno1)
              (fun Z hb => Bnd.left (a := cp) (c := '*') (b := []) hb rfl (Or.inr rfl) hcne)
        · -- a static byte
          rw [addRouteLoop_plain ppath (some hh) b r cp c rest1 pnames hc1 hc2,
            parseSegs_plain rest1 hc1 hc2]
          rw [parseSegs_plain rest1 hc1 hc2] at hbound
          simp only [segsKey, Seg.key, segsNames, List.singleton_append] at hbound ⊢
          have hkey : cp ++ c :: segsKey (parseSegs none rest1) =
              (cp ++ [c]) ++ segsKey (parseSegs none rest1) := by simp
          rw [hkey]
          have hwc : wcount (cp ++ [c]) = wcount cp := by
            rw [wcount_append, wcount_cons_plain hc1 hc2]; simp [wcount]
          rw [wcount_cons_plain hc1 hc2] at hbound
          exact ih N r (cp ++ [c]) rest1 pnames hg (by simpa using hhead) (hcp.snoc hc1 hc2)
            (by rw [hwc]; exact hnames) (by rw [hwc]; exact hbound)
            (by simp only [List.length_cons] at hlen; omega)

end route


namespace route

/-! ## Registration as a whole -/

theorem head_of_checkPahtValid {p : Str} (hv : checkPahtValid p = .ok ()) :
    p.head? = some '/' := by
  unfold checkPahtValid at hv
  by_cases h0 : p = []
  · rw [if_pos h0] at hv; cases hv
  · rw [if_neg h0] at hv
    by_cases h1 : p.head? ≠ some '/'
    · rw [if_pos h1] at hv; cases hv
    · exact not_not.mp h1

theorem checkPahtValid_of_addRoute_ok {r r1 : node} {p : Str} {h : HandlersChain}
    (hok : addRoute r p h = .ok r1) : checkPahtValid p = .ok () := by
  unfold addRoute at hok
  cases hc : checkPahtValid p with
  | error e => rw [hc] at hok; cases hok
  | ok u => rfl

theorem addRoute_spec {N : Nat} {r : node} {p : Str} (hh : List HandlerFunc)
    (hg : GoodTree N r) (hv : checkPahtValid p = .ok ()) (hb : wcount (collapse p) ≤ N) :
    (HasRoute r (collapse p) ∧ ∃ X, addRoute r p (some hh) = .panicked (.duplicate X) r) ∨
      (¬ HasRoute r (collapse p) ∧ ∃ r1, addRoute r p (some hh) = .ok r1 ∧
        AddPost N hh (wildcardNames p) (collapse p) r r1) := by
  have hhead := head_of_checkPahtValid hv
  have hcp : CpShape r [] :=
    ⟨(fun a b hab => by cases a <;> cases hab), [], [], rfl, NoWild.nil, Or.inl rfl⟩
  have hw0 : wcount [] = 0 := by simp [wcount]
  have hmain := addRouteLoop_spec p hh (p.length + 1) N r [] p [] hg
    (by simpa using hhead) hcp (by simp [hw0]) (by
      rw [hw0, Nat.zero_add]; exact hb) (Nat.lt_succ_self _)
  have hadd : addRoute r p (some hh) =
      addRouteLoop p (some hh) (p.length + 1) r p [] 0 := by
    unfold addRoute
    rw [hv]
    simp
  simp only [List.nil_append, List.length_nil] at hmain
  rw [hadd]
  exact hmain

/-- What holds of a tree built by successful registrations. -/
theorem Built.holds {r : node} {rs : List (Str × List HandlerFunc)} (hb : Built r rs) :
    ∀ N, (∀ x ∈ rs, wcount (collapse x.1) ≤ N) →
      GoodTree N r ∧
      (∀ x ∈ rs, checkPahtValid x.1 = .ok ()) ∧
      (∀ x ∈ rs, ∃ m, At r (collapse x.1) m ∧ m.handlers = some x.2 ∧
        m.pnames = wildcardNames x.1) ∧
      (∀ K m, At r K m → m.handlers.isSome → ∃ x ∈ rs, collapse x.1 = K ∧
        m.handlers = some x.2 ∧ m.pnames = wildcardNames x.1) ∧
      (rs.map (fun x => collapse x.1)).Nodup := by
  induction hb with
  | empty =>
    intro N _
    refine ⟨Or.inl rfl, ?_, ?_, ?_, ?_⟩
    · intro x hx; cases hx
    · intro x hx; cases hx
    · intro K m hat hm
      have := (at_emptyRoot hat).2
      subst this
      simp [emptyRoot] at hm
    · simp
  | @add r r1 rs p h hbuilt hok ih =>
    intro N hN
    have hN0 : ∀ x ∈ rs, wcount (collapse x.1) ≤ N :=
      fun x hx => hN x (List.mem_append_left _ hx)
    have hNp : wcount (collapse p) ≤ N := hN (p, h) (by simp)
    obtain ⟨hg, hval, hmem, hback, hnd⟩ := ih N hN0
    have hv := checkPahtValid_of_addRoute_ok hok
    rcases addRoute_spec h hg hv hNp with ⟨_, X, he⟩ | ⟨hno, r2, hok2, hpost⟩
    · rw [he] at hok; cases hok
    · rw [hok2] at hok
      cases hok
      refine ⟨Or.inr ⟨hpost.inv, hpost.kind, hpost.head⟩, ?_, ?_, ?_, ?_⟩
      · intro x hx
        rcases List.mem_append.mp hx with hx | hx
        · exact hval x hx
        · simp only [List.mem_singleton] at hx
          subst hx
          exact hv
      · intro x hx
        rcases List.mem_append.mp hx with hx | hx
        · obtain ⟨m, hat, hm, hp⟩ := hmem x hx
          obtain ⟨m1, hat1, hm1, hp1⟩ := hpost.keep _ m hat (by rw [hm]; rfl)
          exact ⟨m1, hat1, by rw [hm1, hm], by rw [hp1, hp]⟩
        · simp only [List.mem_singleton] at hx
          subst hx
          exact hpost.added
      · intro K m1 hat1 hm1
        rcases hpost.back K m1 hat1 hm1 with ⟨hK, hh1, hp1⟩ | ⟨m, hat, hh0, hp0⟩
        · exact ⟨(p, h), by simp, hK.symm, hh1, hp1⟩
        · obtain ⟨x, hx, hK, hxh, hxp⟩ := hback K m hat (by rw [hh0]; exact hm1)
          exact ⟨x, List.mem_append_left _ hx, hK, by rw [← hh0]; exact hxh,
            by rw [← hp0]; exact hxp⟩
      · rw [List.map_append, List.nodup_append]
        refine ⟨hnd, by simp, ?_⟩
        intro K hK1 hK2
        simp only [List.map_cons, List.map_nil, List.mem_singleton] at hK2
        subst hK2
        obtain ⟨x, hx, hxK⟩ := List.mem_map.mp hK1
        obtain ⟨m, hat, hm, _⟩ := hmem x hx
        apply hno
        rw [← hxK]
        exact ⟨m, hat, by rw [hm]; rfl⟩

/-- A bound on the number of wildcards of the registered patterns. -/
theorem exists_wildcard_bound (rs : List (Str × List HandlerFunc)) :
    ∃ N, ∀ x ∈ rs, wcount (collapse x.1) ≤ N := by
  induction rs with
  | nil => exact ⟨0, fun x hx => by cases hx⟩
  | cons y ys ih =>
    obtain ⟨N, hN⟩ := ih
    refine ⟨N + wcount (collapse y.1), ?_⟩
    intro x hx
    rcases List.mem_cons.mp hx with hx | hx
    · subst hx; omega
    · have := hN x hx; omega

end route

namespace route

theorem checkByte_not_duplicate (path : Str) (i : Nat) (c : Char) (X : Str) :
    checkByte path i c ≠ .error (.duplicate X) := by
  unfold checkByte
  intro h
  split_ifs at h <;> cases h

theorem checkLoop_not_duplicate (path : Str) (X : Str) : ∀ (rest : Str) (i : Nat),
    checkLoop path i rest ≠ .error (.duplicate X)
  | [], i => by simp [checkLoop]
  | c :: rest, i => by
    intro h
    unfold checkLoop at h
    cases hb : checkByte path i c with
    | error e =>
      rw [hb] at h
      simp only [Except.error.injEq] at h
      exact checkByte_not_duplicate path i c X (by rw [hb, h])
    | ok u =>
      rw [hb] at h
      exact checkLoop_not_duplicate path X rest (i + 1) h

theorem checkPahtValid_not_duplicate (path : Str) (X : Str) :
    checkPahtValid path ≠ .error (.duplicate X) := by
  unfold checkPahtValid
  intro h
  split_ifs at h
  · cases h
  · cases h
  · exact checkLoop_not_duplicate path X path 0 h

/-- A duplicate panic of `addRoute` on a good tree leaves the tree it was called on. -/
theorem addRoute_duplicate_tree {N : Nat} {r r1 : node} {p X : Str} {h : HandlersChain}
    (hg : GoodTree N r) (hb : wcount (collapse p) ≤ N)
    (hdup : addRoute r p h = .panicked (.duplicate X) r1) :
    r1 = r ∧ HasRoute r (collapse p) := by
  cases hc : checkPahtValid p with
  | error e =>
    rw [addRoute_of_checkPahtValid_error r p h e hc] at hdup
    simp only [Outcome.panicked.injEq] at hdup
    exact absurd (by rw [hc, hdup.1]) (checkPahtValid_not_duplicate p X)
  | ok u =>
    cases h with
    | none =>
      simp [addRoute, hc] at hdup
    | some hh =>
      rcases addRoute_spec hh hg hc hb with ⟨hr, Y, he⟩ | ⟨_, r2, hok, _⟩
      · rw [he] at hdup
        simp only [Outcome.panicked.injEq] at hdup
        exact ⟨hdup.2.symm, hr⟩
      · rw [hok] at hdup
        cases hdup

end route


namespace route

/-! ## The lookup as an exploration of the tree -/

theorem exploreList_eq (cap : Nat) : ∀ (cs : List node) (c0 : Char) (d : Nat) (s : Str),
    explore.exploreList cap cs c0 d s =
      match cs.find? (fun c => c.label == c0) with
      | some c => explore cap c d s
      | none => .fail
  | [], _, _, _ => by rw [explore.exploreList]; rfl
  | c :: cs, c0, d, s => by
    rw [explore.exploreList, List.find?_cons]
    by_cases h : (c.label == c0) = true
    · rw [if_pos h, h]
    · rw [if_neg h]
      have h1 : (c.label == c0) = false := by simpa using h
      rw [h1]
      exact exploreList_eq cap cs c0 d s

theorem explore_unfold (cap : Nat) (k : kind) (lab : Char) (pre : Str) (cs : List node)
    (pp : Str) (pn : List Str) (hs : HandlersChain) (pc ac : Option node) (lf : Bool)
    (d : Nat) (s : Str) :
    explore cap (.mk k lab pre cs pp pn hs pc ac lf) d s =
      if k = .skind ∧ ¬ (pre.length ≤ s.length ∧ pre = s.take pre.length) then .fail
      else
        if (if k = .skind then s.drop pre.length else s) = [] ∧ hs.getD [] ≠ [] then
          .hit pre [] (.mk k lab pre cs pp pn hs pc ac lf)
        else
          Found.under pre
            (Found.orElse
              (match (if k = .skind then s.drop pre.length else s) with
               | c0 :: _ =>
                 explore.exploreList cap cs c0 d (if k = .skind then s.drop pre.length else s)
               | [] => Found.fail)
              (Found.orElse
                (match pc with
                 | some c =>
                   if (if k = .skind then s.drop pre.length else s) ≠ [] then
                     if d + 1 ≤ cap then
                       Found.capture
                         ((if k = .skind then s.drop pre.length else s).takeWhile
                           (fun a => a != '/'))
                         (explore cap c (d + 1)
                           ((if k = .skind then s.drop pre.length else s).drop
                             ((if k = .skind then s.drop pre.length else s).takeWhile
                               (fun a => a != '/')).length))
                     else .panic
                   else .fail
                 | none => .fail)
                (exploreAny cap ac d (if k = .skind then s.drop pre.length else s)))) := by
  cases pc <;> cases ac <;> rfl

/-! ### The parameter buffer -/

theorem reslice_ok {ps : Params} {n : Nat} (h : n ≤ ps.arr.length) :
    ps.reslice n = .ok { arr := ps.arr, len := n } := by
  simp [Params.reslice, h]

theorem reslice_error {ps : Params} {n : Nat} (h : ¬ n ≤ ps.arr.length) :
    ps.reslice n = .error .outOfRange := by
  simp [Params.reslice, h]

theorem setValue_ok {ps : Params} {i : Nat} (v : Str) (h1 : i < ps.len)
    (h2 : i < ps.arr.length) :
    ∃ p, ps.arr.get? i = some p ∧
      ps.setValue i v = .ok { arr := ps.arr.set i { Key := p.Key, Value := v }, len := ps.len } := by
  obtain ⟨p, hp⟩ : ∃ p, ps.arr.get? i = some p := by
    cases hg : ps.arr.get? i with
    | none => rw [List.get?_eq_none] at hg; omega
    | some p => exact ⟨p, rfl⟩
  refine ⟨p, hp, ?_⟩
  unfold Params.setValue
  rw [if_pos h1, hp]

theorem values_length {ps : Params} {d : Nat} (h : d ≤ ps.arr.length) :
    (ps.values d).length = d := by
  simp [Params.values, h]

theorem values_set {arr : List Param} {d : Nat} (p : Param) (h : d < arr.length) :
    ((arr.set d p).take (d + 1)).map Param.Value =
      (arr.take d).map Param.Value ++ [p.Value] := by
  induction arr generalizing d with
  | nil => simp at h
  | cons a as ih =>
    cases d with
    | zero => simp
    | succ e =>
      simp only [List.length_cons] at h
      simp [ih (by omega : e < as.length)]

theorem values_take {ps : Params} {d e : Nat} (h : e ≤ d) :
    (ps.values d).take e = ps.values e := by
  simp [Params.values, ← List.map_take, List.take_take, Nat.min_eq_left h]

theorem value_ok {ps : Params} {b0 : List Str} {v : Str} {d : Nat} (hlen : ps.len = d)
    (hv : ps.values d = b0 ++ [v]) (hd : d = b0.length + 1) :
    ps.value b0.length = .ok v := by
  have h1 : (ps.values d).get? b0.length = some v := by
    rw [hv]
    simp
  unfold Params.values at h1
  rw [List.get?_eq_getElem?, List.getElem?_map] at h1
  have h2 : (ps.arr.take d)[b0.length]? = ps.arr[b0.length]? := by
    rw [List.getElem?_take]
    simp [hd]
  rw [h2] at h1
  cases hg : ps.arr[b0.length]? with
  | none => rw [hg] at h1; simp at h1
  | some p =>
    rw [hg] at h1
    simp only [Option.map_some', Option.some.injEq] at h1
    have hlt : b0.length < ps.len := by omega
    simp [Params.value, hlt, List.get?_eq_getElem?, hg, h1]

/-! ### Steps of the loop -/

theorem findLoop_jump {unescaped : Str → Option Str} {unescape : Bool} {path : Str}
    {l l1 : Label} {S S1 : Cursor} (h : step unescaped unescape path l S = .jump l1 S1)
    (f : Nat) :
    findLoop unescaped unescape path (f + 1) l S = findLoop unescaped unescape path f l1 S1 := by
  rw [findLoop, h]

theorem findLoop_done {unescaped : Str → Option Str} {unescape : Bool} {path : Str}
    {l : Label} {S : Cursor} {r : Except Panic (nodeValue × Params)}
    (h : step unescaped unescape path l S = .done r) (f : Nat) :
    findLoop unescaped unescape path (f + 1) l S = r := by
  rw [findLoop, h]

end route


namespace route

/-! ### Composition of simulations -/

section
variable {unescaped : Str → Option Str} {path : Str} {cap : Nat}

theorem Sim.relax {l : Label} {S : Cursor} {base : List Str} {parents : List node}
    {back : Label} {iB dB b b1 : Nat} (hb : b ≤ b1) :
    ∀ {R : Found}, Sim unescaped path cap l S base parents back iB dB b R →
      Sim unescaped path cap l S base parents back iB dB b1 R
  | .hit _ _ _, ⟨j, tsr, ps1, h1, h2, h3⟩ => ⟨j, tsr, ps1, h1, le_trans h2 hb, h3⟩
  | .panic, ⟨j, h1, h2, h3⟩ => ⟨j, h1, le_trans h2 hb, h3⟩
  | .fail, ⟨j, h1, h2, h3⟩ => ⟨j, h1, le_trans h2 hb, h3⟩

theorem Sim.under {l : Label} {S : Cursor} {base : List Str} {parents : List node}
    {back : Label} {iB dB b : Nat} (pre : Str) :
    ∀ {R : Found}, Sim unescaped path cap l S base parents back iB dB b R →
      Sim unescaped path cap l S base parents back iB dB b (R.under pre)
  | .hit _ _ _, h => h
  | .panic, h => h
  | .fail, h => h

theorem Sim.capture {l : Label} {S : Cursor} {base : List Str} {parents : List node}
    {back : Label} {iB dB b : Nat} {v : Str} (hd : dB ≤ base.length) :
    ∀ {R : Found}, Sim unescaped path cap l S (base ++ [v]) parents back iB dB b R →
      Sim unescaped path cap l S base parents back iB dB b (R.capture v)
  | .hit _ vs _, ⟨j, tsr, ps1, h1, h2, h3, h4, h5, h6, h7⟩ => by
    refine ⟨j, tsr, ps1, h1, h2, h3, ?_, h5, ?_, ?_⟩
    · rw [h4]; simp only [List.length_append, List.length_cons, List.length_nil]; omega
    · simp only [List.length_append, List.length_cons, List.length_nil] at h6 ⊢; omega
    · have e : base.length + (v :: vs).length = (base ++ [v]).length + vs.length := by
        simp only [List.length_append, List.length_cons, List.length_nil]; omega
      rw [e, h7]
      simp
  | .panic, h => h
  | .fail, ⟨j, h1, h2, h3⟩ => by
    refine ⟨j, h1, h2, ?_⟩
    rcases h3 with h3 | ⟨p, ps, S1, hp, hf, hpos, hv⟩
    · exact Or.inl h3
    · refine Or.inr ⟨p, ps, S1, hp, hf, hpos, ?_⟩
      rw [hv, List.take_append_of_le_length hd]

theorem Sim.of_jump {l l1 : Label} {S S1 : Cursor} {base : List Str} {parents : List node}
    {back : Label} {iB dB b : Nat}
    (hstep : step unescaped false path l S = .jump l1 S1) :
    ∀ {R : Found}, Sim unescaped path cap l1 S1 base parents back iB dB b R →
      Sim unescaped path cap l S base parents back iB dB (b + 1) R
  | .hit _ _ _, ⟨j, tsr, ps1, h1, h2, h3, h4⟩ => by
    refine ⟨j + 1, tsr, ps1, by omega, by omega, ?_, h4⟩
    intro f
    rw [show j + 1 + f = (j + f) + 1 by omega, findLoop_jump hstep]
    exact h3 f
  | .panic, ⟨j, h1, h2, h3⟩ => by
    refine ⟨j + 1, by omega, by omega, ?_⟩
    intro f
    rw [show j + 1 + f = (j + f) + 1 by omega, findLoop_jump hstep]
    exact h3 f
  | .fail, ⟨j, h1, h2, h3⟩ => by
    refine ⟨j + 1, by omega, by omega, ?_⟩
    rcases h3 with ⟨hp, tsr, ps1, hf, hl⟩ | ⟨p, ps, S2, hp, hf, hpos, hv⟩
    · refine Or.inl ⟨hp, tsr, ps1, ?_, hl⟩
      intro f
      rw [show j + 1 + f = (j + f) + 1 by omega, findLoop_jump hstep]
      exact hf f
    · refine Or.inr ⟨p, ps, S2, hp, ?_, hpos, hv⟩
      intro f
      rw [show j + 1 + f = (j + f) + 1 by omega, findLoop_jump hstep]
      exact hf f

/-- The alternative that `find` tries after a child has failed. -/
theorem Sim.orElse {l mid : Label} {S : Cursor} {base : List Str} {n : node}
    {ps : List node} {back : Label} {iM iB dB b1 b2 : Nat} {R2 : Found}
    (hnext : ∀ S1, Pos path cap S1 n ps iM base.length →
      S1.params.values base.length = base →
      Sim unescaped path cap mid S1 base ps back iB dB b2 R2) :
    ∀ {R1 : Found}, Sim unescaped path cap l S base (n :: ps) mid iM base.length b1 R1 →
      Sim unescaped path cap l S base ps back iB dB (b1 + b2) (R1.orElse R2)
  | .hit _ _ _, ⟨j, tsr, ps1, h1, h2, h3⟩ => ⟨j, tsr, ps1, h1, by omega, h3⟩
  | .panic, ⟨j, h1, h2, h3⟩ => ⟨j, h1, by omega, h3⟩
  | .fail, ⟨j, h1, h2, h3⟩ => by
    rcases h3 with ⟨hp, _⟩ | ⟨p, ps0, S1, hp, hf, hpos, hv⟩
    · cases hp
    · simp only [List.cons.injEq] at hp
      obtain ⟨hp1, hp2⟩ := hp
      subst hp1
      subst hp2
      rw [List.take_length] at hv
      have h2nd := hnext S1 hpos hv
      show Sim unescaped path cap l S base ps back iB dB (b1 + b2) R2
      cases R2 with
      | hit K vs m =>
        obtain ⟨j2, tsr, ps1, g1, g2, g3, g4⟩ := h2nd
        refine ⟨j + j2, tsr, ps1, by omega, by omega, ?_, g4⟩
        intro f
        rw [show j + j2 + f = j + (j2 + f) by omega, hf]
        exact g3 f
      | panic =>
        obtain ⟨j2, g1, g2, g3⟩ := h2nd
        refine ⟨j + j2, by omega, by omega, ?_⟩
        intro f
        rw [show j + j2 + f = j + (j2 + f) by omega, hf]
        exact g3 f
      | fail =>
        obtain ⟨j2, g1, g2, g3⟩ := h2nd
        refine ⟨j + j2, by omega, by omega, ?_⟩
        rcases g3 with ⟨gp, tsr, ps1, gf, gl⟩ | ⟨p, ps2, S2, gp, gf, gpos, gv⟩
        · refine Or.inl ⟨gp, tsr, ps1, ?_, gl⟩
          intro f
          rw [show j + j2 + f = j + (j2 + f) by omega, hf]
          exact gf f
        · refine Or.inr ⟨p, ps2, S2, gp, ?_, gpos, gv⟩
          intro f
          rw [show j + j2 + f = j + (j2 + f) by omega, hf]
          exact gf f

end

end route


namespace route

theorem length_takeWhile_le (p : Char → Bool) (s : Str) :
    (s.takeWhile p).length ≤ s.length := by
  have := congrArg List.length (List.takeWhile_append_dropWhile p s)
  simp only [List.length_append] at this
  omega

section
variable {unescaped : Str → Option Str} {path : Str} {cap : Nat}

/-- From the label `Any` of a node: the catch-all child takes the rest of the path, or the
lookup backtracks out of the node. -/
theorem sim_any {S : Cursor} {n : node} {parents : List node} {i1 d iB dB : Nat}
    {base : List Str} {back : Label}
    (hpos : Pos path cap S n parents i1 d) (hbase : S.params.values d = base)
    (hany : ∀ c, n.anyChild = some c → c.pnames.length = d + 1)
    (hR : (n.kind = .skind ∧ back = .param ∧ iB + n.pfx.length = i1 ∧ dB = d) ∨
      (n.kind = .pkind ∧ back = .any ∧
        ∃ b0 v, base = b0 ++ [v] ∧ dB = b0.length ∧ iB + v.length = i1)) :
    Sim unescaped path cap .any S base parents back iB dB 1
      (exploreAny cap n.anyChild d (path.drop i1)) := by
  obtain ⟨cn, prs, search, si, pi, params, tsr⟩ := S
  obtain ⟨h1, h2, h3, h4, hle, h5, hlen, hcap, hdle⟩ := hpos
  simp only at h1 h2 h3 h4 h5 hlen hcap hbase
  subst h1 h2 h3 h4 h5
  have hbl : base.length = pi := by
    rw [← hbase]; exact values_length (by omega)
  cases hac : cn.anyChild with
  | some c =>
    have hpn := hany c hac
    unfold exploreAny
    simp only []
    by_cases hc : pi + 1 ≤ cap
    · rw [if_pos hc]
      have hres : params.reslice (pi + 1) = .ok { arr := params.arr, len := pi + 1 } :=
        reslice_ok (by omega)
      obtain ⟨p, hp, hset⟩ := @setValue_ok { arr := params.arr, len := pi + 1 } pi
        (path.drop si) (Nat.lt_succ_self _) (by show pi < params.arr.length; omega)
      simp only [] at hset
      have hstep : step unescaped false path .any
          { cn := cn, parents := prs, search := path.drop si, searchIndex := si,
            paramIndex := pi, params := params, tsr := tsr } =
          .done (finish (some c) c.handlers tsr
            { arr := params.arr.set pi { Key := p.Key, Value := path.drop si },
              len := pi + 1 }) := by
        simp only [step, stepAny, hac, hres, hpn, Nat.add_sub_cancel]
        simp only [Bool.false_eq_true, if_false, Nat.zero_lt_succ, if_true, hset]
      refine ⟨1, tsr, (⟨params.arr.set pi ⟨p.Key, path.drop si⟩, pi + 1⟩ : Params),
        le_refl _, le_refl _, ?_, ?_, ?_, ?_, ?_⟩
      · intro f
        rw [Nat.add_comm, findLoop_done hstep]
      · simp [hbl]
      · simp [hcap]
      · simp [hbl]; omega
      · simp only [List.length_cons, List.length_nil, hbl, Params.values]
        rw [values_set _ (by omega)]
        rw [← hbase]
        rfl
    · rw [if_neg hc]
      have hres : params.reslice (pi + 1) = .error .outOfRange :=
        reslice_error (by omega)
      have hstep : step unescaped false path .any
          { cn := cn, parents := prs, search := path.drop si, searchIndex := si,
            paramIndex := pi, params := params, tsr := tsr } = .done (.error .outOfRange) := by
        simp only [step, stepAny, hac, hres]
      refine ⟨1, le_refl _, le_refl _, ?_⟩
      intro f
      rw [Nat.add_comm, findLoop_done hstep]
  | none =>
    unfold exploreAny
    simp only []
    refine ⟨1, le_refl _, le_refl _, ?_⟩
    rcases hR with ⟨hk, hb, hi, hd⟩ | ⟨hk, hb, b0, v, hb0, hd, hi⟩
    · subst hb
      have hd1 : pi = dB := hd.symm
      subst hd1
      have hback : backtrackToNextNodeKind path
          { cn := cn, parents := prs, search := path.drop si, searchIndex := si,
            paramIndex := pi, params := params, tsr := tsr } .akind =
          .ok { cn := prs.head?, parents := prs.tail, search := path.drop iB,
                searchIndex := iB, paramIndex := pi, params := params,
                nextNodeKind := .pkind } := by
        have e : si - cn.pfx.length = iB := by omega
        have c1 : cn.pfx.length ≤ si := by omega
        have c3 : iB ≤ path.length := by omega
        simp only [backtrackToNextNodeKind, hk, kind.succ, e]
        simp [c1, c3]
      cases prs with
      | nil =>
        refine Or.inl ⟨rfl, tsr, params, ?_, hlen⟩
        intro f
        have hstep : step unescaped false path .any
            { cn := cn, parents := [], search := path.drop si, searchIndex := si,
              paramIndex := pi, params := params, tsr := tsr } =
            .done (.ok ({ handlers := none, tsr := tsr, fullPath := [] }, params)) := by
          simp only [step, stepAny, hac, hback]
          rfl
        rw [Nat.add_comm, findLoop_done hstep]
      | cons p ps =>
        refine Or.inr ⟨p, ps, (⟨p, ps, path.drop iB, iB, pi, params, tsr⟩ : Cursor), rfl, ?_,
          ⟨rfl, rfl, rfl, rfl, by omega, rfl, hlen, hcap, hdle⟩, ?_⟩
        · intro f
          have hstep : step unescaped false path .any
              { cn := cn, parents := p :: ps, search := path.drop si, searchIndex := si,
                paramIndex := pi, params := params, tsr := tsr } =
              .jump .param (⟨p, ps, path.drop iB, iB, pi, params, tsr⟩ : Cursor) := by
            simp only [step, stepAny, hac, hback]
            rfl
          rw [Nat.add_comm, findLoop_jump hstep]
        · show params.values pi = base.take pi
          rw [← hbl, List.take_length, hbl]
          exact hbase
    · subst hb
      subst hd
      have hpi : pi = b0.length + 1 := by
        rw [← hbl, hb0]; simp
      have hval : params.value b0.length = .ok v := value_ok hlen (hbase.trans hb0) hpi
      have hback : backtrackToNextNodeKind path
          { cn := cn, parents := prs, search := path.drop si, searchIndex := si,
            paramIndex := pi, params := params, tsr := tsr } .akind =
          .ok { cn := prs.head?, parents := prs.tail, search := path.drop iB,
                searchIndex := iB, paramIndex := b0.length,
                params := { arr := params.arr, len := b0.length },
                nextNodeKind := .akind } := by
        have e : si - v.length = iB := by omega
        have c1 : v.length ≤ si := by omega
        have c3 : iB ≤ path.length := by omega
        have c2 : 0 < pi := by omega
        have e2 : pi - 1 = b0.length := by omega
        have hres : params.reslice b0.length = .ok { arr := params.arr, len := b0.length } :=
          reslice_ok (by omega)
        simp only [backtrackToNextNodeKind, hk, kind.succ, e2, hval, hres, e]
        simp [c1, c2, c3]
      cases prs with
      | nil =>
        refine Or.inl ⟨rfl, tsr, { arr := params.arr, len := b0.length }, ?_, rfl⟩
        intro f
        have hstep : step unescaped false path .any
            { cn := cn, parents := [], search := path.drop si, searchIndex := si,
              paramIndex := pi, params := params, tsr := tsr } =
            .done (.ok ({ handlers := none, tsr := tsr, fullPath := [] },
              { arr := params.arr, len := b0.length })) := by
          simp only [step, stepAny, hac, hback]
          rfl
        rw [Nat.add_comm, findLoop_done hstep]
      | cons p ps =>
        refine Or.inr ⟨p, ps, (⟨p, ps, path.drop iB, iB, b0.length,
          ⟨params.arr, b0.length⟩, tsr⟩ : Cursor), rfl, ?_,
          ⟨rfl, rfl, rfl, rfl, by omega, rfl, rfl, hcap, by omega⟩, ?_⟩
        · intro f
          have hstep : step unescaped false path .any
              { cn := cn, parents := p :: ps, search := path.drop si, searchIndex := si,
                paramIndex := pi, params := params, tsr := tsr } =
              .jump .any (⟨p, ps, path.drop iB, iB, b0.length, ⟨params.arr, b0.length⟩,
                tsr⟩ : Cursor) := by
            simp only [step, stepAny, hac, hback]
            rfl
          rw [Nat.add_comm, findLoop_jump hstep]
        · show params.values b0.length = base.take b0.length
          rw [← hbase, values_take (by omega)]

/-- From the label `Param` of a node: the param child captures a segment and is explored,
then the catch-all child is tried. -/
theorem sim_param {S : Cursor} {n : node} {parents : List node} {i1 d iB dB bp : Nat}
    {base : List Str} {back : Label}
    (hpos : Pos path cap S n parents i1 d) (hbase : S.params.values d = base)
    (hany : ∀ c, n.anyChild = some c → c.pnames.length = d + 1)
    (hR : (n.kind = .skind ∧ back = .param ∧ iB + n.pfx.length = i1 ∧ dB = d) ∨
      (n.kind = .pkind ∧ back = .any ∧
        ∃ b0 v, base = b0 ++ [v] ∧ dB = b0.length ∧ iB + v.length = i1))
    (hpc : ∀ c, n.paramChild = some c → ∀ S1 i2 v, Pos path cap S1 c (n :: parents) i2 (d + 1) →
      S1.params.values (d + 1) = base ++ [v] → i1 + v.length = i2 →
      Sim unescaped path cap .top S1 (base ++ [v]) (n :: parents) .any i1 d bp
        (explore cap c (d + 1) (path.drop i2))) :
    Sim unescaped path cap .param S base parents back iB dB (bp + 2)
      (Found.orElse
        (match n.paramChild with
         | some c =>
           if path.drop i1 ≠ [] then
             if d + 1 ≤ cap then
               Found.capture ((path.drop i1).takeWhile (fun a => a != '/'))
                 (explore cap c (d + 1)
                   ((path.drop i1).drop ((path.drop i1).takeWhile (fun a => a != '/')).length))
             else .panic
           else .fail
         | none => .fail)
        (exploreAny cap n.anyChild d (path.drop i1))) := by
  have hbl : base.length = d := by
    rw [← hbase]; exact values_length (by rw [hpos.capEq]; exact hpos.dle)
  have hdB : dB ≤ base.length := by
    rcases hR with ⟨_, _, _, h⟩ | ⟨_, _, b0, v, hb, h, _⟩
    · omega
    · rw [hb, h]; simp
  -- the cases in which the label `Param` only leads to the label `Any`
  have hskip : step unescaped false path .param S = .jump .any S →
      Sim unescaped path cap .param S base parents back iB dB (bp + 2)
        (exploreAny cap n.anyChild d (path.drop i1)) := by
    intro hstep
    exact Sim.relax (by omega) (Sim.of_jump hstep (sim_any hpos hbase hany hR))
  cases hpcn : n.paramChild with
  | none =>
    apply hskip
    simp only [step, stepParam, hpos.cn, hpcn]
  | some c =>
    simp only []
    by_cases hs1 : path.drop i1 = []
    · rw [if_neg (not_not.mpr hs1)]
      apply hskip
      simp only [step, stepParam, hpos.cn, hpcn, hpos.search, hs1]
      simp
    · rw [if_pos hs1]
      by_cases hc : d + 1 ≤ cap
      · rw [if_pos hc]
        obtain ⟨cn, prs, search, si, pi, params, tsr⟩ := S
        obtain ⟨h1, h2, h3, h4, hle, h5, hlen, hcap, hdle⟩ := hpos
        simp only at h1 h2 h3 h4 h5 hlen hcap hbase
        subst h1 h2 h3 h4 h5
        have hres : params.reslice (pi + 1) = .ok { arr := params.arr, len := pi + 1 } :=
          reslice_ok (by omega)
        obtain ⟨tw, htw⟩ : ∃ tw, tw = (path.drop si).takeWhile (fun a => a != '/') := ⟨_, rfl⟩
        rw [← htw]
        obtain ⟨p, hp, hset⟩ := @setValue_ok { arr := params.arr, len := pi + 1 } pi
          tw (Nat.lt_succ_self _) (by show pi < params.arr.length; omega)
        simp only [] at hset
        have htl : tw.length ≤ path.length - si := by
          have := length_takeWhile_le (fun a => a != '/') (path.drop si)
          rw [← htw] at this
          simpa using this
        have hstep : step unescaped false path .param
            (⟨cn, prs, path.drop si, si, pi, params, tsr⟩ : Cursor) =
            .jump .top (⟨c, cn :: prs, (path.drop si).drop tw.length, si + tw.length, pi + 1,
              ⟨params.arr.set pi ⟨p.Key, tw⟩, pi + 1⟩,
              tsr || (((path.drop si).drop tw.length).isEmpty && slashChildServes c)⟩ :
                Cursor) := by
          have htake : (path.drop si).take tw.length = tw := by
            rw [htw]; exact take_takeWhile_length _ _
          simp only [step, stepParam, hpcn, hres, ← htw]
          simp only [ne_eq, hs1, not_false_eq_true, if_true, Bool.false_eq_true, if_false,
            htake, hset]
        have hsub := hpc c hpcn (⟨c, cn :: prs, (path.drop si).drop tw.length, si + tw.length,
            pi + 1, ⟨params.arr.set pi ⟨p.Key, tw⟩, pi + 1⟩,
            tsr || (((path.drop si).drop tw.length).isEmpty && slashChildServes c)⟩ : Cursor)
          (si + tw.length) tw
          ⟨rfl, rfl, by simp only [List.drop_drop], rfl, by omega, rfl, rfl,
            by simp [hcap], hc⟩
          (by
            show (((params.arr.set pi ⟨p.Key, tw⟩).take (pi + 1)).map Param.Value) = _
            rw [values_set _ (by omega), ← hbase]
            rfl)
          rfl
        have hnext : ∀ S1, Pos path cap S1 cn prs si base.length →
            S1.params.values base.length = base →
            Sim unescaped path cap .any S1 base prs back iB dB 1
              (exploreAny cap cn.anyChild pi (path.drop si)) := by
          intro S1 hpos1 hv1
          rw [hbl] at hpos1 hv1
          exact sim_any hpos1 hv1 hany hR
        have h2 := Sim.orElse hnext (Sim.capture (le_refl _) (by rw [hbl]; exact hsub))
        rw [List.drop_drop]
        exact Sim.relax (by omega) (Sim.of_jump hstep h2)
      · rw [if_neg hc]
        have hres : S.params.reslice (S.paramIndex + 1) = .error .outOfRange :=
          reslice_error (by rw [hpos.pidx, hpos.capEq]; exact hc)
        have hstep : step unescaped false path .param S = .done (.error .outOfRange) := by
          simp only [step, stepParam, hpos.cn, hpcn, hpos.search, hres]
          simp [hs1]
        refine ⟨1, le_refl _, by omega, ?_⟩
        intro f
        rw [Nat.add_comm, findLoop_done hstep]

theorem size_mk (k : kind) (lab : Char) (pre : Str) (cs : List node) (pp : Str)
    (pn : List Str) (hs : HandlersChain) (pc ac : Option node) (lf : Bool) :
    (node.mk k lab pre cs pp pn hs pc ac lf).size =
      1 + node.size.sizeList cs + (match pc with | none => 0 | some c => c.size)
        + (match ac with | none => 0 | some c => c.size) := by
  cases pc <;> cases ac <;> rfl

theorem size_le_sizeList : ∀ {cs : List node} {c : node}, c ∈ cs → c.size ≤ node.size.sizeList cs
  | [], _, h => by cases h
  | x :: xs, c, h => by
    have e : node.size.sizeList (x :: xs) = x.size + node.size.sizeList xs := rfl
    rw [e]
    rcases List.mem_cons.mp h with h | h
    · subst h; omega
    · have := size_le_sizeList h; omega

/-- The part of a turn of the loop of `find` after the prefix of the node has been read:
the exact match, else the static child on the next byte, the param child, the catch-all
child. -/
theorem sim_rest {S : Cursor} {n : node} {parents : List node} {i i1 d iB dB N : Nat}
    {base : List Str} {back : Label}
    (hinv : Inv N d n)
    (hpos : Pos path cap S n parents i d) (hbase : S.params.values d = base)
    (hA : ¬ (n.kind = .skind ∧
      ¬ (n.pfx.length ≤ (path.drop i).length ∧ n.pfx = (path.drop i).take n.pfx.length)))
    (hi1 : i1 = if n.kind = .skind then i + n.pfx.length else i)
    (hR : (n.kind = .skind ∧ back = .param ∧ iB = i ∧ dB = d) ∨
      (n.kind = .pkind ∧ back = .any ∧
        ∃ b0 v, base = b0 ++ [v] ∧ dB = b0.length ∧ iB + v.length = i))
    (hcs : ∀ c ∈ n.children, ∀ S1, Pos path cap S1 c (n :: parents) i1 d →
      S1.params.values d = base →
      Sim unescaped path cap .top S1 base (n :: parents) .param i1 d (3 * c.size)
        (explore cap c d (path.drop i1)))
    (hpc : ∀ c, n.paramChild = some c → ∀ S1 i2 v,
      Pos path cap S1 c (n :: parents) i2 (d + 1) →
      S1.params.values (d + 1) = base ++ [v] → i1 + v.length = i2 →
      Sim unescaped path cap .top S1 (base ++ [v]) (n :: parents) .any i1 d (3 * c.size)
        (explore cap c (d + 1) (path.drop i2))) :
    Sim unescaped path cap .top S base parents back iB dB (3 * n.size)
      (if path.drop i1 = [] ∧ n.handlers.getD [] ≠ [] then .hit n.pfx [] n
       else
        Found.under n.pfx
          (Found.orElse
            (match path.drop i1 with
             | c0 :: _ =>
               match n.children.find? (fun c => c.label == c0) with
               | some c => explore cap c d (path.drop i1)
               | none => .fail
             | [] => Found.fail)
            (Found.orElse
              (match n.paramChild with
               | some c =>
                 if path.drop i1 ≠ [] then
                   if d + 1 ≤ cap then
                     Found.capture ((path.drop i1).takeWhile (fun a => a != '/'))
                       (explore cap c (d + 1)
                         ((path.drop i1).drop
                           ((path.drop i1).takeWhile (fun a => a != '/')).length))
                   else .panic
                 else .fail
               | none => .fail)
              (exploreAny cap n.anyChild d (path.drop i1))))) := by
  obtain ⟨cn, prs, search, si, pi, params, tsr⟩ := S
  obtain ⟨h1, h2, h3, h4, hle, h5, hlen, hcap, hdle⟩ := hpos
  simp only at h1 h2 h3 h4 h5 hlen hcap hbase
  have e1 := h1.symm
  have e2 := h2.symm
  have e4 := h4.symm
  have e5 := h5.symm
  subst e1 e2 h3 e4 e5
  have hbl : base.length = d := by
    rw [← hbase]; exact values_length (by omega)
  -- the position after the prefix
  have hs1 : (if n.kind = .skind then (path.drop i).drop n.pfx.length else path.drop i) =
      path.drop i1 := by
    rw [hi1]
    by_cases hk : n.kind = .skind
    · rw [if_pos hk, if_pos hk, List.drop_drop, Nat.add_comm]
    · rw [if_neg hk, if_neg hk]
  have hi1le : i1 ≤ path.length := by
    by_cases hk : n.kind = .skind
    · rw [hi1, if_pos hk]
      have h2 := (not_not.mp (fun h => hA ⟨hk, h⟩)).1
      simp only [List.length_drop] at h2
      omega
    · rw [hi1, if_neg hk]; exact hle
  have hR1 : (n.kind = .skind ∧ back = .param ∧ iB + n.pfx.length = i1 ∧ dB = d) ∨
      (n.kind = .pkind ∧ back = .any ∧
        ∃ b0 v, base = b0 ++ [v] ∧ dB = b0.length ∧ iB + v.length = i1) := by
    rcases hR with ⟨hk, hb, hi, hd⟩ | ⟨hk, hb, b0, v, h1, h2, h3⟩
    · exact Or.inl ⟨hk, hb, by rw [hi1, if_pos hk, hi], hd⟩
    · refine Or.inr ⟨hk, hb, b0, v, h1, h2, ?_⟩
      rw [hi1, if_neg (by rw [hk]; decide)]
      exact h3
  have hany : ∀ c, n.anyChild = some c → c.pnames.length = d + 1 :=
    fun c hc => (hinv.any hc).names (hinv.any_shape hc).2.2.2.2.2
  -- what follows the label `Param` of this node
  have hparam : ∀ S1, Pos path cap S1 n parents i1 d → S1.params.values d = base →
      Sim unescaped path cap .param S1 base parents back iB dB
        (3 * (match n.paramChild with | none => 0 | some c => c.size) + 2)
        (Found.orElse
          (match n.paramChild with
           | some c =>
             if path.drop i1 ≠ [] then
               if d + 1 ≤ cap then
                 Found.capture ((path.drop i1).takeWhile (fun a => a != '/'))
                   (explore cap c (d + 1)
                     ((path.drop i1).drop
                       ((path.drop i1).takeWhile (fun a => a != '/')).length))
               else .panic
             else .fail
           | none => .fail)
          (exploreAny cap n.anyChild d (path.drop i1))) := by
    intro S1 hpos1 hv1
    apply sim_param hpos1 hv1 hany hR1
    intro c hc S2 i2 v hp2 hv2 hi2
    have := hpc c hc S2 i2 v hp2 hv2 hi2
    rw [hc]
    exact this
  have hsize : ∀ c, c ∈ n.children →
      3 * c.size + (3 * (match n.paramChild with | none => 0 | some c => c.size) + 2) + 1 ≤
        3 * n.size := by
    intro c hc
    have h1 := size_le_sizeList hc
    cases n with
    | mk k lab pre cs pp pn hs pc ac lf =>
      rw [size_mk]
      simp only [node.children_mk, node.paramChild_mk] at h1 ⊢
      omega
  have hsize0 : (3 * (match n.paramChild with | none => 0 | some c => c.size) + 2) + 1 ≤
        3 * n.size := by
    cases n with
    | mk k lab pre cs pp pn hs pc ac lf =>
      rw [size_mk]
      simp only [node.paramChild_mk]
      omega
  -- the turn of the loop up to the exact match
  have hunf : step unescaped false path .top
      (⟨n, parents, path.drop i, i, d, params, tsr⟩ : Cursor) =
      if path.drop i1 = [] ∧ n.handlers.getD [] ≠ [] then
        .done (finish (some n) n.handlers tsr params)
      else
        match path.drop i1 with
        | c0 :: rest =>
          match findChild n c0 with
          | some child =>
            .jump .top (⟨child, n :: parents, c0 :: rest, i1, d, params,
              tsr || (rest.isEmpty && c0 == '/' && n.handlers.isSome)⟩ : Cursor)
          | none =>
            .jump .param (⟨n, parents, c0 :: rest, i1, d, params,
              tsr || (rest.isEmpty && c0 == '/' && n.handlers.isSome)⟩ : Cursor)
        | [] =>
          .jump .param (⟨n, parents, [], i1, d, params, tsr || slashChildServes n⟩ :
            Cursor) := by
    have hidx : (if n.kind = .skind then i + n.pfx.length else i) = i1 := hi1.symm
    simp only [step, stepTop, if_neg hA, hs1, hidx] <;> rfl
  have hp1 : ∀ (sr : Str) (t : Bool), sr = path.drop i1 →
      Pos path cap (⟨n, parents, sr, i1, d, params, t⟩ : Cursor) n parents i1 d :=
    fun sr t hsr => ⟨rfl, rfl, hsr, rfl, hi1le, rfl, hlen, hcap, hdle⟩
  by_cases hex : path.drop i1 = [] ∧ n.handlers.getD [] ≠ []
  · -- the exact match
    rw [if_pos hex]
    rw [if_pos hex] at hunf
    refine ⟨1, tsr, params, le_refl _, ?_, ?_, ?_, ?_, ?_, ?_⟩
    · have := hsize0; omega
    · intro f
      rw [Nat.add_comm, findLoop_done hunf]
    · simp [hbl, hlen]
    · exact hcap
    · simp [hbl, hdle]
    · simp [hbl, hbase]
  · rw [if_neg hex]
    rw [if_neg hex] at hunf
    apply Sim.under
    cases hsd : path.drop i1 with
    | nil =>
      rw [hsd] at hunf
      simp only [] at hunf
      have h2 := hparam _ (hp1 [] (tsr || slashChildServes n) hsd.symm) hbase
      rw [hsd] at h2
      exact Sim.relax hsize0 (Sim.of_jump hunf h2)
    | cons c0 rest =>
      rw [hsd] at hunf
      simp only [] at hunf ⊢
      cases hfc : n.children.find? (fun c => c.label == c0) with
      | none =>
        have hfc1 : findChild n c0 = none := hfc
        rw [hfc1] at hunf
        simp only [] at hunf
        have h2 := hparam _ (hp1 (c0 :: rest)
          (tsr || (rest.isEmpty && c0 == '/' && n.handlers.isSome)) hsd.symm) hbase
        rw [hsd] at h2
        exact Sim.relax hsize0 (Sim.of_jump hunf h2)
      | some child =>
        obtain ⟨hmem, _⟩ := find?_label_eq_some hfc
        have hfc1 : findChild n c0 = some child := hfc
        rw [hfc1] at hunf
        simp only [] at hunf
        subst hbl
        have h1 := hcs child hmem
          (⟨child, n :: parents, c0 :: rest, i1, base.length, params,
            tsr || (rest.isEmpty && c0 == '/' && n.handlers.isSome)⟩ : Cursor)
          ⟨rfl, rfl, hsd.symm, rfl, hi1le, rfl, hlen, hcap, hdle⟩ hbase
        have h2 := Sim.orElse hparam h1
        rw [hsd] at h2
        exact Sim.relax (hsize child hmem) (Sim.of_jump hunf h2)

end

end route


namespace route

/-- The loop of `find`, entered at the head of the loop at a node of a well shaped tree,
does what the exploration of the subtree says, in at most three steps for each node. -/
theorem explore_sim (unescaped : Str → Option Str) (path : Str) (cap N : Nat) :
    ∀ (n : node) (d : Nat) (S : Cursor) (parents : List node) (i iB dB : Nat)
      (base : List Str) (back : Label),
      Inv N d n → Pos path cap S n parents i d → S.params.values d = base →
      ((n.kind = .skind ∧ back = .param ∧ iB = i ∧ dB = d) ∨
        (n.kind = .pkind ∧ back = .any ∧
          ∃ b0 v, base = b0 ++ [v] ∧ dB = b0.length ∧ iB + v.length = i)) →
      Sim unescaped path cap .top S base parents back iB dB (3 * n.size)
        (explore cap n d (path.drop i)) := by
  intro n
  induction n using node.induct with
  | step k lab pre cs pp pn hs pc ac lf ihc ihp iha =>
    intro d S parents i iB dB base back hinv hpos hbase hR
    have hbl : base.length = d := by
      rw [← hbase]; exact values_length (by rw [hpos.capEq]; exact hpos.dle)
    rw [explore_unfold]
    by_cases hA : k = .skind ∧ ¬ (pre.length ≤ (path.drop i).length ∧
        pre = (path.drop i).take pre.length)
    · -- the prefix of the node does not match
      rw [if_pos hA]
      rcases hR with ⟨_, hb, hi, hd⟩ | ⟨hk, _⟩
      swap
      · simp only [node.kind_mk] at hk
        rw [hk] at hA
        exact absurd hA.1 (by decide)
      subst hb hi hd
      obtain ⟨hk, hmis⟩ := hA
      subst hk
      obtain ⟨cn, prs, search, si, pi, params, tsr⟩ := S
      obtain ⟨h1, h2, h3, h4, hle, h5, hlen, hcap, hdle⟩ := hpos
      simp only at h1 h2 h3 h4 h5 hlen hcap hbase
      subst h1 h2 h3 h4 h5
      refine ⟨1, le_refl _, by rw [size_mk]; omega, ?_⟩
      cases prs with
      | nil =>
        have hstep : ∃ t, step unescaped false path .top
            (⟨.mk .skind lab pre cs pp pn hs pc ac lf, [], path.drop si, si, pi, params, tsr⟩ :
              Cursor) =
            .done (.ok ({ handlers := none, tsr := t, fullPath := [] }, params)) := by
          apply Exists.intro
          simp only [step, stepTop, backtrackToNextNodeKind, node.kind_mk, node.pfx_mk,
            true_and, hmis, not_false_eq_true, if_true]
          rfl
        obtain ⟨t, hstep⟩ := hstep
        refine Or.inl ⟨rfl, t, params, ?_, hlen⟩
        intro f
        rw [Nat.add_comm, findLoop_done hstep]
      | cons p ps =>
        have hstep : ∃ t, step unescaped false path .top
            (⟨.mk .skind lab pre cs pp pn hs pc ac lf, p :: ps, path.drop si, si, pi, params,
              tsr⟩ : Cursor) =
            .jump .param (⟨p, ps, path.drop si, si, pi, params, t⟩ : Cursor) := by
          apply Exists.intro
          simp only [step, stepTop, backtrackToNextNodeKind, node.kind_mk, node.pfx_mk,
            true_and, hmis, not_false_eq_true, if_true, kind.succ]
          rfl
        obtain ⟨t, hstep⟩ := hstep
        refine Or.inr ⟨p, ps, (⟨p, ps, path.drop si, si, pi, params, t⟩ : Cursor), rfl, ?_,
          ⟨rfl, rfl, rfl, rfl, hle, rfl, hlen, hcap, hdle⟩, ?_⟩
        · intro f
          rw [Nat.add_comm, findLoop_jump hstep]
        · show params.values pi = base.take pi
          rw [← hbl, List.take_length, hbl]
          exact hbase
    · rw [if_neg hA]
      have hs1 : (if k = .skind then (path.drop i).drop pre.length else path.drop i) =
          path.drop (if k = .skind then i + pre.length else i) := by
        by_cases hk : k = .skind
        · rw [if_pos hk, if_pos hk, List.drop_drop, Nat.add_comm]
        · rw [if_neg hk, if_neg hk]
      have hmain := sim_rest hinv hpos hbase hA rfl hR
        (fun c hc S1 hp hv =>
          ihc c hc d S1 _ _ _ d base .param (hinv.child hc) hp hv
            (Or.inl ⟨hinv.child_kind hc, rfl, rfl, rfl⟩))
        (fun c hc S1 i2 v hp hv hi2 =>
          ihp c hc (d + 1) S1 _ i2 _ d (base ++ [v]) .any (hinv.param hc) hp hv
            (Or.inr ⟨(hinv.param_shape hc).1, rfl, base, v, rfl, hbl.symm, hi2⟩))
      simp only [node.kind_mk, node.pfx_mk, node.handlers_mk, node.children_mk,
        node.paramChild_mk, node.anyChild_mk] at hmain
      rw [hs1]
      simp only [exploreList_eq]
      exact hmain

end route


namespace route

/-! ### The end of the lookup -/

theorem setKey_ok {ps : Params} {i : Nat} (k : Str) (h1 : i < ps.len)
    (h2 : i < ps.arr.length) :
    ∃ p, ps.arr.get? i = some p ∧
      ps.setKey i k = .ok { arr := ps.arr.set i { Key := k, Value := p.Value }, len := ps.len } := by
  obtain ⟨p, hp⟩ : ∃ p, ps.arr.get? i = some p := by
    cases hg : ps.arr.get? i with
    | none => rw [List.get?_eq_none] at hg; omega
    | some p => exact ⟨p, rfl⟩
  refine ⟨p, hp, ?_⟩
  unfold Params.setKey
  rw [if_pos h1, hp]

theorem map_value_set {arr : List Param} {i : Nat} {p : Param} (k : Str)
    (hp : arr.get? i = some p) :
    (arr.set i { Key := k, Value := p.Value }).map Param.Value = arr.map Param.Value := by
  induction arr generalizing i with
  | nil => simp
  | cons a as ih =>
    cases i with
    | zero =>
      simp only [List.get?_cons_zero, Option.some.injEq] at hp
      subst hp
      simp
    | succ j =>
      simp only [List.get?_cons_succ] at hp
      simp [ih hp]

/-- The loop that writes the keys: it panics on no element of the slice, keeps the values
and leaves the names as the keys of the elements from `i` on. -/
theorem assignKeys_ok : ∀ (names : List Str) (i : Nat) (ps : Params),
    i + names.length ≤ ps.len → ps.len ≤ ps.arr.length →
    ∃ ps2, assignKeys names i ps = .ok ps2 ∧ ps2.len = ps.len ∧
      ps2.arr.map Param.Value = ps.arr.map Param.Value ∧
      (∀ j, j < names.length → (ps2.arr.get? (i + j)).map Param.Key = names.get? j) ∧
      (∀ j, j < i → ps2.arr.get? j = ps.arr.get? j)
  | [], i, ps, _, _ => ⟨ps, rfl, rfl, rfl, fun j hj => by simp at hj, fun _ _ => rfl⟩
  | name :: names, i, ps, h1, h2 => by
    simp only [List.length_cons] at h1
    obtain ⟨p, hp, hset⟩ := @setKey_ok ps i name (by omega) (by omega)
    obtain ⟨ps2, hok, hlen, hval, hkeys, hkeep⟩ := assignKeys_ok names (i + 1)
      { arr := ps.arr.set i { Key := name, Value := p.Value }, len := ps.len }
      (by simp only []; omega) (by simp only [List.length_set]; omega)
    refine ⟨ps2, ?_, hlen, ?_, ?_, ?_⟩
    · rw [assignKeys, hset]
      exact hok
    · rw [hval]
      exact map_value_set name hp
    · intro j hj
      cases j with
      | zero =>
        rw [Nat.add_zero, hkeep i (Nat.lt_succ_self _)]
        simp only [List.get?_eq_getElem?, List.getElem?_set_self (by omega : i < ps.arr.length)]
        simp
      | succ e =>
        have := hkeys e (by simp only [List.length_cons] at hj; omega)
        rw [show i + (e + 1) = i + 1 + e by omega, this]
        simp
    · intro j hj
      rw [hkeep j (by omega)]
      simp only [List.get?_eq_getElem?]
      rw [List.getElem?_set_ne (by omega)]

/-- The result of `find` at a node whose names are as many as the captured values: the
chain and the pattern of the node, and the buffer with the names as keys and the captured
values. -/
theorem finish_ok {m : node} {ps1 : Params} {vs : List Str} (tsr : Bool)
    (hlen : ps1.len = vs.length) (hcap : vs.length ≤ ps1.arr.length)
    (hvals : ps1.values vs.length = vs) (hnames : m.pnames.length = vs.length) :
    ∃ ps2, finish (some m) m.handlers tsr ps1 =
        .ok ({ handlers := m.handlers, tsr := tsr, fullPath := m.ppath }, ps2) ∧
      ps2.toList.map Param.Value = vs ∧ ps2.toList.map Param.Key = m.pnames := by
  obtain ⟨ps2, hok, hl2, hval, hkeys, _⟩ := assignKeys_ok m.pnames 0 ps1
    (by omega) (by omega)
  refine ⟨ps2, ?_, ?_, ?_⟩
  · simp only [finish, hok]
  · unfold Params.toList
    rw [hl2, hlen, List.map_take, hval, ← List.map_take]
    exact hvals
  · unfold Params.toList
    apply List.ext_get?
    intro j
    by_cases hj : j < m.pnames.length
    · have := hkeys j hj
      rw [Nat.zero_add] at this
      rw [← this, hl2, hlen]
      simp only [List.get?_eq_getElem?, List.getElem?_map, List.getElem?_take]
      rw [if_pos (by omega)]
    · have hlen2 : ps2.arr.length = ps1.arr.length := by
        have := congrArg List.length hval
        simpa using this
      rw [List.get?_eq_none.mpr (by omega : m.pnames.length ≤ j)]
      apply List.get?_eq_none.mpr
      simp only [List.length_map, List.length_take]
      omega

end route

namespace route

/-- The lookup `find` on a well shaped tree with an empty buffer of capacity `cap` does
what the exploration of the tree says. -/
theorem find_sim (unescaped : Str → Option Str) {N : Nat} {r : node} (hinv : Inv N 0 r)
    (hk : r.kind = .skind) (path : Str) (cap : Nat) :
    Sim unescaped path cap .top
      (⟨r, [], path, 0, 0, Params.make cap, false⟩ : Cursor) [] [] .param 0 0 (3 * r.size)
      (explore cap r 0 path) := by
  have h := explore_sim unescaped path cap N r 0
    (⟨r, [], path, 0, 0, Params.make cap, false⟩ : Cursor) [] 0 0 0 [] .param hinv
    ⟨rfl, rfl, rfl, rfl, Nat.zero_le _, rfl, rfl, by simp [Params.make], Nat.zero_le _⟩
    (by simp [Params.values]) (Or.inl ⟨hk, rfl, rfl, rfl⟩)
  exact h

theorem find_hit (unescaped : Str → Option Str) {N : Nat} {r : node} (hinv : Inv N 0 r)
    (hk : r.kind = .skind) {path : Str} {cap : Nat} {K : Str} {vs : List Str} {m : node}
    (he : explore cap r 0 path = .hit K vs m) :
    ∃ tsr ps1, find unescaped r path (Params.make cap) false =
        finish (some m) m.handlers tsr ps1 ∧
      ps1.len = vs.length ∧ vs.length ≤ ps1.arr.length ∧ ps1.values vs.length = vs := by
  have h := find_sim unescaped hinv hk path cap
  rw [he] at h
  obtain ⟨j, tsr, ps1, _, hj, hf, hlen, hcap, hle, hv⟩ := h
  refine ⟨tsr, ps1, ?_, by simpa using hlen, by rw [hcap]; simpa using hle, by simpa using hv⟩
  have := hf (3 * r.size + 1 - j)
  rw [show j + (3 * r.size + 1 - j) = 3 * r.size + 1 by omega] at this
  exact this

theorem find_panic (unescaped : Str → Option Str) {N : Nat} {r : node} (hinv : Inv N 0 r)
    (hk : r.kind = .skind) {path : Str} {cap : Nat}
    (he : explore cap r 0 path = .panic) :
    find unescaped r path (Params.make cap) false = .error .outOfRange := by
  have h := find_sim unescaped hinv hk path cap
  rw [he] at h
  obtain ⟨j, _, hj, hf⟩ := h
  have := hf (3 * r.size + 1 - j)
  rw [show j + (3 * r.size + 1 - j) = 3 * r.size + 1 by omega] at this
  exact this

theorem find_fail (unescaped : Str → Option Str) {N : Nat} {r : node} (hinv : Inv N 0 r)
    (hk : r.kind = .skind) {path : Str} {cap : Nat}
    (he : explore cap r 0 path = .fail) :
    ∃ tsr ps1, find unescaped r path (Params.make cap) false =
      .ok ({ handlers := none, tsr := tsr, fullPath := [] }, ps1) := by
  have h := find_sim unescaped hinv hk path cap
  rw [he] at h
  obtain ⟨j, _, hj, hf⟩ := h
  rcases hf with ⟨_, tsr, ps1, hf, _⟩ | ⟨p, ps, _, hp, _⟩
  · refine ⟨tsr, ps1, ?_⟩
    have := hf (3 * r.size + 1 - j)
    rw [show j + (3 * r.size + 1 - j) = 3 * r.size + 1 by omega] at this
    exact this
  · cases hp

/-- The lookup on the empty tree finds nothing. -/
theorem find_emptyRoot (unescaped : Str → Option Str) (path : Str) (ps : Params) :
    ∃ tsr ps1, find unescaped emptyRoot path ps false =
      .ok ({ handlers := none, tsr := tsr, fullPath := [] }, ps1) := by
  cases path with
  | nil => exact ⟨_, _, rfl⟩
  | cons c rest => exact ⟨_, _, rfl⟩

end route


namespace route

/-! ### Matching a collapsed pattern -/

theorem keyMatch_nil {s : Str} {vs : List Str} :
    keyMatch [] s = some vs ↔ s = [] ∧ vs = [] := by
  cases s with
  | nil => simp [keyMatch, eq_comm]
  | cons a s1 => simp [keyMatch]

theorem keyMatch_static {c : Char} {K s : Str} {vs : List Str} (h1 : c ≠ ':') (h2 : c ≠ '*') :
    keyMatch (c :: K) s = some vs ↔ ∃ s1, s = c :: s1 ∧ keyMatch K s1 = some vs := by
  cases s with
  | nil => simp [keyMatch, h1, h2]
  | cons a s1 =>
    rw [keyMatch, if_neg h1, if_neg h2]
    by_cases ha : a = c
    · subst ha; simp
    · simp only [ha, if_false, List.cons.injEq, exists_eq_right', false_and, exists_false]
      simp

theorem keyMatch_noWild : ∀ {p K s : Str} {vs : List Str}, NoWild p →
    (keyMatch (p ++ K) s = some vs ↔ ∃ s1, s = p ++ s1 ∧ keyMatch K s1 = some vs)
  | [], K, s, vs, _ => by simp
  | c :: p, K, s, vs, h => by
    have hc := h c (List.mem_cons_self c p)
    have hp : NoWild p := fun x hx => h x (List.mem_cons_of_mem c hx)
    rw [List.cons_append, keyMatch_static hc.1 hc.2]
    constructor
    · rintro ⟨s1, hs, hm⟩
      obtain ⟨s2, hs2, hm2⟩ := (keyMatch_noWild hp).mp hm
      exact ⟨s2, by rw [hs, hs2]; rfl, hm2⟩
    · rintro ⟨s1, hs, hm⟩
      exact ⟨p ++ s1, by rw [hs]; rfl, (keyMatch_noWild hp).mpr ⟨s1, rfl, hm⟩⟩

theorem keyMatch_colon {K s : Str} {vs : List Str} :
    keyMatch (':' :: K) s = some vs ↔
      s ≠ [] ∧ ∃ vs1, keyMatch K (s.dropWhile (fun a => a != '/')) = some vs1 ∧
        vs = s.takeWhile (fun a => a != '/') :: vs1 := by
  cases s with
  | nil => simp [keyMatch]
  | cons b s1 =>
    rw [keyMatch, if_pos rfl, if_neg (List.cons_ne_nil _ _)]
    simp only [Option.map_eq_some', ne_eq, List.cons_ne_nil, not_false_eq_true, true_and]
    constructor
    · rintro ⟨a, h1, h2⟩; exact ⟨a, h1, h2.symm⟩
    · rintro ⟨a, h1, h2⟩; exact ⟨a, h1, h2.symm⟩

theorem keyMatch_star (K s : Str) : keyMatch ('*' :: K) s = some [s] := by
  cases s with
  | nil => simp [keyMatch]
  | cons b s1 => rw [keyMatch, if_neg (by decide), if_pos rfl]

/-! ### What a hit of the exploration is -/

theorem Found.under_eq_hit {pre K : Str} {vs : List Str} {m : node} {R : Found}
    (h : R.under pre = .hit K vs m) : ∃ K0, R = .hit K0 vs m ∧ K = pre ++ K0 := by
  cases R with
  | hit K0 vs0 m0 =>
    simp only [Found.under, Found.hit.injEq] at h
    obtain ⟨h1, h2, h3⟩ := h
    subst h2 h3
    exact ⟨K0, rfl, h1.symm⟩
  | panic => cases h
  | fail => cases h

theorem Found.capture_eq_hit {v K : Str} {vs : List Str} {m : node} {R : Found}
    (h : R.capture v = .hit K vs m) : ∃ vs1, R = .hit K vs1 m ∧ vs = v :: vs1 := by
  cases R with
  | hit K0 vs0 m0 =>
    simp only [Found.capture, Found.hit.injEq] at h
    obtain ⟨h1, h2, h3⟩ := h
    subst h1 h3
    exact ⟨vs0, rfl, h2.symm⟩
  | panic => cases h
  | fail => cases h

theorem Found.orElse_eq_hit {K : Str} {vs : List Str} {m : node} {R1 R2 : Found}
    (h : R1.orElse R2 = .hit K vs m) :
    R1 = .hit K vs m ∨ (R1 = .fail ∧ R2 = .hit K vs m) := by
  cases R1 with
  | hit K0 vs0 m0 => exact Or.inl h
  | panic => cases h
  | fail => exact Or.inr ⟨rfl, h⟩

/-- A hit of the exploration of a subtree is a node of the subtree, reached along a key
that matches the rest of the path with the values of the hit, and that serves: it is a
catch-all node or holds a non-empty chain. -/
theorem explore_sound (cap N : Nat) : ∀ (n : node) (d : Nat) (s K : Str) (vs : List Str)
    (m : node), Inv N d n → explore cap n d s = .hit K vs m →
    At n K m ∧ Inv N (d + vs.length) m ∧
      (m.handlers.isSome ∧ (m.kind = .akind ∨ m.handlers.getD [] ≠ [])) ∧
      ∃ K1, K = n.pfx ++ K1 ∧
        keyMatch K1 (if n.kind = .skind then s.drop n.pfx.length else s) = some vs ∧
        (n.kind = .skind → n.pfx.length ≤ s.length ∧ n.pfx = s.take n.pfx.length) := by
  intro n
  induction n using node.induct with
  | step k lab pre cs pp pn hs pc ac lf ihc ihp iha =>
    intro d s K vs m hinv he
    rw [explore_unfold] at he
    by_cases hA : k = .skind ∧ ¬ (pre.length ≤ s.length ∧ pre = s.take pre.length)
    · rw [if_pos hA] at he; cases he
    rw [if_neg hA] at he
    have hpre : k = .skind → pre.length ≤ s.length ∧ pre = s.take pre.length :=
      fun hk => not_not.mp (fun h => hA ⟨hk, h⟩)
    simp only [node.pfx_mk, node.kind_mk]
    generalize hs1 : (if k = .skind then s.drop pre.length else s) = s1 at he ⊢
    by_cases hex : s1 = [] ∧ hs.getD [] ≠ []
    · rw [if_pos hex] at he
      simp only [Found.hit.injEq] at he
      obtain ⟨h1, h2, h3⟩ := he
      subst h1 h2 h3
      refine ⟨At.here _, hinv, ⟨?_, Or.inr hex.2⟩, [], by simp, ?_, hpre⟩
      · have := hex.2
        cases hs with
        | none => simp at this
        | some hh => rfl
      · rw [hex.1]; rfl
    rw [if_neg hex] at he
    obtain ⟨K0, hR, hK⟩ := Found.under_eq_hit he
    subst hK
    clear he
    rcases Found.orElse_eq_hit hR with h1 | ⟨_, h1⟩
    · -- the static child
      cases s1 with
      | nil => cases h1
      | cons c0 rest =>
        simp only [exploreList_eq] at h1
        cases hf : cs.find? (fun c => c.label == c0) with
        | none => rw [hf] at h1; cases h1
        | some c =>
          rw [hf] at h1
          simp only [] at h1
          obtain ⟨hmem, _⟩ := find?_label_eq_some hf
          have hkc := hinv.child_kind hmem
          obtain ⟨hat, hi, hsv, K1, hK1, hkm, hpc⟩ :=
            ihc c hmem d (c0 :: rest) K0 vs m (hinv.child hmem) h1
          rw [if_pos hkc] at hkm
          refine ⟨At.child hmem hat, hi, hsv, K0, rfl, ?_, hpre⟩
          rw [hK1]
          apply (keyMatch_noWild ((hinv.child hmem).noWild hkc)).mpr
          refine ⟨_, ?_, hkm⟩
          have := (hpc hkc).2
          conv_lhs => rw [← List.take_append_drop c.pfx.length (c0 :: rest)]
          rw [← this]
    · rcases Found.orElse_eq_hit h1 with h2 | ⟨_, h2⟩
      · -- the param child
        cases hpcn : pc with
        | none => rw [hpcn] at h2; cases h2
        | some c =>
          rw [hpcn] at h2
          simp only [] at h2
          by_cases hne : s1 ≠ []
          · rw [if_pos hne] at h2
            by_cases hc : d + 1 ≤ cap
            · rw [if_pos hc] at h2
              obtain ⟨vs1, h3, hvs⟩ := Found.capture_eq_hit h2
              subst hvs
              have hshape := hinv.param_shape hpcn
              obtain ⟨hat, hi, hsv, K1, hK1, hkm, _⟩ :=
                ihp c hpcn (d + 1) _ K0 vs1 m (hinv.param hpcn) h3
              rw [if_neg (by rw [hshape.1]; decide)] at hkm
              rw [hshape.2] at hK1
              refine ⟨At.param rfl hat, ?_, hsv, K0, rfl, ?_, hpre⟩
              · rw [List.length_cons, show d + (vs1.length + 1) = d + 1 + vs1.length by omega]
                exact hi
              · rw [hK1]
                apply keyMatch_colon.mpr
                refine ⟨hne, vs1, ?_, rfl⟩
                rw [← drop_takeWhile_length]
                exact hkm
            · rw [if_neg hc] at h2; cases h2
          · rw [if_neg hne] at h2; cases h2
      · -- the catch-all child
        unfold exploreAny at h2
        cases hacn : ac with
        | none => rw [hacn] at h2; cases h2
        | some c =>
          rw [hacn] at h2
          simp only [] at h2
          by_cases hc : d + 1 ≤ cap
          · rw [if_pos hc] at h2
            simp only [Found.hit.injEq] at h2
            obtain ⟨h3, h4, h5⟩ := h2
            subst h3 h4 h5
            have hshape := hinv.any_shape hacn
            refine ⟨At.any rfl (At.here _), hinv.any hacn, ⟨hshape.2.2.2.2.2, Or.inl hshape.1⟩,
              c.pfx, rfl, ?_, hpre⟩
            rw [hshape.2.1]
            exact keyMatch_star _ _
          · rw [if_neg hc] at h2; cases h2

end route


namespace route

/-! ### The exploration finds what the tree holds -/

theorem Found.orElse_ne_fail_left {R1 : Found} (R2 : Found) (h : R1 ≠ .fail) :
    R1.orElse R2 ≠ .fail := by
  cases R1 with
  | hit K vs m => intro h1; cases h1
  | panic => intro h1; cases h1
  | fail => exact absurd rfl h

theorem Found.orElse_ne_fail_right (R1 : Found) {R2 : Found} (h : R2 ≠ .fail) :
    R1.orElse R2 ≠ .fail := by
  cases R1 with
  | hit K vs m => intro h1; cases h1
  | panic => intro h1; cases h1
  | fail => exact h

theorem Found.under_ne_fail {R : Found} (pre : Str) (h : R ≠ .fail) : R.under pre ≠ .fail := by
  cases R with
  | hit K vs m => intro h1; cases h1
  | panic => intro h1; cases h1
  | fail => exact absurd rfl h

theorem Found.capture_ne_fail {R : Found} (v : Str) (h : R ≠ .fail) : R.capture v ≠ .fail := by
  cases R with
  | hit K vs m => intro h1; cases h1
  | panic => intro h1; cases h1
  | fail => exact absurd rfl h

theorem Found.orElse_eq_panic {R1 R2 : Found} (h : R1.orElse R2 = .panic) :
    R1 = .panic ∨ (R1 = .fail ∧ R2 = .panic) := by
  cases R1 with
  | hit K vs m => cases h
  | panic => exact Or.inl rfl
  | fail => exact Or.inr ⟨rfl, h⟩

theorem Found.under_eq_panic {R : Found} {pre : Str} (h : R.under pre = .panic) :
    R = .panic := by
  cases R with
  | hit K vs m => cases h
  | panic => rfl
  | fail => cases h

theorem Found.capture_eq_panic {R : Found} {v : Str} (h : R.capture v = .panic) :
    R = .panic := by
  cases R with
  | hit K vs m => cases h
  | panic => rfl
  | fail => cases h

/-- With a buffer that has room for the wildcards of every route of the tree the
exploration does not panic. -/
theorem explore_no_panic (cap N : Nat) (hcap : N ≤ cap) : ∀ (n : node) (d : Nat) (s : Str),
    Inv N d n → explore cap n d s ≠ .panic := by
  intro n
  induction n using node.induct with
  | step k lab pre cs pp pn hs pc ac lf ihc ihp iha =>
    intro d s hinv he
    rw [explore_unfold] at he
    by_cases hA : k = .skind ∧ ¬ (pre.length ≤ s.length ∧ pre = s.take pre.length)
    · rw [if_pos hA] at he; cases he
    rw [if_neg hA] at he
    generalize hs1 : (if k = .skind then s.drop pre.length else s) = s1 at he
    by_cases hex : s1 = [] ∧ hs.getD [] ≠ []
    · rw [if_pos hex] at he; cases he
    rw [if_neg hex] at he
    rcases Found.orElse_eq_panic (Found.under_eq_panic he) with h1 | ⟨_, h1⟩
    · cases s1 with
      | nil => cases h1
      | cons c0 rest =>
        simp only [exploreList_eq] at h1
        cases hf : cs.find? (fun c => c.label == c0) with
        | none => rw [hf] at h1; cases h1
        | some c =>
          rw [hf] at h1
          obtain ⟨hmem, _⟩ := find?_label_eq_some hf
          exact ihc c hmem d _ (hinv.child hmem) h1
    · rcases Found.orElse_eq_panic h1 with h2 | ⟨_, h2⟩
      · cases hpcn : pc with
        | none => rw [hpcn] at h2; cases h2
        | some c =>
          rw [hpcn] at h2
          simp only [] at h2
          have hle := (hinv.param hpcn).le
          by_cases hne : s1 ≠ []
          · rw [if_pos hne, if_pos (by omega)] at h2
            exact ihp c hpcn (d + 1) _ (hinv.param hpcn) (Found.capture_eq_panic h2)
          · rw [if_neg hne] at h2; cases h2
      · unfold exploreAny at h2
        cases hacn : ac with
        | none => rw [hacn] at h2; cases h2
        | some c =>
          rw [hacn] at h2
          simp only [] at h2
          have hle := (hinv.any hacn).le
          rw [if_pos (by omega)] at h2
          cases h2

/-- The exploration of a subtree does not fail when the subtree holds a serving node along
a key that matches the rest of the path. -/
theorem explore_complete (cap N : Nat) : ∀ (n : node) (d : Nat) (s K1 : Str) (vs : List Str)
    (m : node), Inv N d n → n.kind ≠ .akind → At n (n.pfx ++ K1) m →
    (m.kind = .akind ∨ m.handlers.getD [] ≠ []) →
    keyMatch K1 (if n.kind = .skind then s.drop n.pfx.length else s) = some vs →
    (n.kind = .skind → n.pfx.length ≤ s.length ∧ n.pfx = s.take n.pfx.length) →
    explore cap n d s ≠ .fail := by
  intro n
  induction n using node.induct with
  | step k lab pre cs pp pn hs pc ac lf ihc ihp iha =>
    intro d s K1 vs m hinv hk hat hserve hkm hpre
    simp only [node.pfx_mk, node.kind_mk] at hat hkm hpre hk
    rw [explore_unfold]
    have hA : ¬ (k = .skind ∧ ¬ (pre.length ≤ s.length ∧ pre = s.take pre.length)) :=
      fun h => h.2 (hpre h.1)
    rw [if_neg hA]
    generalize hs1 : (if k = .skind then s.drop pre.length else s) = s1 at hkm ⊢
    by_cases hex : s1 = [] ∧ hs.getD [] ≠ []
    · rw [if_pos hex]; intro h; cases h
    rw [if_neg hex]
    apply Found.under_ne_fail
    rcases hat.cases_on_key with ⟨h0, hm⟩ | ⟨x, K2, hK, hatx, hslot⟩
    · -- the node itself
      exfalso
      simp only [node.pfx_mk] at h0
      have hK1 : K1 = [] := by
        have := congrArg List.length h0
        simp only [List.length_append] at this
        exact List.length_eq_zero.mp (by omega)
      subst hK1
      have hs0 := (keyMatch_nil.mp hkm).1
      subst hm
      rcases hserve with h | h
      · exact hk h
      · exact hex ⟨hs0, h⟩
    · simp only [node.pfx_mk, node.children_mk, node.paramChild_mk, node.anyChild_mk] at hK hslot
      have hK2 : K1 = K2 := List.append_cancel_left hK
      subst hK2
      obtain ⟨K3, hK3⟩ := hatx.prefix_key
      rcases hslot with hx | hx | hx
      · -- a static child
        apply Found.orElse_ne_fail_left
        have hkx := hinv.child_kind hx
        have hix := hinv.child hx
        rw [hK3] at hkm hatx
        obtain ⟨s2, hs2, hkm2⟩ := (keyMatch_noWild (hix.noWild hkx)).mp hkm
        have hhead := hix.head
        cases hpx : x.pfx with
        | nil => exact absurd hpx hix.pfx_ne_nil
        | cons a as =>
          rw [hpx] at hs2 hhead
          simp only [List.head?_cons, Option.some.injEq] at hhead
          rw [hs2]
          simp only [List.cons_append, exploreList_eq]
          have hf : cs.find? (fun c => c.label == a) = some x := by
            rw [hhead]
            exact find?_label_of_mem hinv.nodup hx
          rw [hf]
          simp only []
          have hsx : a :: (as ++ s2) = x.pfx ++ s2 := by rw [hpx]; rfl
          rw [hsx]
          apply ihc x hx d (x.pfx ++ s2) K3 vs m hix (by rw [hkx]; decide) hatx hserve
          · rw [if_pos hkx, List.drop_left]
            exact hkm2
          · intro _
            exact ⟨by simp, by simp⟩
      · -- the param child
        apply Found.orElse_ne_fail_right
        apply Found.orElse_ne_fail_left
        rw [hx]
        simp only []
        have hshape := hinv.param_shape hx
        rw [hK3, hshape.2] at hkm hatx
        obtain ⟨hne, vs1, hkm1, _⟩ := keyMatch_colon.mp hkm
        rw [if_pos hne]
        by_cases hc : d + 1 ≤ cap
        · rw [if_pos hc]
          apply Found.capture_ne_fail
          rw [← hshape.2] at hatx
          apply ihp x hx (d + 1) _ K3 vs1 m (hinv.param hx) (by rw [hshape.1]; decide) hatx
            hserve
          · rw [if_neg (by rw [hshape.1]; decide), drop_takeWhile_length]
            exact hkm1
          · intro h; rw [hshape.1] at h; cases h
        · rw [if_neg hc]; intro h; cases h
      · -- the catch-all child
        apply Found.orElse_ne_fail_right
        apply Found.orElse_ne_fail_right
        unfold exploreAny
        rw [hx]
        simp only []
        by_cases hc : d + 1 ≤ cap
        · rw [if_pos hc]; intro h; cases h
        · rw [if_neg hc]; intro h; cases h

end route


namespace route

/-! ### The order in which the exploration tries the routes -/

theorem rank_pos_wild {c1 c2 : Char} (h : rank c1 < rank c2) : c2 = ':' ∨ c2 = '*' := by
  unfold rank at h
  by_cases h1 : c2 = ':'
  · exact Or.inl h1
  · by_cases h2 : c2 = '*'
    · exact Or.inr h2
    · rw [if_neg h1, if_neg h2] at h
      omega

theorem rank_lt_colon {c1 : Char} (h : rank c1 < rank ':') : c1 ≠ ':' ∧ c1 ≠ '*' := by
  unfold rank at h
  rw [if_pos rfl] at h
  by_cases h1 : c1 = ':'
  · rw [if_pos h1] at h; omega
  · by_cases h2 : c1 = '*'
    · rw [if_neg h1, if_pos h2] at h; omega
    · exact ⟨h1, h2⟩

theorem rank_lt_star {c1 : Char} (h : rank c1 < rank '*') : c1 ≠ '*' := by
  intro h1
  rw [h1] at h
  exact Nat.lt_irrefl _ h

theorem rank_ne {c1 c2 : Char} (h : rank c1 < rank c2) : c1 ≠ c2 := by
  intro h1
  rw [h1] at h
  exact Nat.lt_irrefl _ h

/-- Two texts that agree up to a first difference and start with the same text agree on it
before the difference. -/
theorem common_prefix_split : ∀ {p A B w t1 t2 : Str} {c1 c2 : Char},
    p ++ A = w ++ c1 :: t1 → p ++ B = w ++ c2 :: t2 → c1 ≠ c2 →
    ∃ w1, w = p ++ w1 ∧ A = w1 ++ c1 :: t1 ∧ B = w1 ++ c2 :: t2
  | [], A, B, w, t1, t2, c1, c2, hA, hB, _ => ⟨w, rfl, hA, hB⟩
  | x :: p, A, B, w, t1, t2, c1, c2, hA, hB, hne => by
    cases w with
    | nil =>
      simp only [List.cons_append, List.nil_append, List.cons.injEq] at hA hB
      exact absurd (hA.1.symm.trans hB.1) hne
    | cons y w0 =>
      simp only [List.cons_append, List.cons.injEq] at hA hB
      obtain ⟨w1, h1, h2, h3⟩ := common_prefix_split hA.2 hB.2 hne
      exact ⟨w1, by rw [h1, hA.1]; rfl, h2, h3⟩

/-- The first byte of a key below a node tells the slot of the child that holds it. -/
theorem slot_head {N d : Nat} {n x m : node} {K : Str} (hinv : Inv N d n) (hat : At x K m)
    (hslot : x ∈ n.children ∨ n.paramChild = some x ∨ n.anyChild = some x) :
    (x ∈ n.children ∧ ∃ rest, K = x.label :: rest ∧ x.label ≠ ':' ∧ x.label ≠ '*') ∨
      (n.paramChild = some x ∧ ∃ rest, K = ':' :: rest) ∨
      (n.anyChild = some x ∧ K = ['*']) := by
  obtain ⟨K1, hK⟩ := hat.prefix_key
  rcases hslot with hx | hx | hx
  · left
    have hh := (hinv.child hx).head
    cases hp : x.pfx with
    | nil => exact absurd hp (hinv.child hx).pfx_ne_nil
    | cons a as =>
      rw [hp] at hh hK
      simp only [List.head?_cons, Option.some.injEq] at hh
      exact ⟨hx, as ++ K1, by rw [hK, ← hh]; rfl, hinv.child_label_noWild hx⟩
  · right; left
    rw [(hinv.param_shape hx).2] at hK
    exact ⟨hx, K1, hK⟩
  · right; right
    have hs := hinv.any_shape hx
    have := hat.of_leaf hs.2.2.1 hs.2.2.2.1 hs.2.2.2.2.1
    rw [hs.2.1] at this
    exact ⟨hx, this.1⟩

/-- The alternative of the static child does not fail when a static child holds a serving
node along a key that matches. -/
theorem static_alt_ne_fail (cap : Nat) {N d : Nat} {n x m : node} {K1 s1 : Str} {vs : List Str}
    (hinv : Inv N d n) (hx : x ∈ n.children) (hat : At x K1 m)
    (hserve : m.kind = .akind ∨ m.handlers.getD [] ≠ [])
    (hkm : keyMatch K1 s1 = some vs) :
    (match s1 with
     | c0 :: _ =>
       match n.children.find? (fun (c : node) => c.label == c0) with
       | some c => explore cap c d s1
       | none => .fail
     | [] => Found.fail) ≠ .fail := by
  have hkx := hinv.child_kind hx
  have hix := hinv.child hx
  obtain ⟨K3, hK3⟩ := hat.prefix_key
  rw [hK3] at hkm hat
  obtain ⟨s2, hs2, hkm2⟩ := (keyMatch_noWild (hix.noWild hkx)).mp hkm
  have hhead := hix.head
  cases hpx : x.pfx with
  | nil => exact absurd hpx hix.pfx_ne_nil
  | cons a as =>
    rw [hpx] at hs2 hhead
    simp only [List.head?_cons, Option.some.injEq] at hhead
    rw [hs2]
    simp only [List.cons_append]
    have hf : n.children.find? (fun c => c.label == a) = some x := by
      rw [hhead]
      exact find?_label_of_mem hinv.nodup hx
    rw [hf]
    simp only []
    have hsx : a :: (as ++ s2) = x.pfx ++ s2 := by rw [hpx]; rfl
    rw [hsx]
    apply explore_complete cap N x d (x.pfx ++ s2) K3 vs m hix (by rw [hkx]; decide) hat hserve
    · rw [if_pos hkx, List.drop_left]
      exact hkm2
    · intro _
      exact ⟨by simp, by simp⟩

/-- The alternative of the param child does not fail when the param child holds a serving
node along a key that matches. -/
theorem param_alt_ne_fail (cap : Nat) {N d : Nat} {n x m : node} {K1 s1 : Str} {vs : List Str}
    (hinv : Inv N d n) (hx : n.paramChild = some x) (hat : At x K1 m)
    (hserve : m.kind = .akind ∨ m.handlers.getD [] ≠ [])
    (hkm : keyMatch K1 s1 = some vs) :
    (match n.paramChild with
     | some c =>
       if s1 ≠ [] then
         if d + 1 ≤ cap then
           Found.capture (s1.takeWhile (fun a => a != '/'))
             (explore cap c (d + 1) (s1.drop (s1.takeWhile (fun a => a != '/')).length))
         else .panic
       else .fail
     | none => .fail) ≠ .fail := by
  obtain ⟨K3, hK3⟩ := hat.prefix_key
  rw [hx]
  simp only []
  have hshape := hinv.param_shape hx
  rw [hK3, hshape.2] at hkm
  rw [hK3] at hat
  obtain ⟨hne, vs1, hkm1, _⟩ := keyMatch_colon.mp hkm
  rw [if_pos hne]
  by_cases hc : d + 1 ≤ cap
  · rw [if_pos hc]
    apply Found.capture_ne_fail
    apply explore_complete cap N x (d + 1) _ K3 vs1 m (hinv.param hx)
      (by rw [hshape.1]; decide) hat hserve
    · rw [if_neg (by rw [hshape.1]; decide), drop_takeWhile_length]
      exact hkm1
    · intro h; rw [hshape.1] at h; cases h
  · rw [if_neg hc]; intro h; cases h

end route

namespace route

/-- The exploration does not end at a route when another route of the subtree matches and
has the higher priority at the first byte at which the two keys differ. -/
theorem explore_priority (cap N : Nat) : ∀ (n : node) (d : Nat) (s K2 : Str) (vs : List Str)
    (m : node) (K1 : Str) (vs1 : List Str) (m1 : node) (w : Str) (c1 c2 : Char) (t1 t2 : Str),
    Inv N d n → n.kind ≠ .akind → explore cap n d s = .hit (n.pfx ++ K2) vs m →
    At n (n.pfx ++ K1) m1 → (m1.kind = .akind ∨ m1.handlers.getD [] ≠ []) →
    keyMatch K1 (if n.kind = .skind then s.drop n.pfx.length else s) = some vs1 →
    K1 = w ++ c1 :: t1 → K2 = w ++ c2 :: t2 → rank c1 < rank c2 → False := by
  intro n
  induction n using node.induct with
  | step k lab pre cs pp pn hs pc ac lf ihc ihp iha =>
    intro d s K2 vs m K1 vs1 m1 w c1 c2 t1 t2 hinv hk he hat1 hserve hkm hK1 hK2 hrank
    simp only [node.pfx_mk, node.kind_mk] at hat1 hkm hk he
    rw [explore_unfold] at he
    by_cases hA : k = .skind ∧ ¬ (pre.length ≤ s.length ∧ pre = s.take pre.length)
    · rw [if_pos hA] at he; cases he
    rw [if_neg hA] at he
    generalize hs1 : (if k = .skind then s.drop pre.length else s) = s1 at he hkm
    by_cases hex : s1 = [] ∧ hs.getD [] ≠ []
    · rw [if_pos hex] at he
      simp only [Found.hit.injEq] at he
      have := congrArg List.length he.1
      rw [hK2] at this
      simp at this
    rw [if_neg hex] at he
    obtain ⟨K0, hR, hK⟩ := Found.under_eq_hit he
    have hK0 : K0 = K2 := (List.append_cancel_left hK).symm
    subst hK0
    clear he hK
    simp only [exploreList_eq] at hR
    -- the child that holds the first route
    have hslot1 : ∃ x, At x K1 m1 ∧
        (x ∈ cs ∨ pc = some x ∨ ac = some x) := by
      rcases hat1.cases_on_key with ⟨h0, _⟩ | ⟨x, K3, hK, hatx, hslot⟩
      · simp only [node.pfx_mk] at h0
        have := congrArg List.length h0
        rw [hK1] at this
        simp at this
      · simp only [node.pfx_mk] at hK
        have := List.append_cancel_left hK
        subst this
        exact ⟨x, hatx, hslot⟩
    obtain ⟨x, hatx, hslot⟩ := hslot1
    have hhead := slot_head hinv hatx hslot
    simp only [node.children_mk, node.paramChild_mk, node.anyChild_mk] at hhead
    have hne := rank_ne hrank
    rcases Found.orElse_eq_hit hR with h1 | ⟨hAf, h1⟩
    · -- the exploration ends below a static child
      cases s1 with
      | nil => cases h1
      | cons c0 rest =>
        simp only [] at h1
        cases hf : cs.find? (fun c => c.label == c0) with
        | none => rw [hf] at h1; cases h1
        | some c =>
          rw [hf] at h1
          simp only [] at h1
          obtain ⟨hmem, _⟩ := find?_label_eq_some hf
          have hic := hinv.child hmem
          have hkc := hinv.child_kind hmem
          obtain ⟨_, _, _, K2c, hK2c, _, _⟩ := explore_sound cap N c d _ _ vs m hic h1
          have hlabc := hinv.child_label_noWild hmem
          have hheadc := hic.head
          cases hpc : c.pfx with
          | nil => exact absurd hpc hic.pfx_ne_nil
          | cons a as =>
            rw [hpc] at hheadc
            simp only [List.head?_cons, Option.some.injEq] at hheadc
            cases w with
            | nil =>
              rw [hK2, hpc] at hK2c
              simp only [List.nil_append, List.cons_append, List.cons.injEq] at hK2c
              rcases rank_pos_wild hrank with h | h
              · exact hlabc.1 (by rw [← hheadc, ← hK2c.1, h])
              · exact hlabc.2 (by rw [← hheadc, ← hK2c.1, h])
            | cons y w0 =>
              have hy : y = c.label := by
                rw [hK2, hpc] at hK2c
                simp only [List.cons_append, List.cons.injEq] at hK2c
                rw [hK2c.1, hheadc]
              have hxc : x = c := by
                rcases hhead with ⟨hx, r, hr, _⟩ | ⟨_, r, hr⟩ | ⟨_, hr⟩
                · apply label_inj hinv hx hmem
                  rw [hK1] at hr
                  simp only [List.cons_append, List.cons.injEq] at hr
                  rw [← hr.1, hy]
                · rw [hK1] at hr
                  simp only [List.cons_append, List.cons.injEq] at hr
                  exact absurd (by rw [← hy, hr.1]) hlabc.1
                · rw [hK1] at hr
                  simp only [List.cons_append, List.cons.injEq] at hr
                  exact absurd (by rw [← hy, hr.1]) hlabc.2
              subst hxc
              obtain ⟨K1c, hK1c⟩ := hatx.prefix_key
              obtain ⟨w1, hw1, hA1, hB1⟩ := common_prefix_split
                (hK1c.symm.trans hK1) (hK2c.symm.trans hK2) hne
              rw [hK1c] at hkm hatx
              obtain ⟨s2, hs2, hkm2⟩ := (keyMatch_noWild (hic.noWild hkc)).mp hkm
              rw [hK2c] at h1
              refine ihc x hmem d _ K2c vs m K1c vs1 m1 w1 c1 c2 t1 t2 hic
                (by rw [hkc]; decide) h1 hatx hserve ?_ hA1 hB1 hrank
              rw [if_pos hkc, hs2, List.drop_left]
              exact hkm2
    · have hAf1 : ∀ y, y ∈ cs → At y K1 m1 → False := by
        intro y hy haty
        have := static_alt_ne_fail cap hinv hy haty hserve hkm
        simp only [node.children_mk] at this
        exact this hAf
      rcases Found.orElse_eq_hit h1 with h2 | ⟨hBf, h2⟩
      · -- the exploration ends below the param child
        cases hpcn : pc with
        | none => rw [hpcn] at h2; cases h2
        | some c =>
          rw [hpcn] at h2 hhead
          simp only [] at h2
          by_cases hne1 : s1 ≠ []
          swap
          · rw [if_neg hne1] at h2; cases h2
          rw [if_pos hne1] at h2
          by_cases hc : d + 1 ≤ cap
          swap
          · rw [if_neg hc] at h2; cases h2
          rw [if_pos hc] at h2
          obtain ⟨vs2, h3, _⟩ := Found.capture_eq_hit h2
          have hshape := hinv.param_shape hpcn
          have hic := hinv.param hpcn
          obtain ⟨_, _, _, K2c, hK2c, _, _⟩ := explore_sound cap N c (d + 1) _ _ vs2 m hic h3
          rw [hshape.2] at hK2c
          cases w with
          | nil =>
            rw [hK2] at hK2c
            simp only [List.nil_append, List.cons_append, List.cons.injEq] at hK2c
            rw [hK2c.1] at hrank
            have hc1 := rank_lt_colon hrank
            rcases hhead with ⟨hx, _⟩ | ⟨_, r, hr⟩ | ⟨_, hr⟩
            · exact hAf1 x hx hatx
            · rw [hK1] at hr
              simp only [List.nil_append, List.cons.injEq] at hr
              exact hc1.1 hr.1
            · rw [hK1] at hr
              simp only [List.nil_append, List.cons.injEq] at hr
              exact hc1.2 hr.1
          | cons y w0 =>
            have hy : y = ':' := by
              rw [hK2] at hK2c
              simp only [List.cons_append, List.cons.injEq] at hK2c
              exact hK2c.1
            subst hy
            have hxc : x = c := by
              rcases hhead with ⟨hx, r, hr, hl, _⟩ | ⟨hx, _⟩ | ⟨_, hr⟩
              · rw [hK1] at hr
                simp only [List.cons_append, List.cons.injEq] at hr
                exact absurd hr.1.symm hl
              · exact (Option.some.inj hx).symm
              · rw [hK1] at hr
                simp only [List.cons_append, List.cons.injEq] at hr
                exact absurd hr.1 (by decide)
            subst hxc
            have hK1c : K1 = x.pfx ++ (w0 ++ c1 :: t1) := by rw [hshape.2, hK1]; rfl
            have hK2c1 : K2c = w0 ++ c2 :: t2 := by
              rw [hK2] at hK2c
              simp only [List.cons_append, List.cons.injEq, true_and] at hK2c
              exact hK2c.symm
            rw [hK1] at hkm
            obtain ⟨_, vs3, hkm3, _⟩ := keyMatch_colon.mp hkm
            rw [hK1c] at hatx
            have h4 : explore cap x (d + 1)
                (s1.drop (s1.takeWhile (fun a => a != '/')).length) =
                .hit (x.pfx ++ K2c) vs2 m := by
              rw [h3, hshape.2, hK2, hK2c1]; rfl
            refine ihp x hpcn (d + 1) _ K2c vs2 m (w0 ++ c1 :: t1) vs3 m1 w0 c1 c2 t1 t2 hic
              (by rw [hshape.1]; decide) h4 hatx hserve ?_ rfl hK2c1 hrank
            rw [if_neg (by rw [hshape.1]; decide), drop_takeWhile_length]
            exact hkm3
      · -- the exploration ends at the catch-all child
        unfold exploreAny at h2
        cases hacn : ac with
        | none => rw [hacn] at h2; cases h2
        | some c =>
          rw [hacn] at h2
          simp only [] at h2
          by_cases hc : d + 1 ≤ cap
          swap
          · rw [if_neg hc] at h2; cases h2
          rw [if_pos hc] at h2
          simp only [Found.hit.injEq] at h2
          have hshape := hinv.any_shape hacn
          have hK2s : w ++ c2 :: t2 = ['*'] := by
            rw [← hK2, ← h2.1, hshape.2.1]
          cases w with
          | cons y w0 =>
            have := congrArg List.length hK2s
            simp at this
          | nil =>
            simp only [List.nil_append, List.cons.injEq] at hK2s
            rw [hK2s.1] at hrank
            have hc1 := rank_lt_star hrank
            rcases hhead with ⟨hx, _⟩ | ⟨hx, _⟩ | ⟨_, hr⟩
            · exact hAf1 x hx hatx
            · have := param_alt_ne_fail cap hinv hx hatx hserve hkm
              simp only [node.paramChild_mk] at this
              exact this hBf
            · rw [hK1] at hr
              simp only [List.nil_append, List.cons.injEq] at hr
              exact hc1 hr.1

end route


namespace route

/-! ### Patterns and their collapsed forms -/

theorem instantiateSegs_lit (c : Char) (rest : List Seg) (vals : List Str) :
    instantiateSegs (.lit c :: rest) vals =
      (instantiateSegs rest vals).map (fun s => c :: s) := by
  cases vals <;> rfl

theorem valuesOk_lit (strict : Bool) (c : Char) (rest : List Seg) (vals : List Str) :
    valuesOk strict (.lit c :: rest) vals = valuesOk strict rest vals := by
  cases vals <;> rfl

theorem takeWhile_all {p : Char → Bool} : ∀ {v : Str}, v.all p = true → v.takeWhile p = v
  | [], _ => rfl
  | a :: v, h => by
    simp only [List.all_cons, Bool.and_eq_true] at h
    rw [List.takeWhile_cons, h.1]
    simp only [if_true]
    rw [takeWhile_all h.2]

theorem takeWhile_append_stop {p : Char → Bool} {x : Char} (hx : p x = false) (rest : Str) :
    ∀ {v : Str}, v.all p = true → (v ++ x :: rest).takeWhile p = v
  | [], _ => by simp [List.takeWhile_cons, hx]
  | a :: v, h => by
    simp only [List.all_cons, Bool.and_eq_true] at h
    rw [List.cons_append, List.takeWhile_cons, h.1]
    simp only [if_true]
    rw [takeWhile_append_stop hx rest h.2]

theorem all_takeWhile (p : Char → Bool) : ∀ (s : Str), (s.takeWhile p).all p = true
  | [] => rfl
  | a :: s => by
    rw [List.takeWhile_cons]
    cases h : p a with
    | true => simp [h, all_takeWhile p s]
    | false => simp

/-- A path that matches the collapsed form of a pattern is the pattern with its wildcards
replaced by the values of the match, and the values of the `:name` parameters hold no `/`. -/
theorem instance_of_keyMatch : ∀ (n : Nat) (p path : Str) (vs : List Str), p.length ≤ n →
    keyMatch (segsKey (parseSegs none p)) path = some vs →
    instantiateSegs (parseSegs none p) vs = some path ∧
      valuesOk false (parseSegs none p) vs = true := by
  intro n
  induction n with
  | zero =>
    intro p path vs hp hkm
    have : p = [] := List.length_eq_zero.mp (by omega)
    subst this
    simp only [parseSegs, segsKey] at hkm ⊢
    obtain ⟨h1, h2⟩ := keyMatch_nil.mp hkm
    subst h1 h2
    exact ⟨rfl, rfl⟩
  | succ n ih =>
    intro p path vs hp hkm
    cases p with
    | nil =>
      simp only [parseSegs, segsKey] at hkm ⊢
      obtain ⟨h1, h2⟩ := keyMatch_nil.mp hkm
      subst h1 h2
      exact ⟨rfl, rfl⟩
    | cons c p1 =>
      simp only [List.length_cons] at hp
      by_cases hc1 : c = ':'
      · subst hc1
        rw [parseSegs_colon, parseSegs_name] at hkm ⊢
        cases hdw : p1.dropWhile (fun a => a != '/') with
        | nil =>
          rw [hdw] at hkm
          simp only [segsKey, Seg.key, List.append_nil] at hkm ⊢
          obtain ⟨hne, vs1, hk1, hvs⟩ := keyMatch_colon.mp hkm
          obtain ⟨hd, hv1⟩ := keyMatch_nil.mp hk1
          subst hv1 hvs
          have hpath : path.takeWhile (fun a => a != '/') = path := by
            have := List.takeWhile_append_dropWhile (fun a => a != '/') path
            rw [hd, List.append_nil] at this
            exact this
          rw [hpath]
          refine ⟨by simp [instantiateSegs], ?_⟩
          simp only [valuesOk, Bool.not_false, Bool.true_or, Bool.true_and, Bool.and_true]
          rw [← hpath]
          exact all_takeWhile _ _
        | cons x p2 =>
          have hx : x = '/' := dropWhile_head_slash hdw
          subst hx
          rw [hdw] at hkm
          simp only [segsKey, Seg.key, List.cons_append, List.nil_append] at hkm ⊢
          obtain ⟨hne, vs1, hk1, hvs⟩ := keyMatch_colon.mp hkm
          obtain ⟨s3, hs3, hk3⟩ := (keyMatch_static (by decide) (by decide)).mp hk1
          subst hvs
          have hlen : p2.length ≤ n := by
            have := length_dropWhile_le (fun a => a != '/') p1
            rw [hdw] at this
            simp only [List.length_cons] at this
            omega
          obtain ⟨hi, hv⟩ := ih p2 s3 vs1 hlen hk3
          have hpath : path.takeWhile (fun a => a != '/') ++ '/' :: s3 = path := by
            rw [← hs3]
            exact List.takeWhile_append_dropWhile _ _
          refine ⟨?_, ?_⟩
          · simp only [instantiateSegs, instantiateSegs_lit, hi, Option.map_some']
            rw [hpath]
          · simp only [valuesOk, valuesOk_lit, hv, Bool.not_false, Bool.true_or, Bool.true_and,
              Bool.and_true]
            exact all_takeWhile _ _
      · by_cases hc2 : c = '*'
        · subst hc2
          rw [parseSegs_star] at hkm ⊢
          simp only [segsKey, Seg.key, List.append_nil] at hkm
          rw [keyMatch_star] at hkm
          simp only [Option.some.injEq] at hkm
          subst hkm
          exact ⟨by simp [instantiateSegs], by simp [valuesOk]⟩
        · rw [parseSegs_plain p1 hc1 hc2] at hkm ⊢
          simp only [segsKey, Seg.key, List.singleton_append] at hkm
          obtain ⟨s1, hs1, hk1⟩ := (keyMatch_static hc1 hc2).mp hkm
          obtain ⟨hi, hv⟩ := ih p1 s1 vs (by omega) hk1
          subst hs1
          exact ⟨by rw [instantiateSegs_lit, hi]; rfl, by rw [valuesOk_lit, hv]⟩

end route

namespace route

theorem dropWhile_all {p : Char → Bool} {v : Str} (h : v.all p = true) :
    v.dropWhile p = [] := by
  have h1 := List.takeWhile_append_dropWhile p v
  rw [takeWhile_all h] at h1
  have := congrArg List.length h1
  simp only [List.length_append] at this
  exact List.length_eq_zero.mp (by omega)

theorem dropWhile_append_stop {p : Char → Bool} {x : Char} (hx : p x = false) (rest : Str)
    {v : Str} (h : v.all p = true) : (v ++ x :: rest).dropWhile p = x :: rest := by
  have h1 := List.takeWhile_append_dropWhile p (v ++ x :: rest)
  rw [takeWhile_append_stop hx rest h] at h1
  exact List.append_cancel_left h1

/-- A path that is a pattern with its wildcards replaced by values, those of the `:name`
parameters not empty and without `/`, matches the collapsed form of the pattern with these
values. -/
theorem keyMatch_of_instance : ∀ (n : Nat) (p path : Str) (vs : List Str), p.length ≤ n →
    instantiateSegs (parseSegs none p) vs = some path →
    valuesOk true (parseSegs none p) vs = true →
    keyMatch (segsKey (parseSegs none p)) path = some vs := by
  intro n
  induction n with
  | zero =>
    intro p path vs hp hi _
    have : p = [] := List.length_eq_zero.mp (by omega)
    subst this
    simp only [parseSegs, segsKey] at hi ⊢
    cases vs with
    | nil =>
      simp only [instantiateSegs, Option.some.injEq] at hi
      subst hi
      rfl
    | cons v vs => simp [instantiateSegs] at hi
  | succ n ih =>
    intro p path vs hp hi hv
    cases p with
    | nil =>
      simp only [parseSegs, segsKey] at hi ⊢
      cases vs with
      | nil =>
        simp only [instantiateSegs, Option.some.injEq] at hi
        subst hi
        rfl
      | cons v vs => simp [instantiateSegs] at hi
    | cons c p1 =>
      simp only [List.length_cons] at hp
      by_cases hc1 : c = ':'
      · subst hc1
        rw [parseSegs_colon, parseSegs_name] at hi hv ⊢
        cases hdw : p1.dropWhile (fun a => a != '/') with
        | nil =>
          rw [hdw] at hi hv
          simp only [segsKey, Seg.key, List.append_nil] at hi hv ⊢
          cases vs with
          | nil => simp [instantiateSegs] at hi
          | cons v vs1 =>
            cases vs1 with
            | cons v2 vs2 => simp [instantiateSegs] at hi
            | nil =>
              simp only [instantiateSegs, Option.map_some', Option.some.injEq,
                List.append_nil] at hi
              subst hi
              simp only [valuesOk, Bool.not_true, Bool.false_or, Bool.and_true,
                Bool.and_eq_true, Bool.not_eq_true'] at hv
              apply keyMatch_colon.mpr
              refine ⟨?_, [], ?_, ?_⟩
              · intro h0; rw [h0] at hv; simp at hv
              · rw [dropWhile_all hv.2]; rfl
              · rw [takeWhile_all hv.2]
        | cons x p2 =>
          have hx : x = '/' := dropWhile_head_slash hdw
          subst hx
          rw [hdw] at hi hv
          simp only [segsKey, Seg.key, List.cons_append, List.nil_append] at hi hv ⊢
          cases vs with
          | nil => simp [instantiateSegs] at hi
          | cons v vs1 =>
            simp only [instantiateSegs, instantiateSegs_lit, Option.map_map,
              Option.map_eq_some', Function.comp] at hi
            obtain ⟨s3, hi3, hpath⟩ := hi
            simp only [valuesOk, valuesOk_lit, Bool.not_true, Bool.false_or,
              Bool.and_eq_true, Bool.not_eq_true'] at hv
            have hlen : p2.length ≤ n := by
              have := length_dropWhile_le (fun a => a != '/') p1
              rw [hdw] at this
              simp only [List.length_cons] at this
              omega
            have hk3 := ih p2 s3 vs1 hlen hi3 hv.2
            subst hpath
            apply keyMatch_colon.mpr
            refine ⟨by cases v <;> simp, vs1, ?_, ?_⟩
            · rw [@dropWhile_append_stop (fun a => a != '/') '/' (by decide) s3 v hv.1.2]
              exact (keyMatch_static (by decide) (by decide)).mpr ⟨s3, rfl, hk3⟩
            · rw [@takeWhile_append_stop (fun a => a != '/') '/' (by decide) s3 v hv.1.2]
      · by_cases hc2 : c = '*'
        · subst hc2
          rw [parseSegs_star] at hi ⊢
          simp only [segsKey, Seg.key, List.append_nil]
          rw [keyMatch_star]
          cases vs with
          | nil => simp [instantiateSegs] at hi
          | cons v vs1 =>
            cases vs1 with
            | cons v2 vs2 => simp [instantiateSegs] at hi
            | nil =>
              simp only [instantiateSegs, Option.map_some', Option.some.injEq,
                List.append_nil] at hi
              rw [hi]
        · rw [parseSegs_plain p1 hc1 hc2] at hi hv ⊢
          simp only [segsKey, Seg.key, List.singleton_append]
          rw [instantiateSegs_lit] at hi
          rw [valuesOk_lit] at hv
          simp only [Option.map_eq_some'] at hi
          obtain ⟨s1, hi1, hpath⟩ := hi
          exact (keyMatch_static hc1 hc2).mpr ⟨s1, hpath.symm, ih p1 s1 vs (by omega) hi1 hv⟩

/-- A value for every wildcard. -/
theorem instantiateSegs_length : ∀ (segs : List Seg) (vs : List Str) (path : Str),
    instantiateSegs segs vs = some path → (segsNames segs).length = vs.length
  | [], [], _, _ => rfl
  | [], _ :: _, _, h => by simp [instantiateSegs] at h
  | .lit c :: rest, vs, path, h => by
    rw [instantiateSegs_lit] at h
    simp only [Option.map_eq_some'] at h
    obtain ⟨s, hs, _⟩ := h
    simpa [segsNames] using instantiateSegs_length rest vs s hs
  | .param _ :: _, [], _, h => by simp [instantiateSegs] at h
  | .param _ :: rest, v :: vs, path, h => by
    simp only [instantiateSegs, Option.map_eq_some'] at h
    obtain ⟨s, hs, _⟩ := h
    simpa [segsNames] using instantiateSegs_length rest vs s hs
  | .catchAll _ :: _, [], _, h => by simp [instantiateSegs] at h
  | .catchAll _ :: rest, v :: vs, path, h => by
    simp only [instantiateSegs, Option.map_eq_some'] at h
    obtain ⟨s, hs, _⟩ := h
    simpa [segsNames] using instantiateSegs_length rest vs s hs

/-- The collapsed form of a pattern has one marker for each of its wildcards. -/
theorem wcount_collapse : ∀ (n : Nat) (p : Str), p.length ≤ n →
    wcount (segsKey (parseSegs none p)) = (segsNames (parseSegs none p)).length := by
  intro n
  induction n with
  | zero =>
    intro p hp
    have : p = [] := List.length_eq_zero.mp (by omega)
    subst this
    rfl
  | succ n ih =>
    intro p hp
    cases p with
    | nil => rfl
    | cons c p1 =>
      simp only [List.length_cons] at hp
      by_cases hc1 : c = ':'
      · subst hc1
        rw [parseSegs_colon, parseSegs_name]
        cases hdw : p1.dropWhile (fun a => a != '/') with
        | nil => simp [segsKey, Seg.key, segsNames, wcount]
        | cons x p2 =>
          have hx : x = '/' := dropWhile_head_slash hdw
          subst hx
          have hlen : p2.length ≤ n := by
            have := length_dropWhile_le (fun a => a != '/') p1
            rw [hdw] at this
            simp only [List.length_cons] at this
            omega
          simp only [segsKey, Seg.key, segsNames, List.cons_append, List.nil_append,
            List.length_cons]
          rw [← ih p2 hlen]
          simp [wcount]
          omega
      · by_cases hc2 : c = '*'
        · subst hc2
          rw [parseSegs_star]
          simp [segsKey, Seg.key, segsNames, wcount]
        · rw [parseSegs_plain p1 hc1 hc2]
          simp only [segsKey, Seg.key, segsNames, List.singleton_append]
          rw [wcount_cons_plain hc1 hc2]
          exact ih p1 (by omega)

theorem isInstance_of_keyMatch {p path : Str} {vs : List Str}
    (h : keyMatch (collapse p) path = some vs) : IsInstance false p vs path :=
  instance_of_keyMatch p.length p path vs (le_refl _) h

theorem keyMatch_of_isInstance {p path : Str} {vs : List Str}
    (h : IsInstance true p vs path) : keyMatch (collapse p) path = some vs :=
  keyMatch_of_instance p.length p path vs (le_refl _) h.1 h.2

theorem wcount_collapse_eq (p : Str) : wcount (collapse p) = (wildcardNames p).length :=
  wcount_collapse p.length p (le_refl _)

end route


namespace route

/-! ### The lookup on a tree built by registrations -/

theorem explore_emptyRoot (cap : Nat) (path : Str) : explore cap emptyRoot 0 path = .fail := by
  cases path with
  | nil => rfl
  | cons c rest => rfl

/-- The key of a hit at the root matches the whole path. -/
theorem keyMatch_of_root_hit {cap N : Nat} {r m : node} {path K : Str} {vs : List Str}
    (hinv : Inv N 0 r) (hk : r.kind = .skind) (he : explore cap r 0 path = .hit K vs m) :
    keyMatch K path = some vs := by
  obtain ⟨_, _, _, K1, hK1, hkm, hpre⟩ := explore_sound cap N r 0 path K vs m hinv he
  rw [if_pos hk] at hkm
  rw [hK1]
  apply (keyMatch_noWild (hinv.noWild hk)).mpr
  refine ⟨_, ?_, hkm⟩
  conv_lhs => rw [← List.take_append_drop r.pfx.length path]
  rw [← (hpre hk).2]

/-- What `find` returns on a tree built by registrations, with an empty buffer of capacity
`cap`: nothing when the exploration fails, the panic of a buffer that is too small, or the
route at which the exploration ends, with the captured values under the names of its
pattern. -/
theorem find_built (unescaped : Str → Option Str) {r : node}
    {rs : List (Str × List HandlerFunc)} (hb : Built r rs) (path : Str) (cap : Nat) :
    (explore cap r 0 path = .fail ∧
        ∃ tsr ps1, find unescaped r path (Params.make cap) false =
          .ok ({ handlers := none, tsr := tsr, fullPath := [] }, ps1)) ∨
      (explore cap r 0 path = .panic ∧
        find unescaped r path (Params.make cap) false = .error .outOfRange) ∨
      (∃ K vs m x tsr ps2, explore cap r 0 path = .hit K vs m ∧ x ∈ rs ∧ collapse x.1 = K ∧
        At r K m ∧ m.handlers = some x.2 ∧ (m.kind = .akind ∨ x.2 ≠ []) ∧
        keyMatch K path = some vs ∧
        find unescaped r path (Params.make cap) false =
          .ok ({ handlers := some x.2, tsr := tsr, fullPath := m.ppath }, ps2) ∧
        ps2.toList.map Param.Value = vs ∧ ps2.toList.map Param.Key = wildcardNames x.1) := by
  obtain ⟨N, hN⟩ := exists_wildcard_bound rs
  obtain ⟨hg, _, _, hback, _⟩ := hb.holds N hN
  rcases hg with h0 | ⟨hinv, hk, _⟩
  · subst h0
    exact Or.inl ⟨explore_emptyRoot cap path, find_emptyRoot unescaped path _⟩
  · cases he : explore cap r 0 path with
    | fail => exact Or.inl ⟨rfl, find_fail unescaped hinv hk he⟩
    | panic => exact Or.inr (Or.inl ⟨rfl, find_panic unescaped hinv hk he⟩)
    | hit K vs m =>
      right; right
      obtain ⟨hat, him, ⟨hsome, hserve⟩, _⟩ := explore_sound cap N r 0 path K vs m hinv he
      obtain ⟨x, hx, hxK, hxh, hxn⟩ := hback K m hat hsome
      obtain ⟨tsr, ps1, hfind, hlen, hcap, hvals⟩ := find_hit unescaped hinv hk he
      have hnames : m.pnames.length = vs.length := by
        have := him.names hsome
        omega
      obtain ⟨ps2, hfin, hv2, hk2⟩ := finish_ok tsr hlen hcap hvals hnames
      refine ⟨K, vs, m, x, tsr, ps2, rfl, hx, hxK, hat, hxh, ?_,
        keyMatch_of_root_hit hinv hk he, ?_, hv2, by rw [hk2, hxn]⟩
      · rcases hserve with h | h
        · exact Or.inl h
        · right
          rw [hxh] at h
          simpa using h
      · rw [hfind, hfin, hxh]

/-- The exploration of a tree built by registrations does not fail on a path that matches
the collapsed form of a pattern registered with a non-empty chain. -/
theorem explore_built_ne_fail {r : node} {rs : List (Str × List HandlerFunc)}
    (hb : Built r rs) {p : Str} {h : List HandlerFunc} (hp : (p, h) ∈ rs) (hh : h ≠ [])
    {path : Str} {vs : List Str} (hkm : keyMatch (collapse p) path = some vs) (cap : Nat) :
    explore cap r 0 path ≠ .fail := by
  obtain ⟨N, hN⟩ := exists_wildcard_bound rs
  obtain ⟨hg, _, hmem, _, _⟩ := hb.holds N hN
  obtain ⟨m, hat, hm, _⟩ := hmem (p, h) hp
  rcases hg with h0 | ⟨hinv, hk, _⟩
  · subst h0
    have := (at_emptyRoot hat).2
    subst this
    simp [emptyRoot] at hm
  · obtain ⟨K1, hK1⟩ := hat.prefix_key
    simp only [] at hK1 hat hkm
    rw [hK1] at hkm hat
    obtain ⟨s1, hs1, hkm1⟩ := (keyMatch_noWild (hinv.noWild hk)).mp hkm
    apply explore_complete cap N r 0 path K1 vs m hinv (by rw [hk]; decide) hat
      (Or.inr (by rw [hm]; simpa using hh))
    · rw [if_pos hk, hs1, List.drop_left]
      exact hkm1
    · intro _
      rw [hs1]
      exact ⟨by simp, by simp⟩

/-- The exploration of a tree built by registrations does not panic when the buffer has
room for the wildcards of every registered pattern. -/
theorem explore_built_ne_panic {r : node} {rs : List (Str × List HandlerFunc)}
    (hb : Built r rs) {cap : Nat} (hcap : ∀ x ∈ rs, (wildcardNames x.1).length ≤ cap)
    (path : Str) : explore cap r 0 path ≠ .panic := by
  obtain ⟨hg, _⟩ := hb.holds cap (fun x hx => by rw [wcount_collapse_eq]; exact hcap x hx)
  rcases hg with h0 | ⟨hinv, _, _⟩
  · subst h0
    rw [explore_emptyRoot]
    intro h; cases h
  · exact explore_no_panic cap cap (le_refl _) r 0 path hinv

end route


namespace route

/-! ### Wildcard-free patterns -/

theorem parseSegs_noWild : ∀ {p : Str}, NoWild p → parseSegs none p = p.map Seg.lit
  | [], _ => rfl
  | c :: p, h => by
    have hc := h c (List.mem_cons_self c p)
    rw [parseSegs_plain p hc.1 hc.2, parseSegs_noWild (fun x hx => h x (List.mem_cons_of_mem c hx))]
    rfl

theorem segsKey_lit : ∀ (p : Str), segsKey (p.map Seg.lit) = p
  | [] => rfl
  | c :: p => by
    simp only [List.map_cons, segsKey, Seg.key, List.singleton_append]
    rw [segsKey_lit p]

theorem collapse_noWild {p : Str} (h : NoWild p) : collapse p = p := by
  unfold collapse parsePattern
  rw [parseSegs_noWild h, segsKey_lit]

theorem keyMatch_self : ∀ {p : Str}, NoWild p → keyMatch p p = some []
  | [], _ => rfl
  | c :: p, h => by
    have hc := h c (List.mem_cons_self c p)
    exact (keyMatch_static hc.1 hc.2).mpr
      ⟨p, rfl, keyMatch_self (fun x hx => h x (List.mem_cons_of_mem c hx))⟩

/-- The exploration of a subtree on a text that is the key of a node of the subtree, free
of wildcards and with a non-empty chain, ends at this node without a capture. -/
theorem explore_static (cap N : Nat) : ∀ (n : node) (d : Nat) (K1 : Str) (m : node),
    Inv N d n → n.kind = .skind → At n (n.pfx ++ K1) m → NoWild K1 →
    m.handlers.getD [] ≠ [] →
    explore cap n d (n.pfx ++ K1) = .hit (n.pfx ++ K1) [] m := by
  intro n
  induction n using node.induct with
  | step k lab pre cs pp pn hs pc ac lf ihc ihp iha =>
    intro d K1 m hinv hk hat hnw hm
    simp only [node.pfx_mk, node.kind_mk] at hat hk ⊢
    subst hk
    rw [explore_unfold]
    have hA : ¬ (kind.skind = .skind ∧
        ¬ (pre.length ≤ (pre ++ K1).length ∧ pre = (pre ++ K1).take pre.length)) := by
      intro h
      exact h.2 ⟨by simp, by simp⟩
    rw [if_neg hA]
    simp only [if_true, List.drop_left]
    rcases hat.cases_on_key with ⟨h0, hmn⟩ | ⟨x, K2, hK, hatx, hslot⟩
    · simp only [node.pfx_mk] at h0
      have hK1 : K1 = [] := by
        have := congrArg List.length h0
        simp only [List.length_append] at this
        exact List.length_eq_zero.mp (by omega)
      subst hK1
      subst hmn
      simp only [node.handlers_mk] at hm
      rw [if_pos ⟨rfl, hm⟩, List.append_nil]
    · simp only [node.pfx_mk] at hK
      have := List.append_cancel_left hK
      subst this
      have hhead := slot_head hinv hatx hslot
      simp only [node.children_mk, node.paramChild_mk, node.anyChild_mk] at hhead
      rcases hhead with ⟨hx, rest, hr, _, _⟩ | ⟨_, rest, hr⟩ | ⟨_, hr⟩
      · have hne : ¬ (K1 = [] ∧ hs.getD [] ≠ []) := by
          intro h; rw [h.1] at hr; cases hr
        rw [if_neg hne]
        obtain ⟨K3, hK3⟩ := hatx.prefix_key
        have hf : cs.find? (fun c => c.label == x.label) = some x :=
          find?_label_of_mem hinv.nodup hx
        have hnw3 : NoWild K3 := by
          rw [hK3] at hnw
          exact hnw.of_append_right
        have hsub := ihc x hx d K3 m (hinv.child hx) (hinv.child_kind hx)
          (by rw [← hK3]; exact hatx) hnw3 hm
        rw [← hK3] at hsub
        rw [hr] at hsub ⊢
        simp only [exploreList_eq, hf, hsub]
        rfl
      · exfalso
        rw [hr] at hnw
        exact (hnw ':' (List.mem_cons_self _ _)).1 rfl
      · exfalso
        rw [hr] at hnw
        exact (hnw '*' (List.mem_cons_self _ _)).2 rfl

/-- The lookup of a registered wildcard-free pattern with a non-empty chain ends at its
node, whatever the capacity of the buffer. -/
theorem explore_built_static {r : node} {rs : List (Str × List HandlerFunc)}
    (hb : Built r rs) {p : Str} {h : List HandlerFunc} (hp : (p, h) ∈ rs) (hh : h ≠ [])
    (hnw : NoWild p) (cap : Nat) :
    ∃ m, explore cap r 0 p = .hit p [] m ∧ m.handlers = some h := by
  obtain ⟨N, hN⟩ := exists_wildcard_bound rs
  obtain ⟨hg, _, hmem, _, _⟩ := hb.holds N hN
  obtain ⟨m, hat, hm, _⟩ := hmem (p, h) hp
  simp only [] at hat hm
  rw [collapse_noWild hnw] at hat
  rcases hg with h0 | ⟨hinv, hk, _⟩
  · subst h0
    have := (at_emptyRoot hat).2
    subst this
    simp [emptyRoot] at hm
  · obtain ⟨K1, hK1⟩ := hat.prefix_key
    have hnw1 : NoWild K1 := by
      rw [hK1] at hnw
      exact hnw.of_append_right
    have := explore_static cap N r 0 K1 m hinv hk (by rw [← hK1]; exact hat) hnw1
      (by rw [hm]; simpa using hh)
    rw [← hK1] at this
    exact ⟨m, this, hm⟩

end route


namespace route

/-! ## Position of the catch-all -/

theorem scanCatchAll_of_mem : ∀ s : Str, '/' ∈ s → scanCatchAll s = false := by
  intro s
  induction s with
  | nil => intro h; simp at h
  | cons c cs ih =>
    intro h
    by_cases hc : c = '/'
    · simp [scanCatchAll, hc]
    · have hm : '/' ∈ cs := by
        rcases List.mem_cons.mp h with h1 | h1
        · exact absurd h1.symm hc
        · exact h1
      simp [scanCatchAll, hc, ih hm]

theorem mem_drop_of_get (path : Str) (i j : Nat) (c : Char) (hij : i ≤ j)
    (hj : path.get? j = some c) : c ∈ path.drop i := by
  have h1 : (path.drop i).get? (j - i) = some c := by
    rw [List.get?_drop]
    have : i + (j - i) = j := by omega
    rw [this]; exact hj
  exact List.get?_mem h1

theorem checkByte_star_misplaced (path : Str) (i : Nat)
    (h : (0 < i ∧ path.get? (i - 1) ≠ some '/') ∨ ∃ j, i < j ∧ path.get? j = some '/') :
    ∃ e, checkByte path i '*' = .error e := by
  have h1 : ('*' : Char) ≠ ':' := by decide
  simp only [checkByte, if_neg h1, if_true]
  by_cases ha : i = path.length - 1
  · exact ⟨_, if_pos ha⟩
  · rw [if_neg ha]
    by_cases hb : 0 < i ∧ path.get? (i - 1) ≠ some '/'
    · exact ⟨_, if_pos hb⟩
    · rw [if_neg hb]
      rcases h with h | ⟨j, hij, hj⟩
      · exact absurd h hb
      · have hs : scanCatchAll (path.drop i) = false :=
          scanCatchAll_of_mem _ (mem_drop_of_get path i j '/' (by omega) hj)
        exact ⟨.catchAllNotAtEnd, by simp [hs]⟩

/-! ## A pattern made of static text and a catch-all -/

theorem parseSegs_noWild_star : ∀ {S : Str} (name : Str), NoWild S →
    parseSegs none (S ++ '*' :: name) = S.map Seg.lit ++ [Seg.catchAll name]
  | [], name, _ => parseSegs_star name
  | c :: S, name, h => by
    have hc := h c (List.mem_cons_self c S)
    rw [List.cons_append, parseSegs_plain _ hc.1 hc.2,
      parseSegs_noWild_star name (fun x hx => h x (List.mem_cons_of_mem c hx))]
    rfl

theorem segsKey_append : ∀ (a b : List Seg), segsKey (a ++ b) = segsKey a ++ segsKey b
  | [], _ => rfl
  | sg :: a, b => by
    show sg.key ++ segsKey (a ++ b) = (sg.key ++ segsKey a) ++ segsKey b
    rw [segsKey_append a b, List.append_assoc]

theorem segsNames_lit_append : ∀ (S : Str) (b : List Seg),
    segsNames (S.map Seg.lit ++ b) = segsNames b
  | [], _ => rfl
  | c :: S, b => by
    simp only [List.map_cons, List.cons_append, segsNames]
    exact segsNames_lit_append S b

theorem collapse_noWild_star {S : Str} (name : Str) (h : NoWild S) :
    collapse (S ++ '*' :: name) = S ++ ['*'] := by
  unfold collapse parsePattern
  rw [parseSegs_noWild_star name h, segsKey_append, segsKey_lit]
  rfl

theorem wildcardNames_noWild_star {S : Str} (name : Str) (h : NoWild S) :
    wildcardNames (S ++ '*' :: name) = [name] := by
  unfold wildcardNames parsePattern
  rw [parseSegs_noWild_star name h, segsNames_lit_append]
  rfl

/-- The node at a key that ends in `*` is a catch-all node. -/
theorem At.kind_of_star {N : Nat} {n m : node} {K : Str} (hat : At n K m) :
    ∀ {d : Nat}, Inv N d n →
      (n.kind = .skind ∨ (n.kind = .pkind ∧ n.pfx = [':']) ∨ n.kind = .akind) →
      K.getLast? = some '*' → m.kind = .akind := by
  induction hat with
  | here n =>
    intro d hinv hshape hlast
    rcases hshape with hk | ⟨_, hp⟩ | hk
    · have hnw := hinv.noWild hk
      have hmem : '*' ∈ n.pfx := List.mem_of_mem_getLast? hlast
      exact absurd rfl (hnw _ hmem).2
    · rw [hp] at hlast
      simp at hlast
    · exact hk
  | @child n c m K hc hat ih =>
    intro d hinv _ hlast
    have hne : K ≠ [] := At.key_ne_nil (hinv.child hc) hat
    rw [List.getLast?_append_of_ne_nil _ hne] at hlast
    exact ih (hinv.child hc) (Or.inl (hinv.child_kind hc)) hlast
  | @param n c m K hc hat ih =>
    intro d hinv _ hlast
    have hne : K ≠ [] := At.key_ne_nil (hinv.param hc) hat
    rw [List.getLast?_append_of_ne_nil _ hne] at hlast
    exact ih (hinv.param hc) (Or.inr (Or.inl (hinv.param_shape hc))) hlast
  | @any n c m K hc hat ih =>
    intro d hinv _ hlast
    have hne : K ≠ [] := At.key_ne_nil (hinv.any hc) hat
    rw [List.getLast?_append_of_ne_nil _ hne] at hlast
    exact ih (hinv.any hc) (Or.inr (Or.inr (hinv.any_shape hc).1)) hlast

/-- The exploration of a tree built by registrations does not fail on a path that matches
the collapsed form of a registered pattern that ends in a catch-all or has a non-empty
chain. -/
theorem explore_built_serves {r : node} {rs : List (Str × List HandlerFunc)}
    (hb : Built r rs) {p : Str} {h : List HandlerFunc} (hp : (p, h) ∈ rs)
    (hh : h ≠ [] ∨ (collapse p).getLast? = some '*')
    {path : Str} {vs : List Str} (hkm : keyMatch (collapse p) path = some vs) (cap : Nat) :
    explore cap r 0 path ≠ .fail := by
  obtain ⟨N, hN⟩ := exists_wildcard_bound rs
  obtain ⟨hg, _, hmem, _, _⟩ := hb.holds N hN
  obtain ⟨m, hat, hm, _⟩ := hmem (p, h) hp
  rcases hg with h0 | ⟨hinv, hk, _⟩
  · subst h0
    have := (at_emptyRoot hat).2
    subst this
    simp [emptyRoot] at hm
  · have hserve : m.kind = .akind ∨ m.handlers.getD [] ≠ [] := by
      rcases hh with hh | hh
      · right; rw [hm]; simpa using hh
      · left; exact hat.kind_of_star hinv (Or.inl hk) hh
    obtain ⟨K1, hK1⟩ := hat.prefix_key
    simp only [] at hK1 hat hkm
    rw [hK1] at hkm hat
    obtain ⟨s1, hs1, hkm1⟩ := (keyMatch_noWild (hinv.noWild hk)).mp hkm
    apply explore_complete cap N r 0 path K1 vs m hinv (by rw [hk]; decide) hat hserve
    · rw [if_pos hk, hs1, List.drop_left]
      exact hkm1
    · intro _
      rw [hs1]
      exact ⟨by simp, by simp⟩

end route


namespace route

/-! ## The lookup does not depend on what the buffer holds -/

namespace Params.Below

theorem on_reslice {p q p1 : Params} {k n : Nat} (hb : Params.Below p q k)
    (h : p.reslice n = .ok p1) :
    ∃ q1, q.reslice n = .ok q1 ∧ Params.Below p1 q1 k := by
  unfold Params.reslice at h ⊢
  by_cases hn : n ≤ p.arr.length
  · rw [if_pos hn] at h
    simp only [Except.ok.injEq] at h
    subst h
    rw [if_pos (le_trans hn hb.cap)]
    exact ⟨_, rfl, ⟨hb.cap, le_refl _, hb.vals⟩⟩
  · rw [if_neg hn] at h
    cases h

theorem on_value {p q : Params} {k i : Nat} {v : Str} (hb : Params.Below p q k) (hi : i < k)
    (h : p.value i = .ok v) : q.value i = .ok v := by
  unfold Params.value at h ⊢
  by_cases hl : i < p.len
  · rw [if_pos hl] at h
    rw [if_pos (lt_of_lt_of_le hl hb.len)]
    have hv := hb.vals i hi
    cases hp : p.arr.get? i with
    | none => rw [hp] at h; cases h
    | some x =>
      rw [hp] at h hv
      simp only [Except.ok.injEq] at h
      cases hq : q.arr.get? i with
      | none => rw [hq] at hv; cases hv
      | some y =>
        rw [hq] at hv
        simp only [Option.map_some', Option.some.injEq] at hv
        simp only []
        rw [← hv, h]
  · rw [if_neg hl] at h
    cases h

theorem get_set_value (arr : List Param) (i j : Nat) (x : Param) :
    ((arr.set i x).get? j).map Param.Value =
      if i = j ∧ i < arr.length then some x.Value else (arr.get? j).map Param.Value := by
  simp only [List.get?_eq_getElem?, List.getElem?_set]
  by_cases hij : i = j
  · subst hij
    by_cases hl : i < arr.length
    · simp [hl]
    · have hn : arr[i]? = none := List.getElem?_eq_none (by omega)
      simp [hl, hn]
  · simp [hij]

theorem on_setValue {p q p1 : Params} {k i : Nat} {v : Str} (hb : Params.Below p q k)
    (h : p.setValue i v = .ok p1) :
    ∃ q1, q.setValue i v = .ok q1 ∧ Params.Below p1 q1 0 ∧
      (i = k → Params.Below p1 q1 (k + 1)) := by
  unfold Params.setValue at h ⊢
  by_cases hl : i < p.len
  · rw [if_pos hl] at h
    rw [if_pos (lt_of_lt_of_le hl hb.len)]
    cases hp : p.arr.get? i with
    | none => rw [hp] at h; cases h
    | some x =>
      rw [hp] at h
      simp only [Except.ok.injEq] at h
      subst h
      have hip : i < p.arr.length := by
        by_contra hc
        rw [List.get?_eq_none.mpr (by omega)] at hp
        cases hp
      have hiq : i < q.arr.length := lt_of_lt_of_le hip hb.cap
      cases hq : q.arr.get? i with
      | none =>
        rw [List.get?_eq_none] at hq
        omega
      | some y =>
        refine ⟨_, rfl, ⟨by simpa using hb.cap, hb.len, fun j hj => absurd hj (Nat.not_lt_zero _)⟩,
          ?_⟩
        intro hik
        subst hik
        refine ⟨by simpa using hb.cap, hb.len, ?_⟩
        intro j hj
        simp only []
        rw [get_set_value, get_set_value]
        by_cases hji : i = j
        · rw [if_pos ⟨hji, hip⟩, if_pos ⟨hji, hiq⟩]
        · rw [if_neg (fun h => hji h.1), if_neg (fun h => hji h.1)]
          exact hb.vals j (by omega)
  · rw [if_neg hl] at h
    cases h

theorem get_set_key (arr : List Param) (i j : Nat) (x : Param) (name : Str)
    (hx : arr.get? i = some x) :
    ((arr.set i { Key := name, Value := x.Value }).get? j).map Param.Value =
      (arr.get? j).map Param.Value := by
  rw [get_set_value]
  by_cases hij : i = j
  · subst hij
    rw [hx]
    simp
  · rw [if_neg (fun h => hij h.1)]

theorem on_setKey {p q p1 : Params} {k i : Nat} {name : Str} (hb : Params.Below p q k)
    (h : p.setKey i name = .ok p1) :
    ∃ q1, q.setKey i name = .ok q1 ∧ Params.Below p1 q1 k := by
  unfold Params.setKey at h ⊢
  by_cases hl : i < p.len
  · rw [if_pos hl] at h
    rw [if_pos (lt_of_lt_of_le hl hb.len)]
    cases hp : p.arr.get? i with
    | none => rw [hp] at h; cases h
    | some x =>
      rw [hp] at h
      simp only [Except.ok.injEq] at h
      subst h
      have hip : i < p.arr.length := by
        by_contra hc
        rw [List.get?_eq_none.mpr (by omega)] at hp
        cases hp
      have hiq : i < q.arr.length := lt_of_lt_of_le hip hb.cap
      cases hq : q.arr.get? i with
      | none =>
        rw [List.get?_eq_none] at hq
        omega
      | some y =>
        refine ⟨_, rfl, ⟨by simpa using hb.cap, hb.len, ?_⟩⟩
        intro j hj
        simp only []
        rw [get_set_key _ _ _ _ _ hp, get_set_key _ _ _ _ _ hq]
        exact hb.vals j hj
  · rw [if_neg hl] at h
    cases h

theorem weaken {p q : Params} {k k1 : Nat} (hb : Params.Below p q k) (h : k1 ≤ k) :
    Params.Below p q k1 :=
  ⟨hb.cap, hb.len, fun i hi => hb.vals i (by omega)⟩

end Params.Below

theorem assignKeys_below : ∀ (names : List Str) (i : Nat) {p q p1 : Params} {k : Nat},
    Params.Below p q k → assignKeys names i p = .ok p1 →
    ∃ q1, assignKeys names i q = .ok q1 ∧ Params.Below p1 q1 k
  | [], _, p, q, p1, k, hb, h => by
    simp only [assignKeys, Except.ok.injEq] at h
    subst h
    exact ⟨q, rfl, hb⟩
  | name :: names, i, p, q, p1, k, hb, h => by
    rw [assignKeys] at h
    cases hs : p.setKey i name with
    | error e => rw [hs] at h; cases h
    | ok p2 =>
      rw [hs] at h
      simp only [] at h
      obtain ⟨q2, hq2, hb2⟩ := hb.on_setKey hs
      obtain ⟨q1, hq1, hb1⟩ := assignKeys_below names (i + 1) hb2 h
      refine ⟨q1, ?_, hb1⟩
      rw [assignKeys, hq2]
      exact hq1

theorem finish_below {p q : Params} {k : Nat} (cn : Option node) (h : HandlersChain)
    (tsr : Bool) (hb : Params.Below p q k) :
    ResultBelow (finish cn h tsr p) (finish cn h tsr q) := by
  intro nv p1 hr
  cases cn with
  | none =>
    simp only [finish, Except.ok.injEq, Prod.mk.injEq] at hr
    exact ⟨q, by rw [← hr.1]; rfl⟩
  | some n =>
    simp only [finish] at hr ⊢
    cases ha : assignKeys n.pnames 0 p with
    | error e => rw [ha] at hr; cases hr
    | ok p2 =>
      rw [ha] at hr
      simp only [Except.ok.injEq, Prod.mk.injEq] at hr
      obtain ⟨q2, hq2, _⟩ := assignKeys_below n.pnames 0 hb ha
      rw [hq2]
      exact ⟨q2, by rw [← hr.1]⟩

theorem backtrack_below {path : Str} {S T : Cursor} (hb : Cursor.Below S T) (fk : kind)
    {b : Back} (h : backtrackToNextNodeKind path S fk = .ok b) :
    ∃ q1, backtrackToNextNodeKind path T fk = .ok { b with params := q1 } ∧
      Params.Below b.params q1 b.paramIndex := by
  obtain ⟨cn, prs, search, si, pi, p, tsr⟩ := S
  obtain ⟨cn1, prs1, search1, si1, pi1, q, tsr1⟩ := T
  obtain ⟨h1, h2, h3, h4, h5, h6, hp⟩ := hb
  simp only at h1 h2 h3 h4 h5 h6 hp
  subst h1 h2 h3 h4 h5 h6
  unfold backtrackToNextNodeKind at h ⊢
  simp only [] at h ⊢
  by_cases hf : fk = .skind
  · rw [if_pos hf] at h ⊢
    simp only [Except.ok.injEq] at h
    subst h
    exact ⟨q, rfl, hp⟩
  · rw [if_neg hf] at h ⊢
    by_cases hk : cn1.kind = .skind
    · rw [if_pos hk] at h ⊢
      by_cases hc : cn1.pfx.length ≤ si1 ∧ si1 - cn1.pfx.length ≤ path.length
      · rw [if_pos hc] at h ⊢
        simp only [Except.ok.injEq] at h
        subst h
        exact ⟨q, rfl, hp⟩
      · rw [if_neg hc] at h
        cases h
    · rw [if_neg hk] at h ⊢
      by_cases h0 : 0 < pi1
      · rw [if_pos h0] at h ⊢
        cases hv : p.value (pi1 - 1) with
        | error e => rw [hv] at h; cases h
        | ok v =>
          rw [hv] at h
          rw [hp.on_value (by omega) hv]
          simp only [] at h ⊢
          by_cases hc : v.length ≤ si1 ∧ si1 - v.length ≤ path.length
          · rw [if_pos hc] at h ⊢
            cases hr : p.reslice (pi1 - 1) with
            | error e => rw [hr] at h; cases h
            | ok p2 =>
              rw [hr] at h
              simp only [Except.ok.injEq] at h
              subst h
              obtain ⟨q2, hq2, hb2⟩ := hp.on_reslice hr
              rw [hq2]
              exact ⟨q2, rfl, hb2.weaken (Nat.sub_le pi1 1)⟩
          · rw [if_neg hc] at h
            cases h
      · rw [if_neg h0] at h
        cases h

theorem Step.below_done {r t : Except Panic (nodeValue × Params)} (h : ResultBelow r t) :
    Step.Below (.done r) (.done t) := by
  intro nv p1 hr
  obtain ⟨q1, hq⟩ := h nv p1 hr
  exact ⟨q1, by rw [hq]⟩

theorem stepTop_below (path : Str) {S T : Cursor} (hb : Cursor.Below S T) :
    Step.Below (stepTop path S) (stepTop path T) := by
  obtain ⟨cn, prs, search, si, pi, p, tsr⟩ := S
  obtain ⟨cn1, prs1, search1, si1, pi1, q, tsr1⟩ := T
  obtain ⟨h1, h2, h3, h4, h5, h6, hp⟩ := hb
  simp only at h1 h2 h3 h4 h5 h6 hp
  subst h1 h2 h3 h4 h5 h6
  unfold stepTop
  simp only []
  by_cases hA : cn1.kind = .skind ∧
      ¬ (cn1.pfx.length ≤ search1.length ∧ cn1.pfx = search1.take cn1.pfx.length)
  · rw [if_pos hA, if_pos hA]
    simp only [backtrackToNextNodeKind, if_true]
    cases prs1 with
    | nil =>
      simp only [List.head?_nil]
      intro nv p1 hr
      simp only [Step.done.injEq, Except.ok.injEq, Prod.mk.injEq] at hr
      exact ⟨q, by rw [← hr.1]⟩
    | cons c cs =>
      simp only [List.head?_cons, List.tail_cons]
      by_cases hn : (if cn1.kind = kind.akind then kind.skind else cn1.kind.succ) = .pkind
      · rw [if_pos hn, if_pos hn]
        exact ⟨_, rfl, ⟨rfl, rfl, rfl, rfl, rfl, rfl, hp⟩⟩
      · rw [if_neg hn, if_neg hn]
        exact Step.below_done (finish_below _ _ _ hp)
  · rw [if_neg hA, if_neg hA]
    by_cases hex : (if cn1.kind = .skind then search1.drop cn1.pfx.length else search1) = [] ∧
        cn1.handlers.getD [] ≠ []
    · rw [if_pos hex, if_pos hex]
      exact Step.below_done (finish_below _ _ _ hp)
    · rw [if_neg hex, if_neg hex]
      cases hs : (if cn1.kind = .skind then search1.drop cn1.pfx.length else search1) with
      | nil =>
        simp only []
        exact ⟨_, rfl, ⟨rfl, rfl, rfl, rfl, rfl, rfl, hp⟩⟩
      | cons c0 rest =>
        simp only []
        cases hfc : findChild cn1 c0 with
        | none =>
          simp only []
          exact ⟨_, rfl, ⟨rfl, rfl, rfl, rfl, rfl, rfl, hp⟩⟩
        | some child =>
          simp only []
          exact ⟨_, rfl, ⟨rfl, rfl, rfl, rfl, rfl, rfl, hp⟩⟩

theorem stepParam_below (unescaped : Str → Option Str) (unescape : Bool) {S T : Cursor}
    (hb : Cursor.Below S T) :
    Step.Below (stepParam unescaped unescape S) (stepParam unescaped unescape T) := by
  obtain ⟨cn, prs, search, si, pi, p, tsr⟩ := S
  obtain ⟨cn1, prs1, search1, si1, pi1, q, tsr1⟩ := T
  have hb0 := hb
  obtain ⟨h1, h2, h3, h4, h5, h6, hp⟩ := hb
  simp only at h1 h2 h3 h4 h5 h6 hp
  subst h1 h2 h3 h4 h5 h6
  unfold stepParam
  simp only []
  cases hpc : cn1.paramChild with
  | none => exact ⟨_, rfl, hb0⟩
  | some child =>
    simp only []
    by_cases hs : search1 ≠ []
    · rw [if_pos hs, if_pos hs]
      cases hr : p.reslice (pi1 + 1) with
      | error e =>
        simp only []
        intro nv p1 hx
        cases hx
      | ok p2 =>
        obtain ⟨q2, hq2, hb2⟩ := hp.on_reslice hr
        rw [hq2]
        simp only []
        generalize (if unescape = true then
            (unescaped (List.take (List.takeWhile (fun c => c != '/') search1).length
              search1)).getD
              (List.take (List.takeWhile (fun c => c != '/') search1).length search1)
          else List.take (List.takeWhile (fun c => c != '/') search1).length search1) = val
        cases hv : p2.setValue pi1 val with
        | error e =>
          simp only []
          intro nv p1 hx
          cases hx
        | ok p3 =>
          obtain ⟨q3, hq3, _, hb3⟩ := hb2.on_setValue hv
          rw [hq3]
          simp only []
          exact ⟨_, rfl, ⟨rfl, rfl, rfl, rfl, rfl, rfl, hb3 rfl⟩⟩
    · rw [if_neg hs, if_neg hs]
      exact ⟨_, rfl, hb0⟩

theorem stepAny_below (unescaped : Str → Option Str) (unescape : Bool) (path : Str)
    {S T : Cursor} (hb : Cursor.Below S T) :
    Step.Below (stepAny unescaped unescape path S) (stepAny unescaped unescape path T) := by
  have hback := fun b h => @backtrack_below path S T hb .akind b h
  obtain ⟨cn, prs, search, si, pi, p, tsr⟩ := S
  obtain ⟨cn1, prs1, search1, si1, pi1, q, tsr1⟩ := T
  obtain ⟨h1, h2, h3, h4, h5, h6, hp⟩ := hb
  simp only at h1 h2 h3 h4 h5 h6 hp
  subst h1 h2 h3 h4 h5 h6
  unfold stepAny
  simp only []
  cases hac : cn1.anyChild with
  | some child =>
    simp only []
    cases hr : p.reslice (pi1 + 1) with
    | error e =>
      simp only []
      intro nv p1 hx
      cases hx
    | ok p2 =>
      obtain ⟨q2, hq2, hb2⟩ := hp.on_reslice hr
      rw [hq2]
      simp only []
      by_cases hn : 0 < child.pnames.length
      · rw [if_pos hn, if_pos hn]
        generalize (if unescape = true then (unescaped search1).getD search1 else search1) = val
        cases hv : p2.setValue (child.pnames.length - 1) val with
        | error e =>
          simp only []
          intro nv p1 hx
          cases hx
        | ok p3 =>
          obtain ⟨q3, hq3, hb3, _⟩ := hb2.on_setValue hv
          rw [hq3]
          simp only []
          exact Step.below_done (finish_below _ _ _ hb3)
      · rw [if_neg hn, if_neg hn]
        intro nv p1 hx
        cases hx
  | none =>
    simp only []
    cases hbk : backtrackToNextNodeKind path
        { cn := cn1, parents := prs1, search := search1, searchIndex := si1,
          paramIndex := pi1, params := p, tsr := tsr1 } .akind with
    | error e =>
      simp only []
      intro nv p1 hx
      cases hx
    | ok b =>
      obtain ⟨q1, hq1, hb1⟩ := hback b hbk
      rw [hq1]
      simp only []
      cases hcn : b.cn with
      | none =>
        simp only []
        exact Step.below_done (finish_below _ _ _ hb1)
      | some c =>
        simp only []
        by_cases hn1 : b.nextNodeKind = .pkind
        · rw [if_pos hn1, if_pos hn1]
          exact ⟨_, rfl, ⟨rfl, rfl, rfl, rfl, rfl, rfl, hb1⟩⟩
        · rw [if_neg hn1, if_neg hn1]
          by_cases hn2 : b.nextNodeKind = .akind
          · rw [if_pos hn2, if_pos hn2]
            exact ⟨_, rfl, ⟨rfl, rfl, rfl, rfl, rfl, rfl, hb1⟩⟩
          · rw [if_neg hn2, if_neg hn2]
            exact Step.below_done (finish_below _ _ _ hb1)

theorem step_below (unescaped : Str → Option Str) (unescape : Bool) (path : Str)
    (l : Label) {S T : Cursor} (hb : Cursor.Below S T) :
    Step.Below (step unescaped unescape path l S) (step unescaped unescape path l T) := by
  cases l with
  | top => exact stepTop_below path hb
  | param => exact stepParam_below unescaped unescape hb
  | any => exact stepAny_below unescaped unescape path hb

/-- A run of the loop of `find` that returns, returns the same `nodeValue` from a state
whose buffer has room for what the buffer of the first holds. -/
theorem findLoop_below {unescaped : Str → Option Str} {unescape : Bool} {path : Str} :
    ∀ (budget : Nat) (l : Label) {S T : Cursor}, Cursor.Below S T →
      ResultBelow (findLoop unescaped unescape path budget l S)
        (findLoop unescaped unescape path budget l T)
  | 0, _, _, _, _ => by
    intro nv p1 h
    cases h
  | budget + 1, l, S, T, hb => by
    intro nv p1 h
    rw [findLoop] at h ⊢
    have hs := step_below unescaped unescape path l hb
    cases hst : step unescaped unescape path l S with
    | done r =>
      rw [hst] at h hs
      simp only [] at h
      obtain ⟨q1, hq1⟩ := hs nv p1 h
      rw [hq1]
      exact ⟨q1, rfl⟩
    | jump l1 S1 =>
      rw [hst] at h hs
      simp only [] at h
      obtain ⟨S2, hS2, hb2⟩ := hs
      rw [hS2]
      exact findLoop_below budget l1 hb2 nv p1 h

/-- The result of a run of the loop that does not run out of budget is the result of every
longer run. -/
theorem findLoop_budget {unescaped : Str → Option Str} {unescape : Bool} {path : Str} :
    ∀ (budget : Nat) (l : Label) (S : Cursor) (r : Except Panic (nodeValue × Params)),
      findLoop unescaped unescape path budget l S = r → r ≠ .error .outOfBudget →
      ∀ f, findLoop unescaped unescape path (budget + f) l S = r
  | 0, _, _, r, h, hne, _ => by
    rw [findLoop] at h
    exact absurd h.symm hne
  | budget + 1, l, S, r, h, hne, f => by
    rw [show budget + 1 + f = (budget + f) + 1 by omega, findLoop]
    rw [findLoop] at h
    cases hst : step unescaped unescape path l S with
    | done r1 =>
      rw [hst] at h
      exact h
    | jump l1 S1 =>
      rw [hst] at h
      exact findLoop_budget budget l1 S1 r h hne f

end route


namespace route

/-! ## The lookup with any buffer -/

/-- The exploration does not depend on the capacity once the buffer has room for the
wildcards of every key of the tree. -/
theorem explore_cap (cap N : Nat) (hN : N ≤ cap) : ∀ (n : node) (d : Nat) (s : Str),
    Inv N d n → explore cap n d s = explore N n d s := by
  intro n
  induction n using node.induct with
  | step k lab pre cs pp pn hs pc ac lf ihc ihp iha =>
    intro d s hinv
    rw [explore_unfold, explore_unfold]
    generalize (if k = .skind then s.drop pre.length else s) = s1
    by_cases hA : k = .skind ∧ ¬ (pre.length ≤ s.length ∧ pre = s.take pre.length)
    · rw [if_pos hA, if_pos hA]
    rw [if_neg hA, if_neg hA]
    by_cases hex : s1 = [] ∧ hs.getD [] ≠ []
    · rw [if_pos hex, if_pos hex]
    rw [if_neg hex, if_neg hex]
    refine congrArg (Found.under pre)
      (congr (congrArg Found.orElse ?_) (congr (congrArg Found.orElse ?_) ?_))
    · cases s1 with
      | nil => rfl
      | cons c0 rest =>
        simp only [exploreList_eq]
        cases hf : cs.find? (fun c => c.label == c0) with
        | none => rfl
        | some c =>
          have hmem := (find?_label_eq_some hf).1
          exact ihc c hmem d _ (hinv.child hmem)
    · cases pc with
      | none => rfl
      | some c =>
        have hc : Inv N (d + 1) c := hinv.param rfl
        have hle := hc.le
        simp only []
        rw [if_pos hle, if_pos (le_trans hle hN), ihp c rfl (d + 1) _ hc]
    · cases ac with
      | none => rfl
      | some c =>
        have hc : Inv N (d + 1) c := hinv.any rfl
        have hle := hc.le
        simp only [exploreAny]
        rw [if_pos hle, if_pos (le_trans hle hN)]

/-- The lookup `find` on a well shaped tree with a buffer of length zero does what the
exploration of the tree says. -/
theorem find_sim_len (unescaped : Str → Option Str) {N : Nat} {r : node} (hinv : Inv N 0 r)
    (hk : r.kind = .skind) (path : Str) (ps : Params) (hlen : ps.len = 0) :
    Sim unescaped path ps.arr.length .top
      (⟨r, [], path, 0, 0, ps, false⟩ : Cursor) [] [] .param 0 0 (3 * r.size)
      (explore ps.arr.length r 0 path) := by
  have h := explore_sim unescaped path ps.arr.length N r 0
    (⟨r, [], path, 0, 0, ps, false⟩ : Cursor) [] 0 0 0 [] .param hinv
    ⟨rfl, rfl, rfl, rfl, Nat.zero_le _, rfl, hlen, rfl, Nat.zero_le _⟩
    (by simp [Params.values]) (Or.inl ⟨hk, rfl, rfl, rfl⟩)
  exact h

/-- What `find` returns on a tree built by registrations, with a buffer of length zero:
nothing, with the buffer left empty, when the exploration fails, the panic of a buffer
that is too small, or the route at which the exploration ends, with the captured values
under the names of its pattern. -/
theorem find_built_len (unescaped : Str → Option Str) {r : node}
    {rs : List (Str × List HandlerFunc)} (hb : Built r rs) (path : Str) (ps : Params)
    (hlen : ps.len = 0) :
    (explore ps.arr.length r 0 path = .fail ∧
        ∃ tsr ps1, find unescaped r path ps false =
          .ok ({ handlers := none, tsr := tsr, fullPath := [] }, ps1) ∧ ps1.len = 0) ∨
      (explore ps.arr.length r 0 path = .panic ∧
        find unescaped r path ps false = .error .outOfRange) ∨
      (∃ K vs m x tsr ps2, explore ps.arr.length r 0 path = .hit K vs m ∧ x ∈ rs ∧
        collapse x.1 = K ∧ At r K m ∧ m.handlers = some x.2 ∧ (m.kind = .akind ∨ x.2 ≠ []) ∧
        keyMatch K path = some vs ∧
        find unescaped r path ps false =
          .ok ({ handlers := some x.2, tsr := tsr, fullPath := m.ppath }, ps2) ∧
        ps2.toList.map Param.Value = vs ∧ ps2.toList.map Param.Key = wildcardNames x.1) := by
  obtain ⟨N, hN⟩ := exists_wildcard_bound rs
  obtain ⟨hg, _, _, hback, _⟩ := hb.holds N hN
  rcases hg with h0 | ⟨hinv, hk, _⟩
  · subst h0
    refine Or.inl ⟨explore_emptyRoot _ path, ?_⟩
    cases path with
    | nil => exact ⟨_, ps, rfl, hlen⟩
    | cons c rest => exact ⟨_, ps, rfl, hlen⟩
  · have hsim := find_sim_len unescaped hinv hk path ps hlen
    cases he : explore ps.arr.length r 0 path with
    | fail =>
      rw [he] at hsim
      obtain ⟨j, _, hj, hf⟩ := hsim
      rcases hf with ⟨_, tsr, ps1, hf, hl⟩ | ⟨p, ps0, _, hp, _⟩
      · refine Or.inl ⟨rfl, tsr, ps1, ?_, hl⟩
        have := hf (3 * r.size + 1 - j)
        rw [show j + (3 * r.size + 1 - j) = 3 * r.size + 1 by omega] at this
        exact this
      · cases hp
    | panic =>
      rw [he] at hsim
      obtain ⟨j, _, hj, hf⟩ := hsim
      refine Or.inr (Or.inl ⟨rfl, ?_⟩)
      have := hf (3 * r.size + 1 - j)
      rw [show j + (3 * r.size + 1 - j) = 3 * r.size + 1 by omega] at this
      exact this
    | hit K vs m =>
      right; right
      rw [he] at hsim
      obtain ⟨j, tsr, ps1, _, hj, hf, hl1, hcap1, hle1, hv1⟩ := hsim
      obtain ⟨hat, him, ⟨hsome, hserve⟩, _⟩ :=
        explore_sound ps.arr.length N r 0 path K vs m hinv he
      obtain ⟨x, hx, hxK, hxh, hxn⟩ := hback K m hat hsome
      have hnames : m.pnames.length = vs.length := by
        have := him.names hsome
        omega
      obtain ⟨ps2, hfin, hv2, hk2⟩ := @finish_ok m ps1 vs tsr (by simpa using hl1)
        (by rw [hcap1]; simpa using hle1) (by simpa using hv1) hnames
      refine ⟨K, vs, m, x, tsr, ps2, rfl, hx, hxK, hat, hxh, ?_,
        keyMatch_of_root_hit hinv hk he, ?_, hv2, by rw [hk2, hxn]⟩
      · rcases hserve with h | h
        · exact Or.inl h
        · right
          rw [hxh] at h
          simpa using h
      · have := hf (3 * r.size + 1 - j)
        rw [show j + (3 * r.size + 1 - j) = 3 * r.size + 1 by omega] at this
        show findLoop unescaped false path (3 * r.size + 1) .top _ = _
        rw [this, hfin, hxh]

theorem zipWith_key_value : ∀ (l : List Param),
    List.zipWith Param.mk (l.map Param.Key) (l.map Param.Value) = l
  | [] => rfl
  | p :: l => by
    simp only [List.map_cons, List.zipWith_cons_cons]
    rw [zipWith_key_value l]

theorem below_make (c : Nat) (ps : Params) (hc : c ≤ ps.arr.length) :
    Params.Below (Params.make c) ps 0 :=
  ⟨by simpa [Params.make] using hc, Nat.zero_le _, fun i hi => absurd hi (Nat.not_lt_zero _)⟩

/-- A run of the loop from the start of `find` with an empty buffer of capacity `c` that
returns, returns the same `nodeValue` with every buffer of capacity at least `c`. -/
theorem findLoop_of_make (unescaped : Str → Option Str) (r : node) (path : Str) (ps : Params)
    (c : Nat) (hc : c ≤ ps.arr.length) (budget : Nat) {nv : nodeValue} {ps0 : Params}
    (h : findLoop unescaped false path budget .top
      (⟨r, [], path, 0, 0, Params.make c, false⟩ : Cursor) = .ok (nv, ps0)) :
    ∃ ps1, findLoop unescaped false path budget .top
      (⟨r, [], path, 0, 0, ps, false⟩ : Cursor) = .ok (nv, ps1) :=
  findLoop_below budget .top
    (⟨rfl, rfl, rfl, rfl, rfl, rfl, below_make c ps hc⟩ :
      Cursor.Below (⟨r, [], path, 0, 0, Params.make c, false⟩ : Cursor)
        (⟨r, [], path, 0, 0, ps, false⟩ : Cursor)) nv ps0 h

/-- On a tree built by registrations, `find` with an empty buffer that has room for the
wildcards of every registered pattern returns. -/
theorem find_make_ok (unescaped : Str → Option Str) {r : node}
    {rs : List (Str × List HandlerFunc)} (hb : Built r rs) (path : Str) {c : Nat}
    (hc : ∀ x ∈ rs, (wildcardNames x.1).length ≤ c) :
    ∃ nv ps0, find unescaped r path (Params.make c) false = .ok (nv, ps0) := by
  rcases find_built unescaped hb path c with ⟨_, tsr, ps1, hf⟩ | ⟨he, _⟩ |
    ⟨K, vs, m, x, tsr, ps2, _, _, _, _, _, _, _, hf, _⟩
  · exact ⟨_, _, hf⟩
  · exact absurd he (explore_built_ne_panic hb hc path)
  · exact ⟨_, _, hf⟩

/-- On a tree built by registrations, `find` returns with every buffer that has room for
the wildcards of every registered pattern, whatever the buffer holds, and the `nodeValue`
it returns is the one it returns with an empty buffer of any such capacity. -/
theorem find_any_buffer (unescaped : Str → Option Str) {r : node}
    {rs : List (Str × List HandlerFunc)} (hb : Built r rs) (path : Str) (ps : Params)
    (hcap : ∀ x ∈ rs, (wildcardNames x.1).length ≤ ps.arr.length) :
    ∃ nv ps1, find unescaped r path ps false = .ok (nv, ps1) ∧
      ∀ c, (∀ x ∈ rs, (wildcardNames x.1).length ≤ c) →
        ∃ ps0, find unescaped r path (Params.make c) false = .ok (nv, ps0) := by
  obtain ⟨nv, ps0, h0⟩ := find_make_ok unescaped hb path hcap
  obtain ⟨ps1, h1⟩ := findLoop_of_make unescaped r path ps ps.arr.length (le_refl _) _ h0
  refine ⟨nv, ps1, h1, ?_⟩
  intro c hc
  obtain ⟨nv2, ps2, h2⟩ := find_make_ok unescaped hb path hc
  rcases Nat.le_total c ps.arr.length with hle | hle
  · obtain ⟨ps3, h3⟩ := findLoop_of_make unescaped r path ps c hle _ h2
    have e := h1.symm.trans h3
    simp only [Except.ok.injEq, Prod.mk.injEq] at e
    rw [e.1]
    exact ⟨ps2, h2⟩
  · obtain ⟨ps3, h3⟩ := findLoop_of_make unescaped r path (Params.make c) ps.arr.length
      (by simpa [Params.make] using hle) _ h0
    exact ⟨ps3, h3⟩

theorem toList_of_len_zero {ps : Params} (h : ps.len = 0) : ps.toList = [] := by
  simp [Params.toList, h]

/-- On a tree built by registrations, the exploration is the same for all capacities that
have room for the wildcards of every registered pattern. -/
theorem explore_built_cap {r : node} {rs : List (Str × List HandlerFunc)} (hb : Built r rs)
    {c1 c2 : Nat} (h1 : ∀ x ∈ rs, (wildcardNames x.1).length ≤ c1)
    (h2 : ∀ x ∈ rs, (wildcardNames x.1).length ≤ c2) (path : Str) :
    explore c1 r 0 path = explore c2 r 0 path := by
  obtain ⟨hg, _⟩ := hb.holds (min c1 c2) (fun x hx => by
    rw [wcount_collapse_eq]
    exact Nat.le_min.mpr ⟨h1 x hx, h2 x hx⟩)
  rcases hg with h0 | ⟨hinv, _, _⟩
  · subst h0
    rw [explore_emptyRoot, explore_emptyRoot]
  · rw [explore_cap c1 (min c1 c2) (Nat.min_le_left _ _) r 0 path hinv,
      explore_cap c2 (min c1 c2) (Nat.min_le_right _ _) r 0 path hinv]

/-- On a tree built by registrations, what `find` leaves in a buffer of length zero does
not depend on what the backing array of the buffer holds nor on its capacity, when it has
room for the wildcards of every registered pattern. -/
theorem find_len_bindings (unescaped : Str → Option Str) {r : node}
    {rs : List (Str × List HandlerFunc)} (hb : Built r rs) (path : Str) {p1 p2 : Params}
    (hl1 : p1.len = 0) (hl2 : p2.len = 0)
    (hc1 : ∀ x ∈ rs, (wildcardNames x.1).length ≤ p1.arr.length)
    (hc2 : ∀ x ∈ rs, (wildcardNames x.1).length ≤ p2.arr.length)
    {nv1 nv2 : nodeValue} {q1 q2 : Params}
    (hf1 : find unescaped r path p1 false = .ok (nv1, q1))
    (hf2 : find unescaped r path p2 false = .ok (nv2, q2)) :
    q1.toList = q2.toList := by
  have he := explore_built_cap hb hc1 hc2 path
  obtain ⟨N, hN⟩ := exists_wildcard_bound rs
  obtain ⟨_, _, _, _, hnd⟩ := hb.holds N hN
  rcases find_built_len unescaped hb path p1 hl1 with ⟨e1, t1, a1, g1, l1⟩ | ⟨e1, g1⟩ |
    ⟨K1, vs1, m1, x1, t1, a1, e1, hx1, hK1, _, hh1, _, _, g1, hv1, hk1⟩
  · rw [g1] at hf1
    simp only [Except.ok.injEq, Prod.mk.injEq] at hf1
    rcases find_built_len unescaped hb path p2 hl2 with ⟨e2, t2, a2, g2, l2⟩ | ⟨e2, g2⟩ |
      ⟨K2, vs2, m2, x2, t2, a2, e2, _⟩
    · rw [g2] at hf2
      simp only [Except.ok.injEq, Prod.mk.injEq] at hf2
      rw [← hf1.2, ← hf2.2, toList_of_len_zero l1, toList_of_len_zero l2]
    · rw [g2] at hf2
      cases hf2
    · rw [he, e2] at e1
      cases e1
  · rw [g1] at hf1
    cases hf1
  · rw [g1] at hf1
    simp only [Except.ok.injEq, Prod.mk.injEq] at hf1
    rcases find_built_len unescaped hb path p2 hl2 with ⟨e2, t2, a2, g2, l2⟩ | ⟨e2, g2⟩ |
      ⟨K2, vs2, m2, x2, t2, a2, e2, hx2, hK2, _, hh2, _, _, g2, hv2, hk2⟩
    · rw [he, e2] at e1
      cases e1
    · rw [g2] at hf2
      cases hf2
    · rw [g2] at hf2
      simp only [Except.ok.injEq, Prod.mk.injEq] at hf2
      rw [he, e2] at e1
      simp only [Found.hit.injEq] at e1
      obtain ⟨eK, ev, em⟩ := e1
      have hx : x1 = x2 :=
        List.inj_on_of_nodup_map hnd hx1 hx2 (by rw [hK1, hK2, eK])
      rw [← hf1.2, ← hf2.2, ← zipWith_key_value a1.toList, ← zipWith_key_value a2.toList,
        hv1, hv2, hk1, hk2, hx, ev]

end route


namespace route

/-! ## The redirect hint -/

theorem finish_tsr {cn : Option node} {h : HandlersChain} {tsr : Bool} {ps ps1 : Params}
    {nv : nodeValue} (hf : finish cn h tsr ps = .ok (nv, ps1)) : nv.tsr = tsr := by
  cases cn with
  | none =>
    simp only [finish, Except.ok.injEq, Prod.mk.injEq] at hf
    rw [← hf.1]
  | some n =>
    simp only [finish] at hf
    cases ha : assignKeys n.pnames 0 ps with
    | error e => rw [ha] at hf; cases hf
    | ok p2 =>
      rw [ha] at hf
      simp only [Except.ok.injEq, Prod.mk.injEq] at hf
      rw [← hf.1]

theorem Step.hasTsr_finish (cn : Option node) (h : HandlersChain) (ps : Params) :
    Step.HasTsr (.done (finish cn h true ps)) := by
  intro nv ps1 hr
  exact finish_tsr hr

theorem stepTop_sticky (path : Str) (S : Cursor) (h : S.tsr = true) :
    Step.HasTsr (stepTop path S) := by
  obtain ⟨cn, prs, search, si, pi, p, tsr⟩ := S
  simp only at h
  subst h
  unfold stepTop
  simp only [Bool.true_or]
  by_cases hA : cn.kind = .skind ∧
      ¬ (cn.pfx.length ≤ search.length ∧ cn.pfx = search.take cn.pfx.length)
  · rw [if_pos hA]
    simp only [backtrackToNextNodeKind, if_true]
    cases prs with
    | nil =>
      simp only [List.head?_nil]
      intro nv p1 hr
      simp only [Except.ok.injEq, Prod.mk.injEq] at hr
      rw [← hr.1]
    | cons c cs =>
      simp only [List.head?_cons, List.tail_cons]
      by_cases hn : (if cn.kind = kind.akind then kind.skind else cn.kind.succ) = .pkind
      · rw [if_pos hn]
        rfl
      · rw [if_neg hn]
        exact Step.hasTsr_finish _ _ _
  · rw [if_neg hA]
    by_cases hex : (if cn.kind = .skind then search.drop cn.pfx.length else search) = [] ∧
        cn.handlers.getD [] ≠ []
    · rw [if_pos hex]
      exact Step.hasTsr_finish _ _ _
    · rw [if_neg hex]
      cases hs : (if cn.kind = .skind then search.drop cn.pfx.length else search) with
      | nil => rfl
      | cons c0 rest =>
        simp only []
        cases hfc : findChild cn c0 with
        | none => rfl
        | some child => rfl

theorem stepParam_sticky (unescaped : Str → Option Str) (unescape : Bool) (S : Cursor)
    (h : S.tsr = true) : Step.HasTsr (stepParam unescaped unescape S) := by
  obtain ⟨cn, prs, search, si, pi, p, tsr⟩ := S
  simp only at h
  subst h
  unfold stepParam
  simp only [Bool.true_or]
  cases hpc : cn.paramChild with
  | none => rfl
  | some child =>
    simp only []
    by_cases hs : search ≠ []
    · rw [if_pos hs]
      cases hr : p.reslice (pi + 1) with
      | error e =>
        simp only []
        intro nv p1 hx
        cases hx
      | ok p2 =>
        simp only []
        generalize (if unescape = true then
            (unescaped (List.take (List.takeWhile (fun c => c != '/') search).length
              search)).getD
              (List.take (List.takeWhile (fun c => c != '/') search).length search)
          else List.take (List.takeWhile (fun c => c != '/') search).length search) = val
        cases hv : p2.setValue pi val with
        | error e =>
          simp only []
          intro nv p1 hx
          cases hx
        | ok p3 => rfl
    · rw [if_neg hs]
      rfl

theorem stepAny_sticky (unescaped : Str → Option Str) (unescape : Bool) (path : Str)
    (S : Cursor) (h : S.tsr = true) : Step.HasTsr (stepAny unescaped unescape path S) := by
  obtain ⟨cn, prs, search, si, pi, p, tsr⟩ := S
  simp only at h
  subst h
  unfold stepAny
  simp only []
  cases hac : cn.anyChild with
  | some child =>
    simp only []
    cases hr : p.reslice (pi + 1) with
    | error e =>
      simp only []
      intro nv p1 hx
      cases hx
    | ok p2 =>
      simp only []
      by_cases hn : 0 < child.pnames.length
      · rw [if_pos hn]
        generalize (if unescape = true then (unescaped search).getD search else search) = val
        cases hv : p2.setValue (child.pnames.length - 1) val with
        | error e =>
          simp only []
          intro nv p1 hx
          cases hx
        | ok p3 => exact Step.hasTsr_finish _ _ _
      · rw [if_neg hn]
        intro nv p1 hx
        cases hx
  | none =>
    simp only []
    cases hbk : backtrackToNextNodeKind path
        { cn := cn, parents := prs, search := search, searchIndex := si,
          paramIndex := pi, params := p, tsr := true } .akind with
    | error e =>
      simp only []
      intro nv p1 hx
      cases hx
    | ok b =>
      simp only []
      cases hcn : b.cn with
      | none => exact Step.hasTsr_finish _ _ _
      | some c =>
        simp only []
        by_cases hn1 : b.nextNodeKind = .pkind
        · rw [if_pos hn1]
          rfl
        · rw [if_neg hn1]
          by_cases hn2 : b.nextNodeKind = .akind
          · rw [if_pos hn2]
            rfl
          · rw [if_neg hn2]
            exact Step.hasTsr_finish _ _ _

theorem step_sticky (unescaped : Str → Option Str) (path : Str) (l : Label) (S : Cursor)
    (h : S.tsr = true) : Step.HasTsr (step unescaped false path l S) := by
  cases l with
  | top => exact stepTop_sticky path S h
  | param => exact stepParam_sticky unescaped false S h
  | any => exact stepAny_sticky unescaped false path S h

/-- Once the hint is set it stays set. -/
theorem fires_of_tsr (unescaped : Str → Option Str) (path : Str) :
    ∀ (budget : Nat) (l : Label) (S : Cursor), S.tsr = true → ∀ nv ps,
      findLoop unescaped false path budget l S = .ok (nv, ps) → nv.tsr = true
  | 0, _, _, _, _, _, h => by cases h
  | budget + 1, l, S, ht, nv, ps, h => by
    rw [findLoop] at h
    have hs := step_sticky unescaped path l S ht
    cases hst : step unescaped false path l S with
    | done r =>
      rw [hst] at h hs
      exact hs nv ps h
    | jump l1 S1 =>
      rw [hst] at h hs
      exact fires_of_tsr unescaped path budget l1 S1 hs nv ps h

theorem Fires.of_tsr {unescaped : Str → Option Str} {path : Str} {l : Label} {S : Cursor}
    (h : S.tsr = true) : Fires unescaped path l S :=
  fun budget nv ps hf => fires_of_tsr unescaped path budget l S h nv ps hf

theorem Fires.after_jump {unescaped : Str → Option Str} {path : Str} {l l1 : Label}
    {S S1 : Cursor} (hstep : step unescaped false path l S = .jump l1 S1)
    (h : Fires unescaped path l1 S1) : Fires unescaped path l S := by
  intro budget nv ps hf
  cases budget with
  | zero => cases hf
  | succ b =>
    rw [findLoop_jump hstep] at hf
    exact h b nv ps hf

theorem Fires.of_done {unescaped : Str → Option Str} {path : Str} {l : Label}
    {S : Cursor} {r : Except Panic (nodeValue × Params)}
    (hstep : step unescaped false path l S = .done r)
    (h : ∀ nv ps, r = .ok (nv, ps) → nv.tsr = true) : Fires unescaped path l S := by
  intro budget nv ps hf
  cases budget with
  | zero => cases hf
  | succ b =>
    rw [findLoop_done hstep] at hf
    exact h nv ps hf

/-- The hint is set by every run that passes through a state from which it is set. -/
theorem Fires.of_run {unescaped : Str → Option Str} {path : Str} {l l1 : Label}
    {S S1 : Cursor} {j : Nat}
    (hrun : ∀ f, findLoop unescaped false path (j + f) l S =
      findLoop unescaped false path f l1 S1)
    (h : Fires unescaped path l1 S1) : Fires unescaped path l S := by
  intro budget nv ps hf
  have h1 := findLoop_budget budget l S _ hf (by intro e; cases e) j
  rw [Nat.add_comm, hrun budget] at h1
  exact h budget nv ps h1

end route


namespace route

/-! ### The places at which the hint is set -/

theorem Fires.of_hasTsr {unescaped : Str → Option Str} {path : Str} {l : Label} {S : Cursor}
    (h : Step.HasTsr (step unescaped false path l S)) : Fires unescaped path l S := by
  cases hst : step unescaped false path l S with
  | done r =>
    rw [hst] at h
    exact Fires.of_done hst h
  | jump l1 S1 =>
    rw [hst] at h
    exact Fires.after_jump hst (Fires.of_tsr h)

/-- The hint is set at a static node whose prefix is the rest of the path followed by `/`,
when the node has handlers or a catch-all child. -/
theorem fires_at_mismatch (unescaped : Str → Option Str) (path : Str) (S : Cursor)
    (hk : S.cn.kind = .skind)
    (hmis : ¬ (S.cn.pfx.length ≤ S.search.length ∧ S.cn.pfx = S.search.take S.cn.pfx.length))
    (hE : (S.cn.pfx.length == S.search.length + 1 &&
        S.cn.pfx.get? S.search.length == some '/' &&
        S.cn.pfx.take S.search.length == S.search &&
        (S.cn.handlers.isSome || S.cn.anyChild.isSome)) = true) :
    Fires unescaped path .top S := by
  apply Fires.of_hasTsr
  obtain ⟨cn, prs, search, si, pi, p, tsr⟩ := S
  simp only at hk hmis hE
  show Step.HasTsr (stepTop path _)
  unfold stepTop
  simp only []
  rw [if_pos ⟨hk, hmis⟩, hE, Bool.or_true]
  simp only [backtrackToNextNodeKind, if_true]
  cases prs with
  | nil =>
    simp only [List.head?_nil]
    intro nv p1 hr
    simp only [Except.ok.injEq, Prod.mk.injEq] at hr
    rw [← hr.1]
  | cons c cs =>
    simp only [List.head?_cons, List.tail_cons]
    by_cases hn : (if cn.kind = kind.akind then kind.skind else cn.kind.succ) = .pkind
    · rw [if_pos hn]
      rfl
    · rw [if_neg hn]
      exact Step.hasTsr_finish _ _ _

/-- The hint is set at a node with handlers when `/` alone is left of the path, and at a
node whose child on `/` has handlers or a catch-all child when nothing is left. -/
theorem fires_at_node (unescaped : Str → Option Str) (path : Str) (S : Cursor)
    (hA : ¬ (S.cn.kind = .skind ∧
      ¬ (S.cn.pfx.length ≤ S.search.length ∧ S.cn.pfx = S.search.take S.cn.pfx.length)))
    (hE : ((if S.cn.kind = .skind then S.search.drop S.cn.pfx.length else S.search) = ['/'] ∧
        S.cn.handlers.isSome = true) ∨
      ((if S.cn.kind = .skind then S.search.drop S.cn.pfx.length else S.search) = [] ∧
        S.cn.handlers.getD [] = [] ∧ slashChildServes S.cn = true)) :
    Fires unescaped path .top S := by
  apply Fires.of_hasTsr
  obtain ⟨cn, prs, search, si, pi, p, tsr⟩ := S
  simp only at hA hE
  show Step.HasTsr (stepTop path _)
  unfold stepTop
  simp only []
  rw [if_neg hA]
  rcases hE with ⟨hs, hh⟩ | ⟨hs, hh, hc⟩
  · rw [hs]
    rw [if_neg (fun h => by cases h.1)]
    simp only [List.isEmpty_nil, beq_self_eq_true, Bool.true_and, hh, Bool.or_true]
    cases hfc : findChild cn '/' with
    | none => rfl
    | some child => rfl
  · rw [hs]
    rw [if_neg (fun h => h.2 hh)]
    simp only [hc, Bool.or_true]
    rfl

/-! ### The descent of the lookup -/

section
variable {unescaped : Str → Option Str} {path : Str} {cap : Nat}

/-- The turn of the loop at a node whose prefix matches, when the node does not end the
lookup. -/
theorem stepTop_enter {n : node} {parents : List node} {i i1 d : Nat} {params : Params}
    {tsr : Bool}
    (hA : ¬ (n.kind = .skind ∧
      ¬ (n.pfx.length ≤ (path.drop i).length ∧ n.pfx = (path.drop i).take n.pfx.length)))
    (hi1 : i1 = if n.kind = .skind then i + n.pfx.length else i)
    (hex : ¬ (path.drop i1 = [] ∧ n.handlers.getD [] ≠ [])) :
    step unescaped false path .top
      (⟨n, parents, path.drop i, i, d, params, tsr⟩ : Cursor) =
      match path.drop i1 with
      | c0 :: rest =>
        match findChild n c0 with
        | some child =>
          .jump .top (⟨child, n :: parents, c0 :: rest, i1, d, params,
            tsr || (rest.isEmpty && c0 == '/' && n.handlers.isSome)⟩ : Cursor)
        | none =>
          .jump .param (⟨n, parents, c0 :: rest, i1, d, params,
            tsr || (rest.isEmpty && c0 == '/' && n.handlers.isSome)⟩ : Cursor)
      | [] =>
        .jump .param (⟨n, parents, [], i1, d, params, tsr || slashChildServes n⟩ :
          Cursor) := by
  have hs1 : (if n.kind = .skind then (path.drop i).drop n.pfx.length else path.drop i) =
      path.drop i1 := by
    rw [hi1]
    by_cases hk : n.kind = .skind
    · rw [if_pos hk, if_pos hk, List.drop_drop, Nat.add_comm]
    · rw [if_neg hk, if_neg hk]
  have hidx : (if n.kind = .skind then i + n.pfx.length else i) = i1 := hi1.symm
  simp only [step, stepTop, if_neg hA, hs1, hidx, if_neg hex] <;> rfl

/-- The position after the prefix of a node that matches is in the path. -/
theorem enter_le {n : node} {i i1 : Nat} (hle : i ≤ path.length)
    (hA : ¬ (n.kind = .skind ∧
      ¬ (n.pfx.length ≤ (path.drop i).length ∧ n.pfx = (path.drop i).take n.pfx.length)))
    (hi1 : i1 = if n.kind = .skind then i + n.pfx.length else i) : i1 ≤ path.length := by
  by_cases hk : n.kind = .skind
  · rw [hi1, if_pos hk]
    have h2 := (not_not.mp (fun h => hA ⟨hk, h⟩)).1
    simp only [List.length_drop] at h2
    omega
  · rw [hi1, if_neg hk]; exact hle

/-- The hint is set from the head of the loop at a node when it is set from the head of
the loop at the static child that the lookup enters. -/
theorem fires_of_child {S : Cursor} {n child : node} {parents : List node} {i i1 d : Nat}
    {c0 : Char} {rest : Str}
    (hpos : Pos path cap S n parents i d)
    (hA : ¬ (n.kind = .skind ∧
      ¬ (n.pfx.length ≤ (path.drop i).length ∧ n.pfx = (path.drop i).take n.pfx.length)))
    (hi1 : i1 = if n.kind = .skind then i + n.pfx.length else i)
    (hex : ¬ (path.drop i1 = [] ∧ n.handlers.getD [] ≠ []))
    (hsd : path.drop i1 = c0 :: rest) (hfc : findChild n c0 = some child)
    (h : ∀ S1, Pos path cap S1 child (n :: parents) i1 d → Fires unescaped path .top S1) :
    Fires unescaped path .top S := by
  obtain ⟨cn, prs, search, si, pi, params, tsr⟩ := S
  obtain ⟨h1, h2, h3, h4, hle, h5, hlen, hcap, hdle⟩ := hpos
  simp only at h1 h2 h3 h4 h5 hlen hcap
  subst h1 h2 h3 h4 h5
  have hunf := @stepTop_enter unescaped path cn prs si i1 pi params tsr hA hi1 hex
  rw [hsd] at hunf
  simp only [hfc] at hunf
  exact Fires.after_jump hunf
    (h _ ⟨rfl, rfl, hsd.symm, rfl, enter_le hle hA hi1, rfl, hlen, hcap, hdle⟩)

/-- The hint is set from the head of the loop at a node when the static child that the
lookup enters holds no match and the hint is set from the label `Param` of the node. -/
theorem fires_of_param {N : Nat} {S : Cursor} {n : node} {parents : List node} {i i1 d : Nat}
    (hinv : Inv N d n)
    (hpos : Pos path cap S n parents i d)
    (hA : ¬ (n.kind = .skind ∧
      ¬ (n.pfx.length ≤ (path.drop i).length ∧ n.pfx = (path.drop i).take n.pfx.length)))
    (hi1 : i1 = if n.kind = .skind then i + n.pfx.length else i)
    (hex : ¬ (path.drop i1 = [] ∧ n.handlers.getD [] ≠ []))
    (hstatic : ∀ c0 rest child, path.drop i1 = c0 :: rest → findChild n c0 = some child →
      explore cap child d (path.drop i1) = .fail)
    (h : ∀ S1, Pos path cap S1 n parents i1 d → Fires unescaped path .param S1) :
    Fires unescaped path .top S := by
  obtain ⟨cn, prs, search, si, pi, params, tsr⟩ := S
  obtain ⟨h1, h2, h3, h4, hle, h5, hlen, hcap, hdle⟩ := hpos
  simp only at h1 h2 h3 h4 h5 hlen hcap
  subst h1 h2 h3 h4 h5
  have hunf := @stepTop_enter unescaped path cn prs si i1 pi params tsr hA hi1 hex
  have hi1le := enter_le hle hA hi1
  cases hsd : path.drop i1 with
  | nil =>
    rw [hsd] at hunf
    simp only [] at hunf
    exact Fires.after_jump hunf (h _ ⟨rfl, rfl, hsd.symm, rfl, hi1le, rfl, hlen, hcap, hdle⟩)
  | cons c0 rest =>
    rw [hsd] at hunf
    simp only [] at hunf
    cases hfc : findChild cn c0 with
    | none =>
      rw [hfc] at hunf
      simp only [] at hunf
      exact Fires.after_jump hunf (h _ ⟨rfl, rfl, hsd.symm, rfl, hi1le, rfl, hlen, hcap, hdle⟩)
    | some child =>
      rw [hfc] at hunf
      simp only [] at hunf
      apply Fires.after_jump hunf
      have hmem : child ∈ cn.children := (find?_label_eq_some hfc).1
      have hfail := hstatic c0 rest child hsd hfc
      have hsim := explore_sim unescaped path cap N child pi
        (⟨child, cn :: prs, c0 :: rest, i1, pi, params,
          tsr || (rest.isEmpty && c0 == '/' && cn.handlers.isSome)⟩ : Cursor)
        (cn :: prs) i1 i1 pi (params.values pi) .param (hinv.child hmem)
        ⟨rfl, rfl, hsd.symm, rfl, hi1le, rfl, hlen, hcap, hdle⟩ rfl
        (Or.inl ⟨hinv.child_kind hmem, rfl, rfl, rfl⟩)
      rw [hfail] at hsim
      obtain ⟨j, _, _, hcont⟩ := hsim
      rcases hcont with ⟨hnil, _⟩ | ⟨p, ps, S1, hp, hrun, hpos1, _⟩
      · cases hnil
      · simp only [List.cons.injEq] at hp
        obtain ⟨hp1, hp2⟩ := hp
        subst hp1 hp2
        exact Fires.of_run hrun (h S1 hpos1)

/-- The hint is set from the label `Param` of a node when it is set from the head of the
loop at the param child after the capture. -/
theorem fires_of_capture {S : Cursor} {n x : node} {parents : List node} {i1 d : Nat}
    (hpos : Pos path cap S n parents i1 d) (hpc : n.paramChild = some x)
    (hs1 : path.drop i1 ≠ []) (hc : d + 1 ≤ cap)
    (h : ∀ S2, Pos path cap S2 x (n :: parents)
      (i1 + ((path.drop i1).takeWhile (fun a => a != '/')).length) (d + 1) →
      Fires unescaped path .top S2) :
    Fires unescaped path .param S := by
  obtain ⟨cn, prs, search, si, pi, params, tsr⟩ := S
  obtain ⟨h1, h2, h3, h4, hle, h5, hlen, hcap, hdle⟩ := hpos
  simp only at h1 h2 h3 h4 h5 hlen hcap
  subst h1 h2 h3 h4 h5
  have hres : params.reslice (pi + 1) = .ok { arr := params.arr, len := pi + 1 } :=
    reslice_ok (by omega)
  obtain ⟨tw, htw⟩ : ∃ tw, tw = (path.drop si).takeWhile (fun a => a != '/') := ⟨_, rfl⟩
  rw [← htw] at h
  obtain ⟨p, hp, hset⟩ := @setValue_ok { arr := params.arr, len := pi + 1 } pi
    tw (Nat.lt_succ_self _) (by show pi < params.arr.length; omega)
  simp only [] at hset
  have htl : tw.length ≤ path.length - si := by
    have := length_takeWhile_le (fun a => a != '/') (path.drop si)
    rw [← htw] at this
    simpa using this
  have hstep : step unescaped false path .param
      (⟨cn, prs, path.drop si, si, pi, params, tsr⟩ : Cursor) =
      .jump .top (⟨x, cn :: prs, (path.drop si).drop tw.length, si + tw.length, pi + 1,
        ⟨params.arr.set pi ⟨p.Key, tw⟩, pi + 1⟩,
        tsr || (((path.drop si).drop tw.length).isEmpty && slashChildServes x)⟩ :
          Cursor) := by
    have htake : (path.drop si).take tw.length = tw := by
      rw [htw]; exact take_takeWhile_length _ _
    simp only [step, stepParam, hpc, hres, ← htw]
    simp only [ne_eq, hs1, not_false_eq_true, if_true, Bool.false_eq_true, if_false,
      htake, hset]
  exact Fires.after_jump hstep
    (h _ ⟨rfl, rfl, by simp only [List.drop_drop], rfl, by omega, rfl, rfl,
      by simp [hcap], hc⟩)

end

end route


namespace route

/-! ### A path with a trailing slash -/

theorem takeWhile_snoc_slash : ∀ (u : Str),
    (u ++ ['/']).takeWhile (fun a => a != '/') = u.takeWhile (fun a => a != '/')
  | [] => by simp [List.takeWhile]
  | c :: u => by
    by_cases hc : c = '/'
    · subst hc
      simp [List.takeWhile]
    · have hb : (c != '/') = true := by simpa using hc
      simp only [List.cons_append, List.takeWhile, hb]
      exact congrArg (List.cons c) (takeWhile_snoc_slash u)

theorem dropWhile_snoc_slash : ∀ (u : Str),
    (u ++ ['/']).dropWhile (fun a => a != '/') = u.dropWhile (fun a => a != '/') ++ ['/']
  | [] => by simp [List.dropWhile]
  | c :: u => by
    by_cases hc : c = '/'
    · subst hc
      simp [List.dropWhile]
    · have hb : (c != '/') = true := by simpa using hc
      simp only [List.cons_append, List.dropWhile, hb]
      exact dropWhile_snoc_slash u

theorem drop_add (s : Str) (a b : Nat) : s.drop (a + b) = (s.drop a).drop b := by
  rw [List.drop_drop, Nat.add_comm]

theorem Found.under_eq_fail {R : Found} {pre : Str} (h : R.under pre = .fail) : R = .fail := by
  cases R with
  | fail => rfl
  | panic => cases h
  | hit K vs m => cases h

theorem Found.capture_eq_fail {R : Found} {v : Str} (h : R.capture v = .fail) : R = .fail := by
  cases R with
  | fail => rfl
  | panic => cases h
  | hit K vs m => cases h

theorem Found.orElse_eq_fail {R1 R2 : Found} (h : R1.orElse R2 = .fail) :
    R1 = .fail ∧ R2 = .fail := by
  cases R1 with
  | fail => exact ⟨rfl, h⟩
  | panic => cases h
  | hit K vs m => cases h

/-- What the failure of the exploration of a node whose prefix matches says of its
alternatives. -/
theorem explore_fail_parts {cap : Nat} {k : kind} {lab : Char} {pre : Str} {cs : List node}
    {pp : Str} {pn : List Str} {hs : HandlersChain} {pc ac : Option node} {lf : Bool}
    {d : Nat} {s s1 : Str}
    (he : explore cap (.mk k lab pre cs pp pn hs pc ac lf) d s = .fail)
    (hA : ¬ (k = .skind ∧ ¬ (pre.length ≤ s.length ∧ pre = s.take pre.length)))
    (hs1 : (if k = .skind then s.drop pre.length else s) = s1) :
    ¬ (s1 = [] ∧ hs.getD [] ≠ []) ∧
      (∀ c0 rest child, s1 = c0 :: rest →
        findChild (.mk k lab pre cs pp pn hs pc ac lf) c0 = some child →
        explore cap child d s1 = .fail) ∧
      (∀ x, pc = some x → s1 ≠ [] → d + 1 ≤ cap ∧
        explore cap x (d + 1) (s1.drop (s1.takeWhile (fun a => a != '/')).length) = .fail) ∧
      ac = none := by
  rw [explore_unfold, if_neg hA, hs1] at he
  by_cases hex : s1 = [] ∧ hs.getD [] ≠ []
  · rw [if_pos hex] at he
    cases he
  rw [if_neg hex] at he
  obtain ⟨h1, h23⟩ := Found.orElse_eq_fail (Found.under_eq_fail he)
  obtain ⟨h2, h3⟩ := Found.orElse_eq_fail h23
  refine ⟨hex, ?_, ?_, ?_⟩
  · intro c0 rest child hsc hfc
    rw [hsc] at h1 ⊢
    simp only [exploreList_eq] at h1
    have hfc1 : cs.find? (fun c => c.label == c0) = some child := hfc
    rw [hfc1] at h1
    exact h1
  · intro x hx hne
    subst hx
    simp only [] at h2
    rw [if_pos hne] at h2
    by_cases hc : d + 1 ≤ cap
    · rw [if_pos hc] at h2
      exact ⟨hc, Found.capture_eq_fail h2⟩
    · rw [if_neg hc] at h2
      cases h2
  · cases ac with
    | none => rfl
    | some c =>
      unfold exploreAny at h3
      simp only [] at h3
      by_cases hc : d + 1 ≤ cap
      · rw [if_pos hc] at h3; cases h3
      · rw [if_neg hc] at h3; cases h3

/-- The lookup of a path that ends in `/` sets the hint when the path without this `/`
matches, from the node on, a key of the subtree that has handlers and the exploration of
the subtree fails. -/
theorem fires_strip (unescaped : Str → Option Str) (path : Str) (cap N : Nat) :
    ∀ (n : node) (d : Nat) (S : Cursor) (parents : List node) (i : Nat),
      Inv N d n → n.kind ≠ .akind → Pos path cap S n parents i d →
      explore cap n d (path.drop i) = .fail →
      ∀ (K1 : Str) (m : node) (vs : List Str) (s0 : Str), At n (n.pfx ++ K1) m →
        m.handlers.isSome = true → path.drop i = s0 ++ ['/'] →
        keyMatch (if n.kind = .skind then n.pfx ++ K1 else K1) s0 = some vs →
        Fires unescaped path .top S := by
  intro n
  induction n using node.induct with
  | step k lab pre cs pp pn hs pc ac lf ihc ihp iha =>
    intro d S parents i hinv hka hpos he K1 m vs s0 hat hm hs0 hkm
    simp only [node.pfx_mk, node.kind_mk] at hat hkm hka
    -- the prefix of the node
    obtain ⟨t1, ht1, hkm1⟩ : ∃ t1, s0 = (if k = .skind then pre ++ t1 else t1) ∧
        keyMatch K1 t1 = some vs := by
      by_cases hk : k = .skind
      · rw [if_pos hk] at hkm
        obtain ⟨t1, h1, h2⟩ := (keyMatch_noWild (hinv.noWild hk)).mp hkm
        exact ⟨t1, by rw [if_pos hk]; exact h1, h2⟩
      · rw [if_neg hk] at hkm
        exact ⟨s0, by rw [if_neg hk], hkm⟩
    have hA : ¬ (k = .skind ∧
        ¬ (pre.length ≤ (path.drop i).length ∧ pre = (path.drop i).take pre.length)) := by
      rintro ⟨hk, hno⟩
      apply hno
      rw [hs0, ht1, if_pos hk]
      exact ⟨by simp, by simp⟩
    obtain ⟨i1, hi1⟩ : ∃ i1, i1 = if k = .skind then i + pre.length else i := ⟨_, rfl⟩
    have hs1 : (if k = .skind then (path.drop i).drop pre.length else path.drop i) =
        path.drop i1 := by
      rw [hi1]
      by_cases hk : k = .skind
      · rw [if_pos hk, if_pos hk, List.drop_drop, Nat.add_comm]
      · rw [if_neg hk, if_neg hk]
    have hd1 : path.drop i1 = t1 ++ ['/'] := by
      rw [← hs1, hs0, ht1]
      by_cases hk : k = .skind
      · rw [if_pos hk, if_pos hk, List.append_assoc, List.drop_left]
      · rw [if_neg hk, if_neg hk]
    obtain ⟨hex, hstatic, hparam, hany⟩ := explore_fail_parts he hA hs1
    have hAn : ¬ ((node.mk k lab pre cs pp pn hs pc ac lf).kind = .skind ∧
        ¬ ((node.mk k lab pre cs pp pn hs pc ac lf).pfx.length ≤ (path.drop i).length ∧
          (node.mk k lab pre cs pp pn hs pc ac lf).pfx =
            (path.drop i).take (node.mk k lab pre cs pp pn hs pc ac lf).pfx.length)) := hA
    have hi1n : i1 = if (node.mk k lab pre cs pp pn hs pc ac lf).kind = .skind
        then i + (node.mk k lab pre cs pp pn hs pc ac lf).pfx.length else i := hi1
    rcases hat.cases_on_key with ⟨h0, hmn⟩ | ⟨x, K2, hK, hatx, hslot⟩
    · -- the node itself: `/` alone is left
      simp only [node.pfx_mk] at h0
      have hK1 : K1 = [] := by
        have := congrArg List.length h0
        simp only [List.length_append] at this
        exact List.length_eq_zero.mp (by omega)
      subst hK1
      have ht0 := (keyMatch_nil.mp hkm1).1
      subst ht0
      subst hmn
      simp only [node.handlers_mk] at hm
      apply fires_at_node unescaped path S
      · rw [hpos.cn, hpos.search]
        exact hA
      · left
        rw [hpos.cn, hpos.search]
        exact ⟨by simp only [node.kind_mk, node.pfx_mk]; rw [hs1, hd1]; rfl, hm⟩
    · simp only [node.pfx_mk] at hK
      have hK2 : K1 = K2 := List.append_cancel_left hK
      subst hK2
      obtain ⟨K3, hK3⟩ := hatx.prefix_key
      rcases slot_head hinv hatx hslot with ⟨hx, rest, hKr, hl1, hl2⟩ | ⟨hx, rest, hKr⟩ |
        ⟨hx, _⟩
      · -- a static child
        simp only [node.children_mk] at hx
        rw [hKr] at hkm1
        obtain ⟨t2, ht2, _⟩ := (keyMatch_static hl1 hl2).mp hkm1
        have hsd : path.drop i1 = x.label :: (t2 ++ ['/']) := by
          rw [hd1, ht2]; rfl
        have hfc : findChild (.mk k lab pre cs pp pn hs pc ac lf) x.label = some x :=
          find?_label_of_mem hinv.nodup hx
        have hfx := hstatic x.label _ x hsd hfc
        have hkx := hinv.child_kind hx
        apply fires_of_child hpos hAn hi1n hex hsd hfc
        intro S1 hpos1
        refine ihc x hx d S1 _ i1 (hinv.child hx) (by rw [hkx]; decide) hpos1 hfx K3 m vs t1
          (by rw [← hK3]; exact hatx) hm hd1 ?_
        rw [if_pos hkx, ← hK3, hKr]
        exact hkm1
      · -- the param child
        simp only [node.paramChild_mk] at hx
        have hshape := hinv.param_shape hx
        rw [hKr] at hkm1
        obtain ⟨hne, vs1, hkm2, _⟩ := keyMatch_colon.mp hkm1
        have hK3r : rest = K3 := by
          rw [hK3, hshape.2] at hKr
          simpa using hKr.symm
        have hne1 : path.drop i1 ≠ [] := by rw [hd1]; simp
        obtain ⟨hc, hfx⟩ := hparam x hx hne1
        apply fires_of_param hinv hpos hAn hi1n hex hstatic
        intro S1 hpos1
        apply fires_of_capture hpos1 hx hne1 hc
        intro S2 hpos2
        refine ihp x hx (d + 1) S2 _ _ (hinv.param hx) (by rw [hshape.1]; decide) hpos2 ?_
          K3 m vs1 (t1.dropWhile (fun a => a != '/')) (by rw [← hK3]; exact hatx) hm ?_ ?_
        · rw [drop_add]
          exact hfx
        · rw [drop_add, drop_takeWhile_length, hd1, dropWhile_snoc_slash]
        · rw [if_neg (by rw [hshape.1]; decide), ← hK3r]
          exact hkm2
      · -- the catch-all child
        simp only [node.anyChild_mk] at hx
        rw [hany] at hx
        cases hx

end route


namespace route

/-! ### A path that lacks its trailing slash -/

theorem capturesOk_noWild : ∀ {p : Str} (K : Str) (vs : List Str), NoWild p →
    capturesOk (p ++ K) vs = capturesOk K vs
  | [], _, _, _ => rfl
  | c :: p, K, vs, h => by
    have hc := h c (List.mem_cons_self c p)
    simp only [List.cons_append, capturesOk, if_neg hc.1, if_neg hc.2]
    exact capturesOk_noWild K vs (fun x hx => h x (List.mem_cons_of_mem c hx))

theorem keyMatch_empty {K : Str} {vs : List Str} (h : keyMatch K [] = some vs) :
    K = [] ∨ ∃ K2, K = '*' :: K2 := by
  cases K with
  | nil => exact Or.inl rfl
  | cons c K2 =>
    right
    by_cases h1 : c = ':'
    · subst h1
      simp [keyMatch] at h
    · by_cases h2 : c = '*'
      · exact ⟨K2, by rw [h2]⟩
      · simp [keyMatch, h1, h2] at h

/-- A node below which a key with handlers matches the empty text has handlers or a
catch-all child. -/
theorem serves_of_empty_match {N d : Nat} {x m : node} {K3 : Str} {vs : List Str}
    (hinv : Inv N d x) (hat : At x (x.pfx ++ K3) m) (hkm : keyMatch K3 [] = some vs)
    (hm : m.handlers.isSome = true) : (x.handlers.isSome || x.anyChild.isSome) = true := by
  rcases hat.cases_on_key with ⟨_, hmx⟩ | ⟨c, K2, hK, hatc, hslot⟩
  · subst hmx
    simp [hm]
  · have hK2 : K3 = K2 := List.append_cancel_left hK
    subst hK2
    rcases slot_head hinv hatc hslot with ⟨_, rest, hKr, hl1, hl2⟩ | ⟨_, rest, hKr⟩ | ⟨hx, _⟩
    · rw [hKr] at hkm
      obtain ⟨s1, hs1, _⟩ := (keyMatch_static hl1 hl2).mp hkm
      cases hs1
    · rw [hKr] at hkm
      exact absurd rfl (keyMatch_colon.mp hkm).1
    · simp [hx]

theorem snoc_eq_append {s pre t1 : Str} (h : s ++ ['/'] = pre ++ t1) :
    (t1 = [] ∧ pre = s ++ ['/']) ∨ ∃ s1, t1 = s1 ++ ['/'] ∧ s = pre ++ s1 := by
  rcases List.eq_nil_or_concat t1 with h0 | ⟨s1, a, h1⟩
  · left
    subst h0
    exact ⟨rfl, by simpa using h.symm⟩
  · right
    subst h1
    rw [List.concat_eq_append] at h ⊢
    rw [← List.append_assoc] at h
    have hlen : ['/'].length = [a].length := rfl
    obtain ⟨e1, e2⟩ := List.append_inj' h hlen
    simp only [List.cons.injEq, and_true] at e2
    subst e2
    exact ⟨s1, rfl, e1⟩

/-- The lookup of a path sets the hint when the path followed by `/` matches, from the node
on and with captures that are not empty, a key of the subtree that has handlers and the
exploration of the subtree fails. -/
theorem fires_append (unescaped : Str → Option Str) (path : Str) (cap N : Nat) :
    ∀ (n : node) (d : Nat) (S : Cursor) (parents : List node) (i : Nat),
      Inv N d n → n.kind ≠ .akind → Pos path cap S n parents i d →
      explore cap n d (path.drop i) = .fail →
      ∀ (K1 : Str) (m : node) (vs : List Str), At n (n.pfx ++ K1) m →
        m.handlers.isSome = true →
        keyMatch (if n.kind = .skind then n.pfx ++ K1 else K1) (path.drop i ++ ['/']) =
          some vs →
        capturesOk (if n.kind = .skind then n.pfx ++ K1 else K1) vs = true →
        Fires unescaped path .top S := by
  intro n
  induction n using node.induct with
  | step k lab pre cs pp pn hs pc ac lf ihc ihp iha =>
    intro d S parents i hinv hka hpos he K1 m vs hat hm hkm hcv
    simp only [node.pfx_mk, node.kind_mk] at hat hkm hka hcv
    -- the prefix of the node: it is the rest of the path followed by `/`, or it matches
    have hsplit : (k = .skind ∧ pre = path.drop i ++ ['/'] ∧ keyMatch K1 [] = some vs) ∨
        ∃ s1, path.drop i = (if k = .skind then pre ++ s1 else s1) ∧
          keyMatch K1 (s1 ++ ['/']) = some vs ∧ capturesOk K1 vs = true := by
      by_cases hk : k = .skind
      · rw [if_pos hk] at hkm hcv
        have hnw : NoWild pre := hinv.noWild hk
        rw [capturesOk_noWild K1 vs hnw] at hcv
        obtain ⟨t1, h1, h2⟩ := (keyMatch_noWild hnw).mp hkm
        rcases snoc_eq_append h1 with ⟨h0, hp⟩ | ⟨s1, hs1, hs⟩
        · left
          subst h0
          exact ⟨hk, hp, h2⟩
        · right
          subst hs1
          exact ⟨s1, by rw [if_pos hk]; exact hs, h2, hcv⟩
      · rw [if_neg hk] at hkm hcv
        exact Or.inr ⟨path.drop i, by rw [if_neg hk], hkm, hcv⟩
    rcases hsplit with ⟨hk, hp, hkm0⟩ | ⟨s1, hs1, hkm1, hcv1⟩
    · -- the prefix is the rest of the path followed by `/`
      have hserve := serves_of_empty_match hinv hat hkm0 hm
      simp only [node.handlers_mk, node.anyChild_mk] at hserve
      apply fires_at_mismatch unescaped path S
      · rw [hpos.cn]; exact hk
      · rw [hpos.cn, hpos.search]
        simp only [node.pfx_mk]
        intro h
        have := h.1
        rw [hp] at this
        simp at this
      · rw [hpos.cn, hpos.search]
        simp only [node.pfx_mk, node.handlers_mk, node.anyChild_mk, hserve, Bool.and_true]
        rw [hp]
        simp
    have hA : ¬ (k = .skind ∧
        ¬ (pre.length ≤ (path.drop i).length ∧ pre = (path.drop i).take pre.length)) := by
      rintro ⟨hk, hno⟩
      apply hno
      rw [hs1, if_pos hk]
      exact ⟨by simp, by simp⟩
    obtain ⟨i1, hi1⟩ : ∃ i1, i1 = if k = .skind then i + pre.length else i := ⟨_, rfl⟩
    have hs1e : (if k = .skind then (path.drop i).drop pre.length else path.drop i) =
        path.drop i1 := by
      rw [hi1]
      by_cases hk : k = .skind
      · rw [if_pos hk, if_pos hk, List.drop_drop, Nat.add_comm]
      · rw [if_neg hk, if_neg hk]
    have hd1 : path.drop i1 = s1 := by
      rw [← hs1e, hs1]
      by_cases hk : k = .skind
      · rw [if_pos hk, if_pos hk, List.drop_left]
      · rw [if_neg hk, if_neg hk]
    obtain ⟨hex, hstatic, hparam, hany⟩ := explore_fail_parts he hA hs1e
    have hAn : ¬ ((node.mk k lab pre cs pp pn hs pc ac lf).kind = .skind ∧
        ¬ ((node.mk k lab pre cs pp pn hs pc ac lf).pfx.length ≤ (path.drop i).length ∧
          (node.mk k lab pre cs pp pn hs pc ac lf).pfx =
            (path.drop i).take (node.mk k lab pre cs pp pn hs pc ac lf).pfx.length)) := hA
    have hi1n : i1 = if (node.mk k lab pre cs pp pn hs pc ac lf).kind = .skind
        then i + (node.mk k lab pre cs pp pn hs pc ac lf).pfx.length else i := hi1
    rcases hat.cases_on_key with ⟨h0, hmn⟩ | ⟨x, K2, hK, hatx, hslot⟩
    · -- the node itself: nothing matches the text that ends in `/`
      exfalso
      simp only [node.pfx_mk] at h0
      have hK1 : K1 = [] := by
        have := congrArg List.length h0
        simp only [List.length_append] at this
        exact List.length_eq_zero.mp (by omega)
      subst hK1
      have := (keyMatch_nil.mp hkm1).1
      simp at this
    · simp only [node.pfx_mk] at hK
      have hK2 : K1 = K2 := List.append_cancel_left hK
      subst hK2
      obtain ⟨K3, hK3⟩ := hatx.prefix_key
      rcases slot_head hinv hatx hslot with ⟨hx, rest, hKr, hl1, hl2⟩ | ⟨hx, rest, hKr⟩ |
        ⟨hx, _⟩
      · -- a static child
        simp only [node.children_mk] at hx
        have hkx := hinv.child_kind hx
        have hix := hinv.child hx
        have hfc : findChild (.mk k lab pre cs pp pn hs pc ac lf) x.label = some x :=
          find?_label_of_mem hinv.nodup hx
        cases hs1c : s1 with
        | nil =>
          -- nothing is left of the path: the child is the node of `/`
          rw [hs1c] at hkm1 hd1
          simp only [List.nil_append] at hkm1
          have hkm3 := hkm1
          rw [hKr] at hkm1
          obtain ⟨t2, ht2, _⟩ := (keyMatch_static hl1 hl2).mp hkm1
          simp only [List.cons.injEq] at ht2
          rw [hK3] at hkm3
          obtain ⟨t3, ht3, hkm4⟩ := (keyMatch_noWild (hix.noWild hkx)).mp hkm3
          have ht30 : t3 = [] := by
            have hne := hix.pfx_ne_nil
            have := congrArg List.length ht3
            simp only [List.length_cons, List.length_nil, List.length_append] at this
            have hpos1 : 0 < x.pfx.length := List.length_pos.mpr hne
            exact List.length_eq_zero.mp (by omega)
          subst ht30
          have hserve := serves_of_empty_match hix (by rw [← hK3]; exact hatx) hkm4 hm
          apply fires_at_node unescaped path S
          · rw [hpos.cn, hpos.search]
            exact hA
          · right
            rw [hpos.cn, hpos.search]
            refine ⟨by simp only [node.kind_mk, node.pfx_mk]; rw [hs1e, hd1], ?_, ?_⟩
            · simp only [node.handlers_mk]
              by_contra hne
              exact hex ⟨hd1, hne⟩
            · unfold slashChildServes
              rw [ht2.1, hfc]
              exact hserve
        | cons c0 rest0 =>
          rw [hs1c] at hkm1 hd1
          have hkm3 := hkm1
          rw [hKr] at hkm1
          obtain ⟨t2, ht2, _⟩ := (keyMatch_static hl1 hl2).mp hkm1
          simp only [List.cons_append, List.cons.injEq] at ht2
          have hfc0 : findChild (.mk k lab pre cs pp pn hs pc ac lf) c0 = some x := by
            rw [ht2.1]; exact hfc
          have hfx := hstatic c0 rest0 x hd1 hfc0
          apply fires_of_child hpos hAn hi1n hex hd1 hfc0
          intro S1 hpos1
          refine ihc x hx d S1 _ i1 (hinv.child hx) (by rw [hkx]; decide) hpos1 hfx K3 m vs
            (by rw [← hK3]; exact hatx) hm ?_ ?_
          · rw [if_pos hkx, ← hK3, hd1]
            exact hkm3
          · rw [if_pos hkx, ← hK3]
            exact hcv1
      · -- the param child
        simp only [node.paramChild_mk] at hx
        have hshape := hinv.param_shape hx
        rw [hKr] at hkm1 hcv1
        obtain ⟨_, vs1, hkm2, hvs⟩ := keyMatch_colon.mp hkm1
        have hK3r : rest = K3 := by
          rw [hK3, hshape.2] at hKr
          simpa using hKr.symm
        subst hvs
        simp only [capturesOk, if_true, Bool.and_eq_true, Bool.not_eq_true',
          List.isEmpty_eq_false] at hcv1
        rw [takeWhile_snoc_slash] at hcv1
        have hne1 : path.drop i1 ≠ [] := by
          rw [hd1]
          intro h0
          rw [h0] at hcv1
          exact hcv1.1 rfl
        obtain ⟨hc, hfx⟩ := hparam x hx hne1
        apply fires_of_param hinv hpos hAn hi1n hex hstatic
        intro S1 hpos1
        apply fires_of_capture hpos1 hx hne1 hc
        intro S2 hpos2
        refine ihp x hx (d + 1) S2 _ _ (hinv.param hx) (by rw [hshape.1]; decide) hpos2 ?_
          K3 m vs1 (by rw [← hK3]; exact hatx) hm ?_ ?_
        · rw [drop_add]
          exact hfx
        · rw [if_neg (by rw [hshape.1]; decide), ← hK3r, drop_add, drop_takeWhile_length, hd1,
            ← dropWhile_snoc_slash]
          exact hkm2
        · rw [if_neg (by rw [hshape.1]; decide), ← hK3r]
          exact hcv1.2
      · -- the catch-all child
        simp only [node.anyChild_mk] at hx
        rw [hany] at hx
        cases hx

end route


namespace route

/-! ### Completeness of the redirect hint -/

/-- The captures of an instance with non-empty parameter values are not empty. -/
theorem capturesOk_of_valuesOk : ∀ (n : Nat) (p : Str) (vs : List Str), p.length ≤ n →
    valuesOk true (parseSegs none p) vs = true →
    capturesOk (segsKey (parseSegs none p)) vs = true := by
  intro n
  induction n with
  | zero =>
    intro p vs hp _
    have : p = [] := List.length_eq_zero.mp (by omega)
    subst this
    rfl
  | succ n ih =>
    intro p vs hp hv
    cases p with
    | nil => rfl
    | cons c p1 =>
      simp only [List.length_cons] at hp
      by_cases hc1 : c = ':'
      · subst hc1
        rw [parseSegs_colon, parseSegs_name] at hv ⊢
        cases hdw : p1.dropWhile (fun a => a != '/') with
        | nil =>
          rw [hdw] at hv
          simp only [] at hv ⊢
          cases vs with
          | nil => simp [segsKey, Seg.key, capturesOk]
          | cons v vs1 =>
            simp only [valuesOk, Bool.not_true, Bool.false_or, Bool.and_eq_true] at hv
            simp [segsKey, Seg.key, capturesOk, hv.1.1]
        | cons x p2 =>
          have hx : x = '/' := dropWhile_head_slash hdw
          subst hx
          have hlen : p2.length ≤ n := by
            have := length_dropWhile_le (fun a => a != '/') p1
            rw [hdw] at this
            simp only [List.length_cons] at this
            omega
          rw [hdw] at hv
          simp only [] at hv ⊢
          have h1 : ('/' : Char) ≠ ':' := by decide
          have h2 : ('/' : Char) ≠ '*' := by decide
          cases vs with
          | nil => simp [segsKey, Seg.key, capturesOk]
          | cons v vs1 =>
            simp only [valuesOk, Bool.not_true, Bool.false_or, Bool.and_eq_true] at hv
            have := ih p2 vs1 hlen hv.2
            simp [segsKey, Seg.key, capturesOk, hv.1.1, h1, h2, this]
      · by_cases hc2 : c = '*'
        · subst hc2
          rw [parseSegs_star]
          have h1 : ('*' : Char) ≠ ':' := by decide
          simp [segsKey, Seg.key, capturesOk, h1]
        · rw [parseSegs_plain p1 hc1 hc2] at hv ⊢
          simp only [valuesOk] at hv
          have := ih p1 vs (by omega) hv
          simp [segsKey, Seg.key, capturesOk, hc1, hc2, this]

theorem capturesOk_of_isInstance {p path : Str} {vs : List Str}
    (h : IsInstance true p vs path) : capturesOk (collapse p) vs = true :=
  capturesOk_of_valuesOk p.length p vs (le_refl _) h.2

/-- On a tree built by registrations, when `find`, started with a buffer of length zero,
returns no handlers on a path and the path with a `/` appended, or with its trailing `/`
removed, is an instance of a registered pattern with parameter values that are not empty,
the redirect hint is set. -/
theorem hint_complete_len (unescaped : Str → Option Str) {r : node}
    {rs : List (Str × List HandlerFunc)} (hb : Built r rs) (path : Str) (ps0 : Params)
    (hlen : ps0.len = 0) {nv : nodeValue} {ps : Params}
    (hfind : find unescaped r path ps0 false = .ok (nv, ps)) (hnone : nv.handlers = none)
    {p : Str} {h : List HandlerFunc} {vs : List Str} (hp : (p, h) ∈ rs)
    (hinst : IsInstance true p vs (path ++ ['/']) ∨
      ∃ q, path = q ++ ['/'] ∧ IsInstance true p vs q) :
    nv.tsr = true := by
  obtain ⟨N, hN⟩ := exists_wildcard_bound rs
  obtain ⟨hg, _, hmem, _, _⟩ := hb.holds N hN
  obtain ⟨m, hat, hm, _⟩ := hmem (p, h) hp
  simp only [] at hat
  have hms : m.handlers.isSome = true := by rw [hm]; rfl
  rcases hg with h0 | ⟨hinv, hk, _⟩
  · subst h0
    have := (at_emptyRoot hat).2
    subst this
    simp [emptyRoot] at hm
  · have hfail : explore ps0.arr.length r 0 path = .fail := by
      rcases find_built_len unescaped hb path ps0 hlen with ⟨e1, _⟩ | ⟨_, g1⟩ |
        ⟨K1, vs1, m1, x1, t1, a1, _, _, _, _, _, _, _, g1, _⟩
      · exact e1
      · rw [g1] at hfind
        cases hfind
      · rw [g1] at hfind
        simp only [Except.ok.injEq, Prod.mk.injEq] at hfind
        rw [← hfind.1] at hnone
        cases hnone
    have hpos : Pos path ps0.arr.length (⟨r, [], path, 0, 0, ps0, false⟩ : Cursor) r [] 0 0 :=
      ⟨rfl, rfl, rfl, rfl, Nat.zero_le _, rfl, hlen, rfl, Nat.zero_le _⟩
    obtain ⟨K1, hK1⟩ := hat.prefix_key
    rw [hK1] at hat
    have hfires : Fires unescaped path .top (⟨r, [], path, 0, 0, ps0, false⟩ : Cursor) := by
      rcases hinst with hi | ⟨q, hq, hi⟩
      · have hkm := keyMatch_of_isInstance hi
        have hcv := capturesOk_of_isInstance hi
        rw [hK1] at hkm hcv
        exact fires_append unescaped path ps0.arr.length N r 0 _ [] 0 hinv
          (by rw [hk]; decide) hpos hfail K1 m vs hat hms
          (by rw [if_pos hk]; exact hkm) (by rw [if_pos hk]; exact hcv)
      · have hkm := keyMatch_of_isInstance hi
        rw [hK1] at hkm
        exact fires_strip unescaped path ps0.arr.length N r 0 _ [] 0 hinv
          (by rw [hk]; decide) hpos hfail K1 m vs q hat hms hq
          (by rw [if_pos hk]; exact hkm)
    exact hfires _ nv ps hfind

end route


namespace route

/-! ## The keys of a tree -/

theorem lcp_nil_left (u : Str) : lcp [] u = 0 := by
  cases u <;> rfl

theorem lcp_self_append (p u : Str) : lcp p (p ++ u) = p.length := by
  have h := lcp_append_left p [] u
  rw [List.append_nil, lcp_nil_left] at h
  exact h

theorem slot_inv_exists {N d : Nat} {n c : node} (hinv : Inv N d n)
    (hslot : c ∈ n.children ∨ n.paramChild = some c ∨ n.anyChild = some c) :
    ∃ d1, Inv N d1 c := by
  rcases hslot with hs | hs | hs
  · exact ⟨d, hinv.child hs⟩
  · exact ⟨d + 1, hinv.param hs⟩
  · exact ⟨d + 1, hinv.any hs⟩

/-- Two children of a node are the same child, or their keys start with different
bytes. -/
theorem slot_pair {N d : Nat} {n x y m1 m2 : node} {K1 K2 : Str} (hinv : Inv N d n)
    (h1 : At x K1 m1) (hx : x ∈ n.children ∨ n.paramChild = some x ∨ n.anyChild = some x)
    (h2 : At y K2 m2) (hy : y ∈ n.children ∨ n.paramChild = some y ∨ n.anyChild = some y) :
    x = y ∨ lcp K1 K2 = 0 := by
  rcases slot_head hinv h1 hx with ⟨hxc, r1, hK1, hx1, hx2⟩ | ⟨hxp, r1, hK1⟩ | ⟨hxa, hK1⟩ <;>
  rcases slot_head hinv h2 hy with ⟨hyc, r2, hK2, hy1, hy2⟩ | ⟨hyp, r2, hK2⟩ | ⟨hya, hK2⟩
  · by_cases hl : x.label = y.label
    · exact Or.inl (label_inj hinv hxc hyc hl)
    · right; rw [hK1, hK2]; exact lcp_cons_ne hl _ _
  · right; rw [hK1, hK2]; exact lcp_cons_ne hx1 _ _
  · right; rw [hK1, hK2]; exact lcp_cons_ne hx2 _ _
  · right; rw [hK1, hK2]; exact lcp_cons_ne (Ne.symm hy1) _ _
  · left; rw [hxp] at hyp; exact Option.some.inj hyp
  · right; rw [hK1, hK2]; exact lcp_cons_ne (by decide) _ _
  · right; rw [hK1, hK2]; exact lcp_cons_ne (Ne.symm hy2) _ _
  · right; rw [hK1, hK2]; exact lcp_cons_ne (by decide) _ _
  · left; rw [hxa] at hya; exact Option.some.inj hya

theorem keys_closed_step {N d : Nat} {n c m m2 : node} {K1 K2 : Str} (hinv : Inv N d n)
    (hslot : c ∈ n.children ∨ n.paramChild = some c ∨ n.anyChild = some c)
    (hat1 : At c K1 m) (hemb : ∀ K3 m3, At c K3 m3 → At n (n.pfx ++ K3) m3)
    (ih : ∀ K3 m3, At c K3 m3 → ∃ m4, At c (K1.take (lcp K1 K3)) m4)
    (h2 : At n K2 m2) : ∃ m3, At n ((n.pfx ++ K1).take (lcp (n.pfx ++ K1) K2)) m3 := by
  rcases h2.cases_on_key with ⟨hK, _⟩ | ⟨y, K3, hK, hy, hsl⟩
  · rw [hK, lcp_append_self, List.take_left]
    exact ⟨n, At.here n⟩
  · rw [hK, take_lcp_append]
    rcases slot_pair hinv hat1 hslot hy hsl with hxy | h0
    · subst hxy
      obtain ⟨m4, h4⟩ := ih K3 _ hy
      exact ⟨m4, hemb _ _ h4⟩
    · rw [h0, List.take_zero, List.append_nil]
      exact ⟨n, At.here n⟩

/-- The keys of a tree hold the common start of any two of them. -/
theorem keys_closed {n m : node} {K : Str} (hat : At n K m) :
    ∀ (N d : Nat) (K2 : Str) (m2 : node), Inv N d n → At n K2 m2 →
      ∃ m3, At n (K.take (lcp K K2)) m3 := by
  induction hat with
  | here n =>
    intro N d K2 m2 _ h2
    obtain ⟨u, hu⟩ := h2.prefix_key
    rw [hu, lcp_self_append, List.take_length]
    exact ⟨n, At.here n⟩
  | @child n c m K1 hc hat1 ih =>
    intro N d K2 m2 hinv h2
    exact keys_closed_step hinv (Or.inl hc) hat1 (fun K3 m3 h3 => At.child hc h3)
      (fun K3 m3 h3 => ih N d K3 m3 (hinv.child hc) h3) h2
  | @param n c m K1 hc hat1 ih =>
    intro N d K2 m2 hinv h2
    exact keys_closed_step hinv (Or.inr (Or.inl hc)) hat1 (fun K3 m3 h3 => At.param hc h3)
      (fun K3 m3 h3 => ih N (d + 1) K3 m3 (hinv.param hc) h3) h2
  | @any n c m K1 hc hat1 ih =>
    intro N d K2 m2 hinv h2
    exact keys_closed_step hinv (Or.inr (Or.inr hc)) hat1 (fun K3 m3 h3 => At.any hc h3)
      (fun K3 m3 h3 => ih N (d + 1) K3 m3 (hinv.any hc) h3) h2

theorem keyClosed_keys {N d : Nat} {n : node} (hinv : Inv N d n) :
    KeyClosed (fun K => ∃ m, At n K m) := by
  rintro a b ⟨m1, h1⟩ ⟨m2, h2⟩
  exact keys_closed h1 N d b m2 hinv h2

theorem unique_step {N d : Nat} {n c m m2 : node} {K1 : Str} (hinv : Inv N d n)
    (hslot : c ∈ n.children ∨ n.paramChild = some c ∨ n.anyChild = some c)
    (hat1 : At c K1 m) (ih : ∀ m3, At c K1 m3 → m3 = m)
    (h2 : At n (n.pfx ++ K1) m2) : m2 = m := by
  obtain ⟨d1, hci⟩ := slot_inv_exists hinv hslot
  cases K1 with
  | nil => exact absurd rfl (At.key_ne_nil hci hat1)
  | cons c0 rest =>
    have hf := slot_of_key hinv hat1 rfl hslot
    exact ih m2 ((at_via_slot hinv hf m2).mp h2)

/-- A key leads to one node. -/
theorem At.unique {n m : node} {K : Str} (hat : At n K m) :
    ∀ (N d : Nat) (m2 : node), Inv N d n → At n K m2 → m2 = m := by
  induction hat with
  | here n =>
    intro N d m2 hinv h2
    exact key_eq_pfx_unique hinv h2
  | @child n c m K1 hc hat1 ih =>
    intro N d m2 hinv h2
    exact unique_step hinv (Or.inl hc) hat1 (fun m3 h3 => ih N d m3 (hinv.child hc) h3) h2
  | @param n c m K1 hc hat1 ih =>
    intro N d m2 hinv h2
    exact unique_step hinv (Or.inr (Or.inl hc)) hat1
      (fun m3 h3 => ih N (d + 1) m3 (hinv.param hc) h3) h2
  | @any n c m K1 hc hat1 ih =>
    intro N d m2 hinv h2
    exact unique_step hinv (Or.inr (Or.inr hc)) hat1
      (fun m3 h3 => ih N (d + 1) m3 (hinv.any hc) h3) h2

/-! ## Twins -/

theorem Twin.symm {n n1 : node} (h : Twin n n1) : Twin n1 n := by
  obtain ⟨⟨N, d, hi, hi1⟩, hk, h12, h21⟩ := h
  exact ⟨⟨N, d, hi1, hi⟩, hk.symm, h21, h12⟩

theorem Twin.pfx {n n1 : node} (h : Twin n n1) : n1.pfx = n.pfx := by
  obtain ⟨⟨N, d, hi, hi1⟩, hk, h12, h21⟩ := h
  obtain ⟨m1, hat1, _⟩ := h12 _ _ (At.here n)
  obtain ⟨m, hat, _⟩ := h21 _ _ (At.here n1)
  obtain ⟨u, hu⟩ := hat1.prefix_key
  obtain ⟨v, hv⟩ := hat.prefix_key
  have hl1 := congrArg List.length hu
  have hl2 := congrArg List.length hv
  rw [List.length_append] at hl1 hl2
  have hv0 : v = [] := List.length_eq_zero.mp (by omega)
  rw [hv0, List.append_nil] at hv
  exact hv

theorem Twin.handlers {n n1 : node} (h : Twin n n1) : n1.handlers = n.handlers := by
  have hp := h.pfx
  obtain ⟨⟨N, d, hi, hi1⟩, hk, h12, h21⟩ := h
  obtain ⟨m1, hat1, hh, _⟩ := h12 _ _ (At.here n)
  rw [← hp] at hat1
  rw [← key_eq_pfx_unique hi1 hat1]
  exact hh

theorem Twin.pnames {n n1 : node} (h : Twin n n1) (hs : n.handlers.isSome) :
    n1.pnames = n.pnames := by
  have hp := h.pfx
  obtain ⟨⟨N, d, hi, hi1⟩, hk, h12, h21⟩ := h
  obtain ⟨m1, hat1, _, hh⟩ := h12 _ _ (At.here n)
  rw [← hp] at hat1
  rw [← key_eq_pfx_unique hi1 hat1]
  exact hh hs

/-- What `findChildWithLabel` returns: its depth, its kind and the start of its prefix. -/
theorem slot_shape {N d : Nat} {n c : node} {c0 : Char} (hinv : Inv N d n)
    (hf : findChildWithLabel n c0 = some c) :
    Inv N (if c0 = ':' ∨ c0 = '*' then d + 1 else d) c ∧
      c.kind = (if c0 = ':' then .pkind else if c0 = '*' then .akind else .skind) ∧
      ∃ r, c.pfx = c0 :: r := by
  rcases findChildWithLabel_cases hf with h1 | ⟨_, h0, h1⟩ | ⟨_, h0, h1⟩
  · have hc := find?_label_eq_some h1
    have hnw := hinv.child_label_noWild hc.1
    rw [hc.2] at hnw
    have hh := (hinv.child hc.1).head
    rw [hc.2] at hh
    refine ⟨?_, ?_, ?_⟩
    · rw [if_neg (by rintro (h | h); exact hnw.1 h; exact hnw.2 h)]
      exact hinv.child hc.1
    · rw [if_neg hnw.1, if_neg hnw.2]
      exact hinv.child_kind hc.1
    · cases hp : c.pfx with
      | nil => rw [hp] at hh; cases hh
      | cons a as =>
        rw [hp] at hh
        simp only [List.head?_cons, Option.some.injEq] at hh
        exact ⟨as, by rw [hh]⟩
  · subst h0
    refine ⟨?_, ?_, ?_⟩
    · rw [if_pos (Or.inl rfl)]
      exact hinv.param h1
    · rw [if_pos rfl]
      exact (hinv.param_shape h1).1
    · exact ⟨[], (hinv.param_shape h1).2⟩
  · subst h0
    refine ⟨?_, ?_, ?_⟩
    · rw [if_pos (Or.inr rfl)]
      exact hinv.any h1
    · rw [if_neg (by decide), if_pos rfl]
      exact (hinv.any_shape h1).1
    · exact ⟨[], (hinv.any_shape h1).2.1⟩

theorem sameKeys_slot {N d d1 : Nat} {n n1 c c1 : node} {c0 : Char} (hi : Inv N d n)
    (hi1 : Inv N d1 n1) (hp : n1.pfx = n.pfx) (h12 : SameKeys n n1)
    (hf : findChildWithLabel n c0 = some c) (hf1 : findChildWithLabel n1 c0 = some c1)
    (hci : ∃ d2, Inv N d2 c) :
    SameKeys c c1 := by
  intro K m hat
  obtain ⟨d2, hci⟩ := hci
  obtain ⟨r, hr⟩ := (slot_shape hi hf).2.2
  obtain ⟨u, hu⟩ := hat.prefix_key
  have hK : K = c0 :: (r ++ u) := by rw [hu, hr]; rfl
  subst hK
  obtain ⟨m1, hat1, hh⟩ := h12 _ _ ((at_via_slot hi hf m).mpr hat)
  rw [← hp] at hat1
  exact ⟨m1, (at_via_slot hi1 hf1 m1).mp hat1, hh⟩

/-- The children that twins hold under a label are twins. -/
theorem Twin.slot {n n1 c : node} {c0 : Char} (h : Twin n n1)
    (hf : findChildWithLabel n c0 = some c) :
    ∃ c1, findChildWithLabel n1 c0 = some c1 ∧ Twin c c1 := by
  have hp := h.pfx
  obtain ⟨⟨N, d, hi, hi1⟩, hk, h12, h21⟩ := h
  obtain ⟨hci, hck, r, hr⟩ := slot_shape hi hf
  have hat : At n (n.pfx ++ c0 :: r) c := (at_via_slot hi hf c).mpr (by rw [← hr]; exact At.here c)
  obtain ⟨m1, hat1, _⟩ := h12 _ _ hat
  rw [← hp] at hat1
  cases hf1 : findChildWithLabel n1 c0 with
  | none => exact absurd ⟨m1, hat1⟩ (no_key_of_slot_none hi1 hf1)
  | some c1 =>
    obtain ⟨hci1, hck1, _⟩ := slot_shape hi1 hf1
    exact ⟨c1, rfl, ⟨N, _, hci, hci1⟩, hck1.trans hck.symm,
      sameKeys_slot hi hi1 hp h12 hf hf1 ⟨_, hci⟩,
      sameKeys_slot hi1 hi hp.symm h21 hf1 hf ⟨_, hci1⟩⟩

theorem findChildWithLabel_of_find? {n c : node} {c0 : Char}
    (h : n.children.find? (fun x => x.label == c0) = some c) :
    findChildWithLabel n c0 = some c := by
  simp [findChildWithLabel, h]

theorem findChild_of_slot {n c : node} {c0 : Char}
    (hf : findChildWithLabel n c0 = some c) (h1 : c0 ≠ ':') (h2 : c0 ≠ '*') :
    findChild n c0 = some c := by
  rcases findChildWithLabel_cases hf with h | ⟨_, h0, _⟩ | ⟨_, h0, _⟩
  · exact h
  · exact absurd h0 h1
  · exact absurd h0 h2

theorem Twin.static_some {n n1 x : node} {c0 : Char} (h : Twin n n1)
    (hx : findChild n c0 = some x) :
    ∃ x1, findChild n1 c0 = some x1 ∧ Twin x x1 ∧ x.kind = .skind := by
  obtain ⟨x1, hf1, ht⟩ := h.slot (findChildWithLabel_of_find? hx)
  obtain ⟨⟨N, d, hi, hi1⟩, _⟩ := h
  have hc := find?_label_eq_some hx
  have hnw := hi.child_label_noWild hc.1
  rw [hc.2] at hnw
  exact ⟨x1, findChild_of_slot hf1 hnw.1 hnw.2, ht, hi.child_kind hc.1⟩

/-- Twins hold twins as static children under a label, or none. -/
theorem Twin.staticTwin {n n1 : node} (h : Twin n n1) (c0 : Char) :
    (findChild n c0 = none ∧ findChild n1 c0 = none) ∨
      ∃ x x1, findChild n c0 = some x ∧ findChild n1 c0 = some x1 ∧ Twin x x1 ∧
        x.kind = .skind := by
  cases hx : findChild n c0 with
  | some x =>
    obtain ⟨x1, h1, ht, hk⟩ := h.static_some hx
    exact Or.inr ⟨x, x1, rfl, h1, ht, hk⟩
  | none =>
    cases hx1 : findChild n1 c0 with
    | none => exact Or.inl ⟨rfl, rfl⟩
    | some x1 =>
      obtain ⟨x, h1, _⟩ := h.symm.static_some hx1
      rw [hx] at h1
      cases h1

theorem slot_of_param {N d : Nat} {n c : node} (hinv : Inv N d n)
    (hc : n.paramChild = some c) : findChildWithLabel n ':' = some c := by
  have := @find?_wild_none _ _ _ hinv ':' (Or.inl rfl)
  simp [findChildWithLabel, this, hc]

theorem slot_of_any {N d : Nat} {n c : node} (hinv : Inv N d n)
    (hc : n.anyChild = some c) : findChildWithLabel n '*' = some c := by
  have := @find?_wild_none _ _ _ hinv '*' (Or.inr rfl)
  have hne : ('*' : Char) ≠ ':' := by decide
  simp [findChildWithLabel, this, hc, hne]

theorem Twin.param_some {n n1 x : node} (h : Twin n n1) (hx : n.paramChild = some x) :
    ∃ x1, n1.paramChild = some x1 ∧ Twin x x1 ∧ x.kind = .pkind := by
  have hi := h.1
  obtain ⟨N, d, hi, hi1⟩ := hi
  obtain ⟨x1, hf1, ht⟩ := h.slot (slot_of_param hi hx)
  refine ⟨x1, ?_, ht, (hi.param_shape hx).1⟩
  rcases findChildWithLabel_cases hf1 with h0 | ⟨_, _, h0⟩ | ⟨_, h0, _⟩
  · rw [find?_wild_none hi1 (Or.inl rfl)] at h0
    cases h0
  · exact h0
  · exact absurd h0 (by decide)

/-- Twins hold twins as parameter children, or none. -/
theorem Twin.paramTwin {n n1 : node} (h : Twin n n1) :
    (n.paramChild = none ∧ n1.paramChild = none) ∨
      ∃ x x1, n.paramChild = some x ∧ n1.paramChild = some x1 ∧ Twin x x1 ∧
        x.kind = .pkind := by
  cases hx : n.paramChild with
  | some x =>
    obtain ⟨x1, h1, ht, hk⟩ := h.param_some hx
    exact Or.inr ⟨x, x1, rfl, h1, ht, hk⟩
  | none =>
    cases hx1 : n1.paramChild with
    | none => exact Or.inl ⟨rfl, rfl⟩
    | some x1 =>
      obtain ⟨x, h1, _⟩ := h.symm.param_some hx1
      rw [hx] at h1
      cases h1

theorem Twin.any_some {n n1 x : node} (h : Twin n n1) (hx : n.anyChild = some x) :
    ∃ x1, n1.anyChild = some x1 ∧ Twin x x1 ∧ x.handlers.isSome := by
  have hi := h.1
  obtain ⟨N, d, hi, hi1⟩ := hi
  obtain ⟨x1, hf1, ht⟩ := h.slot (slot_of_any hi hx)
  refine ⟨x1, ?_, ht, (hi.any_shape hx).2.2.2.2.2⟩
  rcases findChildWithLabel_cases hf1 with h0 | ⟨_, h0, _⟩ | ⟨_, _, h0⟩
  · rw [find?_wild_none hi1 (Or.inr rfl)] at h0
    cases h0
  · exact absurd h0 (by decide)
  · exact h0

/-- Twins hold twins as catch-all children, or none. -/
theorem Twin.anyTwin {n n1 : node} (h : Twin n n1) :
    (n.anyChild = none ∧ n1.anyChild = none) ∨
      ∃ x x1, n.anyChild = some x ∧ n1.anyChild = some x1 ∧ Twin x x1 ∧
        x.handlers.isSome := by
  cases hx : n.anyChild with
  | some x =>
    obtain ⟨x1, h1, ht, hk⟩ := h.any_some hx
    exact Or.inr ⟨x, x1, rfl, h1, ht, hk⟩
  | none =>
    cases hx1 : n1.anyChild with
    | none => exact Or.inl ⟨rfl, rfl⟩
    | some x1 =>
      obtain ⟨x, h1, _⟩ := h.symm.any_some hx1
      rw [hx] at h1
      cases h1

theorem Twin.anyIsSome {n n1 : node} (h : Twin n n1) :
    n1.anyChild.isSome = n.anyChild.isSome := by
  rcases h.anyTwin with ⟨h1, h2⟩ | ⟨x, x1, h1, h2, _⟩ <;> rw [h1, h2] <;> rfl

theorem Twin.slash {n n1 : node} (h : Twin n n1) :
    slashChildServes n1 = slashChildServes n := by
  unfold slashChildServes
  rcases h.staticTwin '/' with ⟨h1, h2⟩ | ⟨x, x1, h1, h2, ht, _⟩
  · rw [h1, h2]
  · rw [h1, h2]
    simp only [ht.handlers, ht.anyIsSome]

end route


namespace route

/-! ## The lookup on two trees that hold the same keys -/

theorem finish_observed {n n1 : node} (hpn : n1.pnames = n.pnames) (h : HandlersChain)
    (t : Bool) (p : Params) :
    observed (finish (some n) h t p) = observed (finish (some n1) h t p) := by
  unfold finish
  simp only [hpn]
  cases assignKeys n.pnames 0 p <;> rfl

theorem Step.paired_done {r t : Except Panic (nodeValue × Params)}
    (h : observed r = observed t) : Step.Paired (.done r) (.done t) := h

/-- The closure `backtrackToNextNodeKind` reads the kind and the prefix of the cursor, and
takes the new cursor from the ancestors. -/
theorem backtrack_congr (path : Str) {S T : Cursor} (hk : T.cn.kind = S.cn.kind)
    (hp : T.cn.pfx = S.cn.pfx) (h3 : T.search = S.search)
    (h4 : T.searchIndex = S.searchIndex) (h5 : T.paramIndex = S.paramIndex)
    (h6 : T.params = S.params) (fk : kind) :
    backtrackToNextNodeKind path T fk =
      match backtrackToNextNodeKind path S fk with
      | .ok b => .ok { b with cn := T.parents.head?, parents := T.parents.tail }
      | .error e => .error e := by
  obtain ⟨cn, prs, search, si, pi, p, tsr⟩ := S
  obtain ⟨cn1, prs1, search1, si1, pi1, q, tsr1⟩ := T
  simp only at hk hp h3 h4 h5 h6
  subst h3 h4 h5 h6
  unfold backtrackToNextNodeKind
  simp only [hk, hp]
  by_cases hf : fk = .skind
  · rw [if_pos hf, if_pos hf]
  · rw [if_neg hf, if_neg hf]
    by_cases hs : cn.kind = .skind
    · rw [if_pos hs, if_pos hs]
      by_cases hc : cn.pfx.length ≤ si1 ∧ si1 - cn.pfx.length ≤ path.length
      · rw [if_pos hc, if_pos hc]
      · rw [if_neg hc, if_neg hc]
    · rw [if_neg hs, if_neg hs]
      by_cases h0 : 0 < pi1
      · rw [if_pos h0, if_pos h0]
        cases hv : q.value (pi1 - 1) with
        | error e => rfl
        | ok v =>
          simp only []
          by_cases hc : v.length ≤ si1 ∧ si1 - v.length ≤ path.length
          · rw [if_pos hc, if_pos hc]
            cases hr : q.reslice (pi1 - 1) with
            | error e => rfl
            | ok p2 => rfl
          · rw [if_neg hc, if_neg hc]
      · rw [if_neg h0, if_neg h0]

theorem backtrack_cn {path : Str} {S : Cursor} {fk : kind} {b : Back}
    (h : backtrackToNextNodeKind path S fk = .ok b) :
    b.cn = S.parents.head? ∧ b.parents = S.parents.tail ∧
      b.nextNodeKind = (if S.cn.kind = .akind then kind.skind else S.cn.kind.succ) := by
  unfold backtrackToNextNodeKind at h
  simp only [] at h
  by_cases hf : fk = .skind
  · rw [if_pos hf] at h
    simp only [Except.ok.injEq] at h
    subst h
    exact ⟨rfl, rfl, rfl⟩
  · rw [if_neg hf] at h
    by_cases hs : S.cn.kind = .skind
    · rw [if_pos hs] at h
      by_cases hc : S.cn.pfx.length ≤ S.searchIndex ∧
          S.searchIndex - S.cn.pfx.length ≤ path.length
      · rw [if_pos hc] at h
        simp only [Except.ok.injEq] at h
        subst h
        exact ⟨rfl, rfl, rfl⟩
      · rw [if_neg hc] at h
        cases h
    · rw [if_neg hs] at h
      by_cases h0 : 0 < S.paramIndex
      · rw [if_pos h0] at h
        cases hv : S.params.value (S.paramIndex - 1) with
        | error e => rw [hv] at h; cases h
        | ok v =>
          rw [hv] at h
          simp only [] at h
          by_cases hc : v.length ≤ S.searchIndex ∧ S.searchIndex - v.length ≤ path.length
          · rw [if_pos hc] at h
            cases hr : S.params.reslice (S.paramIndex - 1) with
            | error e => rw [hr] at h; cases h
            | ok p2 =>
              rw [hr] at h
              simp only [Except.ok.injEq] at h
              subst h
              exact ⟨rfl, rfl, rfl⟩
          · rw [if_neg hc] at h
            cases h
      · rw [if_neg h0] at h
        cases h

theorem stepTop_paired (path : Str) {S T : Cursor} (hb : Cursor.Paired S T) :
    Step.Paired (stepTop path S) (stepTop path T) := by
  obtain ⟨cn, prs, search, si, pi, p, tsr⟩ := S
  obtain ⟨cn1, prs1, search1, si1, pi1, q, tsr1⟩ := T
  obtain ⟨hcn, hkind, hprs, h3, h4, h5, h6, h7⟩ := hb
  simp only at hcn hkind hprs h3 h4 h5 h6 h7
  subst h3 h4 h5 h6 h7
  have hk1 : cn1.kind = cn.kind := hcn.2.1
  have hp1 := hcn.pfx
  have hh1 := hcn.handlers
  have ha1 := hcn.anyIsSome
  unfold stepTop
  simp only [hk1, hp1, hh1, ha1]
  by_cases hA : cn.kind = .skind ∧
      ¬ (cn.pfx.length ≤ search1.length ∧ cn.pfx = search1.take cn.pfx.length)
  · rw [if_pos hA, if_pos hA]
    simp only [backtrackToNextNodeKind, if_true, hk1, hA.1]
    cases hprs with
    | nil =>
      simp only [List.head?_nil]
      exact Step.paired_done rfl
    | @cons a b as bs hab habs =>
      simp only [List.head?_cons, List.tail_cons]
      have hn : (if kind.skind = kind.akind then kind.skind else kind.skind.succ) = .pkind := rfl
      rw [if_pos hn, if_pos hn]
      exact ⟨rfl, ⟨hab.1, hab.2, habs, rfl, rfl, rfl, rfl, rfl⟩⟩
  · rw [if_neg hA, if_neg hA]
    by_cases hex : (if cn.kind = .skind then search1.drop cn.pfx.length else search1) = [] ∧
        cn.handlers.getD [] ≠ []
    · rw [if_pos hex, if_pos hex]
      have hsome : cn.handlers.isSome := by
        cases hh : cn.handlers with
        | none => rw [hh] at hex; exact absurd rfl hex.2
        | some x => rfl
      exact Step.paired_done (finish_observed (hcn.pnames hsome) _ _ _)
    · rw [if_neg hex, if_neg hex]
      cases hs : (if cn.kind = .skind then search1.drop cn.pfx.length else search1) with
      | nil =>
        simp only [hcn.slash]
        exact ⟨rfl, ⟨hcn, hkind, hprs, rfl, rfl, rfl, rfl, rfl⟩⟩
      | cons c0 rest =>
        simp only []
        rcases hcn.staticTwin c0 with ⟨hf, hf1⟩ | ⟨x, x1, hf, hf1, ht, hxk⟩
        · rw [hf, hf1]
          exact ⟨rfl, ⟨hcn, hkind, hprs, rfl, rfl, rfl, rfl, rfl⟩⟩
        · rw [hf, hf1]
          refine ⟨rfl, ⟨ht, ?_, List.Forall₂.cons ⟨hcn, hkind⟩ hprs, rfl, rfl, rfl, rfl, rfl⟩⟩
          show x.kind ≠ .akind
          rw [hxk]
          decide

theorem stepParam_paired (unescaped : Str → Option Str) (unescape : Bool) {S T : Cursor}
    (hb : Cursor.Paired S T) :
    Step.Paired (stepParam unescaped unescape S) (stepParam unescaped unescape T) := by
  obtain ⟨cn, prs, search, si, pi, p, tsr⟩ := S
  obtain ⟨cn1, prs1, search1, si1, pi1, q, tsr1⟩ := T
  have hb0 := hb
  obtain ⟨hcn, hkind, hprs, h3, h4, h5, h6, h7⟩ := hb
  simp only at hcn hkind hprs h3 h4 h5 h6 h7
  subst h3 h4 h5 h6 h7
  unfold stepParam
  simp only []
  rcases hcn.paramTwin with ⟨hf, hf1⟩ | ⟨x, x1, hf, hf1, ht, hxk⟩
  · rw [hf, hf1]
    exact ⟨rfl, hb0⟩
  · rw [hf, hf1]
    simp only []
    by_cases hs : search1 ≠ []
    · rw [if_pos hs, if_pos hs]
      cases hr : q.reslice (pi1 + 1) with
      | error e => exact Step.paired_done rfl
      | ok p2 =>
        simp only []
        generalize (if unescape = true then
            (unescaped (List.take (List.takeWhile (fun c => c != '/') search1).length
              search1)).getD
              (List.take (List.takeWhile (fun c => c != '/') search1).length search1)
          else List.take (List.takeWhile (fun c => c != '/') search1).length search1) = val
        cases hv : p2.setValue pi1 val with
        | error e => exact Step.paired_done rfl
        | ok p3 =>
          simp only [ht.slash]
          refine ⟨rfl, ⟨ht, ?_, List.Forall₂.cons ⟨hcn, hkind⟩ hprs, rfl, rfl, rfl, rfl, rfl⟩⟩
          show x.kind ≠ .akind
          rw [hxk]
          decide
    · rw [if_neg hs, if_neg hs]
      exact ⟨rfl, hb0⟩

theorem stepAny_paired (unescaped : Str → Option Str) (unescape : Bool) (path : Str)
    {S T : Cursor} (hb : Cursor.Paired S T) :
    Step.Paired (stepAny unescaped unescape path S) (stepAny unescaped unescape path T) := by
  have hcong := @backtrack_congr path S T hb.cn.2.1 hb.cn.pfx hb.search hb.searchIndex
    hb.paramIndex hb.params .akind
  have hbcn := fun b h => @backtrack_cn path S .akind b h
  obtain ⟨cn, prs, search, si, pi, p, tsr⟩ := S
  obtain ⟨cn1, prs1, search1, si1, pi1, q, tsr1⟩ := T
  obtain ⟨hcn, hkind, hprs, h3, h4, h5, h6, h7⟩ := hb
  simp only at hcn hkind hprs h3 h4 h5 h6 h7
  subst h3 h4 h5 h6 h7
  unfold stepAny
  simp only []
  rcases hcn.anyTwin with ⟨hf, hf1⟩ | ⟨x, x1, hf, hf1, ht, hxs⟩
  · rw [hf, hf1]
    simp only []
    rw [hcong]
    cases hbk : backtrackToNextNodeKind path
        { cn := cn, parents := prs, search := search1, searchIndex := si1,
          paramIndex := pi1, params := q, tsr := tsr1 } .akind with
    | error e => exact Step.paired_done rfl
    | ok b =>
      obtain ⟨hb1, hb2, hb3⟩ := hbcn b hbk
      simp only [] at hb1 hb2 hb3 ⊢
      rw [hb1]
      cases hprs with
      | nil => exact Step.paired_done rfl
      | @cons a a1 as bs hab habs =>
        simp only [List.head?_cons, List.tail_cons]
        simp only [List.tail_cons] at hb2
        by_cases hn1 : b.nextNodeKind = .pkind
        · rw [if_pos hn1, if_pos hn1]
          exact ⟨rfl, ⟨hab.1, hab.2, by rw [hb2]; exact habs, rfl, rfl, rfl, rfl, rfl⟩⟩
        · rw [if_neg hn1, if_neg hn1]
          by_cases hn2 : b.nextNodeKind = .akind
          · rw [if_pos hn2, if_pos hn2]
            exact ⟨rfl, ⟨hab.1, hab.2, by rw [hb2]; exact habs, rfl, rfl, rfl, rfl, rfl⟩⟩
          · exfalso
            rw [hb3, if_neg hkind] at hn1 hn2
            cases hk : cn.kind with
            | skind => rw [hk] at hn1; exact hn1 rfl
            | pkind => rw [hk] at hn2; exact hn2 rfl
            | akind => exact hkind hk
  · rw [hf, hf1]
    simp only [ht.pnames hxs, ht.handlers]
    cases hr : q.reslice (pi1 + 1) with
    | error e => exact Step.paired_done rfl
    | ok p2 =>
      simp only []
      by_cases hn : 0 < x.pnames.length
      · rw [if_pos hn, if_pos hn]
        generalize (if unescape = true then (unescaped search1).getD search1 else search1) = val
        cases hv : p2.setValue (x.pnames.length - 1) val with
        | error e => exact Step.paired_done rfl
        | ok p3 =>
          simp only []
          exact Step.paired_done (finish_observed (ht.pnames hxs) _ _ _)
      · rw [if_neg hn, if_neg hn]
        exact Step.paired_done rfl

theorem step_paired (unescaped : Str → Option Str) (unescape : Bool) (path : Str)
    (l : Label) {S T : Cursor} (hb : Cursor.Paired S T) :
    Step.Paired (step unescaped unescape path l S) (step unescaped unescape path l T) := by
  cases l with
  | top => exact stepTop_paired path hb
  | param => exact stepParam_paired unescaped unescape hb
  | any => exact stepAny_paired unescaped unescape path hb

/-- The runs of the loop of `find` from paired states end with the same observation. -/
theorem findLoop_paired {unescaped : Str → Option Str} {unescape : Bool} {path : Str} :
    ∀ (budget : Nat) (l : Label) {S T : Cursor}, Cursor.Paired S T →
      observed (findLoop unescaped unescape path budget l S) =
        observed (findLoop unescaped unescape path budget l T)
  | 0, _, _, _, _ => rfl
  | budget + 1, l, S, T, hb => by
    rw [findLoop, findLoop]
    have hs := step_paired unescaped unescape path l hb
    cases hst : step unescaped unescape path l S with
    | done r =>
      cases hst1 : step unescaped unescape path l T with
      | done t =>
        rw [hst, hst1] at hs
        exact hs
      | jump l1 T1 =>
        rw [hst, hst1] at hs
        exact hs.elim
    | jump l1 S1 =>
      cases hst1 : step unescaped unescape path l T with
      | done t =>
        rw [hst, hst1] at hs
        exact hs.elim
      | jump l2 T1 =>
        rw [hst, hst1] at hs
        obtain ⟨hl, hp⟩ := hs
        subst hl
        exact findLoop_paired budget l2 hp

end route


namespace route

/-! ## The budget of `find` is never used up on a built tree -/

theorem Params.reslice_panic {ps : Params} {n : Nat} {e : Panic}
    (h : ps.reslice n = .error e) : e = .outOfRange := by
  unfold Params.reslice at h
  split at h
  · cases h
  · cases h; rfl

theorem Params.value_panic {ps : Params} {n : Nat} {e : Panic}
    (h : ps.value n = .error e) : e = .outOfRange := by
  unfold Params.value at h
  split at h
  · split at h
    · cases h
    · cases h; rfl
  · cases h; rfl

theorem Params.setValue_panic {ps : Params} {n : Nat} {v : Str} {e : Panic}
    (h : ps.setValue n v = .error e) : e = .outOfRange := by
  unfold Params.setValue at h
  split at h
  · split at h
    · cases h
    · cases h; rfl
  · cases h; rfl

theorem Params.setKey_panic {ps : Params} {n : Nat} {v : Str} {e : Panic}
    (h : ps.setKey n v = .error e) : e = .outOfRange := by
  unfold Params.setKey at h
  split at h
  · split at h
    · cases h
    · cases h; rfl
  · cases h; rfl

theorem assignKeys_error : ∀ (names : List Str) (i : Nat) (ps : Params) {e : Panic},
    assignKeys names i ps = .error e → e = .outOfRange
  | [], _, _, _, h => by cases h
  | name :: names, i, ps, e, h => by
    rw [assignKeys] at h
    cases hk : ps.setKey i name with
    | error e1 =>
      rw [hk] at h
      cases h
      exact Params.setKey_panic hk
    | ok ps1 =>
      rw [hk] at h
      exact assignKeys_error names (i + 1) ps1 h

theorem finish_error {cn : Option node} {h : HandlersChain} {t : Bool} {ps : Params}
    {e : Panic} (he : finish cn h t ps = .error e) : e = .outOfRange := by
  unfold finish at he
  cases cn with
  | none => cases he
  | some n =>
    simp only [] at he
    cases hk : assignKeys n.pnames 0 ps with
    | error e1 =>
      rw [hk] at he
      cases he
      exact assignKeys_error _ _ _ hk
    | ok ps1 =>
      rw [hk] at he
      cases he

theorem backtrack_error {path : Str} {S : Cursor} {fk : kind} {e : Panic}
    (h : backtrackToNextNodeKind path S fk = .error e) : e = .outOfRange := by
  unfold backtrackToNextNodeKind at h
  simp only [] at h
  split at h
  · cases h
  · split at h
    · split at h
      · cases h
      · cases h; rfl
    · split at h
      · cases hv : S.params.value (S.paramIndex - 1) with
        | error e1 =>
          rw [hv] at h
          cases h
          exact Params.value_panic hv
        | ok v =>
          rw [hv] at h
          simp only [] at h
          split at h
          · cases hr : S.params.reslice (S.paramIndex - 1) with
            | error e1 =>
              rw [hr] at h
              cases h
              exact Params.reslice_panic hr
            | ok p2 =>
              rw [hr] at h
              cases h
          · cases h; rfl
      · cases h; rfl

/-- A step of `find` does not end with the budget panic of the model. -/
theorem step_error (unescaped : Str → Option Str) (unescape : Bool) (path : Str)
    (l : Label) (S : Cursor) {e : Panic}
    (h : step unescaped unescape path l S = .done (.error e)) : e = .outOfRange := by
  cases l with
  | top =>
    obtain ⟨cn, prs, search, si, pi, p, tsr⟩ := S
    simp only [step, stepTop] at h
    by_cases hA : cn.kind = .skind ∧
        ¬ (cn.pfx.length ≤ search.length ∧ cn.pfx = search.take cn.pfx.length)
    · rw [if_pos hA] at h
      cases hb : backtrackToNextNodeKind path
          { cn := cn, parents := prs, search := search, searchIndex := si,
            paramIndex := pi, params := p, tsr := tsr } .skind with
      | error e1 =>
        rw [hb] at h
        cases h
        exact backtrack_error hb
      | ok b =>
        rw [hb] at h
        simp only [] at h
        cases hc : b.cn with
        | none => rw [hc] at h; cases h
        | some c =>
          rw [hc] at h
          simp only [] at h
          by_cases hn : b.nextNodeKind = .pkind
          · rw [if_pos hn] at h; cases h
          · rw [if_neg hn] at h
            simp only [Step.done.injEq] at h
            exact finish_error h
    · rw [if_neg hA] at h
      by_cases hex : (if cn.kind = .skind then search.drop cn.pfx.length else search) = [] ∧
          cn.handlers.getD [] ≠ []
      · rw [if_pos hex] at h
        simp only [Step.done.injEq] at h
        exact finish_error h
      · rw [if_neg hex] at h
        cases hs : (if cn.kind = .skind then search.drop cn.pfx.length else search) with
        | nil => rw [hs] at h; cases h
        | cons c0 rest =>
          rw [hs] at h
          simp only [] at h
          cases hfc : findChild cn c0 with
          | none => rw [hfc] at h; cases h
          | some child => rw [hfc] at h; cases h
  | param =>
    simp only [step, stepParam] at h
    split at h
    · split at h
      · cases hr : S.params.reslice (S.paramIndex + 1) with
        | error e1 =>
          rw [hr] at h
          cases h
          exact Params.reslice_panic hr
        | ok ps =>
          rw [hr] at h
          simp only [] at h
          split at h
          · rename_i e1 hv
            cases h
            exact Params.setValue_panic hv
          · cases h
      · cases h
    · cases h
  | any =>
    simp only [step, stepAny] at h
    split at h
    · cases hr : S.params.reslice (S.paramIndex + 1) with
      | error e1 =>
        rw [hr] at h
        cases h
        exact Params.reslice_panic hr
      | ok ps =>
        rw [hr] at h
        simp only [] at h
        split at h
        · split at h
          · rename_i e1 hv
            cases h
            exact Params.setValue_panic hv
          · simp only [Step.done.injEq] at h
            exact finish_error h
        · cases h; rfl
    · cases hb : backtrackToNextNodeKind path S .akind with
      | error e1 =>
        rw [hb] at h
        cases h
        exact backtrack_error hb
      | ok b =>
        rw [hb] at h
        simp only [] at h
        split at h
        · simp only [Step.done.injEq] at h
          exact finish_error h
        · split at h
          · cases h
          · split at h
            · cases h
            · simp only [Step.done.injEq] at h
              exact finish_error h

/-- A run that uses up its budget uses it up with every roomier buffer. -/
theorem findLoop_below_budget {unescaped : Str → Option Str} {unescape : Bool} {path : Str} :
    ∀ (budget : Nat) (l : Label) {S T : Cursor}, Cursor.Below S T →
      findLoop unescaped unescape path budget l S = .error .outOfBudget →
      findLoop unescaped unescape path budget l T = .error .outOfBudget
  | 0, _, _, _, _, _ => rfl
  | budget + 1, l, S, T, hb, h => by
    rw [findLoop] at h ⊢
    have hs := step_below unescaped unescape path l hb
    cases hst : step unescaped unescape path l S with
    | done r =>
      rw [hst] at h
      simp only [] at h
      rw [h] at hst
      have := step_error unescaped unescape path l S hst
      cases this
    | jump l1 S1 =>
      rw [hst] at h hs
      obtain ⟨S2, hT, hb2⟩ := hs
      rw [hT]
      exact findLoop_below_budget budget l1 hb2 h

/-- On a tree built by registrations, `find` ends within its budget, whatever the buffer. -/
theorem find_within_budget (unescaped : Str → Option Str) {r : node}
    {rs : List (Str × List HandlerFunc)} (hb : Built r rs) (path : Str) (ps : Params) :
    find unescaped r path ps false ≠ .error .outOfBudget := by
  intro h
  obtain ⟨c, hc⟩ : ∃ c, ∀ x ∈ rs, (wildcardNames x.1).length ≤ c := by
    clear hb h
    induction rs with
    | nil => exact ⟨0, fun x hx => by cases hx⟩
    | cons y ys ih =>
      obtain ⟨c, hc⟩ := ih
      refine ⟨c + (wildcardNames y.1).length, ?_⟩
      intro x hx
      rcases List.mem_cons.mp hx with hx | hx
      · rw [hx]; omega
      · have := hc x hx
        omega
  let q : Params := { arr := ps.arr ++ List.replicate c ⟨[], []⟩, len := ps.len }
  have hq : Params.Below ps q 0 :=
    ⟨by simp [q], le_refl _, fun i hi => absurd hi (Nat.not_lt_zero _)⟩
  have hbel : Cursor.Below (⟨r, [], path, 0, 0, ps, false⟩ : Cursor)
      (⟨r, [], path, 0, 0, q, false⟩ : Cursor) := ⟨rfl, rfl, rfl, rfl, rfl, rfl, hq⟩
  have h2 := findLoop_below_budget (3 * r.size + 1) .top hbel h
  obtain ⟨nv, ps1, h3, _⟩ := find_any_buffer unescaped hb path q (fun x hx => by
    have := hc x hx
    simp only [q, List.length_append, List.length_replicate]
    omega)
  have h4 : find unescaped r path q false = .error .outOfBudget := h2
  rw [h3] at h4
  cases h4

end route


namespace route

/-! ## Two orders of registration -/

theorem addPost_of_ok {N : Nat} {r r1 : node} {p : Str} {h : List HandlerFunc}
    (hg : GoodTree N r) (hok : addRoute r p (some h) = .ok r1)
    (hN : wcount (collapse p) ≤ N) :
    AddPost N h (wildcardNames p) (collapse p) r r1 := by
  rcases addRoute_spec h hg (checkPahtValid_of_addRoute_ok hok) hN with
    ⟨_, X, he⟩ | ⟨_, r2, hok2, hpost⟩
  · rw [hok] at he
    cases he
  · rw [hok] at hok2
    cases hok2
    exact hpost

theorem AddPost.goodTree {N : Nat} {hh : List HandlerFunc} {names : List Str} {F : Str}
    {r r1 : node} (hp : AddPost N hh names F r r1) : GoodTree N r1 :=
  Or.inr ⟨hp.inv, hp.kind, hp.head⟩

theorem bnd_of_key {N : Nat} {n m : node} {F : Str} (hinv : Inv N 0 n)
    (hk : n.kind = .skind) (hat : At n F m) : Bnd F (fun K => ∃ m1, At n K m1) :=
  ⟨⟨m, hat⟩, fun a c b hF hc => key_boundary hat N 0 a c b hinv hF hc (Or.inl hk)⟩

/-- The keys of the tree that two registrations leave are keys of the tree that the same
registrations leave in the other order. -/
theorem keys_of_orders {N : Nat} {T A1 A12 A2 A21 : node} {hh1 hh2 : List HandlerFunc}
    {n1 n2 : List Str} {F1 F2 : Str}
    (hP1 : AddPost N hh1 n1 F1 T A1) (hP12 : AddPost N hh2 n2 F2 A1 A12)
    (hP2 : AddPost N hh2 n2 F2 T A2) (hP21 : AddPost N hh1 n1 F1 A2 A21) :
    ∀ K m, At A12 K m → ∃ m1, At A21 K m1 := by
  have hZ := keyClosed_keys hP21.inv
  have hold : ∀ K m, At T K m → K ≠ [] → ∃ m1, At A21 K m1 := by
    intro K m hat hK
    obtain ⟨m1, h1⟩ := hP2.keepAll K m hat hK
    exact hP21.keepAll K m1 h1 hK
  have hb1 : Bnd F1 (fun K => ∃ m, At A21 K m) := by
    obtain ⟨m, hat, _⟩ := hP21.added
    exact bnd_of_key hP21.inv hP21.kind hat
  have hb2 : Bnd F2 (fun K => ∃ m, At A21 K m) := by
    obtain ⟨m, hat, _⟩ := hP2.added
    obtain ⟨m1, hat1⟩ := hP21.keepAll F2 m hat (At.key_ne_nil hP2.inv hat)
    exact bnd_of_key hP21.inv hP21.kind hat1
  have hk1 : ∀ K m, At A1 K m → K ≠ [] → ∃ m1, At A21 K m1 :=
    fun K m hat _ => hP1.gen _ hZ hold hb1 K m hat
  exact hP12.gen _ hZ hk1 hb2

/-- Two built trees that hold the same registrations, the keys of the first being keys of
the second, hold the same chains and names at these keys. -/
theorem sameKeys_of_built {r r1 : node} {rs rs1 : List (Str × List HandlerFunc)}
    (hb : Built r rs) (hb1 : Built r1 rs1) {N N1 : Nat} (hi : Inv N 0 r) (hi1 : Inv N1 0 r1)
    (hmem : ∀ x, x ∈ rs ↔ x ∈ rs1) (hsub : ∀ K m, At r K m → ∃ m1, At r1 K m1) :
    SameKeys r r1 := by
  obtain ⟨M, hM⟩ := exists_wildcard_bound rs
  have hM1 : ∀ x ∈ rs1, wcount (collapse x.1) ≤ M := fun x hx => hM x ((hmem x).mpr hx)
  obtain ⟨_, _, hmem0, hback0, _⟩ := hb.holds M hM
  obtain ⟨_, _, hmem1, hback1, _⟩ := hb1.holds M hM1
  intro K m hat
  obtain ⟨m1, hat1⟩ := hsub K m hat
  refine ⟨m1, hat1, ?_⟩
  cases hh : m.handlers with
  | some c =>
    obtain ⟨x, hx, hxK, hxh, hxp⟩ := hback0 K m hat (by rw [hh]; rfl)
    obtain ⟨m2, hat2, h2h, h2p⟩ := hmem1 x ((hmem x).mp hx)
    rw [hxK] at hat2
    have e := hat1.unique N1 0 m2 hi1 hat2
    rw [e] at h2h h2p
    rw [hh] at hxh
    exact ⟨by rw [h2h, hxh], fun _ => by rw [h2p, hxp]⟩
  | none =>
    constructor
    · cases hh1 : m1.handlers with
      | none => rfl
      | some c1 =>
        exfalso
        obtain ⟨x, hx, hxK, hxh, hxp⟩ := hback1 K m1 hat1 (by rw [hh1]; rfl)
        obtain ⟨m2, hat2, h2h, _⟩ := hmem0 x ((hmem x).mpr hx)
        rw [hxK] at hat2
        have e := hat.unique N 0 m2 hi hat2
        rw [e, hh] at h2h
        cases h2h
    · intro hs
      simp at hs

/-- Two registrations that succeed in both orders leave twins. -/
theorem twin_of_orders {T A1 A12 A2 A21 : node} {rs : List (Str × List HandlerFunc)}
    (hb : Built T rs) {p1 p2 : Str} {h1 h2 : List HandlerFunc}
    (ha1 : addRoute T p1 (some h1) = .ok A1) (ha12 : addRoute A1 p2 (some h2) = .ok A12)
    (ha2 : addRoute T p2 (some h2) = .ok A2) (ha21 : addRoute A2 p1 (some h1) = .ok A21) :
    Twin A12 A21 ∧ A12.kind = .skind := by
  have hb12 : Built A12 ((rs ++ [(p1, h1)]) ++ [(p2, h2)]) :=
    Built.add p2 h2 (Built.add p1 h1 hb ha1) ha12
  have hb21 : Built A21 ((rs ++ [(p2, h2)]) ++ [(p1, h1)]) :=
    Built.add p1 h1 (Built.add p2 h2 hb ha2) ha21
  obtain ⟨N, hN⟩ := exists_wildcard_bound ((rs ++ [(p1, h1)]) ++ [(p2, h2)])
  have hg := (hb.holds N (fun x hx => hN x (by simp [hx]))).1
  have hN1 : wcount (collapse p1) ≤ N := hN (p1, h1) (by simp)
  have hN2 : wcount (collapse p2) ≤ N := hN (p2, h2) (by simp)
  have hP1 := addPost_of_ok hg ha1 hN1
  have hP12 := addPost_of_ok hP1.goodTree ha12 hN2
  have hP2 := addPost_of_ok hg ha2 hN2
  have hP21 := addPost_of_ok hP2.goodTree ha21 hN1
  have hmem : ∀ x, x ∈ (rs ++ [(p1, h1)]) ++ [(p2, h2)] ↔
      x ∈ (rs ++ [(p2, h2)]) ++ [(p1, h1)] := by
    intro x
    simp only [List.mem_append, List.mem_singleton]
    tauto
  exact ⟨⟨⟨N, 0, hP12.inv, hP21.inv⟩, hP21.kind.trans hP12.kind.symm,
    sameKeys_of_built hb12 hb21 hP12.inv hP21.inv hmem (keys_of_orders hP1 hP12 hP2 hP21),
    sameKeys_of_built hb21 hb12 hP21.inv hP12.inv (fun x => (hmem x).symm)
      (keys_of_orders hP2 hP21 hP1 hP12)⟩, hP12.kind⟩

/-- On built trees that are twins, `find` ends with the same observation. -/
theorem find_twin (unescaped : Str → Option Str) {r r1 : node}
    {rs rs1 : List (Str × List HandlerFunc)} (hb : Built r rs) (hb1 : Built r1 rs1)
    (ht : Twin r r1) (hk : r.kind = .skind) (path : Str) (ps : Params) :
    observed (find unescaped r path ps false) =
      observed (find unescaped r1 path ps false) := by
  have h0 := find_within_budget unescaped hb path ps
  have h1 := find_within_budget unescaped hb1 path ps
  have e0 := findLoop_budget (3 * r.size + 1) .top _ _ rfl h0 (3 * r1.size + 1)
  have e1 := findLoop_budget (3 * r1.size + 1) .top _ _ rfl h1 (3 * r.size + 1)
  have hp : Cursor.Paired (⟨r, [], path, 0, 0, ps, false⟩ : Cursor)
      (⟨r1, [], path, 0, 0, ps, false⟩ : Cursor) :=
    ⟨ht, by show r.kind ≠ .akind; rw [hk]; decide, List.Forall₂.nil, rfl, rfl, rfl, rfl, rfl⟩
  have h2 := @findLoop_paired unescaped false path (3 * r.size + 1 + (3 * r1.size + 1)) .top
    _ _ hp
  rw [Nat.add_comm (3 * r1.size + 1)] at e1
  rw [e0, e1] at h2
  exact h2

end route


namespace route

/-! ## The nodes of a tree -/

/-- Every node of a well shaped tree is well shaped. -/
theorem At.inv {n m : node} {K : Str} (hat : At n K m) :
    ∀ (N d : Nat), Inv N d n → ∃ d1, Inv N d1 m := by
  induction hat with
  | here n => exact fun N d h => ⟨d, h⟩
  | @child n c m K1 hc _ ih => exact fun N d h => ih N d (h.child hc)
  | @param n c m K1 hc _ ih => exact fun N d h => ih N (d + 1) (h.param hc)
  | @any n c m K1 hc _ ih => exact fun N d h => ih N (d + 1) (h.any hc)

/-- A node of a tree is its root, or it is held by a node of the tree in one of its three
slots. -/
theorem At.holder {n m : node} {K : Str} (hat : At n K m) :
    m = n ∨ ∃ K1 q, At n K1 q ∧
      (m ∈ q.children ∨ q.paramChild = some m ∨ q.anyChild = some m) := by
  induction hat with
  | here n => exact Or.inl rfl
  | @child n c m K1 hc hat1 ih =>
    right
    rcases ih with h0 | ⟨K2, q, hq, hs⟩
    · subst h0
      exact ⟨_, n, At.here n, Or.inl hc⟩
    · exact ⟨_, q, At.child hc hq, hs⟩
  | @param n c m K1 hc hat1 ih =>
    right
    rcases ih with h0 | ⟨K2, q, hq, hs⟩
    · subst h0
      exact ⟨_, n, At.here n, Or.inr (Or.inl hc)⟩
    · exact ⟨_, q, At.param hc hq, hs⟩
  | @any n c m K1 hc hat1 ih =>
    right
    rcases ih with h0 | ⟨K2, q, hq, hs⟩
    · subst h0
      exact ⟨_, n, At.here n, Or.inr (Or.inr hc)⟩
    · exact ⟨_, q, At.any hc hq, hs⟩

/-- The tree built by registrations is the empty root or a well shaped tree, for a bound
on the number of wildcards. -/
theorem Built.isGood {r : node} {rs : List (Str × List HandlerFunc)} (hb : Built r rs) :
    ∃ N, GoodTree N r := by
  obtain ⟨N, hN⟩ := exists_wildcard_bound rs
  exact ⟨N, (hb.holds N hN).1⟩

/-! ## The routes of a tree -/

theorem routes_mk (k : kind) (lab : Char) (pre : Str) (cs : List node) (pp : Str)
    (pn : List Str) (hs : HandlersChain) (pc ac : Option node) (lf : Bool) (acc : Str) :
    (node.mk k lab pre cs pp pn hs pc ac lf).routes acc =
      (if hs.isSome then [(acc ++ pre, hs, pn)] else []) ++
        (node.routes.routesList cs (acc ++ pre) ++
          ((match pc with
            | some c => c.routes (acc ++ pre)
            | none => []) ++
           (match ac with
            | some c => c.routes (acc ++ pre)
            | none => []))) := by
  cases pc <;> cases ac <;> rfl

theorem mem_routesList : ∀ (cs : List node) (acc : Str) (e : Str × HandlersChain × List Str),
    e ∈ node.routes.routesList cs acc ↔ ∃ c ∈ cs, e ∈ c.routes acc
  | [], acc, e => by
    have h : node.routes.routesList [] acc = [] := rfl
    rw [h]
    simp
  | c :: cs, acc, e => by
    have h : node.routes.routesList (c :: cs) acc =
        c.routes acc ++ node.routes.routesList cs acc := rfl
    rw [h, List.mem_append, mem_routesList cs acc e]
    simp

/-- The routes of a tree are its nodes that hold handlers, under their keys. -/
theorem mem_routes : ∀ (n : node) (acc : Str) (e : Str × HandlersChain × List Str),
    e ∈ n.routes acc ↔
      ∃ K m, At n K m ∧ m.handlers.isSome ∧ e = (acc ++ K, m.handlers, m.pnames) := by
  intro n
  induction n using node.induct with
  | step k lab pre cs pp pn hs pc ac lf ihc ihp iha =>
    intro acc e
    rw [routes_mk]
    simp only [List.mem_append, mem_routesList]
    constructor
    · rintro (h | ⟨c, hc, h⟩ | h | h)
      · by_cases hh : hs.isSome
        · rw [if_pos hh] at h
          simp only [List.mem_singleton] at h
          exact ⟨pre, _, At.here (node.mk k lab pre cs pp pn hs pc ac lf), hh, h⟩
        · rw [if_neg hh] at h
          cases h
      · obtain ⟨K, m, hat, hm, he⟩ := (ihc c hc _ e).mp h
        refine ⟨pre ++ K, m, At.child (n := node.mk k lab pre cs pp pn hs pc ac lf) hc hat,
          hm, ?_⟩
        rw [he, List.append_assoc]
      · cases pc with
        | none => cases h
        | some c =>
          obtain ⟨K, m, hat, hm, he⟩ := (ihp c rfl _ e).mp h
          refine ⟨pre ++ K, m, At.param (n := node.mk k lab pre cs pp pn hs (some c) ac lf)
            rfl hat, hm, ?_⟩
          rw [he, List.append_assoc]
      · cases ac with
        | none => cases h
        | some c =>
          obtain ⟨K, m, hat, hm, he⟩ := (iha c rfl _ e).mp h
          refine ⟨pre ++ K, m, At.any (n := node.mk k lab pre cs pp pn hs pc (some c) lf)
            rfl hat, hm, ?_⟩
          rw [he, List.append_assoc]
    · rintro ⟨K, m, hat, hm, he⟩
      rcases hat.cases_on_key with ⟨hK, hmn⟩ | ⟨x, K1, hK, hx, hsl⟩
      · left
        subst hmn
        simp only [node.handlers_mk] at hm
        rw [if_pos hm, he, hK]
        exact List.mem_singleton.mpr rfl
      · right
        have he1 : e = ((acc ++ pre) ++ K1, m.handlers, m.pnames) := by
          rw [he, hK, List.append_assoc]
          rfl
        rcases hsl with hsl | hsl | hsl
        · exact Or.inl ⟨x, hsl, (ihc x hsl _ e).mpr ⟨K1, m, hx, hm, he1⟩⟩
        · simp only [node.paramChild_mk] at hsl
          subst hsl
          exact Or.inr (Or.inl ((ihp x rfl _ e).mpr ⟨K1, m, hx, hm, he1⟩))
        · simp only [node.anyChild_mk] at hsl
          subst hsl
          exact Or.inr (Or.inr ((iha x rfl _ e).mpr ⟨K1, m, hx, hm, he1⟩))

theorem mem_routes_root {n : node} {K : Str} {hs : HandlersChain} {pn : List Str} :
    (K, hs, pn) ∈ n.routes [] ↔
      ∃ m, At n K m ∧ m.handlers.isSome ∧ m.handlers = hs ∧ m.pnames = pn := by
  rw [mem_routes]
  constructor
  · rintro ⟨K1, m, hat, hm, he⟩
    simp only [List.nil_append, Prod.mk.injEq] at he
    obtain ⟨h1, h2, h3⟩ := he
    subst h1
    exact ⟨m, hat, hm, h2.symm, h3.symm⟩
  · rintro ⟨m, hat, hm, h2, h3⟩
    exact ⟨K, m, hat, hm, by rw [h2, h3]; rfl⟩

end route


namespace route

/-! ## The naive matcher and the exploration of `find` -/

theorem naiveList_eq : ∀ (cs : List node) (c0 : Char) (s : Str),
    naiveMatch.naiveList cs c0 s =
      match cs.find? (fun c => c.label == c0) with
      | some c => naiveMatch c s
      | none => none
  | [], _, _ => by rw [naiveMatch.naiveList]; rfl
  | c :: cs, c0, s => by
    rw [naiveMatch.naiveList, List.find?_cons]
    by_cases h : (c.label == c0) = true
    · rw [if_pos h, h]
    · rw [if_neg h]
      have h1 : (c.label == c0) = false := by simpa using h
      rw [h1]
      exact naiveList_eq cs c0 s

theorem naiveMatch_unfold (k : kind) (lab : Char) (pre : Str) (cs : List node)
    (pp : Str) (pn : List Str) (hs : HandlersChain) (pc ac : Option node) (lf : Bool)
    (s : Str) :
    naiveMatch (.mk k lab pre cs pp pn hs pc ac lf) s =
      if k = .skind ∧ ¬ (pre.length ≤ s.length ∧ pre = s.take pre.length) then none
      else
        if (if k = .skind then s.drop pre.length else s) = [] ∧ hs.getD [] ≠ [] then
          some (hs, [])
        else
          firstOf
            (match (if k = .skind then s.drop pre.length else s) with
             | c0 :: _ =>
               naiveMatch.naiveList cs c0 (if k = .skind then s.drop pre.length else s)
             | [] => none)
            (firstOf
              (match pc with
               | some c =>
                 if (if k = .skind then s.drop pre.length else s) ≠ [] then
                   (naiveMatch c ((if k = .skind then s.drop pre.length else s).drop
                     ((if k = .skind then s.drop pre.length else s).takeWhile
                       (fun a => a != '/')).length)).map
                     (fun r => (r.1, (if k = .skind then s.drop pre.length else s).takeWhile
                       (fun a => a != '/') :: r.2))
                 else none
               | none => none)
              (match ac with
               | some c => some (c.handlers, [(if k = .skind then s.drop pre.length else s)])
               | none => none)) := by
  cases pc <;> cases ac <;> rfl

theorem Found.view_under (pre : Str) (f : Found) : (Found.under pre f).view = f.view := by
  cases f <;> rfl

theorem Found.view_capture (v : Str) (f : Found) :
    (Found.capture v f).view = f.view.map (fun r => (r.1, v :: r.2)) := by
  cases f <;> rfl

theorem Found.view_orElse {a : Found} (b : Found) (ha : a ≠ .panic) :
    (Found.orElse a b).view = firstOf a.view b.view := by
  cases a with
  | fail => rfl
  | panic => exact absurd rfl ha
  | hit K vs m => rfl

theorem Found.capture_ne_panic {v : Str} {f : Found} (h : f ≠ .panic) :
    Found.capture v f ≠ .panic := by
  cases f with
  | fail => intro h1; cases h1
  | panic => exact absurd rfl h
  | hit K vs m => intro h1; cases h1

theorem Found.view_alts {A B C : Found} {A1 B1 C1 : Option (HandlersChain × List Str)}
    (hA : A ≠ .panic) (hA1 : A.view = A1) (hB : B ≠ .panic) (hB1 : B.view = B1)
    (hC : C.view = C1) :
    (Found.orElse A (Found.orElse B C)).view = firstOf A1 (firstOf B1 C1) := by
  rw [Found.view_orElse _ hA, Found.view_orElse _ hB, hA1, hB1, hC]

/-- On a well shaped tree, with room in the buffer for the wildcards of every route, the
exploration of `find` ends as the naive matcher does. -/
theorem explore_naive (cap N : Nat) (hN : N ≤ cap) : ∀ (n : node) (d : Nat) (s : Str),
    Inv N d n → (explore cap n d s).view = naiveMatch n s := by
  intro n
  induction n using node.induct with
  | step k lab pre cs pp pn hs pc ac lf ihc ihp iha =>
    intro d s hinv
    rw [explore_unfold, naiveMatch_unfold]
    generalize (if k = .skind then s.drop pre.length else s) = s1
    by_cases hA : k = .skind ∧ ¬ (pre.length ≤ s.length ∧ pre = s.take pre.length)
    · rw [if_pos hA, if_pos hA]
      rfl
    rw [if_neg hA, if_neg hA]
    by_cases hex : s1 = [] ∧ hs.getD [] ≠ []
    · rw [if_pos hex, if_pos hex]
      rfl
    rw [if_neg hex, if_neg hex]
    rw [Found.view_under]
    clear hex
    refine Found.view_alts ?_ ?_ ?_ ?_ ?_
    · cases s1 with
      | nil => exact fun h => by cases h
      | cons c0 rest =>
        simp only [exploreList_eq]
        cases hf : cs.find? (fun c => c.label == c0) with
        | none => exact fun h => by cases h
        | some c =>
          exact explore_no_panic cap N hN c d _ (hinv.child (find?_label_eq_some hf).1)
    · cases s1 with
      | nil => rfl
      | cons c0 rest =>
        simp only [exploreList_eq, naiveList_eq]
        cases hf : cs.find? (fun c => c.label == c0) with
        | none => rfl
        | some c =>
          have hmem := (find?_label_eq_some hf).1
          exact ihc c hmem d _ (hinv.child hmem)
    · cases pc with
      | none => exact fun h => by cases h
      | some c =>
        have hc : Inv N (d + 1) c := hinv.param rfl
        have hle : d + 1 ≤ cap := le_trans hc.le hN
        simp only []
        by_cases hs1 : s1 ≠ []
        · rw [if_pos hs1, if_pos hle]
          exact Found.capture_ne_panic (explore_no_panic cap N hN c (d + 1) _ hc)
        · rw [if_neg hs1]
          exact fun h => by cases h
    · cases pc with
      | none => rfl
      | some c =>
        have hc : Inv N (d + 1) c := hinv.param rfl
        have hle : d + 1 ≤ cap := le_trans hc.le hN
        simp only []
        by_cases hs1 : s1 ≠ []
        · rw [if_pos hs1, if_pos hs1, if_pos hle]
          rw [Found.view_capture, ihp c rfl (d + 1) _ hc]
        · rw [if_neg hs1, if_neg hs1]
          rfl
    · cases ac with
      | none => rfl
      | some c =>
        have hc : Inv N (d + 1) c := hinv.any rfl
        have hle : d + 1 ≤ cap := le_trans hc.le hN
        simp only [exploreAny]
        rw [if_pos hle]
        rfl

theorem naiveMatch_emptyRoot (path : Str) : naiveMatch emptyRoot path = none := by
  cases path with
  | nil => rfl
  | cons c rest => rfl

/-- On a tree built by registrations, with an empty buffer that has room for the wildcards
of every registered pattern, `find` returns the chain and the values of the naive matcher,
and nothing where the naive matcher fails. -/
theorem find_naive (unescaped : Str → Option Str) {r : node}
    {rs : List (Str × List HandlerFunc)} (hb : Built r rs)
    (path : Str) {cap : Nat} (hcap : ∀ x ∈ rs, (wildcardNames x.1).length ≤ cap) :
    ∃ nv ps, find unescaped r path (Params.make cap) false = .ok (nv, ps) ∧
      (nv.handlers, ps.toList.map Param.Value) =
        (match naiveMatch r path with
         | some (h, vs) => (h, vs)
         | none => (none, [])) := by
  have hview : (explore cap r 0 path).view = naiveMatch r path := by
    obtain ⟨hg, _⟩ :=
      hb.holds cap (fun x hx => by rw [wcount_collapse_eq]; exact hcap x hx)
    rcases hg with h0 | ⟨hinv, _, _⟩
    · subst h0
      rw [explore_emptyRoot, naiveMatch_emptyRoot]
      rfl
    · exact explore_naive cap cap (le_refl _) r 0 path hinv
  have hcapl : (Params.make cap).arr.length = cap := by simp [Params.make]
  have hfb := find_built_len unescaped hb path (Params.make cap) rfl
  rw [hcapl] at hfb
  rcases hfb with ⟨he, tsr, ps1, hf, hl⟩ | ⟨he, _⟩ |
    ⟨K, vs, m, x, tsr, ps2, he, hx, hxK, hat, hxh, _, hkm2, hf, hv2, hk2⟩
  · refine ⟨_, _, hf, ?_⟩
    rw [← hview, he]
    simp only [Found.view, Params.toList, hl, List.take_zero, List.map_nil]
  · exact absurd he (explore_built_ne_panic hb hcap path)
  · refine ⟨_, _, hf, ?_⟩
    rw [← hview, he]
    simp only [Found.view, hv2, hxh]

end route


namespace route

/-! ## The turns of the loop of `insert` -/

theorem insertTrace_succ (budget : Nat) (cur : node) (search : Str) :
    insertTrace (budget + 1) cur search =
      if lcp search cur.pfx = 0 then [(cur, search, .adopt)]
      else if lcp search cur.pfx < cur.pfx.length then [(cur, search, .split)]
      else if lcp search cur.pfx < search.length then
        match search.drop (lcp search cur.pfx) with
        | [] => []
        | c0 :: rest =>
          match findChildWithLabel cur c0 with
          | some c => (cur, search, .descend) :: insertTrace budget c (c0 :: rest)
          | none => [(cur, search, .attach)]
      else [(cur, search, .exact)] := by
  rfl

/-- In the situation in which the loop of `insert` stands, the text has a common start
with the prefix of the node. -/
theorem InsertPre.lcp_pos {N d : Nat} {cur : node} {h : HandlersChain} {t : kind}
    {pnames : List Str} {search : Str} (hpre : InsertPre N d cur h t pnames search) :
    0 < lcp search cur.pfx := by
  have hinv := hpre.inv
  have hplen : 0 < cur.pfx.length := List.length_pos.mpr hinv.pfx_ne_nil
  rcases hpre.shape with ⟨w, u, m, hsplit, hat, _⟩ | ⟨_, _, _, _, hhead⟩
  · obtain ⟨K1, hK⟩ := hat.prefix_key
    rw [hsplit, hK, List.append_assoc, lcp_append_self]
    exact hplen
  · exact lcp_pos_of_head (hhead.trans hinv.head) hinv.head

/-- The loop of `insert` splits static nodes only. -/
theorem InsertPre.split_static {N d : Nat} {cur : node} {h : HandlersChain} {t : kind}
    {pnames : List Str} {search : Str} (hpre : InsertPre N d cur h t pnames search)
    (hlt : lcp search cur.pfx < cur.pfx.length) : cur.kind = .skind := by
  rcases hpre.shape with ⟨w, u, m, hsplit, hat, _⟩ | ⟨_, hk, _, _, _⟩
  · obtain ⟨K1, hK⟩ := hat.prefix_key
    rw [hsplit, hK, List.append_assoc, lcp_append_self] at hlt
    omega
  · exact hk

theorem lcp_nil_search (p : Str) : lcp [] p = 0 := by
  cases p <;> rfl

theorem turn_ok {cur : node} {search : Str} {br : Branch} (hs : search ≠ [])
    (hb1 : br ≠ .adopt) (hb2 : br = .split → cur.kind = .skind)
    (hk : cur.kind = .akind → br = .exact) :
    ((cur, search, br) : node × Str × Branch).2.1 ≠ [] ∧
      ((cur, search, br) : node × Str × Branch).2.2 ≠ .adopt ∧
      (((cur, search, br) : node × Str × Branch).2.2 = .split →
        ((cur, search, br) : node × Str × Branch).1.kind = .skind) ∧
      (((cur, search, br) : node × Str × Branch).1.kind = .akind →
        ((cur, search, br) : node × Str × Branch).2.2 = .exact) :=
  ⟨hs, hb1, hb2, hk⟩

/-- The turns of the loop of `insert` from a node that is no catch-all node: the text is
never empty, the node never adopts the text, only static nodes are split, and at a
catch-all node the loop ends. -/
theorem insertTrace_spec (h : HandlersChain) (t : kind) (pnames : List Str) :
    ∀ (budget N d : Nat) (cur : node) (search : Str),
      InsertPre N d cur h t pnames search → cur.kind ≠ .akind →
      ∀ x ∈ insertTrace budget cur search,
        x.2.1 ≠ [] ∧ x.2.2 ≠ .adopt ∧ (x.2.2 = .split → x.1.kind = .skind) ∧
          (x.1.kind = .akind → x.2.2 = .exact) := by
  intro budget
  induction budget with
  | zero =>
    intro N d cur search _ _ x hx
    simp [insertTrace] at hx
  | succ b ih =>
    intro N d cur search hpre hk x hx
    have hl0 := hpre.lcp_pos
    have hne0 : ¬ lcp search cur.pfx = 0 := by omega
    have hsne : search ≠ [] := by
      intro h0
      rw [h0, lcp_nil_search] at hl0
      omega
    rw [insertTrace_succ, if_neg hne0] at hx
    by_cases hlt : lcp search cur.pfx < cur.pfx.length
    · rw [if_pos hlt] at hx
      simp only [List.mem_singleton] at hx
      subst hx
      exact turn_ok hsne (by decide) (fun _ => hpre.split_static hlt) (fun hk1 => absurd hk1 hk)
    rw [if_neg hlt] at hx
    have hleq : lcp search cur.pfx = cur.pfx.length := by
      have := lcp_le_right search cur.pfx
      omega
    by_cases hlt2 : lcp search cur.pfx < search.length
    · rw [if_pos hlt2] at hx
      have hsearch : search = cur.pfx ++ search.drop cur.pfx.length :=
        eq_append_of_lcp_eq_length hleq
      rw [hleq] at hx
      cases hdrop : search.drop cur.pfx.length with
      | nil =>
        rw [hdrop] at hx
        cases hx
      | cons c0 rest =>
        rw [hdrop] at hx hsearch
        simp only [] at hx
        cases hf : findChildWithLabel cur c0 with
        | none =>
          rw [hf] at hx
          simp only [List.mem_singleton] at hx
          subst hx
          exact turn_ok hsne (by decide) (fun hs => by cases hs) (fun hk1 => absurd hk1 hk)
        | some c =>
          rw [hf] at hx
          simp only [List.mem_cons] at hx
          rcases hx with hx | hx
          · subst hx
            exact turn_ok hsne (by decide) (fun hs => by cases hs) (fun hk1 => absurd hk1 hk)
          · cases cur with
            | mk k lab pre cs pp pn hs pc ac lf =>
            simp only [node.pfx_mk] at hsearch
            have hinv := hpre.inv
            rw [hsearch] at hpre
            rcases hpre.step with ⟨hc1, hc2, hS, _⟩ | ⟨hc0, hP, _⟩ | ⟨hc0, hrest, _, _, _, _⟩
            · have hfind : cs.find? (fun y => y.label == c0) = some c := by
                rcases findChildWithLabel_cases hf with h1 | ⟨_, h1, _⟩ | ⟨_, h1, _⟩
                · exact h1
                · exact absurd h1 hc1
                · exact absurd h1 hc2
              have hck : c.kind = .skind := hinv.child_kind (find?_label_eq_some hfind).1
              exact ih N d c (c0 :: rest) (hS c hfind) (by rw [hck]; decide) x hx
            · subst hc0
              have hnone := @find?_wild_none _ _ _ hinv ':' (Or.inl rfl)
              simp only [node.children_mk] at hnone
              have hpc : pc = some c := by
                rcases findChildWithLabel_cases hf with h1 | ⟨_, _, h1⟩ | ⟨_, h1, _⟩
                · simp only [node.children_mk] at h1
                  rw [hnone] at h1
                  cases h1
                · exact h1
                · exact absurd h1 (by decide)
              have hck : c.kind = .pkind := (hinv.param_shape (c := c) hpc).1
              exact ih N (d + 1) c (':' :: rest) (hP c hpc) (by rw [hck]; decide) x hx
            · subst hc0
              subst hrest
              have hnone := @find?_wild_none _ _ _ hinv '*' (Or.inr rfl)
              simp only [node.children_mk] at hnone
              have hac : ac = some c := by
                rcases findChildWithLabel_cases hf with h1 | ⟨_, h1, _⟩ | ⟨_, _, h1⟩
                · simp only [node.children_mk] at h1
                  rw [hnone] at h1
                  cases h1
                · exact absurd h1 (by decide)
                · exact h1
              have hshape := hinv.any_shape (c := c) hac
              cases b with
              | zero => simp [insertTrace] at hx
              | succ b1 =>
                rw [insertTrace_succ, hshape.2.1] at hx
                have hl : lcp ['*'] ['*'] = 1 := rfl
                simp only [hl, List.length_singleton, Nat.lt_irrefl, if_false,
                  List.mem_singleton] at hx
                have hx1 : x = (c, ['*'], Branch.exact) := by simpa using hx
                subst hx1
                exact turn_ok (by simp) (by decide) (fun hs => by cases hs) (fun _ => rfl)
    · rw [if_neg hlt2] at hx
      simp only [List.mem_singleton] at hx
      subst hx
      exact turn_ok hsne (by decide) (fun hs => by cases hs) (fun hk1 => absurd hk1 hk)

/-- The situation of the loop of `insert` at the root of a tree that holds routes. -/
theorem RootPre.toInsertPre {N : Nat} {r : node} {h : HandlersChain} {t : kind}
    {pnames : List Str} {path : Str} (hpre : RootPre N r h t pnames path)
    (hinv : Inv N 0 r) (hkind : r.kind = .skind) (hhead : r.pfx.head? = some '/') :
    InsertPre N 0 r h t pnames path := by
  have hwp : wcount r.pfx = 0 := wcount_of_noWild (hinv.noWild hkind)
  refine ⟨hinv, hpre.star, hpre.anyH, ?_, ?_, ?_⟩
  · intro hh
    rw [hwp, hpre.names hh]; omega
  · rw [hwp]
    have := hpre.bound
    omega
  · rcases hpre.shape with ⟨w, u, m, hsplit, _, hat, htail⟩ | ⟨ht, hnw⟩
    · exact Or.inl ⟨w, u, m, hsplit, hat, htail⟩
    · refine Or.inr ⟨ht, hkind, hnw, ?_, ?_⟩
      · intro h0
        have := hpre.head
        rw [h0] at this
        simp at this
      · rw [hpre.head, hhead]

/-- The turns of the loop of a call of `insert` on a tree: the text is never empty, the
branch that adopts the text is taken at the empty root only, only static nodes are split,
and at a catch-all node the loop ends. -/
theorem insertTrace_root {N : Nat} {r : node} {h : HandlersChain} {t : kind}
    {pnames : List Str} {path : Str} (hpre : RootPre N r h t pnames path) (budget : Nat) :
    path ≠ [] ∧ ∀ x ∈ insertTrace budget r path,
      x.2.1 ≠ [] ∧ (x.2.2 = .adopt → x.1 = r ∧ r = emptyRoot) ∧
        (x.2.2 = .split → x.1.kind = .skind) ∧ (x.1.kind = .akind → x.2.2 = .exact) := by
  have hpne : path ≠ [] := by
    intro h0
    have := hpre.head
    rw [h0] at this
    simp at this
  refine ⟨hpne, ?_⟩
  intro x hx
  rcases hpre.good with hr | ⟨hinv, hkind, hhead⟩
  · subst hr
    cases budget with
    | zero => simp [insertTrace] at hx
    | succ b =>
      rw [insertTrace_succ] at hx
      have hl : lcp path emptyRoot.pfx = 0 := lcp_eq_zero_of_nil path
      rw [if_pos hl] at hx
      simp only [List.mem_singleton] at hx
      subst hx
      exact ⟨hpne, fun _ => ⟨rfl, rfl⟩, fun hs => Branch.noConfusion hs,
        fun hk => kind.noConfusion hk⟩
  · obtain ⟨h1, h2, h3, h4⟩ := insertTrace_spec h t pnames budget N 0 r path
      (hpre.toInsertPre hinv hkind hhead) (by rw [hkind]; decide) x hx
    exact ⟨h1, fun ha => absurd ha h2, h3, h4⟩

end route


namespace route

/-! ## The calls of `insert` by `addRoute` -/

theorem insertCalls_succ (budget : Nat) (r : node) (path : Str) (pnames : List Str)
    (i : Nat) :
    insertCalls (budget + 1) r path pnames i =
      if i < path.length then
        if path.get? i = some ':' then
          (r, path.take i) ::
            match insert r (path.take i) none .skind [] [] with
            | .error _ => []
            | .ok r1 =>
              if i + 1 = (path.take (i + 1) ++ path.drop (skipToSlash path i)).length then
                [(r1, (path.take (i + 1) ++ path.drop (skipToSlash path i)).take (i + 1))]
              else
                (r1, (path.take (i + 1) ++ path.drop (skipToSlash path i)).take (i + 1)) ::
                  match insert r1
                      ((path.take (i + 1) ++ path.drop (skipToSlash path i)).take (i + 1))
                      none .pkind []
                      (pnames ++ [(path.take (skipToSlash path i)).drop (i + 1)]) with
                  | .error _ => []
                  | .ok r2 =>
                    insertCalls budget r2
                      (path.take (i + 1) ++ path.drop (skipToSlash path i))
                      (pnames ++ [(path.take (skipToSlash path i)).drop (i + 1)]) (i + 1 + 1)
        else if path.get? i = some '*' then
          (r, path.take i) ::
            match insert r (path.take i) none .skind [] [] with
            | .error _ => []
            | .ok r1 => [(r1, path.take (i + 1))]
        else insertCalls budget r path pnames (i + 1)
      else [(r, path)] := by
  rfl

theorem insertCalls_end (budget : Nat) (r : node) (cp : Str) (pnames : List Str) :
    insertCalls (budget + 1) r cp pnames cp.length = [(r, cp)] := by
  rw [insertCalls_succ]
  simp

theorem insertCalls_plain (budget : Nat) (r : node) (cp : Str) (c : Char) (rest1 : Str)
    (pnames : List Str) (h1 : c ≠ ':') (h2 : c ≠ '*') :
    insertCalls (budget + 1) r (cp ++ c :: rest1) pnames cp.length =
      insertCalls budget r ((cp ++ [c]) ++ rest1) pnames (cp ++ [c]).length := by
  have hlt : cp.length < (cp ++ c :: rest1).length := by simp
  have hget := get?_append_length cp c rest1
  have e1 : ¬ ((cp ++ c :: rest1).get? cp.length = some ':') := by
    rw [hget]; simpa using h1
  have e2 : ¬ ((cp ++ c :: rest1).get? cp.length = some '*') := by
    rw [hget]; simpa using h2
  rw [insertCalls_succ, if_pos hlt, if_neg e1, if_neg e2]
  simp

theorem insertCalls_star (budget : Nat) (r : node) (cp : Str) (rest1 : Str)
    (pnames : List Str) :
    insertCalls (budget + 1) r (cp ++ '*' :: rest1) pnames cp.length =
      (r, cp) ::
        match insert r cp none .skind [] [] with
        | .error _ => []
        | .ok r1 => [(r1, cp ++ ['*'])] := by
  rw [insertCalls_succ]
  have hlt : cp.length < (cp ++ '*' :: rest1).length := by simp
  have hget := get?_append_length cp '*' rest1
  have hne : ('*' : Char) ≠ ':' := by decide
  have ht1 : (cp ++ '*' :: rest1).take cp.length = cp := by simp
  have ht2 : (cp ++ '*' :: rest1).take (cp.length + 1) = cp ++ ['*'] := by
    rw [List.take_append_eq_append_take]
    simp
  simp only [hlt, if_true, hget, Option.some.injEq, hne, if_false, ht1, ht2]

theorem insertCalls_colon (budget : Nat) (r : node) (cp : Str) (rest1 : Str)
    (pnames : List Str) :
    insertCalls (budget + 1) r (cp ++ ':' :: rest1) pnames cp.length =
      (r, cp) ::
        match insert r cp none .skind [] [] with
        | .error _ => []
        | .ok r1 =>
          match rest1.dropWhile (fun a => a != '/') with
          | [] => [(r1, cp ++ [':'])]
          | x :: rest2 =>
            (r1, cp ++ [':']) ::
              match insert r1 (cp ++ [':']) none .pkind []
                  (pnames ++ [rest1.takeWhile (fun a => a != '/')]) with
              | .error _ => []
              | .ok r2 =>
                insertCalls budget r2 ((cp ++ [':', x]) ++ rest2)
                  (pnames ++ [rest1.takeWhile (fun a => a != '/')]) (cp ++ [':', x]).length := by
  rw [insertCalls_succ]
  have hlt : cp.length < (cp ++ ':' :: rest1).length := by simp
  have hget := get?_append_length cp ':' rest1
  have ht1 : (cp ++ ':' :: rest1).take cp.length = cp := by simp
  have hskip : skipToSlash (cp ++ ':' :: rest1) cp.length =
      cp.length + 1 + (rest1.takeWhile (fun a => a != '/')).length := by
    unfold skipToSlash
    have hd : (cp ++ ':' :: rest1).drop cp.length = ':' :: rest1 := by simp
    have hc : ((':' : Char) != '/') = true := by decide
    rw [hd, List.takeWhile_cons, hc]
    simp only [if_true, List.length_cons]
    omega
  have hname : ((cp ++ ':' :: rest1).take (cp.length + 1 +
      (rest1.takeWhile (fun a => a != '/')).length)).drop (cp.length + 1) =
      rest1.takeWhile (fun a => a != '/') := by
    rw [List.take_append_eq_append_take, List.drop_append_eq_append_drop]
    have h1 : cp.length + 1 + (rest1.takeWhile (fun a => a != '/')).length - cp.length =
        (rest1.takeWhile (fun a => a != '/')).length + 1 := by omega
    have h2 : cp.length + 1 - (List.take (cp.length + 1 +
        (rest1.takeWhile (fun a => a != '/')).length) cp).length = 1 := by
      simp
      omega
    rw [h1, h2]
    simp [take_takeWhile_length]
  have hpath : (cp ++ ':' :: rest1).take (cp.length + 1) ++
      (cp ++ ':' :: rest1).drop (cp.length + 1 +
        (rest1.takeWhile (fun a => a != '/')).length) =
      cp ++ ':' :: rest1.dropWhile (fun a => a != '/') := by
    rw [List.take_append_eq_append_take, List.drop_append_eq_append_drop]
    have h1 : cp.length + 1 + (rest1.takeWhile (fun a => a != '/')).length - cp.length =
        (rest1.takeWhile (fun a => a != '/')).length + 1 := by omega
    have e1 : List.take (cp.length + 1) cp = cp := List.take_of_length_le (by omega)
    have e2 : List.drop (cp.length + 1 + (rest1.takeWhile (fun a => a != '/')).length) cp =
        [] := List.drop_eq_nil_of_le (by omega)
    rw [h1]
    simp [drop_takeWhile_length, e1, e2]
  simp only [hlt, if_true, hget, ht1, hskip, hname, hpath]
  congr 1
  cases hi : insert r cp none .skind [] [] with
  | error p => rfl
  | ok r1 =>
    simp only []
    cases hdw : rest1.dropWhile (fun a => a != '/') with
    | nil =>
      have ht : (cp ++ [':']).take (cp.length + 1) = cp ++ [':'] := by
        rw [List.take_of_length_le]; simp
      simp [ht]
    | cons x rest2 =>
      have ht : (cp ++ ':' :: x :: rest2).take (cp.length + 1) = cp ++ [':'] := by
        rw [List.take_append_eq_append_take]
        simp
      have hne : ¬ (cp.length + 1 = (cp ++ ':' :: x :: rest2).length) := by
        simp
      simp only [hne, if_false, ht]
      congr 1
      cases hi2 : insert r1 (cp ++ [':']) none .pkind []
          (pnames ++ [rest1.takeWhile (fun a => a != '/')]) with
      | error p => rfl
      | ok r2 =>
        simp only []
        congr 1
        · simp
        · simp

/-- Every call of `insert` by the loop of `addRoute` is made in the situation that
`insert` expects. -/
theorem insertCalls_spec :
    ∀ (budget N : Nat) (r : node) (cp rest : Str) (pnames : List Str),
      GoodTree N r → (cp ++ rest).head? = some '/' → CpShape r cp →
      pnames.length = wcount cp →
      wcount cp + wcount (segsKey (parseSegs none rest)) ≤ N →
      ∀ e ∈ insertCalls budget r (cp ++ rest) pnames cp.length,
        ∃ h t pn, RootPre N e.1 h t pn e.2 := by
  intro budget
  induction budget with
  | zero =>
    intro N r cp rest pnames _ _ _ _ _ e he
    simp [insertCalls] at he
  | succ b ih =>
    intro N r cp rest pnames hg hhead hcp hnames hbound e he
    cases rest with
    | nil =>
      simp only [List.append_nil] at hhead he
      simp only [parseSegs, segsKey, wcount, Nat.add_zero] at hbound
      rw [insertCalls_end] at he
      simp only [List.mem_singleton] at he
      subst he
      exact ⟨none, .skind, pnames, @rootPre_static N r none pnames cp hg hhead hcp hbound
        (fun hx => by simp at hx)⟩
    | cons c rest1 =>
      have hcne_of : (c = ':' ∨ c = '*') → cp ≠ [] := by
        rintro (hc | hc) h0 <;> (rw [h0, hc] at hhead; simp at hhead)
      have hcphead_of : cp ≠ [] → cp.head? = some '/' := by
        intro hne
        cases cp with
        | nil => exact absurd rfl hne
        | cons a as => simpa using hhead
      by_cases hc1 : c = ':'
      · subst hc1
        have hcne := hcne_of (Or.inl rfl)
        have hcphead := hcphead_of hcne
        rw [insertCalls_colon] at he
        rw [parseSegs_colon, parseSegs_name] at hbound
        have hcpN : wcount cp ≤ N := Nat.le_trans (Nat.le_add_right _ _) hbound
        have hpre1 := @rootPre_static N r none [] cp hg hcphead hcp hcpN
          (fun hx => by simp at hx)
        rcases List.mem_cons.mp he with he | he
        · subst he
          exact ⟨_, _, _, hpre1⟩
        rcases insert_spec none .skind [] [] N r cp hpre1 with
          ⟨hx, _⟩ | ⟨_, r1, hok1, hpost1⟩
        · simp at hx
        rw [hok1] at he
        simp only [] at he
        cases hdw : rest1.dropWhile (fun a => a != '/') with
        | nil =>
          rw [hdw] at he
          simp only [hdw, List.nil_append, segsKey, Seg.key, List.append_nil] at hbound
          have hW : wcount [':'] = 1 := by simp [wcount]
          have hpre2 := @rootPre_param N r1 none
            (pnames ++ [rest1.takeWhile (fun a => a != '/')]) cp hpost1.good hcphead
            hcp.1 (by obtain ⟨m, hm, _⟩ := hpost1.added; exact ⟨m, hm⟩) (by omega)
            (fun hx => by simp at hx)
          simp only [List.mem_singleton] at he
          subst he
          exact ⟨_, _, _, hpre2⟩
        | cons x rest2 =>
          have hx : x = '/' := dropWhile_head_slash hdw
          subst hx
          rw [hdw] at he
          simp only [hdw, segsKey, Seg.key, List.cons_append, List.nil_append] at hbound
          have hW : wcount (':' :: '/' :: segsKey (parseSegs none rest2)) =
              1 + wcount (segsKey (parseSegs none rest2)) := by
            simp [wcount]
          rw [hW] at hbound
          have hpre2 := @rootPre_param N r1 none
            (pnames ++ [rest1.takeWhile (fun a => a != '/')]) cp hpost1.good hcphead
            hcp.1 (by obtain ⟨m, hm, _⟩ := hpost1.added; exact ⟨m, hm⟩) (by omega)
            (fun hx => by simp at hx)
          simp only [] at he
          rcases List.mem_cons.mp he with he | he
          · subst he
            exact ⟨_, _, _, hpre2⟩
          rcases insert_spec none .pkind [] _ N r1 (cp ++ [':']) hpre2 with
            ⟨hx, _⟩ | ⟨_, r2, hok2, hpost2⟩
          · simp at hx
          rw [hok2] at he
          simp only [] at he
          have hshape2 : CpShape r2 (cp ++ [':', '/']) := by
            refine ⟨?_, cp ++ [':'], ['/'], by simp, ?_, Or.inr ?_⟩
            · intro a b0 hab
              have h1 : (cp ++ [':']) ++ ['/'] = a ++ '*' :: b0 := by simpa using hab
              have h2 : ∀ a b, cp ++ [':'] ≠ a ++ '*' :: b := by
                intro a b hab2
                have := (noStar_append_singleton hcp.1 hab2).1
                exact absurd this (by decide)
              have := (noStar_append_singleton h2 h1).1
              exact absurd this (by decide)
            · intro y hy
              simp only [List.mem_singleton] at hy
              subst hy
              exact ⟨by decide, by decide⟩
            · obtain ⟨m, hm, _⟩ := hpost2.added
              exact ⟨m, hm⟩
          have hwc : wcount (cp ++ [':', '/']) = wcount cp + 1 := by
            rw [wcount_append]; simp [wcount]
          exact ih N r2 (cp ++ [':', '/']) rest2
            (pnames ++ [rest1.takeWhile (fun a => a != '/')]) hpost2.good
            (by
              cases cp with
              | nil => exact absurd rfl hcne
              | cons a as => simpa using hhead)
            hshape2 (by simp [hnames, hwc]) (by rw [hwc]; omega) e he
      · by_cases hc2 : c = '*'
        · subst hc2
          have hcne := hcne_of (Or.inr rfl)
          have hcphead := hcphead_of hcne
          rw [insertCalls_star] at he
          rw [parseSegs_star] at hbound
          simp only [segsKey, Seg.key, List.append_nil] at hbound
          have hW : wcount ['*'] = 1 := by simp [wcount]
          have hpre1 := @rootPre_static N r none [] cp hg hcphead hcp (by omega)
            (fun hx => by simp at hx)
          rcases List.mem_cons.mp he with he | he
          · subst he
            exact ⟨_, _, _, hpre1⟩
          rcases insert_spec none .skind [] [] N r cp hpre1 with
            ⟨hx, _⟩ | ⟨_, r1, hok1, hpost1⟩
          · simp at hx
          rw [hok1] at he
          simp only [List.mem_singleton] at he
          subst he
          have hpre2 := @rootPre_any N r1 (some []) (pnames ++ [rest1]) cp hpost1.good
            hcphead hcp.1 (by obtain ⟨m, hm, _⟩ := hpost1.added; exact ⟨m, hm⟩) rfl (by omega)
            (by simp [hnames])
          exact ⟨_, _, _, hpre2⟩
        · rw [insertCalls_plain b r cp c rest1 pnames hc1 hc2] at he
          rw [parseSegs_plain rest1 hc1 hc2] at hbound
          simp only [segsKey, Seg.key, List.singleton_append] at hbound
          have hwc : wcount (cp ++ [c]) = wcount cp := by
            rw [wcount_append, wcount_cons_plain hc1 hc2]; simp [wcount]
          rw [wcount_cons_plain hc1 hc2] at hbound
          exact ih N r (cp ++ [c]) rest1 pnames hg (by simpa using hhead) (hcp.snoc hc1 hc2)
            (by rw [hwc]; exact hnames) (by rw [hwc]; exact hbound) e he

/-- Every call of `insert` by a call of `addRoute` on a tree built by registrations is made
in the situation that `insert` expects. -/
theorem addRouteCalls_spec {r : node} {rs : List (Str × List HandlerFunc)}
    (hb : Built r rs) (p : Str) (h : HandlersChain) :
    ∀ e ∈ addRouteCalls r p h, ∃ N h1 t pn, RootPre N e.1 h1 t pn e.2 := by
  intro e he
  unfold addRouteCalls at he
  cases hv : checkPahtValid p with
  | error x =>
    rw [hv] at he
    cases he
  | ok u =>
    rw [hv] at he
    simp only [] at he
    by_cases hh : h.isNone = true
    · rw [if_pos hh] at he
      cases he
    · rw [if_neg hh] at he
      obtain ⟨N, hN⟩ := exists_wildcard_bound (rs ++ [(p, [])])
      have hg := (hb.holds N (fun x hx => hN x (List.mem_append_left _ hx))).1
      have hcp : CpShape r [] :=
        ⟨(fun a b hab => by cases a <;> cases hab), [], [], rfl, NoWild.nil, Or.inl rfl⟩
      have hw0 : wcount [] = 0 := by simp [wcount]
      have hNp : wcount (collapse p) ≤ N := hN (p, []) (by simp)
      obtain ⟨h1, t, pn, hpre⟩ := insertCalls_spec (p.length + 1) N r [] p [] hg
        (by simpa using head_of_checkPahtValid hv) hcp (by simp [hw0])
        (by rw [hw0, Nat.zero_add]; exact hNp) e (by simpa using he)
      exact ⟨N, h1, t, pn, hpre⟩

/-- The turns of the loops of the calls of `insert` that a call of `addRoute` makes on a
tree built by registrations. -/
theorem addRouteCalls_turns {r : node} {rs : List (Str × List HandlerFunc)}
    (hb : Built r rs) (p : Str) (h : HandlersChain) :
    ∀ e ∈ addRouteCalls r p h, e.2 ≠ [] ∧ ∀ x ∈ insertTrace (e.2.length + 1) e.1 e.2,
      x.2.1 ≠ [] ∧ (x.2.2 = .adopt → x.1 = e.1 ∧ e.1 = emptyRoot) ∧
        (x.2.2 = .split → x.1.kind = .skind) ∧ (x.1.kind = .akind → x.2.2 = .exact) := by
  intro e he
  obtain ⟨N, h1, t, pn, hpre⟩ := addRouteCalls_spec hb p h e he
  exact insertTrace_root hpre _

end route


namespace route

theorem endValueOk_lit (c : Char) (rest : List Seg) (vals : List Str) :
    endValueOk (.lit c :: rest) vals = endValueOk rest vals := by
  cases vals <;> rfl

/-- A path that matches the collapsed form of a pattern gives a value that is not empty to
a `:name` parameter that ends the pattern. -/
theorem endValue_of_keyMatch : ∀ (n : Nat) (p path : Str) (vs : List Str), p.length ≤ n →
    keyMatch (segsKey (parseSegs none p)) path = some vs →
    endValueOk (parseSegs none p) vs = true := by
  intro n
  induction n with
  | zero =>
    intro p path vs hp hkm
    have : p = [] := List.length_eq_zero.mp (by omega)
    subst this
    rfl
  | succ n ih =>
    intro p path vs hp hkm
    cases p with
    | nil => rfl
    | cons c p1 =>
      simp only [List.length_cons] at hp
      by_cases hc1 : c = ':'
      · subst hc1
        rw [parseSegs_colon, parseSegs_name] at hkm ⊢
        cases hdw : p1.dropWhile (fun a => a != '/') with
        | nil =>
          rw [hdw] at hkm
          simp only [segsKey, Seg.key, List.append_nil] at hkm ⊢
          obtain ⟨hne, vs1, hk1, hvs⟩ := keyMatch_colon.mp hkm
          obtain ⟨hd, hv1⟩ := keyMatch_nil.mp hk1
          subst hv1 hvs
          have hpath : path.takeWhile (fun a => a != '/') = path := by
            have := List.takeWhile_append_dropWhile (fun a => a != '/') path
            rw [hd, List.append_nil] at this
            exact this
          rw [hpath]
          cases path with
          | nil => exact absurd rfl hne
          | cons a s => rfl
        | cons x p2 =>
          have hx : x = '/' := dropWhile_head_slash hdw
          subst hx
          rw [hdw] at hkm
          simp only [segsKey, Seg.key, List.cons_append, List.nil_append] at hkm ⊢
          obtain ⟨hne, vs1, hk1, hvs⟩ := keyMatch_colon.mp hkm
          obtain ⟨s3, hs3, hk3⟩ := (keyMatch_static (by decide) (by decide)).mp hk1
          subst hvs
          have hlen : p2.length ≤ n := by
            have := length_dropWhile_le (fun a => a != '/') p1
            rw [hdw] at this
            simp only [List.length_cons] at this
            omega
          have hv := ih p2 s3 vs1 hlen hk3
          simp only [endValueOk, endValueOk_lit, hv, List.isEmpty_cons, Bool.not_false,
            Bool.true_or, Bool.true_and, Bool.and_true]
      · by_cases hc2 : c = '*'
        · subst hc2
          rw [parseSegs_star] at hkm ⊢
          simp only [segsKey, Seg.key, List.append_nil] at hkm
          rw [keyMatch_star] at hkm
          simp only [Option.some.injEq] at hkm
          subst hkm
          rfl
        · rw [parseSegs_plain p1 hc1 hc2] at hkm ⊢
          simp only [segsKey, Seg.key, List.singleton_append] at hkm
          obtain ⟨s1, hs1, hk1⟩ := (keyMatch_static hc1 hc2).mp hkm
          rw [endValueOk_lit]
          exact ih p1 s1 vs (by omega) hk1

end route


namespace route

/-! ### The back-references of the arena -/

theorem Heap.alloc_node_ne (K : Heap) (n : HNode) (y : Nat) (h : y ≠ K.size) :
    (K.alloc n).node y = K.node y := by
  simp [Heap.alloc, h]

theorem Heap.alloc_node_new (K : Heap) (n : HNode) : (K.alloc n).node K.size = n := by
  simp [Heap.alloc]

theorem HNode.new_ok {t : route.kind} {pre : Str} {p : Option Nat} {child : List Nat}
    {mh : HandlersChain} {ppath : Str} {pnames : List Str} {pc ac : Option Nat} {n : HNode}
    (h : HNode.new t pre p child mh ppath pnames pc ac = .ok n) :
    n.parent = p ∧ n.children = child ∧ n.paramChild = pc ∧ n.anyChild = ac := by
  unfold HNode.new at h
  cases pre with
  | nil => cases h
  | cons c pre =>
    cases h
    exact ⟨rfl, rfl, rfl, rfl⟩

theorem HNode.new_leaf {t : route.kind} {pre : Str} {p : Option Nat} {mh : HandlersChain}
    {ppath : Str} {pnames : List Str} {n : HNode}
    (h : HNode.new t pre p [] mh ppath pnames none none = .ok n) :
    n.parent = p ∧ ∀ x, ¬ n.Holds x := by
  obtain ⟨h1, h2, h3, h4⟩ := HNode.new_ok h
  refine ⟨h1, ?_⟩
  intro x hx
  rcases hx with hx | hx | hx
  · rw [h2] at hx
    cases hx
  · rw [h3] at hx
    cases hx
  · rw [h4] at hx
    cases hx

theorem Heap.findChildWithLabel_holds {H : Heap} {n : Nat} {l : Char} {c : Nat}
    (h : H.findChildWithLabel n l = some c) : (H.node n).Holds c := by
  unfold Heap.findChildWithLabel at h
  split at h
  · next c1 hf =>
    cases h
    exact Or.inl (List.mem_of_find?_eq_some hf)
  · split at h
    · exact Or.inr (Or.inl h)
    · split at h
      · exact Or.inr (Or.inr h)
      · cases h

theorem Heap.setParent_holds (H : Heap) (c p y x : Nat) :
    ((H.setParent c p).node y).Holds x ↔ (H.node y).Holds x := by
  unfold Heap.setParent Heap.set HNode.Holds
  by_cases hy : y = c
  · subst hy
    simp
  · simp [hy]

theorem Heap.setParent_parent (H : Heap) (c p y : Nat) :
    ((H.setParent c p).node y).parent = if y = c then some p else (H.node y).parent := by
  unfold Heap.setParent Heap.set
  by_cases hy : y = c <;> simp [hy]

theorem Heap.setParents_size : ∀ (cs : List Nat) (H : Heap) (p : Nat),
    (H.setParents cs p).size = H.size
  | [], _, _ => rfl
  | c :: cs, H, p => by
    rw [Heap.setParents, Heap.setParents_size cs]
    rfl

theorem Heap.setParents_holds : ∀ (cs : List Nat) (H : Heap) (p y x : Nat),
    ((H.setParents cs p).node y).Holds x ↔ (H.node y).Holds x
  | [], _, _, _, _ => Iff.rfl
  | c :: cs, H, p, y, x => by
    rw [Heap.setParents, Heap.setParents_holds cs, Heap.setParent_holds]

theorem Heap.setParents_parent : ∀ (cs : List Nat) (H : Heap) (p y : Nat),
    ((H.setParents cs p).node y).parent = if y ∈ cs then some p else (H.node y).parent
  | [], _, _, _ => by simp [Heap.setParents]
  | c :: cs, H, p, y => by
    rw [Heap.setParents, Heap.setParents_parent cs, Heap.setParent_parent]
    by_cases h1 : y ∈ cs
    · simp [h1]
    · by_cases h2 : y = c
      · simp [h2]
      · simp [h1, h2]

theorem Heap.setParentOpt_size (H : Heap) (o : Option Nat) (p : Nat) :
    (H.setParentOpt o p).size = H.size := by
  cases o <;> rfl

theorem Heap.setParentOpt_holds (H : Heap) (o : Option Nat) (p y x : Nat) :
    ((H.setParentOpt o p).node y).Holds x ↔ (H.node y).Holds x := by
  cases o with
  | none => exact Iff.rfl
  | some c => exact Heap.setParent_holds H c p y x

theorem Heap.setParentOpt_parent (H : Heap) (o : Option Nat) (p y : Nat) :
    ((H.setParentOpt o p).node y).parent =
      if o = some y then some p else (H.node y).parent := by
  cases o with
  | none => simp [Heap.setParentOpt]
  | some c =>
    rw [Heap.setParentOpt, Heap.setParent_parent]
    by_cases h : y = c
    · simp [h]
    · have : ¬ c = y := fun e => h e.symm
      simp [h, this]

/-- The three re-parenting statements of the split: the references held by `c` get the
parent `p`. -/
theorem reparent_held (H : Heap) (c : HNode) (p y : Nat) (hy : c.Holds y) :
    ((((H.setParents c.children p).setParentOpt c.paramChild p).setParentOpt
      c.anyChild p).node y).parent = some p := by
  rw [Heap.setParentOpt_parent, Heap.setParentOpt_parent, Heap.setParents_parent]
  by_cases h3 : c.anyChild = some y
  · simp [h3]
  · by_cases h2 : c.paramChild = some y
    · simp [h2]
    · rcases hy with h1 | h | h
      · simp [h1]
      · exact absurd h h2
      · exact absurd h h3

theorem reparent_other (H : Heap) (c : HNode) (p y : Nat) (hy : ¬ c.Holds y) :
    ((((H.setParents c.children p).setParentOpt c.paramChild p).setParentOpt
      c.anyChild p).node y).parent = (H.node y).parent := by
  rw [Heap.setParentOpt_parent, Heap.setParentOpt_parent, Heap.setParents_parent]
  have h1 : ¬ y ∈ c.children := fun h => hy (Or.inl h)
  have h2 : ¬ c.paramChild = some y := fun h => hy (Or.inr (Or.inl h))
  have h3 : ¬ c.anyChild = some y := fun h => hy (Or.inr (Or.inr h))
  simp [h1, h2, h3]

theorem reparent_size (H : Heap) (c : HNode) (p : Nat) :
    (((H.setParents c.children p).setParentOpt c.paramChild p).setParentOpt
      c.anyChild p).size = H.size := by
  rw [Heap.setParentOpt_size, Heap.setParentOpt_size, Heap.setParents_size]

theorem reparent_holds (H : Heap) (c : HNode) (p y x : Nat) :
    ((((H.setParents c.children p).setParentOpt c.paramChild p).setParentOpt
      c.anyChild p).node y).Holds x ↔ (H.node y).Holds x := by
  rw [Heap.setParentOpt_holds, Heap.setParentOpt_holds, Heap.setParents_holds]

/-- The write of `currentNode` that ends a call of `insert`: when the references of all
other nodes are consistent, the node keeps its parent and the references it holds are
those of nodes whose parent it is, the arena is consistent. -/
theorem parentsOk_finish {K : Heap} {cur : Nat} {top : HNode} (h0 : 0 < K.size)
    (hroot : (K.node 0).parent = none)
    (hcore : ∀ m, m < K.size → m ≠ cur → ∀ x, (K.node m).Holds x →
      x < K.size ∧ (K.node x).parent = some m)
    (htp : top.parent = (K.node cur).parent)
    (hth : ∀ x, top.Holds x → x < K.size ∧ (K.node x).parent = some cur) :
    ParentsOk (K.set cur top) := by
  have hpar : ∀ y, ((K.set cur top).node y).parent = (K.node y).parent := by
    intro y
    unfold Heap.set
    by_cases hy : y = cur
    · subst hy
      simp [htp]
    · simp [hy]
  refine ⟨h0, ?_, ?_⟩
  · rw [hpar]
    exact hroot
  · intro m x hm hx
    rw [hpar]
    by_cases hmc : m = cur
    · subst hmc
      have : (K.set m top).node m = top := by simp [Heap.set]
      rw [this] at hx
      exact hth x hx
    · have : (K.set cur top).node m = K.node m := by simp [Heap.set, hmc]
      rw [this] at hx
      exact hcore m hm hmc x hx

/-- An allocation of a node that holds no reference keeps the other nodes consistent. -/
theorem core_alloc {K : Heap} {cur : Nat} {n : HNode} (h0 : 0 < K.size)
    (hroot : (K.node 0).parent = none)
    (hcore : ∀ m, m < K.size → m ≠ cur → ∀ x, (K.node m).Holds x →
      x < K.size ∧ (K.node x).parent = some m)
    (hn : ∀ x, ¬ n.Holds x) :
    0 < (K.alloc n).size ∧ ((K.alloc n).node 0).parent = none ∧
      ∀ m, m < (K.alloc n).size → m ≠ cur → ∀ x, ((K.alloc n).node m).Holds x →
        x < (K.alloc n).size ∧ ((K.alloc n).node x).parent = some m := by
  have hold : ∀ y, y < K.size → (K.alloc n).node y = K.node y := by
    intro y hy
    have : y ≠ K.size := by omega
    simp [Heap.alloc, this]
  refine ⟨Nat.succ_pos _, ?_, ?_⟩
  · rw [hold 0 h0]
    exact hroot
  · intro m hm hmc x hx
    have hm1 : m < K.size + 1 := hm
    by_cases hmn : m = K.size
    · subst hmn
      have : (K.alloc n).node K.size = n := by simp [Heap.alloc]
      rw [this] at hx
      exact absurd hx (hn x)
    · have hm2 : m < K.size := by omega
      rw [hold m hm2] at hx
      obtain ⟨h1, h2⟩ := hcore m hm2 hmc x hx
      rw [hold x h1]
      exact ⟨Nat.lt_succ_of_lt h1, h2⟩

theorem ParentsOk.core {H : Heap} (hok : ParentsOk H) (cur : Nat) :
    ∀ m, m < H.size → m ≠ cur → ∀ x, (H.node m).Holds x →
      x < H.size ∧ (H.node x).parent = some m :=
  fun m hm _ x hx => hok.2.2 m x hm hx

/-- The split, before the write of `currentNode`: the copy `n` of the node `cur` is
allocated and the references that `cur` holds are re-parented to the copy. -/
theorem split_core {H : Heap} (hok : ParentsOk H) {cur : Nat} (hcur : cur < H.size)
    {n : HNode} (hnp : n.parent = some cur) (hnc : n.children = (H.node cur).children)
    (hnpc : n.paramChild = (H.node cur).paramChild)
    (hnac : n.anyChild = (H.node cur).anyChild) (K : Heap)
    (hK : K = (((H.alloc n).setParents (H.node cur).children H.size).setParentOpt
      (H.node cur).paramChild H.size).setParentOpt (H.node cur).anyChild H.size) :
    K.size = H.size + 1 ∧ (K.node 0).parent = none ∧ (K.node H.size).parent = some cur ∧
      ∀ m, m < K.size → m ≠ cur → ∀ x, (K.node m).Holds x →
        x < K.size ∧ (K.node x).parent = some m := by
  have hsz : K.size = H.size + 1 := by
    rw [hK]
    exact reparent_size (H.alloc n) (H.node cur) H.size
  have hholds : ∀ y x, (K.node y).Holds x ↔ ((H.alloc n).node y).Holds x := by
    intro y x
    rw [hK]
    exact reparent_holds (H.alloc n) (H.node cur) H.size y x
  have hheld : ∀ y, (H.node cur).Holds y → (K.node y).parent = some H.size := by
    intro y hy
    rw [hK]
    exact reparent_held (H.alloc n) (H.node cur) H.size y hy
  have hother : ∀ y, ¬ (H.node cur).Holds y →
      (K.node y).parent = ((H.alloc n).node y).parent := by
    intro y hy
    rw [hK]
    exact reparent_other (H.alloc n) (H.node cur) H.size y hy
  have hold : ∀ y, y < H.size → (H.alloc n).node y = H.node y := by
    intro y hy
    have : y ≠ H.size := by omega
    simp [Heap.alloc, this]
  have hnew : (H.alloc n).node H.size = n := by simp [Heap.alloc]
  have hnh : ∀ x, n.Holds x ↔ (H.node cur).Holds x := by
    intro x
    unfold HNode.Holds
    rw [hnc, hnpc, hnac]
  refine ⟨hsz, ?_, ?_, ?_⟩
  · have h0 : ¬ (H.node cur).Holds 0 := by
      intro hh
      have := (hok.2.2 cur 0 hcur hh).2
      rw [hok.2.1] at this
      cases this
    rw [hother 0 h0, hold 0 hok.1]
    exact hok.2.1
  · have h0 : ¬ (H.node cur).Holds H.size := by
      intro hh
      have := (hok.2.2 cur H.size hcur hh).1
      omega
    rw [hother _ h0, hnew]
    exact hnp
  · intro m hm hmc x hx
    rw [hsz] at hm ⊢
    rw [hholds] at hx
    by_cases hmn : m = H.size
    · subst hmn
      rw [hnew, hnh] at hx
      exact ⟨Nat.lt_succ_of_lt (hok.2.2 cur x hcur hx).1, hheld x hx⟩
    · have hm2 : m < H.size := by omega
      rw [hold m hm2] at hx
      obtain ⟨h1, h2⟩ := hok.2.2 m x hm2 hx
      have hx2 : ¬ (H.node cur).Holds x := by
        intro hh
        have := (hok.2.2 cur x hcur hh).2
        rw [h2] at this
        simp only [Option.some.injEq] at this
        exact hmc this
      rw [hother x hx2, hold x h1]
      exact ⟨Nat.lt_succ_of_lt h1, h2⟩

/-- A call of the loop of `insert` that returns keeps the back-references consistent. -/
theorem Heap.insertLoop_parents (h : HandlersChain) (t : kind) (ppath : Str)
    (pnames : List Str) : ∀ (budget : Nat) (H : Heap) (cur : Nat) (search : Str) (H1 : Heap),
    ParentsOk H → cur < H.size →
    Heap.insertLoop h t ppath pnames budget H cur search = .ok H1 → ParentsOk H1 := by
  intro budget
  induction budget with
  | zero =>
    intro H cur search H1 _ _ hr
    cases hr
  | succ budget ih =>
    intro H cur search H1 hok hcur hr
    unfold Heap.insertLoop at hr
    simp only at hr
    split at hr
    · -- the node adopts the text
      split at hr
      · cases hr
      · split at hr <;>
        · cases hr
          exact parentsOk_finish hok.1 hok.2.1 (hok.core cur) rfl
            (fun x hx => hok.2.2 cur x hcur hx)
    · split at hr
      · -- split
        split at hr
        · cases hr
        · cases hr
        · next n p0 tail hn hpfx =>
          obtain ⟨hnp, hnc, hnpc, hnac⟩ := HNode.new_ok hn
          obtain ⟨ksz, kroot, kcopy, kcore⟩ :=
            split_core hok hcur hnp hnc hnpc hnac _ rfl
          have k0 : 0 < ((((H.alloc n).setParents (H.node cur).children H.size).setParentOpt
              (H.node cur).paramChild H.size).setParentOpt (H.node cur).anyChild H.size).size := by
            rw [ksz]
            exact Nat.succ_pos _
          split at hr
          · cases hr
            refine parentsOk_finish k0 kroot kcore rfl ?_
            intro x hx
            rcases hx with hx | hx | hx
            · rw [List.mem_singleton.mp hx, ksz]
              exact ⟨Nat.lt_succ_self _, kcopy⟩
            · cases hx
            · cases hx
          · split at hr
            · cases hr
            · next n2 hn2 =>
              obtain ⟨hn2p, hn2h⟩ := HNode.new_leaf hn2
              obtain ⟨a0, aroot, acore⟩ := @core_alloc _ cur n2 k0 kroot kcore hn2h
              cases hr
              have hold : ∀ y, y < H.size + 1 →
                  (((((H.alloc n).setParents (H.node cur).children H.size).setParentOpt
                    (H.node cur).paramChild H.size).setParentOpt (H.node cur).anyChild
                    H.size).alloc n2).node y =
                  ((((H.alloc n).setParents (H.node cur).children H.size).setParentOpt
                    (H.node cur).paramChild H.size).setParentOpt (H.node cur).anyChild
                    H.size).node y := by
                intro y hy
                exact Heap.alloc_node_ne _ _ _ (by rw [ksz]; omega)
              refine parentsOk_finish a0 aroot acore (by rw [hold cur (by omega)]) ?_
              intro x hx
              rcases hx with hx | hx | hx
              · simp only [List.mem_cons, List.mem_singleton, List.not_mem_nil, or_false] at hx
                rcases hx with hx | hx
                · subst hx
                  rw [hold _ (Nat.lt_succ_self _)]
                  refine ⟨?_, kcopy⟩
                  show H.size < _ + 1
                  rw [ksz]
                  omega
                · subst hx
                  refine ⟨Nat.lt_succ_self _, ?_⟩
                  rw [Heap.alloc_node_new]
                  exact hn2p
              · cases hx
              · cases hx
      · split at hr
        · split at hr
          · cases hr
          · next c0 rest hdrop =>
            split at hr
            · next ci hfc =>
              have hh := Heap.findChildWithLabel_holds hfc
              exact ih H ci (c0 :: rest) H1 hok (hok.2.2 cur ci hcur hh).1 hr
            · split at hr
              · cases hr
              · next n hn =>
                obtain ⟨hnp, hnh⟩ := HNode.new_leaf hn
                obtain ⟨a0, aroot, acore⟩ := @core_alloc H cur n hok.1 hok.2.1 (hok.core cur) hnh
                have hself : (H.alloc n).node cur = H.node cur := by
                  have : cur ≠ H.size := by omega
                  simp [Heap.alloc, this]
                have hnew : (H.alloc n).node H.size = n := by simp [Heap.alloc]
                have hold : ∀ x, (H.node cur).Holds x →
                    x < (H.alloc n).size ∧ ((H.alloc n).node x).parent = some cur := by
                  intro x hx
                  obtain ⟨h1, h2⟩ := hok.2.2 cur x hcur hx
                  have : x ≠ H.size := by omega
                  refine ⟨Nat.lt_succ_of_lt h1, ?_⟩
                  simp [Heap.alloc, this, h2]
                have hfresh : H.size < (H.alloc n).size ∧
                    ((H.alloc n).node H.size).parent = some cur := by
                  rw [hnew]
                  exact ⟨Nat.lt_succ_self _, hnp⟩
                split at hr <;>
                · cases hr
                  refine parentsOk_finish a0 aroot acore (by rw [hself]) ?_
                  intro x hx
                  rcases hx with hx | hx | hx
                  · first
                      | (rcases List.mem_append.mp hx with hx | hx
                         · exact hold x (Or.inl hx)
                         · rw [List.mem_singleton.mp hx]
                           exact hfresh)
                      | exact hold x (Or.inl hx)
                  · first
                      | (cases hx
                         exact hfresh)
                      | exact hold x (Or.inr (Or.inl hx))
                  · first
                      | (cases hx
                         exact hfresh)
                      | exact hold x (Or.inr (Or.inr hx))
        · split at hr
          · cases hr
          · split at hr
            · cases hr
              exact parentsOk_finish hok.1 hok.2.1 (hok.core cur) rfl
                (fun x hx => hok.2.2 cur x hcur hx)
            · cases hr
              exact hok

theorem Heap.insert_parents {H H1 : Heap} {path : Str} {h : HandlersChain} {t : kind}
    {ppath : Str} {pnames : List Str} (hok : ParentsOk H)
    (hr : H.insert path h t ppath pnames = .ok H1) : ParentsOk H1 :=
  Heap.insertLoop_parents h t ppath pnames _ H 0 path H1 hok hok.1 hr

/-- A call of the loop of `addRoute` that returns keeps the back-references consistent. -/
theorem Heap.addRouteLoop_parents (ppath : Str) (h : HandlersChain) :
    ∀ (budget : Nat) (H : Heap) (path : Str) (pnames : List Str) (i : Nat) (H1 : Heap),
    ParentsOk H → Heap.addRouteLoop ppath h budget H path pnames i = .ok H1 →
    ParentsOk H1 := by
  intro budget
  induction budget with
  | zero =>
    intro H path pnames i H1 _ hr
    cases hr
  | succ budget ih =>
    intro H path pnames i H1 hok hr
    unfold Heap.addRouteLoop at hr
    simp only at hr
    split at hr
    · split at hr
      · split at hr
        · cases hr
        · next H2 hi1 =>
          have hok2 := Heap.insert_parents hok hi1
          split at hr
          · exact Heap.insert_parents hok2 hr
          · split at hr
            · cases hr
            · next H3 hi2 =>
              exact ih _ _ _ _ _ (Heap.insert_parents hok2 hi2) hr
      · split at hr
        · split at hr
          · cases hr
          · next H2 hi1 =>
            exact Heap.insert_parents (Heap.insert_parents hok hi1) hr
        · exact ih _ _ _ _ _ hok hr
    · exact Heap.insert_parents hok hr

theorem Heap.addRoute_parents {H H1 : Heap} {path : Str} {h : HandlersChain}
    (hok : ParentsOk H) (hr : H.addRoute path h = .ok H1) : ParentsOk H1 := by
  unfold Heap.addRoute at hr
  split at hr
  · cases hr
  · split at hr
    · cases hr
    · exact Heap.addRouteLoop_parents _ _ _ _ _ _ _ _ hok hr

theorem parentsOk_empty : ParentsOk Heap.empty := by
  refine ⟨Nat.succ_pos _, rfl, ?_⟩
  intro n c _ hc
  rcases hc with hc | hc | hc <;> cases hc

theorem HBuilt.parentsOk {H : Heap} (hb : HBuilt H) : ParentsOk H := by
  induction hb with
  | empty => exact parentsOk_empty
  | add p h _ hr ih => exact Heap.addRoute_parents ih hr

/-! ### The budgets of the loops on the arena are never exhausted -/

theorem HNode.new_error {t : route.kind} {pre : Str} {p : Option Nat} {child : List Nat}
    {mh : HandlersChain} {ppath : Str} {pnames : List Str} {pc ac : Option Nat} {e : Panic}
    (h : HNode.new t pre p child mh ppath pnames pc ac = .error e) : e = .outOfRange := by
  unfold HNode.new at h
  cases pre with
  | nil =>
    cases h
    rfl
  | cons c pre => cases h

theorem Heap.insertLoop_budget (h : HandlersChain) (t : kind) (ppath : Str)
    (pnames : List Str) : ∀ (budget : Nat) (H : Heap) (cur : Nat) (search : Str),
    search.length < budget →
    Heap.insertLoop h t ppath pnames budget H cur search ≠ .error .outOfBudget := by
  intro budget
  induction budget with
  | zero =>
    intro H cur search hlt
    omega
  | succ budget ih =>
    intro H cur search hlt hr
    unfold Heap.insertLoop at hr
    simp only at hr
    split at hr
    · split at hr
      · cases hr
      · split at hr <;> cases hr
    · next hl0 =>
      split at hr
      · split at hr
        · next e _ hn =>
          have := HNode.new_error hn
          subst this
          cases hr
        · cases hr
        · split at hr
          · cases hr
          · split at hr
            · next e hn =>
              have := HNode.new_error hn
              subst this
              cases hr
            · cases hr
      · split at hr
        · split at hr
          · cases hr
          · next c0 rest hdrop =>
            split at hr
            · have hlen : (c0 :: rest).length < budget := by
                rw [← hdrop, List.length_drop]
                omega
              exact ih H _ (c0 :: rest) hlen hr
            · split at hr
              · next e hn =>
                have := HNode.new_error hn
                subst this
                cases hr
              · split at hr <;> cases hr
        · split at hr
          · cases hr
          · split at hr <;> cases hr

theorem Heap.insert_budget (H : Heap) (path : Str) (h : HandlersChain) (t : kind)
    (ppath : Str) (pnames : List Str) :
    H.insert path h t ppath pnames ≠ .error .outOfBudget :=
  Heap.insertLoop_budget h t ppath pnames _ H 0 path (Nat.lt_succ_self _)

theorem Heap.addRouteLoop_budget (ppath : Str) (h : HandlersChain) :
    ∀ (budget : Nat) (H : Heap) (path : Str) (pnames : List Str) (i : Nat),
    i ≤ path.length → path.length < budget + i →
    Heap.addRouteLoop ppath h budget H path pnames i ≠ .error .outOfBudget := by
  intro budget
  induction budget with
  | zero =>
    intro H path pnames i hle hlt
    omega
  | succ budget ih =>
    intro H path pnames i hle hlt hr
    unfold Heap.addRouteLoop at hr
    simp only at hr
    split at hr
    · next hi =>
      split at hr
      · split at hr
        · next e hi1 =>
          cases hr
          exact Heap.insert_budget _ _ _ _ _ _ hi1
        · next H2 hi1 =>
          split at hr
          · exact Heap.insert_budget _ _ _ _ _ _ hr
          · split at hr
            · next e hi2 =>
              cases hr
              exact Heap.insert_budget _ _ _ _ _ _ hi2
            · next hj _ H3 hi2 =>
              simp only [List.length_append, List.length_take, List.length_drop,
                skipToSlash] at hj
              refine ih _ _ _ _ ?_ ?_ hr
              · simp only [List.length_append, List.length_take, List.length_drop,
                  skipToSlash]
                omega
              · simp only [List.length_append, List.length_take, List.length_drop,
                  skipToSlash]
                omega
      · split at hr
        · split at hr
          · next e hi1 =>
            cases hr
            exact Heap.insert_budget _ _ _ _ _ _ hi1
          · exact Heap.insert_budget _ _ _ _ _ _ hr
        · exact ih _ _ _ _ (by omega) (by omega) hr
    · exact Heap.insert_budget _ _ _ _ _ _ hr

theorem checkByte_budget (path : Str) (i : Nat) (c : Char) :
    checkByte path i c ≠ .error .outOfBudget := by
  unfold checkByte
  intro h
  split_ifs at h <;> cases h

theorem checkLoop_budget (path : Str) : ∀ (rest : Str) (i : Nat),
    checkLoop path i rest ≠ .error .outOfBudget
  | [], i => by simp [checkLoop]
  | c :: rest, i => by
    intro h
    unfold checkLoop at h
    cases hb : checkByte path i c with
    | error e =>
      rw [hb] at h
      simp only [Except.error.injEq] at h
      exact checkByte_budget path i c (by rw [hb, h])
    | ok u =>
      rw [hb] at h
      exact checkLoop_budget path rest (i + 1) h

theorem checkPahtValid_budget (path : Str) : checkPahtValid path ≠ .error .outOfBudget := by
  unfold checkPahtValid
  intro h
  split_ifs at h
  · cases h
  · cases h
  · exact checkLoop_budget path path 0 h

/-- The model of `addRoute` on the arena never stops for want of budget. -/
theorem Heap.addRoute_budget (H : Heap) (path : Str) (h : HandlersChain) :
    H.addRoute path h ≠ .error .outOfBudget := by
  intro hr
  unfold Heap.addRoute at hr
  split at hr
  · next e he =>
    simp only [Except.error.injEq] at hr
    subst hr
    exact checkPahtValid_budget _ he
  · split at hr
    · cases hr
    · exact Heap.addRouteLoop_budget _ _ _ _ _ _ _ (Nat.zero_le _) (by omega) hr

end route


namespace route

/-! ### The priority of a collapsed pattern over another -/

theorem rank_colon : rank ':' = 1 := by decide

theorem rank_star : rank '*' = 2 := by decide

theorem rank_static {c : Char} (h1 : c ≠ ':') (h2 : c ≠ '*') : rank c = 0 := by
  unfold rank
  rw [if_neg h1, if_neg h2]

theorem outranks_cons_same (c : Char) (t1 t2 : Str) :
    outranks (c :: t1) (c :: t2) = outranks t1 t2 := by
  rw [outranks, if_pos rfl]

theorem outranks_cons_ne {c1 c2 : Char} (h : c1 ≠ c2) (t1 t2 : Str) :
    outranks (c1 :: t1) (c2 :: t2) = decide (rank c1 < rank c2) := by
  rw [outranks, if_neg h]

theorem outranks_self : ∀ (K : Str), outranks K K = false
  | [] => rfl
  | c :: K => by rw [outranks_cons_same, outranks_self K]

/-- What the priority of a collapsed pattern over another says. -/
theorem outranks_split : ∀ (K1 K2 : Str), outranks K1 K2 = true →
    (∃ w c1 c2 t1 t2, K1 = w ++ c1 :: t1 ∧ K2 = w ++ c2 :: t2 ∧ rank c1 < rank c2) ∨
      ∃ t, K2 = K1 ++ '*' :: t
  | [], [], h => by simp [outranks] at h
  | [], c2 :: t2, h => by
    right
    simp only [outranks, beq_iff_eq] at h
    exact ⟨t2, by rw [h]; rfl⟩
  | c1 :: t1, [], h => by simp [outranks] at h
  | c1 :: t1, c2 :: t2, h => by
    by_cases hc : c1 = c2
    · subst hc
      rw [outranks_cons_same] at h
      rcases outranks_split t1 t2 h with ⟨w, a, b, u1, u2, h1, h2, h3⟩ | ⟨t, ht⟩
      · exact Or.inl ⟨c1 :: w, a, b, u1, u2, by rw [h1]; rfl, by rw [h2]; rfl, h3⟩
      · exact Or.inr ⟨t, by rw [ht]; rfl⟩
    · rw [outranks_cons_ne hc] at h
      exact Or.inl ⟨[], c1, c2, t1, t2, rfl, rfl, by simpa using h⟩

theorem keyMatch_cons_nil {c : Char} {K : Str} {vs : List Str}
    (h : keyMatch (c :: K) [] = some vs) : c = '*' := by
  by_cases h1 : c = ':'
  · subst h1
    exact absurd rfl (keyMatch_colon.mp h).1
  · by_cases h2 : c = '*'
    · exact h2
    · obtain ⟨s1, hs, _⟩ := (keyMatch_static h1 h2).mp h
      cases hs

/-- Of two different collapsed patterns that match the same path, in each of which a `*`
is the last byte, one takes priority over the other. -/
theorem outranks_total : ∀ (K1 K2 s : Str) (v1 v2 : List Str),
    keyMatch K1 s = some v1 → keyMatch K2 s = some v2 →
    (∀ a b, K1 = a ++ '*' :: b → b = []) → (∀ a b, K2 = a ++ '*' :: b → b = []) →
    K1 ≠ K2 → outranks K1 K2 = true ∨ outranks K2 K1 = true
  | [], [], _, _, _, _, _, _, _, hne => absurd rfl hne
  | [], c2 :: t2, s, v1, v2, h1, h2, _, _, _ => by
    obtain ⟨hs, _⟩ := keyMatch_nil.mp h1
    subst hs
    have := keyMatch_cons_nil h2
    subst this
    exact Or.inl rfl
  | c1 :: t1, [], s, v1, v2, h1, h2, _, _, _ => by
    obtain ⟨hs, _⟩ := keyMatch_nil.mp h2
    subst hs
    have := keyMatch_cons_nil h1
    subst this
    exact Or.inr rfl
  | c1 :: t1, c2 :: t2, s, v1, v2, h1, h2, hl1, hl2, hne => by
    have hl1t : ∀ a b, t1 = a ++ '*' :: b → b = [] :=
      fun a b h => hl1 (c1 :: a) b (by rw [h]; rfl)
    have hl2t : ∀ a b, t2 = a ++ '*' :: b → b = [] :=
      fun a b h => hl2 (c2 :: a) b (by rw [h]; rfl)
    by_cases hc : c1 = c2
    · subst hc
      have hnet : t1 ≠ t2 := fun h => hne (by rw [h])
      rw [outranks_cons_same, outranks_cons_same]
      by_cases hc1 : c1 = ':'
      · subst hc1
        obtain ⟨_, u1, hu1, _⟩ := keyMatch_colon.mp h1
        obtain ⟨_, u2, hu2, _⟩ := keyMatch_colon.mp h2
        exact outranks_total t1 t2 _ u1 u2 hu1 hu2 hl1t hl2t hnet
      · by_cases hc2 : c1 = '*'
        · subst hc2
          have e1 := hl1 [] t1 rfl
          have e2 := hl2 [] t2 rfl
          exact absurd (e1.trans e2.symm) hnet
        · obtain ⟨s1, hs1, hu1⟩ := (keyMatch_static hc1 hc2).mp h1
          obtain ⟨s2, hs2, hu2⟩ := (keyMatch_static hc1 hc2).mp h2
          have : s1 = s2 := by
            rw [hs1] at hs2
            exact (List.cons.inj hs2).2
          subst this
          exact outranks_total t1 t2 s1 v1 v2 hu1 hu2 hl1t hl2t hnet
    · rw [outranks_cons_ne hc, outranks_cons_ne (fun h => hc h.symm)]
      rcases Nat.lt_trichotomy (rank c1) (rank c2) with hlt | heq | hgt
      · exact Or.inl (by simpa using hlt)
      · exfalso
        by_cases a1 : c1 = ':'
        · subst a1
          by_cases b2 : c2 = '*'
          · subst b2
            rw [rank_colon, rank_star] at heq
            omega
          · rw [rank_colon, rank_static (fun h => hc h.symm) b2] at heq
            omega
        · by_cases a2 : c1 = '*'
          · subst a2
            by_cases b1 : c2 = ':'
            · subst b1
              rw [rank_colon, rank_star] at heq
              omega
            · rw [rank_star, rank_static b1 (fun h => hc h.symm)] at heq
              omega
          · by_cases b1 : c2 = ':'
            · subst b1
              rw [rank_colon, rank_static a1 a2] at heq
              omega
            · by_cases b2 : c2 = '*'
              · subst b2
                rw [rank_star, rank_static a1 a2] at heq
                omega
              · obtain ⟨s1, hs1, _⟩ := (keyMatch_static a1 a2).mp h1
                obtain ⟨s2, hs2, _⟩ := (keyMatch_static b1 b2).mp h2
                rw [hs1] at hs2
                exact hc (List.cons.inj hs2).1
      · exact Or.inr (by simpa using hgt)

theorem cons_eq_append_star {c : Char} {rest a b : Str} (h : c :: rest = a ++ '*' :: b)
    (hc : c ≠ '*') : ∃ a1, a = c :: a1 ∧ rest = a1 ++ '*' :: b := by
  cases a with
  | nil =>
    simp only [List.nil_append, List.cons.injEq] at h
    exact absurd h.1 hc
  | cons x a1 =>
    simp only [List.cons_append, List.cons.injEq] at h
    exact ⟨a1, by rw [h.1], h.2⟩

/-- In the collapsed form of a pattern a `*` is the last byte. -/
theorem segsKey_star_last : ∀ (n : Nat) (p : Str), p.length ≤ n →
    ∀ a b, segsKey (parseSegs none p) = a ++ '*' :: b → b = [] := by
  intro n
  induction n with
  | zero =>
    intro p hp a b h
    have : p = [] := List.length_eq_zero.mp (by omega)
    subst this
    simp only [parseSegs, segsKey] at h
    cases a <;> cases h
  | succ n ih =>
    intro p hp a b h
    cases p with
    | nil =>
      simp only [parseSegs, segsKey] at h
      cases a <;> cases h
    | cons c p1 =>
      simp only [List.length_cons] at hp
      by_cases hc1 : c = ':'
      · subst hc1
        rw [parseSegs_colon, parseSegs_name] at h
        cases hdw : p1.dropWhile (fun a => a != '/') with
        | nil =>
          rw [hdw] at h
          simp only [segsKey, Seg.key, List.append_nil] at h
          obtain ⟨a1, _, h2⟩ := cons_eq_append_star h (by decide)
          cases a1 <;> cases h2
        | cons x p2 =>
          rw [hdw] at h
          simp only [segsKey, Seg.key, List.cons_append, List.nil_append] at h
          obtain ⟨a1, _, h2⟩ := cons_eq_append_star h (by decide)
          obtain ⟨a2, _, h3⟩ := cons_eq_append_star h2 (by decide)
          have hlen : p2.length ≤ n := by
            have := length_dropWhile_le (fun a => a != '/') p1
            rw [hdw] at this
            simp only [List.length_cons] at this
            omega
          exact ih p2 hlen a2 b h3
      · by_cases hc2 : c = '*'
        · subst hc2
          rw [parseSegs_star] at h
          simp only [segsKey, Seg.key, List.append_nil] at h
          cases a with
          | nil =>
            simp only [List.nil_append, List.cons.injEq, true_and] at h
            exact h.symm
          | cons x a1 =>
            simp only [List.cons_append, List.cons.injEq] at h
            cases a1 <;> cases h.2
        · rw [parseSegs_plain p1 hc1 hc2] at h
          simp only [segsKey, Seg.key, List.singleton_append] at h
          obtain ⟨a1, _, h2⟩ := cons_eq_append_star h hc2
          exact ih p1 (by omega) a1 b h2

theorem collapse_star_last (p : Str) : ∀ a b, collapse p = a ++ '*' :: b → b = [] :=
  segsKey_star_last p.length p (le_refl _)

/-- The exploration does not end at a route whose key goes on with a `*` after the key of
a route of the subtree that matches: the exact match comes first. -/
theorem explore_exact_first (cap N : Nat) : ∀ (n : node) (d : Nat) (s K2 : Str)
    (vs : List Str) (m : node) (K1 : Str) (vs1 : List Str) (m1 : node) (t : Str),
    Inv N d n → n.kind ≠ .akind → explore cap n d s = .hit (n.pfx ++ K2) vs m →
    At n (n.pfx ++ K1) m1 → m1.handlers.getD [] ≠ [] →
    keyMatch K1 (if n.kind = .skind then s.drop n.pfx.length else s) = some vs1 →
    K2 = K1 ++ '*' :: t → False := by
  intro n
  induction n using node.induct with
  | step k lab pre cs pp pn hs pc ac lf ihc ihp iha =>
    intro d s K2 vs m K1 vs1 m1 t hinv hk he hat1 hserve hkm hK2
    simp only [node.pfx_mk, node.kind_mk] at hat1 hkm hk he
    rw [explore_unfold] at he
    by_cases hA : k = .skind ∧ ¬ (pre.length ≤ s.length ∧ pre = s.take pre.length)
    · rw [if_pos hA] at he; cases he
    rw [if_neg hA] at he
    generalize hs1 : (if k = .skind then s.drop pre.length else s) = s1 at he hkm
    by_cases hex : s1 = [] ∧ hs.getD [] ≠ []
    · rw [if_pos hex] at he
      simp only [Found.hit.injEq] at he
      have := congrArg List.length he.1
      rw [hK2] at this
      simp at this
    rw [if_neg hex] at he
    obtain ⟨K0, hR, hK⟩ := Found.under_eq_hit he
    have hK0 : K0 = K2 := (List.append_cancel_left hK).symm
    subst hK0
    clear he hK
    simp only [exploreList_eq] at hR
    cases K1 with
    | nil =>
      have hm1 : m1 = node.mk k lab pre cs pp pn hs pc ac lf := by
        apply key_eq_pfx_unique hinv
        simpa using hat1
      obtain ⟨hs0, _⟩ := keyMatch_nil.mp hkm
      subst hm1
      exact hex ⟨hs0, by simpa using hserve⟩
    | cons c K1t =>
      have hslot1 : ∃ x, At x (c :: K1t) m1 ∧ (x ∈ cs ∨ pc = some x ∨ ac = some x) := by
        rcases hat1.cases_on_key with ⟨h0, _⟩ | ⟨x, K3, hK, hatx, hslot⟩
        · simp only [node.pfx_mk] at h0
          have := congrArg List.length h0
          simp at this
        · simp only [node.pfx_mk] at hK
          have := List.append_cancel_left hK
          subst this
          exact ⟨x, hatx, hslot⟩
      obtain ⟨x, hatx, hslot⟩ := hslot1
      have hhead := slot_head hinv hatx hslot
      simp only [node.children_mk, node.paramChild_mk, node.anyChild_mk] at hhead
      have hserve1 : m1.kind = .akind ∨ m1.handlers.getD [] ≠ [] := Or.inr hserve
      rcases Found.orElse_eq_hit hR with h1 | ⟨hAf, h1⟩
      · -- the exploration ends below a static child
        cases s1 with
        | nil => cases h1
        | cons c0 rest =>
          simp only [] at h1
          cases hf : cs.find? (fun c => c.label == c0) with
          | none => rw [hf] at h1; cases h1
          | some c' =>
            rw [hf] at h1
            simp only [] at h1
            obtain ⟨hmem, _⟩ := find?_label_eq_some hf
            have hic := hinv.child hmem
            have hkc := hinv.child_kind hmem
            obtain ⟨_, _, _, K2c, hK2c, _, _⟩ := explore_sound cap N c' d _ _ vs m hic h1
            have hlabc := hinv.child_label_noWild hmem
            have hheadc := hic.head
            cases hpc : c'.pfx with
            | nil => exact absurd hpc hic.pfx_ne_nil
            | cons a as =>
              rw [hpc] at hheadc
              simp only [List.head?_cons, Option.some.injEq] at hheadc
              have hy : c = c'.label := by
                rw [hK2, hpc] at hK2c
                simp only [List.cons_append, List.cons.injEq] at hK2c
                rw [hK2c.1, hheadc]
              have hxc : x = c' := by
                rcases hhead with ⟨hx, r, hr, _⟩ | ⟨_, r, hr⟩ | ⟨_, hr⟩
                · apply label_inj hinv hx hmem
                  simp only [List.cons.injEq] at hr
                  rw [← hr.1, hy]
                · simp only [List.cons.injEq] at hr
                  exact absurd (by rw [← hy, hr.1]) hlabc.1
                · simp only [List.cons.injEq] at hr
                  exact absurd (by rw [← hy, hr.1]) hlabc.2
              subst hxc
              obtain ⟨K1c, hK1c⟩ := hatx.prefix_key
              have hK2c1 : K2c = K1c ++ '*' :: t := by
                have e : x.pfx ++ K2c = x.pfx ++ (K1c ++ '*' :: t) := by
                  rw [← hK2c, hK2, hK1c, List.append_assoc]
                exact List.append_cancel_left e
              rw [hK1c] at hkm hatx
              obtain ⟨s2, hs2, hkm2⟩ := (keyMatch_noWild (hic.noWild hkc)).mp hkm
              rw [hK2c] at h1
              refine ihc x hmem d _ K2c vs m K1c vs1 m1 t hic
                (by rw [hkc]; decide) h1 hatx hserve ?_ hK2c1
              rw [if_pos hkc, hs2, List.drop_left]
              exact hkm2
      · have hAf1 : ∀ y, y ∈ cs → At y (c :: K1t) m1 → False := by
          intro y hy haty
          have := static_alt_ne_fail cap hinv hy haty hserve1 hkm
          simp only [node.children_mk] at this
          exact this hAf
        rcases Found.orElse_eq_hit h1 with h2 | ⟨hBf, h2⟩
        · -- the exploration ends below the param child
          cases hpcn : pc with
          | none => rw [hpcn] at h2; cases h2
          | some c' =>
            rw [hpcn] at h2 hhead
            simp only [] at h2
            by_cases hne1 : s1 ≠ []
            swap
            · rw [if_neg hne1] at h2; cases h2
            rw [if_pos hne1] at h2
            by_cases hc : d + 1 ≤ cap
            swap
            · rw [if_neg hc] at h2; cases h2
            rw [if_pos hc] at h2
            obtain ⟨vs2, h3, _⟩ := Found.capture_eq_hit h2
            have hshape := hinv.param_shape hpcn
            have hic := hinv.param hpcn
            obtain ⟨_, _, _, K2c, hK2c, _, _⟩ :=
              explore_sound cap N c' (d + 1) _ _ vs2 m hic h3
            rw [hshape.2] at hK2c
            have hy : c = ':' := by
              rw [hK2] at hK2c
              simp only [List.cons_append, List.cons.injEq] at hK2c
              exact hK2c.1
            subst hy
            have hxc : x = c' := by
              rcases hhead with ⟨hx, r, hr, hl, _⟩ | ⟨hx, _⟩ | ⟨_, hr⟩
              · simp only [List.cons.injEq] at hr
                exact absurd hr.1.symm hl
              · exact (Option.some.inj hx).symm
              · simp only [List.cons.injEq] at hr
                exact absurd hr.1 (by decide)
            subst hxc
            have hK1c : ':' :: K1t = x.pfx ++ K1t := by rw [hshape.2]; rfl
            have hK2c1 : K2c = K1t ++ '*' :: t := by
              rw [hK2] at hK2c
              simp only [List.cons_append, List.cons.injEq, true_and] at hK2c
              exact hK2c.symm
            obtain ⟨_, vs3, hkm3, _⟩ := keyMatch_colon.mp hkm
            rw [hK1c] at hatx
            have h4 : explore cap x (d + 1)
                (s1.drop (s1.takeWhile (fun a => a != '/')).length) =
                .hit (x.pfx ++ K2c) vs2 m := by
              rw [h3, hshape.2, hK2, hK2c1]; rfl
            refine ihp x hpcn (d + 1) _ K2c vs2 m K1t vs3 m1 t hic
              (by rw [hshape.1]; decide) h4 hatx hserve ?_ hK2c1
            rw [if_neg (by rw [hshape.1]; decide), drop_takeWhile_length]
            exact hkm3
        · -- the exploration ends at the catch-all child
          unfold exploreAny at h2
          cases hacn : ac with
          | none => rw [hacn] at h2; cases h2
          | some c' =>
            rw [hacn] at h2
            simp only [] at h2
            by_cases hc : d + 1 ≤ cap
            swap
            · rw [if_neg hc] at h2; cases h2
            rw [if_pos hc] at h2
            simp only [Found.hit.injEq] at h2
            have hshape := hinv.any_shape hacn
            have hK2s : (c :: K1t) ++ '*' :: t = ['*'] := by
              rw [← hK2, ← h2.1, hshape.2.1]
            have := congrArg List.length hK2s
            simp at this

/-- On a tree built by registrations, the exploration ends at the pattern `p`, registered
with a chain that is not empty, on a path that `p` matches, when no registered pattern that
matches the path takes priority over `p`. -/
theorem explore_built_first {r : node} {rs : List (Str × List HandlerFunc)} (hb : Built r rs)
    {p : Str} {h : List HandlerFunc} (hp : (p, h) ∈ rs) (hh : h ≠ []) {path : Str}
    {vals : List Str} (hkm : keyMatch (collapse p) path = some vals)
    (hprio : ∀ x ∈ rs, (keyMatch (collapse x.1) path).isSome = true →
      outranks (collapse x.1) (collapse p) = false)
    {cap : Nat} {K : Str} {vs : List Str} {m : node}
    (he : explore cap r 0 path = .hit K vs m) {x : Str × List HandlerFunc} (hx : x ∈ rs)
    (hxK : collapse x.1 = K) (hkm2 : keyMatch K path = some vs) :
    collapse x.1 = collapse p := by
  by_contra hne
  obtain ⟨N, hN⟩ := exists_wildcard_bound rs
  obtain ⟨hg, _, hmem, _, _⟩ := hb.holds N hN
  obtain ⟨m1, hat1, hm1, _⟩ := hmem (p, h) hp
  simp only [] at hat1 hm1
  have hserve : m1.handlers.getD [] ≠ [] := by rw [hm1]; simpa using hh
  rcases hg with h0 | ⟨hinv, hk, _⟩
  · subst h0
    have := (at_emptyRoot hat1).2
    subst this
    simp [emptyRoot] at hm1
  obtain ⟨K1, hK1⟩ := hat1.prefix_key
  have hKx : ∃ K2, K = r.pfx ++ K2 := by
    obtain ⟨hat, _⟩ := explore_sound cap N r 0 path K vs m hinv he
    exact hat.prefix_key
  obtain ⟨K2, hK2⟩ := hKx
  have hkm1 : keyMatch K1 (if r.kind = .skind then path.drop r.pfx.length else path) =
      some vals := by
    rw [hK1] at hkm
    obtain ⟨s1, hs1, hkm1⟩ := (keyMatch_noWild (hinv.noWild hk)).mp hkm
    rw [if_pos hk, hs1, List.drop_left]
    exact hkm1
  rcases outranks_total (collapse x.1) (collapse p) path vs vals (by rw [hxK]; exact hkm2) hkm
      (collapse_star_last x.1) (collapse_star_last p) hne with ho | ho
  · have := hprio x hx (by rw [hxK, hkm2]; rfl)
    rw [this] at ho
    cases ho
  · rcases outranks_split _ _ ho with ⟨w, c1, c2, t1, t2, hA, hB, hrank⟩ | ⟨t, ht⟩
    · rw [hxK, hK2] at hB
      obtain ⟨w1, _, hA1, hB1⟩ := common_prefix_split (hK1.symm.trans hA) hB (rank_ne hrank)
      rw [hK1] at hat1
      rw [hK2] at he
      exact explore_priority cap N r 0 path K2 vs m K1 vals m1 w1 c1 c2 t1 t2 hinv
        (by rw [hk]; decide) he hat1 (Or.inr hserve) hkm1 hA1 hB1 hrank
    · rw [hxK, hK2, hK1, List.append_assoc] at ht
      have hK2t : K2 = K1 ++ '*' :: t := List.append_cancel_left ht
      rw [hK1] at hat1
      rw [hK2] at he
      exact explore_exact_first cap N r 0 path K2 vs m K1 vals m1 t hinv
        (by rw [hk]; decide) he hat1 hserve hkm1 hK2t

end route


namespace route

/-! ### A lookup that makes no capture leaves the buffer as it is -/

/-- The tail of `find` on a buffer that no capture has re-sliced: it returns the buffer
as it is, whatever the buffer, or it does with a buffer of any length what it does with
the same backing array at the length zero. -/
theorem finish_untouched (cn : Option node) (h : HandlersChain) (tsr : Bool) :
    (∃ nv, ∀ p, finish cn h tsr p = .ok (nv, p)) ∨
      (∀ arr L r, finish cn h tsr ⟨arr, 0⟩ = .ok r → finish cn h tsr ⟨arr, L⟩ = .ok r) := by
  cases cn with
  | none => exact Or.inl ⟨_, fun p => rfl⟩
  | some n =>
    cases hn : n.pnames with
    | nil =>
      left
      refine ⟨{ handlers := h, tsr := tsr, fullPath := n.ppath }, fun p => ?_⟩
      simp only [finish, hn, assignKeys]
    | cons name names =>
      right
      intro arr L r hr
      simp only [finish, hn, assignKeys, Params.setKey] at hr
      simp at hr

/-- One step of `find` from a state in which no capture has been made: it jumps to such
a state, the same for every buffer; or it does with a buffer of any length what it does
with the same backing array at the length zero; or it ends with the tail of `find` on the
buffer as it is. -/
theorem step_untouched (unescaped : Str → Option Str) (path : Str) (l : Label) (cn : node)
    (parents : List node) (search : Str) (si : Nat) (tsr : Bool) :
    (∃ l1 cn1 parents1 search1 si1 tsr1, ∀ p,
        step unescaped false path l ⟨cn, parents, search, si, 0, p, tsr⟩ =
          .jump l1 ⟨cn1, parents1, search1, si1, 0, p, tsr1⟩) ∨
      (∀ arr L, step unescaped false path l ⟨cn, parents, search, si, 0, ⟨arr, L⟩, tsr⟩ =
        step unescaped false path l ⟨cn, parents, search, si, 0, ⟨arr, 0⟩, tsr⟩) ∨
      (∃ cn1 h1 tsr1, ∀ p,
        step unescaped false path l ⟨cn, parents, search, si, 0, p, tsr⟩ =
          .done (finish cn1 h1 tsr1 p)) := by
  cases l with
  | top =>
    simp only [step, stepTop]
    by_cases hA : cn.kind = .skind ∧
        ¬ (cn.pfx.length ≤ search.length ∧ cn.pfx = search.take cn.pfx.length)
    · simp only [if_pos hA, backtrackToNextNodeKind, if_true]
      cases hp : parents.head? with
      | none => exact Or.inr (Or.inr ⟨none, none, _, fun p => rfl⟩)
      | some c =>
        simp only []
        by_cases hk : (if cn.kind = kind.akind then kind.skind else cn.kind.succ) = .pkind
        · simp only [if_pos hk]
          exact Or.inl ⟨_, _, _, _, _, _, fun p => rfl⟩
        · simp only [if_neg hk]
          exact Or.inr (Or.inr ⟨_, _, _, fun p => rfl⟩)
    · simp only [if_neg hA]
      by_cases hex : (if cn.kind = .skind then search.drop cn.pfx.length else search) = [] ∧
          cn.handlers.getD [] ≠ []
      · simp only [if_pos hex]
        exact Or.inr (Or.inr ⟨_, _, _, fun p => rfl⟩)
      · simp only [if_neg hex]
        cases hs : (if cn.kind = .skind then search.drop cn.pfx.length else search) with
        | nil => exact Or.inl ⟨_, _, _, _, _, _, fun p => rfl⟩
        | cons c0 rest =>
          simp only []
          cases hf : findChild cn c0 with
          | none => exact Or.inl ⟨_, _, _, _, _, _, fun p => rfl⟩
          | some child => exact Or.inl ⟨_, _, _, _, _, _, fun p => rfl⟩
  | param =>
    simp only [step, stepParam]
    cases hc : cn.paramChild with
    | none => exact Or.inl ⟨_, _, _, _, _, _, fun p => rfl⟩
    | some child =>
      simp only []
      by_cases hs : search ≠ []
      · simp only [if_pos hs]
        exact Or.inr (Or.inl (fun arr L => rfl))
      · simp only [if_neg hs]
        exact Or.inl ⟨_, _, _, _, _, _, fun p => rfl⟩
  | any =>
    simp only [step, stepAny]
    cases hc : cn.anyChild with
    | some child => exact Or.inr (Or.inl (fun arr L => rfl))
    | none =>
      simp only [backtrackToNextNodeKind]
      have hne : ¬ (kind.akind = kind.skind) := by decide
      simp only [if_neg hne]
      by_cases hk : cn.kind = .skind
      · simp only [if_pos hk]
        by_cases hle : cn.pfx.length ≤ si ∧ si - cn.pfx.length ≤ path.length
        · simp only [if_pos hle]
          cases hp : parents.head? with
          | none => exact Or.inr (Or.inr ⟨none, none, _, fun p => rfl⟩)
          | some c =>
            simp only []
            by_cases hk1 : (if cn.kind = kind.akind then kind.skind else cn.kind.succ) = .pkind
            · simp only [if_pos hk1]
              exact Or.inl ⟨_, _, _, _, _, _, fun p => rfl⟩
            · simp only [if_neg hk1]
              by_cases hk2 :
                  (if cn.kind = kind.akind then kind.skind else cn.kind.succ) = .akind
              · simp only [if_pos hk2]
                exact Or.inl ⟨_, _, _, _, _, _, fun p => rfl⟩
              · simp only [if_neg hk2]
                exact Or.inr (Or.inr ⟨_, _, _, fun p => rfl⟩)
        · simp only [if_neg hle]
          exact Or.inr (Or.inl (fun _ _ => trivial))
      · simp only [if_neg hk]
        exact Or.inr (Or.inl (fun arr L => rfl))

/-- A run of the loop of `find` from a state in which no capture has been made: it returns
the buffer as it is, with the same `nodeValue` for every buffer, or it does with a buffer of
any length what it does with the same backing array at the length zero. -/
theorem findLoop_untouched (unescaped : Str → Option Str) (path : Str) :
    ∀ (b : Nat) (l : Label) (cn : node) (parents : List node) (search : Str) (si : Nat)
      (tsr : Bool),
    (∃ nv, ∀ p, findLoop unescaped false path b l ⟨cn, parents, search, si, 0, p, tsr⟩ =
        .ok (nv, p)) ∨
      (∀ arr L r,
        findLoop unescaped false path b l ⟨cn, parents, search, si, 0, ⟨arr, 0⟩, tsr⟩ = .ok r →
        findLoop unescaped false path b l ⟨cn, parents, search, si, 0, ⟨arr, L⟩, tsr⟩ = .ok r)
  | 0, _, _, _, _, _, _ => Or.inr (fun _ _ _ h => by cases h)
  | b + 1, l, cn, parents, search, si, tsr => by
    rcases step_untouched unescaped path l cn parents search si tsr with
      ⟨l1, cn1, parents1, search1, si1, tsr1, hj⟩ | hsame | ⟨cn1, h1, tsr1, hd⟩
    · rcases findLoop_untouched unescaped path b l1 cn1 parents1 search1 si1 tsr1 with
        ⟨nv, hnv⟩ | hrest
      · left
        refine ⟨nv, fun p => ?_⟩
        rw [findLoop_jump (hj p)]
        exact hnv p
      · right
        intro arr L r hr
        rw [findLoop_jump (hj _)] at hr ⊢
        exact hrest arr L r hr
    · right
      intro arr L r hr
      rw [findLoop, hsame arr L]
      rw [findLoop] at hr
      exact hr
    · rcases finish_untouched cn1 h1 tsr1 with ⟨nv, hnv⟩ | hrest
      · left
        refine ⟨nv, fun p => ?_⟩
        rw [findLoop_done (hd p)]
        exact hnv p
      · right
        intro arr L r hr
        rw [findLoop_done (hd _)] at hr ⊢
        exact hrest arr L r hr

/-- The lookup of `find` on a path either leaves every buffer as it is, with the same
`nodeValue`, or does with a buffer of any length what it does with the same backing array
at the length zero. -/
theorem find_untouched (unescaped : Str → Option Str) (r : node) (path : Str) :
    (∃ nv, ∀ p, find unescaped r path p false = .ok (nv, p)) ∨
      (∀ arr L res, find unescaped r path ⟨arr, 0⟩ false = .ok res →
        find unescaped r path ⟨arr, L⟩ false = .ok res) :=
  findLoop_untouched unescaped path (3 * r.size + 1) .top r [] path 0 false

/-- On a tree built by registrations, with two buffers that have room for the wildcards
of every registered pattern, `find` returns the same `nodeValue`, and it leaves the same
bindings in both buffers or leaves both buffers as they are. -/
theorem find_two_buffers (unescaped : Str → Option Str) {r : node}
    {rs : List (Str × List HandlerFunc)} (hb : Built r rs) (path : Str) (p1 p2 : Params)
    (hc1 : ∀ x ∈ rs, (wildcardNames x.1).length ≤ p1.arr.length)
    (hc2 : ∀ x ∈ rs, (wildcardNames x.1).length ≤ p2.arr.length) :
    ∃ nv q1 q2, find unescaped r path p1 false = .ok (nv, q1) ∧
      find unescaped r path p2 false = .ok (nv, q2) ∧
      (q1.toList = q2.toList ∨ (q1 = p1 ∧ q2 = p2)) := by
  obtain ⟨nv1, q1, hf1, hall⟩ := find_any_buffer unescaped hb path p1 hc1
  obtain ⟨nv2, q2, hf2, hall2⟩ := find_any_buffer unescaped hb path p2 hc2
  obtain ⟨a1, ha1⟩ := hall p2.arr.length hc2
  obtain ⟨a2, ha2⟩ := hall2 p2.arr.length hc2
  have e := ha1.symm.trans ha2
  simp only [Except.ok.injEq, Prod.mk.injEq] at e
  refine ⟨nv1, q1, q2, hf1, by rw [e.1]; exact hf2, ?_⟩
  rcases find_untouched unescaped r path with ⟨nv, hnv⟩ | hrest
  · right
    have h1 := (hnv p1).symm.trans hf1
    have h2 := (hnv p2).symm.trans hf2
    simp only [Except.ok.injEq, Prod.mk.injEq] at h1 h2
    exact ⟨h1.2.symm, h2.2.symm⟩
  · left
    obtain ⟨n1, z1, hz1, _⟩ := find_any_buffer unescaped hb path ⟨p1.arr, 0⟩ hc1
    obtain ⟨n2, z2, hz2, _⟩ := find_any_buffer unescaped hb path ⟨p2.arr, 0⟩ hc2
    have g1 := (hrest p1.arr p1.len _ hz1).symm.trans hf1
    have g2 := (hrest p2.arr p2.len _ hz2).symm.trans hf2
    simp only [Except.ok.injEq, Prod.mk.injEq] at g1 g2
    rw [← g1.2, ← g2.2]
    exact @find_len_bindings unescaped r rs hb path ⟨p1.arr, 0⟩ ⟨p2.arr, 0⟩
      rfl rfl hc1 hc2 _ _ _ _ hz1 hz2

end route


namespace route

/-! ## The claims -/

/-- C1, as stated, fails: with `/a/:x` and then `/a/b` registered, the path `/a/b` is
`/a/:x` with `x` replaced by `b`, and `find` returns the chain of `/a/b`, not the chain of
`/a/:x`. -/
theorem find_returns_chain_of_static_sibling :
    Built (addRoute (addRoute emptyRoot "/a/:x".toList (some [1])).tree "/a/b".toList
        (some [2])).tree [("/a/:x".toList, [1]), ("/a/b".toList, [2])] ∧
      IsInstance true "/a/:x".toList ["b".toList] "/a/b".toList ∧
      ∀ unescaped, (find unescaped
          (addRoute (addRoute emptyRoot "/a/:x".toList (some [1])).tree "/a/b".toList
            (some [2])).tree "/a/b".toList (Params.make 4) false).map
          (fun x => (x.1.handlers, x.2.toList)) = .ok (some [2], []) :=
  ⟨Built.add "/a/b".toList [2] (Built.add "/a/:x".toList [1] Built.empty rfl) rfl,
    ⟨rfl, rfl⟩, fun _ => rfl⟩

/-- C1, amended: on a tree built by successful registrations, for a pattern `p` registered
with a non-empty chain `h` and a path that is `p` with its `:name` wildcards replaced by
non-empty values without `/` and its `*name` by any value, `find` with an empty buffer
that has room for the wildcards of every registered pattern returns `h` and the values
under the names of `p`, provided that no registered pattern that matches the path takes
priority over `p` in the lookup: static text before `:` and `:` before `*` at the first
byte at which the collapsed forms differ, the pattern that ends before the pattern that
goes on with its `*`. -/
theorem find_roundtrip_by_priority {r : node} {rs : List (Str × List HandlerFunc)}
    (hb : Built r rs) {p : Str} {h : List HandlerFunc} (hp : (p, h) ∈ rs) (hh : h ≠ [])
    {vals : List Str} {path : Str} (hinst : IsInstance true p vals path) {cap : Nat}
    (hcap : ∀ x ∈ rs, (wildcardNames x.1).length ≤ cap)
    (hprio : ∀ x ∈ rs, (keyMatch (collapse x.1) path).isSome = true →
      outranks (collapse x.1) (collapse p) = false)
    (unescaped : Str → Option Str) :
    ∃ tsr fp ps, find unescaped r path (Params.make cap) false =
        .ok ({ handlers := some h, tsr := tsr, fullPath := fp }, ps) ∧
      ps.toList.map Param.Key = wildcardNames p ∧ ps.toList.map Param.Value = vals := by
  have hkm := keyMatch_of_isInstance hinst
  rcases find_built unescaped hb path cap with ⟨he, _⟩ | ⟨he, _⟩ |
    ⟨K, vs, m, x, tsr, ps2, he, hx, hxK, hat, hxh, _, hkm2, hfind, hv2, hk2⟩
  · exact absurd he (explore_built_ne_fail hb hp hh hkm cap)
  · exact absurd he (explore_built_ne_panic hb hcap path)
  · have hxp : collapse x.1 = collapse p :=
      explore_built_first hb hp hh hkm hprio he hx hxK hkm2
    obtain ⟨N, hN⟩ := exists_wildcard_bound rs
    obtain ⟨_, _, _, _, hnd⟩ := hb.holds N hN
    have hxeq : x = (p, h) := List.inj_on_of_nodup_map hnd hx hp hxp
    subst hxeq
    simp only [] at hxK hfind hk2
    rw [← hxK, hkm] at hkm2
    simp only [Option.some.injEq] at hkm2
    exact ⟨tsr, m.ppath, ps2, hfind, hk2, by rw [hv2, hkm2]⟩

theorem find_roundtrip_by_priority_witness :
    Built (addRoute (addRoute (addRoute emptyRoot "/a/b/:c".toList (some [1])).tree
        "/a/:b/c/d".toList (some [2])).tree "/a/*b".toList (some [3])).tree
        [("/a/b/:c".toList, [1]), ("/a/:b/c/d".toList, [2]), ("/a/*b".toList, [3])] ∧
      IsInstance true "/a/:b/c/d".toList ["b".toList] "/a/b/c/d".toList ∧
      keyMatch (collapse "/a/*b".toList) "/a/b/c/d".toList = some ["b/c/d".toList] ∧
      outranks (collapse "/a/*b".toList) (collapse "/a/:b/c/d".toList) = false ∧
      ∃ tsr fp ps, find (fun _ => none)
          (addRoute (addRoute (addRoute emptyRoot "/a/b/:c".toList (some [1])).tree
            "/a/:b/c/d".toList (some [2])).tree "/a/*b".toList (some [3])).tree
          "/a/b/c/d".toList (Params.make 4) false =
          .ok ({ handlers := some [2], tsr := tsr, fullPath := fp }, ps) ∧
        ps.toList.map Param.Key = wildcardNames "/a/:b/c/d".toList ∧
        ps.toList.map Param.Value = ["b".toList] :=
  ⟨Built.add "/a/*b".toList [3] (Built.add "/a/:b/c/d".toList [2]
      (Built.add "/a/b/:c".toList [1] Built.empty rfl) rfl) rfl,
    ⟨rfl, rfl⟩, rfl, rfl,
    find_roundtrip_by_priority
      (Built.add "/a/*b".toList [3] (Built.add "/a/:b/c/d".toList [2]
          (Built.add "/a/b/:c".toList [1] Built.empty rfl) rfl) rfl :
        Built (addRoute (addRoute (addRoute emptyRoot "/a/b/:c".toList (some [1])).tree
          "/a/:b/c/d".toList (some [2])).tree "/a/*b".toList (some [3])).tree
          [("/a/b/:c".toList, [1]), ("/a/:b/c/d".toList, [2]), ("/a/*b".toList, [3])])
      (List.mem_cons_of_mem _ (List.mem_cons_self _ _)) (by decide)
      (⟨rfl, rfl⟩ : IsInstance true "/a/:b/c/d".toList ["b".toList] "/a/b/c/d".toList)
      (by decide) (by decide) (fun _ => none)⟩

/-- C2 (evaluation of the code): after `addRoute("/cmd/:tool/:sub", h)` the lookup of
`/cmd/test/3` returns the chain `h` with both parameters bound, and the `fullPath` it
returns is the empty string, not the registered pattern: the insert that installs the
handlers of a pattern ending in `:name` is passed `nilString` for `ppath`. -/
theorem find_fullPath_of_param_route_is_empty :
    ∃ r, addRoute emptyRoot "/cmd/:tool/:sub".toList (some [1]) = .ok r ∧
      ∀ unescaped, (find unescaped r "/cmd/test/3".toList (Params.make 20) false).map
          (fun x => (x.1, x.2.toList)) =
        .ok ({ handlers := some [1], tsr := false, fullPath := [] },
          [⟨"tool".toList, "test".toList⟩, ⟨"sub".toList, "3".toList⟩]) :=
  ⟨_, rfl, fun _ => rfl⟩

/-- C3: on a tree built by successful registrations, when a pattern `p1` registered with
a non-empty chain matches the path (values of `:name` not empty and without `/`) and, at
the first byte at which the collapsed forms of `p1` and `p2` differ, `p1` has the higher
priority (static text before `:`, `:` before `*`), `find` with an empty buffer that has
room for the wildcards of every registered pattern returns the chain of a registered
pattern other than `p2`; and a wildcard-free pattern registered with a non-empty chain,
looked up verbatim, gets its own chain, whatever the capacity. -/
theorem find_priority {r : node} {rs : List (Str × List HandlerFunc)} (hb : Built r rs)
    (unescaped : Str → Option Str) (cap : Nat) :
    (∀ (p1 p2 : Str) (h1 : List HandlerFunc) (vals1 : List Str) (path w : Str) (c1 c2 : Char)
        (t1 t2 : Str), (p1, h1) ∈ rs → h1 ≠ [] → IsInstance true p1 vals1 path →
        collapse p1 = w ++ c1 :: t1 → collapse p2 = w ++ c2 :: t2 → rank c1 < rank c2 →
        (∀ x ∈ rs, (wildcardNames x.1).length ≤ cap) →
        ∃ q hq tsr fp ps, (q, hq) ∈ rs ∧ collapse q ≠ collapse p2 ∧
          find unescaped r path (Params.make cap) false =
            .ok ({ handlers := some hq, tsr := tsr, fullPath := fp }, ps)) ∧
      (∀ (p : Str) (h : List HandlerFunc), (p, h) ∈ rs → h ≠ [] → NoWild p →
        ∃ tsr fp ps, find unescaped r p (Params.make cap) false =
          .ok ({ handlers := some h, tsr := tsr, fullPath := fp }, ps)) := by
  obtain ⟨N, hN⟩ := exists_wildcard_bound rs
  obtain ⟨hg, _, hmem, _, _⟩ := hb.holds N hN
  constructor
  · intro p1 p2 h1 vals1 path w c1 c2 t1 t2 hp1 hh1 hinst hk1 hk2 hrank hcap
    have hkm := keyMatch_of_isInstance hinst
    rcases find_built unescaped hb path cap with ⟨he, _⟩ | ⟨he, _⟩ |
      ⟨K, vs, m, x, tsr, ps2, he, hx, hxK, hat, hxh, _, hkm2, hfind, hv2, hk2x⟩
    · exact absurd he (explore_built_ne_fail hb hp1 hh1 hkm cap)
    · exact absurd he (explore_built_ne_panic hb hcap path)
    · refine ⟨x.1, x.2, tsr, m.ppath, ps2, hx, ?_, hfind⟩
      intro hcol
      obtain ⟨m1, hat1, hm1, _⟩ := hmem (p1, h1) hp1
      simp only [] at hat1 hm1
      rcases hg with h0 | ⟨hinv, hk, _⟩
      · subst h0
        have := (at_emptyRoot hat1).2
        subst this
        simp [emptyRoot] at hm1
      · obtain ⟨K1, hK1⟩ := hat1.prefix_key
        obtain ⟨K2, hK2⟩ := hat.prefix_key
        have hKp2 : collapse p2 = r.pfx ++ K2 := by rw [← hcol, hxK, hK2]
        obtain ⟨w1, _, hA1, hB1⟩ := common_prefix_split (hK1.symm.trans hk1)
          (hKp2.symm.trans hk2) (rank_ne hrank)
        rw [hK1] at hkm hat1
        obtain ⟨s1, hs1, hkm1⟩ := (keyMatch_noWild (hinv.noWild hk)).mp hkm
        rw [hK2] at he
        refine explore_priority cap N r 0 path K2 vs m K1 vals1 m1 w1 c1 c2 t1 t2 hinv
          (by rw [hk]; decide) he hat1 (Or.inr (by rw [hm1]; simpa using hh1)) ?_ hA1 hB1 hrank
        rw [if_pos hk, hs1, List.drop_left]
        exact hkm1
  · intro p h hp hh hnw
    obtain ⟨m, he, hm⟩ := explore_built_static hb hp hh hnw cap
    rcases find_built unescaped hb p cap with ⟨he1, _⟩ | ⟨he1, _⟩ |
      ⟨K, vs, m2, x, tsr, ps2, he1, hx, hxK, hat, hxh, _, hkm2, hfind, hv2, hk2x⟩
    · rw [he] at he1; cases he1
    · rw [he] at he1; cases he1
    · rw [he] at he1
      simp only [Found.hit.injEq] at he1
      obtain ⟨_, _, hmm⟩ := he1
      subst hmm
      rw [hm] at hxh
      simp only [Option.some.injEq] at hxh
      rw [← hxh] at hfind
      exact ⟨tsr, m.ppath, ps2, hfind⟩

theorem find_priority_witness :
    Built (addRoute (addRoute emptyRoot "/a/:x".toList (some [1])).tree "/a/b".toList
        (some [2])).tree [("/a/:x".toList, [1]), ("/a/b".toList, [2])] ∧
      IsInstance true "/a/b".toList [] "/a/b".toList ∧
      IsInstance true "/a/:x".toList ["b".toList] "/a/b".toList ∧
      collapse "/a/b".toList = "/a/".toList ++ 'b' :: [] ∧
      collapse "/a/:x".toList = "/a/".toList ++ ':' :: [] ∧ rank 'b' < rank ':' ∧
      (∃ q hq tsr fp ps,
        (q, hq) ∈ [("/a/:x".toList, [1]), ("/a/b".toList, ([2] : List HandlerFunc))] ∧
        collapse q ≠ collapse "/a/:x".toList ∧
        find (fun _ => none)
            (addRoute (addRoute emptyRoot "/a/:x".toList (some [1])).tree "/a/b".toList
              (some [2])).tree "/a/b".toList (Params.make 4) false =
          .ok ({ handlers := some hq, tsr := tsr, fullPath := fp }, ps)) ∧
      ∃ tsr fp ps, find (fun _ => none)
          (addRoute (addRoute emptyRoot "/a/:x".toList (some [1])).tree "/a/b".toList
            (some [2])).tree "/a/b".toList (Params.make 4) false =
        .ok ({ handlers := some [2], tsr := tsr, fullPath := fp }, ps) :=
  ⟨Built.add "/a/b".toList [2] (Built.add "/a/:x".toList [1] Built.empty rfl) rfl,
    ⟨rfl, rfl⟩, ⟨rfl, rfl⟩, rfl, rfl, by decide,
    (find_priority
      (Built.add "/a/b".toList [2] (Built.add "/a/:x".toList [1] Built.empty rfl) rfl :
        Built (addRoute (addRoute emptyRoot "/a/:x".toList (some [1])).tree "/a/b".toList
          (some [2])).tree [("/a/:x".toList, [1]), ("/a/b".toList, [2])])
      (fun _ => none) 4).1 "/a/b".toList "/a/:x".toList [2] [] "/a/b".toList "/a/".toList
      'b' ':' [] [] (List.mem_cons_of_mem _ (List.mem_singleton.mpr rfl)) (by decide)
      ⟨rfl, rfl⟩ rfl rfl (by decide) (by decide),
    (find_priority
      (Built.add "/a/b".toList [2] (Built.add "/a/:x".toList [1] Built.empty rfl) rfl :
        Built (addRoute (addRoute emptyRoot "/a/:x".toList (some [1])).tree "/a/b".toList
          (some [2])).tree [("/a/:x".toList, [1]), ("/a/b".toList, [2])])
      (fun _ => none) 4).2 "/a/b".toList [2]
      (List.mem_cons_of_mem _ (List.mem_singleton.mpr rfl)) (by decide)
      (by unfold NoWild; decide)⟩

/-- C4: when `find`, on a tree built by successful registrations and with an empty buffer,
returns a chain that is not nil, this chain was registered under a pattern `p` that has as
many wildcards as values are returned, replacing the wildcards of `p` from left to right by
the returned values gives the path, and the keys returned are the wildcard names of `p`;
hence a path that no registered pattern gives by a replacement of its wildcards gets no
handlers. -/
theorem find_sound {r : node} {rs : List (Str × List HandlerFunc)} (hb : Built r rs)
    (unescaped : Str → Option Str) (path : Str) (cap : Nat) {nv : nodeValue} {ps : Params}
    (hfind : find unescaped r path (Params.make cap) false = .ok (nv, ps)) :
    (∀ h, nv.handlers = some h →
        ∃ p, (p, h) ∈ rs ∧ (wildcardNames p).length = ps.toList.length ∧
          instantiate p (ps.toList.map Param.Value) = some path ∧
          ps.toList.map Param.Key = wildcardNames p) ∧
      ((∀ x ∈ rs, ∀ vs, instantiate x.1 vs ≠ some path) → nv.handlers = none) := by
  rcases find_built unescaped hb path cap with ⟨_, tsr, ps1, hf⟩ | ⟨_, hf⟩ |
    ⟨K, vs, m, x, tsr, ps2, he, hx, hxK, hat, hxh, _, hkm2, hf, hv2, hk2⟩
  · rw [hf] at hfind
    simp only [Except.ok.injEq, Prod.mk.injEq] at hfind
    obtain ⟨h1, _⟩ := hfind
    subst h1
    exact ⟨(fun h hh => by cases hh), fun _ => rfl⟩
  · rw [hf] at hfind
    cases hfind
  · rw [hf] at hfind
    simp only [Except.ok.injEq, Prod.mk.injEq] at hfind
    obtain ⟨h1, h2⟩ := hfind
    subst h1 h2
    have hinst := isInstance_of_keyMatch (by rw [hxK]; exact hkm2 : keyMatch (collapse x.1) path = some vs)
    constructor
    · intro h hh
      simp only [Option.some.injEq] at hh
      subst hh
      refine ⟨x.1, hx, ?_, by rw [hv2]; exact hinst.1, hk2⟩
      have := instantiateSegs_length _ _ _ hinst.1
      rw [← hv2] at this
      simpa [wildcardNames, parsePattern] using this
    · intro hno
      exact absurd hinst.1 (hno x hx vs)

theorem find_sound_witness :
    Built (addRoute emptyRoot "/a/:x".toList (some [1])).tree [("/a/:x".toList, [1])] ∧
      find (fun _ => none) (addRoute emptyRoot "/a/:x".toList (some [1])).tree "/a/v".toList
          (Params.make 1) false =
        .ok ({ handlers := some [1], tsr := false, fullPath := [] },
          { arr := [⟨"x".toList, "v".toList⟩], len := 1 }) ∧
      ∃ p, (p, [1]) ∈ [("/a/:x".toList, ([1] : List HandlerFunc))] ∧
        (wildcardNames p).length =
          (Params.toList { arr := [⟨"x".toList, "v".toList⟩], len := 1 }).length ∧
        instantiate p
            ((Params.toList { arr := [⟨"x".toList, "v".toList⟩], len := 1 }).map Param.Value) =
          some "/a/v".toList ∧
        (Params.toList { arr := [⟨"x".toList, "v".toList⟩], len := 1 }).map Param.Key =
          wildcardNames p :=
  ⟨Built.add "/a/:x".toList [1] Built.empty rfl, rfl,
    (find_sound
      (Built.add "/a/:x".toList [1] Built.empty rfl :
        Built (addRoute emptyRoot "/a/:x".toList (some [1])).tree [("/a/:x".toList, [1])])
      (fun _ => none) "/a/v".toList 1
      (rfl : find (fun _ => none) (addRoute emptyRoot "/a/:x".toList (some [1])).tree
          "/a/v".toList (Params.make 1) false =
        .ok ({ handlers := some [1], tsr := false, fullPath := [] },
          { arr := [⟨"x".toList, "v".toList⟩], len := 1 }))).1 [1] rfl⟩

/-- C5: on a tree built by successful registrations of non-empty chains, for every
path that is a registered pattern with its `:name` wildcards replaced by non-empty
values without `/` and its `*name` by any value, `find` with an empty buffer that has room
for the wildcards of every registered pattern returns the non-empty chain of a registered
pattern of which the path is an instance, also when the match is only reached by
backtracking to a param or catch-all alternative. -/
theorem find_complete {r : node} {rs : List (Str × List HandlerFunc)} (hb : Built r rs)
    (hne : ∀ x ∈ rs, x.2 ≠ []) {cap : Nat}
    (hcap : ∀ x ∈ rs, (wildcardNames x.1).length ≤ cap)
    {p : Str} {h : List HandlerFunc} (hp : (p, h) ∈ rs) {vals : List Str} {path : Str}
    (hinst : IsInstance true p vals path) (unescaped : Str → Option Str) :
    ∃ q hq tsr fp ps, (q, hq) ∈ rs ∧ hq ≠ [] ∧
      find unescaped r path (Params.make cap) false =
        .ok ({ handlers := some hq, tsr := tsr, fullPath := fp }, ps) ∧
      IsInstance false q (ps.toList.map Param.Value) path := by
  have hkm := keyMatch_of_isInstance hinst
  rcases find_built unescaped hb path cap with ⟨he, _⟩ | ⟨he, _⟩ |
    ⟨K, vs, m, x, tsr, ps2, he, hx, hxK, hat, hxh, _, hkm2, hfind, hv2, hk2⟩
  · exact absurd he (explore_built_ne_fail hb hp (hne _ hp) hkm cap)
  · exact absurd he (explore_built_ne_panic hb hcap path)
  · refine ⟨x.1, x.2, tsr, m.ppath, ps2, hx, hne x hx, hfind, ?_⟩
    rw [hv2]
    exact isInstance_of_keyMatch (by rw [hxK]; exact hkm2)

theorem find_complete_witness :
    Built (addRoute (addRoute (addRoute emptyRoot "/a/b/:c".toList (some [1])).tree
        "/a/:b/c/d".toList (some [2])).tree "/a/*b".toList (some [3])).tree
        [("/a/b/:c".toList, [1]), ("/a/:b/c/d".toList, [2]), ("/a/*b".toList, [3])] ∧
      IsInstance true "/a/*b".toList ["b/c/d".toList] "/a/b/c/d".toList ∧
      ∃ q hq tsr fp ps,
        (q, hq) ∈ [("/a/b/:c".toList, [1]), ("/a/:b/c/d".toList, [2]),
          ("/a/*b".toList, ([3] : List HandlerFunc))] ∧ hq ≠ [] ∧
        find (fun _ => none)
            (addRoute (addRoute (addRoute emptyRoot "/a/b/:c".toList (some [1])).tree
              "/a/:b/c/d".toList (some [2])).tree "/a/*b".toList (some [3])).tree
            "/a/b/c/d".toList (Params.make 4) false =
          .ok ({ handlers := some hq, tsr := tsr, fullPath := fp }, ps) ∧
        IsInstance false q (ps.toList.map Param.Value) "/a/b/c/d".toList :=
  ⟨Built.add "/a/*b".toList [3] (Built.add "/a/:b/c/d".toList [2]
      (Built.add "/a/b/:c".toList [1] Built.empty rfl) rfl) rfl,
    ⟨rfl, rfl⟩,
    find_complete
      (Built.add "/a/*b".toList [3] (Built.add "/a/:b/c/d".toList [2]
          (Built.add "/a/b/:c".toList [1] Built.empty rfl) rfl) rfl :
        Built (addRoute (addRoute (addRoute emptyRoot "/a/b/:c".toList (some [1])).tree
          "/a/:b/c/d".toList (some [2])).tree "/a/*b".toList (some [3])).tree
          [("/a/b/:c".toList, [1]), ("/a/:b/c/d".toList, [2]), ("/a/*b".toList, [3])])
      (by decide) (by decide)
      (List.mem_cons_of_mem _ (List.mem_cons_of_mem _ (List.mem_singleton.mpr rfl)))
      (⟨rfl, rfl⟩ : IsInstance true "/a/*b".toList ["b/c/d".toList] "/a/b/c/d".toList)
      (fun _ => none)⟩

/-- C6: a pattern that a tree built by successful registrations holds is rejected when
it is registered again, whatever non-nil chain is given: `addRoute` raises the panic of
`insert` for handlers that are already registered, and the tree stays as it was. -/
theorem addRoute_rejects_duplicate {r : node} {rs : List (Str × List HandlerFunc)}
    (hb : Built r rs) {p : Str} {h : List HandlerFunc} (hp : (p, h) ∈ rs)
    (h2 : List HandlerFunc) :
    ∃ X, addRoute r p (some h2) = .panicked (.duplicate X) r := by
  obtain ⟨N, hN⟩ := exists_wildcard_bound rs
  obtain ⟨hg, hval, hmem, _, _⟩ := hb.holds N hN
  rcases addRoute_spec h2 hg (hval _ hp) (hN _ hp) with ⟨_, X, he⟩ | ⟨hno, _⟩
  · exact ⟨X, he⟩
  · obtain ⟨m, hat, hm, _⟩ := hmem _ hp
    exact absurd ⟨m, hat, by rw [hm]; rfl⟩ hno

theorem addRoute_rejects_duplicate_witness :
    Built (addRoute emptyRoot "/a/:b".toList (some [1])).tree [("/a/:b".toList, [1])] ∧
      ("/a/:b".toList, [1]) ∈ [("/a/:b".toList, [1])] ∧
      ∃ X, addRoute (addRoute emptyRoot "/a/:b".toList (some [1])).tree "/a/:b".toList
          (some [2]) =
        .panicked (.duplicate X) (addRoute emptyRoot "/a/:b".toList (some [1])).tree :=
  ⟨Built.add _ _ Built.empty rfl, List.mem_singleton.mpr rfl,
    addRoute_rejects_duplicate
      (Built.add "/a/:b".toList [1] Built.empty rfl :
        Built (addRoute emptyRoot "/a/:b".toList (some [1])).tree [("/a/:b".toList, [1])])
      (List.mem_singleton.mpr rfl) [2]⟩

/-- C7: when `addRoute` on a tree built by successful registrations panics because the
handlers are already registered, the tree that the panic leaves is the tree before the
call, although the inserts of the intermediate segments have run; so every lookup returns
what it returned before. -/
theorem addRoute_duplicate_leaves_tree {r r1 : node} {rs : List (Str × List HandlerFunc)}
    (hb : Built r rs) {p X : Str} {h : HandlersChain}
    (hdup : addRoute r p h = .panicked (.duplicate X) r1) :
    r1 = r ∧ ∀ unescaped path ps unescape,
      find unescaped r1 path ps unescape = find unescaped r path ps unescape := by
  obtain ⟨N, hN⟩ := exists_wildcard_bound rs
  obtain ⟨hg, _⟩ := hb.holds (N + wcount (collapse p))
    (fun x hx => Nat.le_trans (hN x hx) (Nat.le_add_right _ _))
  have h1 := (addRoute_duplicate_tree hg (Nat.le_add_left _ _) hdup).1
  subst h1
  exact ⟨rfl, fun _ _ _ _ => rfl⟩

theorem addRoute_duplicate_leaves_tree_witness :
    Built (addRoute emptyRoot "/a/:b/c".toList (some [1])).tree [("/a/:b/c".toList, [1])] ∧
      addRoute (addRoute emptyRoot "/a/:b/c".toList (some [1])).tree "/a/:x/c".toList
          (some [2]) =
        .panicked (.duplicate "/a/:x/c".toList)
          (addRoute emptyRoot "/a/:b/c".toList (some [1])).tree ∧
      ((addRoute emptyRoot "/a/:b/c".toList (some [1])).tree =
          (addRoute emptyRoot "/a/:b/c".toList (some [1])).tree ∧
        ∀ unescaped path ps unescape,
          find unescaped (addRoute emptyRoot "/a/:b/c".toList (some [1])).tree path ps
              unescape =
            find unescaped (addRoute emptyRoot "/a/:b/c".toList (some [1])).tree path ps
              unescape) :=
  ⟨Built.add _ _ Built.empty rfl, rfl,
    addRoute_duplicate_leaves_tree
      (Built.add "/a/:b/c".toList [1] Built.empty rfl :
        Built (addRoute emptyRoot "/a/:b/c".toList (some [1])).tree
          [("/a/:b/c".toList, [1])])
      (rfl : addRoute (addRoute emptyRoot "/a/:b/c".toList (some [1])).tree
          "/a/:x/c".toList (some [2]) =
        .panicked (.duplicate "/a/:x/c".toList)
          (addRoute emptyRoot "/a/:b/c".toList (some [1])).tree)⟩

/-- A registration whose pattern is empty, does not start with `/` or is rejected by
`checkPahtValid`, or whose handler chain is nil, panics in the validation and leaves the
tree as it was, through `RadixTree.addRoute` and through `Engine.addRoute`. -/
theorem addRoute_validation_failure_leaves_tree (r : node) (path : Str) (h : HandlersChain)
    (hbad : path = [] ∨ path.head? ≠ some '/' ∨ (∃ e, checkPahtValid path = .error e) ∨
      h = none) :
    (∃ e, addRoute r path h = .panicked e r ∧
        (e = .noHandler ∨ checkPahtValid path = .error e)) ∧
      (∃ e, Engine.addRoute r path h = .panicked e r) := by
  have hcore : (∃ e, checkPahtValid path = .error e) ∨
      (checkPahtValid path = .ok () ∧ h = none) := by
    rcases hbad with h1 | h2 | h3 | h4
    · exact Or.inl ⟨.emptyPath, by simp [checkPahtValid, h1]⟩
    · by_cases h1 : path = []
      · exact Or.inl ⟨.emptyPath, by simp [checkPahtValid, h1]⟩
      · exact Or.inl ⟨.noLeadingSlash, by simp [checkPahtValid, h1, h2]⟩
    · exact Or.inl h3
    · cases hc : checkPahtValid path with
      | error e => exact Or.inl ⟨e, rfl⟩
      | ok u => exact Or.inr ⟨rfl, h4⟩
  have htree : ∃ e, addRoute r path h = .panicked e r ∧
      (e = .noHandler ∨ checkPahtValid path = .error e) := by
    rcases hcore with ⟨e, he⟩ | ⟨hok, hn⟩
    · exact ⟨e, addRoute_of_checkPahtValid_error r path h e he, Or.inr he⟩
    · exact ⟨.noHandler, by simp [addRoute, hok, hn], Or.inl rfl⟩
  refine ⟨htree, ?_⟩
  unfold Engine.addRoute
  by_cases h1 : path.length = 0
  · exact ⟨_, by rw [if_pos h1]⟩
  · rw [if_neg h1]
    by_cases h2 : path.head? ≠ some '/'
    · exact ⟨_, by rw [if_pos h2]⟩
    · rw [if_neg h2]
      by_cases h3 : ¬ 0 < (h.getD []).length
      · exact ⟨_, by rw [if_pos h3]⟩
      · rw [if_neg h3]
        obtain ⟨e, he, _⟩ := htree
        exact ⟨e, he⟩

/-- C8 (the code at the failing input): the pattern `/*a:b` has the two wildcard markers
`*` and `:` in one segment, against the rule of at most one marker between two `/`; the
registration does not fail on it, neither through `RadixTree.addRoute` nor through
`Engine.addRoute`: both return the tree with the route installed under the catch-all
child of the root, and on this tree `find` answers `/x` with the chain of the route and
binds `a:b` to `x`. -/
theorem addRoute_installs_two_marker_pattern :
    addRoute emptyRoot "/*a:b".toList (some [1]) =
        .ok (.mk .skind '/' ['/'] [] [] [] none none
          (some (.mk .akind '*' ['*'] [] "/*a:b".toList ["a:b".toList] (some [1]) none none
            true)) false) ∧
      Engine.addRoute emptyRoot "/*a:b".toList (some [1]) =
        addRoute emptyRoot "/*a:b".toList (some [1]) ∧
      emptyRoot.anyChild = none ∧
      find (fun _ => none) (addRoute emptyRoot "/*a:b".toList (some [1])).tree "/x".toList
          (Params.make 1) false =
        .ok ({ handlers := some [1], tsr := false, fullPath := "/*a:b".toList },
          { arr := [⟨"a:b".toList, "x".toList⟩], len := 1 }) :=
  ⟨rfl, rfl, rfl, rfl⟩

/-- C9 (evaluation of the code): the pattern `/*a:b` has the two wildcard markers `*` and
`:` in one segment; `checkPahtValid` accepts it and `addRoute` registers it on the empty
tree (as a catch-all named `a:b`). -/
theorem checkPahtValid_accepts_star_then_colon :
    checkPahtValid "/*a:b".toList = .ok () ∧
      ∃ r, addRoute emptyRoot "/*a:b".toList (some [1]) = .ok r :=
  ⟨rfl, _, rfl⟩

/-- C10: a pattern in which a `:` is followed by `/` or is the last byte, or whose last
byte is `*`, makes `addRoute` panic, whatever the tree and the handlers; the tree is left
as it was. -/
theorem addRoute_rejects_empty_wildcard_name (r : node) (path : Str) (h : HandlersChain)
    (hw : (∃ i, path.get? i = some ':' ∧
        (path.get? (i + 1) = some '/' ∨ i + 1 = path.length)) ∨
      path.getLast? = some '*') :
    ∃ e, addRoute r path h = .panicked e r := by
  have hbyte : ∃ i c e, path.get? i = some c ∧ checkByte path i c = .error e := by
    rcases hw with ⟨i, hi, hnext⟩ | hlast
    · refine ⟨i, ':', .emptyWildcardName, hi, ?_⟩
      have hlt : i < path.length := by
        by_contra hge
        rw [List.get?_eq_none.mpr (by omega)] at hi
        exact Option.noConfusion hi
      have hcond : (i < path.length - 1 ∧ path.get? (i + 1) = some '/') ∨
          i = path.length - 1 := by
        rcases hnext with hs | he
        · left
          refine ⟨?_, hs⟩
          by_contra hge
          rw [List.get?_eq_none.mpr (by omega)] at hs
          exact Option.noConfusion hs
        · right; omega
      simp only [checkByte, if_true, if_pos hcond]
    · have hne : path ≠ [] := by
        intro h0; rw [h0] at hlast; simp at hlast
      have hlen : 0 < path.length := List.length_pos.mpr hne
      refine ⟨path.length - 1, '*', .emptyWildcardName, ?_, ?_⟩
      · rw [List.getLast?_eq_getElem?] at hlast
        simpa using hlast
      · have h1 : ('*' : Char) ≠ ':' := by decide
        simp [checkByte, h1]
  obtain ⟨i, c, e, hget, hb⟩ := hbyte
  obtain ⟨e1, he1⟩ := checkPahtValid_error_of_checkByte path i c e hget hb
  exact ⟨e1, addRoute_of_checkPahtValid_error r path h e1 he1⟩

theorem addRoute_rejects_empty_wildcard_name_witness :
    ((∃ i, "/user:/".toList.get? i = some ':' ∧
        ("/user:/".toList.get? (i + 1) = some '/' ∨ i + 1 = "/user:/".toList.length)) ∨
      "/user:/".toList.getLast? = some '*') ∧
      ∃ e, addRoute emptyRoot "/user:/".toList (some [1]) = .panicked e emptyRoot :=
  ⟨Or.inl ⟨5, rfl, Or.inl rfl⟩,
    addRoute_rejects_empty_wildcard_name emptyRoot "/user:/".toList (some [1])
      (Or.inl ⟨5, rfl, Or.inl rfl⟩)⟩

end route


namespace route

/-! ## The claims on validation, the redirect hint and the parameters -/

/-- C11: a pattern in which a `*` is the first byte or follows a byte other than `/`, or
in which a `/` occurs after a `*`, is rejected by `checkPahtValid`, and `addRoute` panics
on it, whatever the tree and the handlers, leaving the tree as it was; so in a pattern
that is accepted every `*` follows a `/` and no `/` follows it. -/
theorem addRoute_rejects_misplaced_catch_all (r : node) (path : Str) (h : HandlersChain)
    (hw : ∃ i, path.get? i = some '*' ∧
      ((i = 0 ∨ path.get? (i - 1) ≠ some '/') ∨ ∃ j, i < j ∧ path.get? j = some '/')) :
    ∃ e, checkPahtValid path = .error e ∧ addRoute r path h = .panicked e r := by
  have hbad : ∃ e, checkPahtValid path = .error e := by
    obtain ⟨i, hi, hcase⟩ := hw
    by_cases h0 : i = 0
    · subst h0
      cases path with
      | nil => exact ⟨.emptyPath, rfl⟩
      | cons c rest =>
        simp only [List.get?_cons_zero, Option.some.injEq] at hi
        subst hi
        exact ⟨.noLeadingSlash, rfl⟩
    · have hcase1 : (0 < i ∧ path.get? (i - 1) ≠ some '/') ∨
          ∃ j, i < j ∧ path.get? j = some '/' := by
        rcases hcase with (h1 | h1) | h1
        · exact absurd h1 h0
        · exact Or.inl ⟨by omega, h1⟩
        · exact Or.inr h1
      obtain ⟨e, he⟩ := checkByte_star_misplaced path i hcase1
      exact checkPahtValid_error_of_checkByte path i '*' e hi he
  obtain ⟨e, he⟩ := hbad
  exact ⟨e, he, addRoute_of_checkPahtValid_error r path h e he⟩

theorem addRoute_rejects_misplaced_catch_all_witness :
    (∃ i, "/a/*b/c".toList.get? i = some '*' ∧
      ((i = 0 ∨ "/a/*b/c".toList.get? (i - 1) ≠ some '/') ∨
        ∃ j, i < j ∧ "/a/*b/c".toList.get? j = some '/')) ∧
      ∃ e, checkPahtValid "/a/*b/c".toList = .error e ∧
        addRoute emptyRoot "/a/*b/c".toList (some [1]) = .panicked e emptyRoot :=
  ⟨⟨3, rfl, Or.inr ⟨5, by decide, rfl⟩⟩,
    addRoute_rejects_misplaced_catch_all emptyRoot "/a/*b/c".toList (some [1])
      ⟨3, rfl, Or.inr ⟨5, by decide, rfl⟩⟩⟩

/-- C13: on a tree built by successful registrations, when `find`, started with a buffer
of length zero or with any buffer that has room for the wildcards of every registered
pattern, returns nil handlers on a path, and the path with a `/` appended, or the path
with its trailing `/` removed, is an instance of a registered pattern (every `:` value
non-empty and free of `/`), then `find` returns `tsr = true`. -/
theorem find_hints_slash_variant {r : node} {rs : List (Str × List HandlerFunc)}
    (hb : Built r rs) (unescaped : Str → Option Str) (path : Str) (ps0 : Params)
    (hbuf : ps0.len = 0 ∨ ∀ x ∈ rs, (wildcardNames x.1).length ≤ ps0.arr.length)
    {nv : nodeValue} {ps : Params}
    (hfind : find unescaped r path ps0 false = .ok (nv, ps)) (hnone : nv.handlers = none)
    {p : Str} {h : List HandlerFunc} {vs : List Str} (hp : (p, h) ∈ rs)
    (hinst : IsInstance true p vs (path ++ ['/']) ∨
      ∃ q, path = q ++ ['/'] ∧ IsInstance true p vs q) :
    nv.tsr = true := by
  rcases hbuf with hlen | hcap
  · exact hint_complete_len unescaped hb path ps0 hlen hfind hnone hp hinst
  · obtain ⟨nv1, ps1, hf1, hall⟩ := find_any_buffer unescaped hb path ps0 hcap
    obtain ⟨a0, ha0⟩ := hall ps0.arr.length hcap
    have e := hfind.symm.trans hf1
    simp only [Except.ok.injEq, Prod.mk.injEq] at e
    rw [← e.1] at ha0
    exact hint_complete_len unescaped hb path (Params.make ps0.arr.length) rfl ha0 hnone hp
      hinst

theorem find_hints_slash_variant_witness :
    find (fun _ => none) (addRoute emptyRoot "/search/:query".toList (some [1])).tree
        "/search/gopher/".toList (Params.make 1) false =
      .ok ({ handlers := none, tsr := true, fullPath := [] },
        { arr := [⟨[], "gopher".toList⟩], len := 0 }) ∧
      (∃ q, "/search/gopher/".toList = q ++ ['/'] ∧
        IsInstance true "/search/:query".toList ["gopher".toList] q) ∧
      (nodeValue.mk none true []).tsr = true :=
  ⟨rfl, ⟨"/search/gopher".toList, rfl, rfl, rfl⟩,
    @find_hints_slash_variant _ _
      (Built.add "/search/:query".toList [1] Built.empty rfl :
        Built (addRoute emptyRoot "/search/:query".toList (some [1])).tree
          [("/search/:query".toList, [1])])
      (fun _ => none) "/search/gopher/".toList (Params.make 1) (Or.inl rfl)
      (nodeValue.mk none true []) { arr := [⟨[], "gopher".toList⟩], len := 0 }
      rfl rfl "/search/:query".toList [1] ["gopher".toList] (List.mem_singleton.mpr rfl)
      (Or.inr ⟨"/search/gopher".toList, rfl, rfl, rfl⟩)⟩

/-- C14 (evaluation of the code): with `/a/b` and `/ab` registered, the lookup of `/a`
returns no handlers and `tsr = true`, because the node of `/a` has a child that starts with
`/` and has handlers, the node of `/a/b`; the lookup of `/a/` returns no handlers either,
and `/a` has no trailing `/` to remove, so the hint points at no route. -/
theorem find_sets_tsr_without_slash_route :
    Built (addRoute (addRoute emptyRoot "/a/b".toList (some [1])).tree "/ab".toList
        (some [2])).tree [("/a/b".toList, [1]), ("/ab".toList, [2])] ∧
      "/a".toList.getLast? ≠ some '/' ∧
      ∀ unescaped cap,
        (find unescaped
          (addRoute (addRoute emptyRoot "/a/b".toList (some [1])).tree "/ab".toList
            (some [2])).tree "/a".toList (Params.make cap) false).map
          (fun x => (x.1.handlers, x.1.tsr)) = .ok (none, true) ∧
        (find unescaped
          (addRoute (addRoute emptyRoot "/a/b".toList (some [1])).tree "/ab".toList
            (some [2])).tree ("/a".toList ++ ['/']) (Params.make cap) false).map
          (fun x => x.1.handlers) = .ok none :=
  ⟨Built.add "/ab".toList [2] (Built.add "/a/b".toList [1] Built.empty rfl) rfl,
    by decide, fun _ _ => ⟨rfl, rfl⟩⟩

/-- C16: when `find`, on a tree built by successful registrations and with an empty
buffer, returns a chain, this chain was registered under a pattern `p` whose collapsed
form matches the path with the captures `vs`, read from left to right; the buffer then
holds as many entries as `p` has wildcards, and the entry `i` has the `i`-th wildcard name
of `p` as its key and the `i`-th capture as its value. -/
theorem find_binds_names_of_matched_pattern {r : node} {rs : List (Str × List HandlerFunc)}
    (hb : Built r rs) (unescaped : Str → Option Str) (path : Str) (cap : Nat)
    {nv : nodeValue} {ps : Params} {h : List HandlerFunc}
    (hfind : find unescaped r path (Params.make cap) false = .ok (nv, ps))
    (hh : nv.handlers = some h) :
    ∃ p vs, (p, h) ∈ rs ∧ keyMatch (collapse p) path = some vs ∧
      IsInstance false p vs path ∧
      ps.toList.length = (wildcardNames p).length ∧ vs.length = (wildcardNames p).length ∧
      ps.toList = List.zipWith Param.mk (wildcardNames p) vs := by
  rcases find_built unescaped hb path cap with ⟨_, tsr, ps1, hf⟩ | ⟨_, hf⟩ |
    ⟨K, vs, m, x, tsr, ps2, he, hx, hxK, hat, hxh, _, hkm2, hf, hv2, hk2⟩
  · rw [hf] at hfind
    simp only [Except.ok.injEq, Prod.mk.injEq] at hfind
    obtain ⟨h1, _⟩ := hfind
    subst h1
    cases hh
  · rw [hf] at hfind
    cases hfind
  · rw [hf] at hfind
    simp only [Except.ok.injEq, Prod.mk.injEq] at hfind
    obtain ⟨h1, h2⟩ := hfind
    subst h1 h2
    simp only [Option.some.injEq] at hh
    have hkm : keyMatch (collapse x.1) path = some vs := by rw [hxK]; exact hkm2
    have hl1 : ps2.toList.length = (wildcardNames x.1).length := by
      rw [← hk2, List.length_map]
    have hl2 : vs.length = (wildcardNames x.1).length := by
      rw [← hv2, List.length_map, hl1]
    refine ⟨x.1, vs, by rw [← hh]; exact hx, hkm, isInstance_of_keyMatch hkm, hl1, hl2, ?_⟩
    rw [← hk2, ← hv2, zipWith_key_value]

theorem find_binds_names_of_matched_pattern_witness :
    find (fun _ => none)
        (addRoute (addRoute emptyRoot "/:paramb".toList (some [1])).tree
          "/:parama/start".toList (some [2])).tree "/1/start".toList (Params.make 1) false =
      .ok ({ handlers := some [2], tsr := false, fullPath := "/:parama/start".toList },
        { arr := [⟨"parama".toList, "1".toList⟩], len := 1 }) ∧
      ∃ p vs, (p, [2]) ∈ [("/:paramb".toList, ([1] : List HandlerFunc)),
          ("/:parama/start".toList, [2])] ∧
        keyMatch (collapse p) "/1/start".toList = some vs ∧
        IsInstance false p vs "/1/start".toList ∧
        (Params.toList { arr := [⟨"parama".toList, "1".toList⟩], len := 1 }).length =
          (wildcardNames p).length ∧ vs.length = (wildcardNames p).length ∧
        Params.toList { arr := [⟨"parama".toList, "1".toList⟩], len := 1 } =
          List.zipWith Param.mk (wildcardNames p) vs :=
  ⟨rfl,
    find_binds_names_of_matched_pattern
      (Built.add "/:parama/start".toList [2]
        (Built.add "/:paramb".toList [1] Built.empty rfl) rfl :
        Built (addRoute (addRoute emptyRoot "/:paramb".toList (some [1])).tree
          "/:parama/start".toList (some [2])).tree
          [("/:paramb".toList, [1]), ("/:parama/start".toList, [2])])
      (fun _ => none) "/1/start".toList 1
      (rfl : find (fun _ => none)
          (addRoute (addRoute emptyRoot "/:paramb".toList (some [1])).tree
            "/:parama/start".toList (some [2])).tree "/1/start".toList (Params.make 1)
          false =
        .ok ({ handlers := some [2], tsr := false, fullPath := "/:parama/start".toList },
          { arr := [⟨"parama".toList, "1".toList⟩], len := 1 }))
      rfl⟩

/-- C17: in a tree whose only registered pattern is `S ++ "*" ++ name` with `S` free of
wildcards, for every text `rest`, the empty one and those with `/` included, and a buffer
of capacity at least one, `find` on `S ++ rest` returns the chain of the pattern and
leaves the single binding of `name` to `rest` in the buffer. -/
theorem find_catch_all_binds_rest (unescaped : Str → Option Str) {r : node} {S name : Str}
    {h : List HandlerFunc} (hS : NoWild S) (hb : Built r [(S ++ '*' :: name, h)])
    (rest : Str) (cap : Nat) (hcap : 1 ≤ cap) :
    ∃ tsr fp ps, find unescaped r (S ++ rest) (Params.make cap) false =
        .ok ({ handlers := some h, tsr := tsr, fullPath := fp }, ps) ∧
      ps.toList = [⟨name, rest⟩] := by
  have hcol := collapse_noWild_star name hS
  have hnames := wildcardNames_noWild_star name hS
  have hkm : keyMatch (collapse (S ++ '*' :: name)) (S ++ rest) = some [rest] := by
    rw [hcol]
    exact (keyMatch_noWild hS).mpr ⟨rest, rfl, keyMatch_star [] rest⟩
  have hnf := explore_built_serves hb (List.mem_singleton.mpr rfl)
    (Or.inr (by rw [hcol]; simp)) hkm cap
  have hnp : explore cap r 0 (S ++ rest) ≠ .panic :=
    @explore_built_ne_panic _ _ hb cap
      (fun x hx => by
        have hx1 := List.mem_singleton.mp hx
        subst hx1
        show (wildcardNames (S ++ '*' :: name)).length ≤ cap
        rw [hnames]
        exact hcap) (S ++ rest)
  rcases find_built unescaped hb (S ++ rest) cap with ⟨he, _⟩ | ⟨he, _⟩ |
    ⟨K, vs, m, x, tsr, ps2, he, hx, hxK, hat, hxh, _, hkm2, hf, hv2, hk2⟩
  · exact absurd he hnf
  · exact absurd he hnp
  · have hx1 := List.mem_singleton.mp hx
    subst hx1
    simp only [] at hxK hk2 hf
    rw [← hxK, hkm] at hkm2
    simp only [Option.some.injEq] at hkm2
    subst hkm2
    refine ⟨tsr, m.ppath, ps2, hf, ?_⟩
    rw [← zipWith_key_value ps2.toList, hv2, hk2, hnames]
    rfl

theorem find_catch_all_binds_rest_witness :
    NoWild "/src/".toList ∧ 1 ≤ 1 ∧
      ∃ tsr fp ps, find (fun _ => none)
          (addRoute emptyRoot "/src/*filepath".toList (some [1])).tree
          ("/src/".toList ++ "some/file.png".toList) (Params.make 1) false =
          .ok ({ handlers := some [1], tsr := tsr, fullPath := fp }, ps) ∧
        ps.toList = [⟨"filepath".toList, "some/file.png".toList⟩] :=
  ⟨by unfold NoWild; decide, le_refl 1,
    @find_catch_all_binds_rest (fun _ => none) _ "/src/".toList "filepath".toList [1]
      (by unfold NoWild; decide)
      (Built.add "/src/*filepath".toList [1] Built.empty rfl :
        Built (addRoute emptyRoot "/src/*filepath".toList (some [1])).tree
          [("/src/".toList ++ '*' :: "filepath".toList, [1])])
      "some/file.png".toList 1 (le_refl 1)⟩

/-- C18, as stated, fails: with `/a` registered, the lookup of `/a` makes no capture and
never re-slices the buffer, so a buffer that enters `find` with the length one and the
binding of `k` to `v` comes back with this binding, and the same backing array entered
with the length zero comes back without a binding. -/
theorem find_keeps_stale_bindings :
    Built (addRoute emptyRoot "/a".toList (some [1])).tree [("/a".toList, [1])] ∧
      ∀ unescaped,
        (find unescaped (addRoute emptyRoot "/a".toList (some [1])).tree "/a".toList
          { arr := [⟨"k".toList, "v".toList⟩], len := 1 } false).map
          (fun x => (x.1, x.2.toList)) =
          .ok ({ handlers := some [1], tsr := false, fullPath := "/a".toList },
            [⟨"k".toList, "v".toList⟩]) ∧
        (find unescaped (addRoute emptyRoot "/a".toList (some [1])).tree "/a".toList
          { arr := [⟨"k".toList, "v".toList⟩], len := 0 } false).map
          (fun x => (x.1, x.2.toList)) =
          .ok ({ handlers := some [1], tsr := false, fullPath := "/a".toList }, []) :=
  ⟨Built.add "/a".toList [1] Built.empty rfl, fun _ => ⟨rfl, rfl⟩⟩

/-- C18, amended: on a tree built by successful registrations, with two buffers that both
have room for the wildcards of every registered pattern, whatever their lengths and what
they hold, `find` returns on a path the same handlers, `fullPath` and `tsr`, and it leaves
the same bindings in both buffers, unless the lookup makes no capture: then it leaves each
buffer as it entered, with the length and the bindings it had; when both buffers enter
with the length zero, it leaves the same bindings in both. -/
theorem find_deterministic {r : node} {rs : List (Str × List HandlerFunc)} (hb : Built r rs)
    (unescaped : Str → Option Str) (path : Str) (p1 p2 : Params)
    (hc1 : ∀ x ∈ rs, (wildcardNames x.1).length ≤ p1.arr.length)
    (hc2 : ∀ x ∈ rs, (wildcardNames x.1).length ≤ p2.arr.length) :
    ∃ nv q1 q2, find unescaped r path p1 false = .ok (nv, q1) ∧
      find unescaped r path p2 false = .ok (nv, q2) ∧
      (q1.toList = q2.toList ∨ (q1 = p1 ∧ q2 = p2)) ∧
      (p1.len = 0 → p2.len = 0 → q1.toList = q2.toList) := by
  obtain ⟨nv, q1, q2, hf1, hf2, hq⟩ := find_two_buffers unescaped hb path p1 p2 hc1 hc2
  refine ⟨nv, q1, q2, hf1, hf2, hq, ?_⟩
  intro hl1 hl2
  exact find_len_bindings unescaped hb path hl1 hl2 hc1 hc2 hf1 hf2

theorem find_deterministic_witness :
    (∃ nv q1 q2,
      find (fun _ => none) (addRoute emptyRoot "/a/:x".toList (some [1])).tree "/a/v".toList
          { arr := [⟨"k".toList, "w".toList⟩, ⟨"z".toList, "y".toList⟩], len := 2 } false =
        .ok (nv, q1) ∧
      find (fun _ => none) (addRoute emptyRoot "/a/:x".toList (some [1])).tree "/a/v".toList
          (Params.make 1) false = .ok (nv, q2) ∧
      (q1.toList = q2.toList ∨
        (q1 = { arr := [⟨"k".toList, "w".toList⟩, ⟨"z".toList, "y".toList⟩], len := 2 } ∧
          q2 = Params.make 1)) ∧
      ((Params.mk [⟨"k".toList, "w".toList⟩, ⟨"z".toList, "y".toList⟩] 2).len = 0 →
        (Params.make 1).len = 0 → q1.toList = q2.toList)) ∧
      (find (fun _ => none) (addRoute emptyRoot "/a/:x".toList (some [1])).tree "/a/v".toList
          { arr := [⟨"k".toList, "w".toList⟩, ⟨"z".toList, "y".toList⟩], len := 2 } false).map
          (fun x => x.2.toList) = .ok [⟨"x".toList, "v".toList⟩] ∧
      (find (fun _ => none) (addRoute emptyRoot "/a/:x".toList (some [1])).tree "/a/v".toList
          (Params.make 1) false).map (fun x => x.2.toList) =
        .ok [⟨"x".toList, "v".toList⟩] :=
  ⟨find_deterministic
      (Built.add "/a/:x".toList [1] Built.empty rfl :
        Built (addRoute emptyRoot "/a/:x".toList (some [1])).tree [("/a/:x".toList, [1])])
      (fun _ => none) "/a/v".toList
      { arr := [⟨"k".toList, "w".toList⟩, ⟨"z".toList, "y".toList⟩], len := 2 }
      (Params.make 1) (by decide) (by decide),
    rfl, rfl⟩

/-- C19: on a tree built by successful registrations in which no pattern has more than `N`
wildcards, with any path and any buffer of capacity at least `N`, whatever its length and
what it holds, `find` returns: no read of the path, re-slice of the buffer or access to an
element of the buffer is out of range. -/
theorem find_never_panics {r : node} {rs : List (Str × List HandlerFunc)} (hb : Built r rs)
    (unescaped : Str → Option Str) (path : Str) (ps : Params) (N : Nat)
    (hN : ∀ x ∈ rs, (wildcardNames x.1).length ≤ N) (hcap : N ≤ ps.arr.length) :
    ∃ nv ps1, find unescaped r path ps false = .ok (nv, ps1) := by
  obtain ⟨nv, ps1, hf, _⟩ := find_any_buffer unescaped hb path ps
    (fun x hx => le_trans (hN x hx) hcap)
  exact ⟨nv, ps1, hf⟩

theorem find_never_panics_witness :
    ∃ nv ps1,
      find (fun _ => none)
        (addRoute (addRoute emptyRoot "/a/:x/:y".toList (some [1])).tree "/a/:x/b".toList
          (some [2])).tree "a/v//".toList
        { arr := [⟨"k".toList, "w".toList⟩, ⟨"z".toList, "y".toList⟩], len := 1 } false =
        .ok (nv, ps1) :=
  find_never_panics
    (Built.add "/a/:x/b".toList [2] (Built.add "/a/:x/:y".toList [1] Built.empty rfl) rfl :
      Built (addRoute (addRoute emptyRoot "/a/:x/:y".toList (some [1])).tree
        "/a/:x/b".toList (some [2])).tree
        [("/a/:x/:y".toList, [1]), ("/a/:x/b".toList, [2])])
    (fun _ => none) "a/v//".toList
    { arr := [⟨"k".toList, "w".toList⟩, ⟨"z".toList, "y".toList⟩], len := 1 } 2
    (by decide) (by decide)

/-- C20: on a tree built by successful registrations, the loop of `find` ends within
`3 * size + 1` turns, `size` being the number of nodes of the tree: started with a buffer
of length zero it ends with a result or with the panic of a buffer that is too small, and
started with any buffer that has room for the wildcards of every registered pattern it
ends with a result, a match or no match; more turns do not change what it ends with. -/
theorem find_terminates {r : node} {rs : List (Str × List HandlerFunc)} (hb : Built r rs)
    (unescaped : Str → Option Str) (path : Str) (ps : Params) :
    (ps.len = 0 → ∃ res, res ≠ .error .outOfBudget ∧
      ∀ f, findLoop unescaped false path (3 * r.size + 1 + f) .top
        (⟨r, [], path, 0, 0, ps, false⟩ : Cursor) = res) ∧
    ((∀ x ∈ rs, (wildcardNames x.1).length ≤ ps.arr.length) → ∃ nv ps1,
      ∀ f, findLoop unescaped false path (3 * r.size + 1 + f) .top
        (⟨r, [], path, 0, 0, ps, false⟩ : Cursor) = .ok (nv, ps1)) := by
  constructor
  · intro hl
    have hres : ∃ res, res ≠ .error .outOfBudget ∧ find unescaped r path ps false = res := by
      rcases find_built_len unescaped hb path ps hl with ⟨_, t1, a1, g1, _⟩ | ⟨_, g1⟩ |
        ⟨K1, vs1, m1, x1, t1, a1, _, _, _, _, _, _, _, g1, _⟩
      · exact ⟨_, (fun h => by rw [g1] at h; cases h), rfl⟩
      · exact ⟨_, (fun h => by rw [g1] at h; cases h), rfl⟩
      · exact ⟨_, (fun h => by rw [g1] at h; cases h), rfl⟩
    obtain ⟨res, hne, hf⟩ := hres
    exact ⟨res, hne, findLoop_budget _ _ _ res hf hne⟩
  · intro hcap
    obtain ⟨nv, ps1, hf, _⟩ := find_any_buffer unescaped hb path ps hcap
    exact ⟨nv, ps1, findLoop_budget _ _ _ _ hf (by intro h; cases h)⟩

theorem find_terminates_witness :
    (∀ x ∈ [("/a/:x".toList, ([1] : List HandlerFunc)), ("/a/b/*c".toList, [2])],
        (wildcardNames x.1).length ≤ (Params.make 1).arr.length) ∧
      ∃ nv ps1, ∀ f, findLoop (fun _ => none) false "/a/b".toList
        (3 * (addRoute (addRoute emptyRoot "/a/:x".toList (some [1])).tree "/a/b/*c".toList
          (some [2])).tree.size + 1 + f) .top
        (⟨(addRoute (addRoute emptyRoot "/a/:x".toList (some [1])).tree "/a/b/*c".toList
          (some [2])).tree, [], "/a/b".toList, 0, 0, Params.make 1, false⟩ : Cursor) =
        .ok (nv, ps1) :=
  ⟨by decide,
    (find_terminates
      (Built.add "/a/b/*c".toList [2] (Built.add "/a/:x".toList [1] Built.empty rfl) rfl :
        Built (addRoute (addRoute emptyRoot "/a/:x".toList (some [1])).tree
          "/a/b/*c".toList (some [2])).tree
          [("/a/:x".toList, [1]), ("/a/b/*c".toList, [2])])
      (fun _ => none) "/a/b".toList (Params.make 1)).2 (by decide)⟩

/-- C15 (as stated, refuted): on the tree that holds `/x`, the patterns `/:a` and `/:b`
each register, but after either of them the registration of the other panics and leaves
the tree as it was; the trees of the two orders then answer `/v` with different chains and
different parameter names. -/
theorem addRoute_orders_conflict :
    ∃ T A1 A2 : node, Built T [("/x".toList, [0])] ∧
      addRoute T "/:a".toList (some [1]) = .ok A1 ∧
      addRoute T "/:b".toList (some [2]) = .ok A2 ∧
      (∃ e, addRoute A1 "/:b".toList (some [2]) = .panicked e A1) ∧
      (∃ e, addRoute A2 "/:a".toList (some [1]) = .panicked e A2) ∧
      observed (find (fun _ => none) A1 "/v".toList (Params.make 1) false) =
        .ok (some [1], false, { arr := [⟨"a".toList, "v".toList⟩], len := 1 }) ∧
      observed (find (fun _ => none) A2 "/v".toList (Params.make 1) false) =
        .ok (some [2], false, { arr := [⟨"b".toList, "v".toList⟩], len := 1 }) :=
  ⟨(addRoute emptyRoot "/x".toList (some [0])).tree,
    (addRoute (addRoute emptyRoot "/x".toList (some [0])).tree "/:a".toList (some [1])).tree,
    (addRoute (addRoute emptyRoot "/x".toList (some [0])).tree "/:b".toList (some [2])).tree,
    Built.add "/x".toList [0] Built.empty rfl, rfl, rfl, ⟨_, rfl⟩, ⟨_, rfl⟩, rfl, rfl⟩

/-- C15 (amended): for a tree `T` built by successful registrations and two patterns with
their chains such that registering the first then the second succeeds, and registering the
second then the first succeeds, `find` ends on the two resulting trees alike for every path
and every buffer: with the same handler chain, the same redirect hint and the same
parameter slice, or with the same panic. -/
theorem find_order_independent {T A1 A12 A2 A21 : node}
    {rs : List (Str × List HandlerFunc)} (hb : Built T rs) {p1 p2 : Str}
    {h1 h2 : List HandlerFunc}
    (ha1 : addRoute T p1 (some h1) = .ok A1) (ha12 : addRoute A1 p2 (some h2) = .ok A12)
    (ha2 : addRoute T p2 (some h2) = .ok A2) (ha21 : addRoute A2 p1 (some h1) = .ok A21)
    (unescaped : Str → Option Str) (path : Str) (ps : Params) :
    observed (find unescaped A12 path ps false) =
      observed (find unescaped A21 path ps false) := by
  obtain ⟨ht, hk⟩ := twin_of_orders hb ha1 ha12 ha2 ha21
  exact find_twin unescaped (Built.add p2 h2 (Built.add p1 h1 hb ha1) ha12)
    (Built.add p1 h1 (Built.add p2 h2 hb ha2) ha21) ht hk path ps

theorem find_order_independent_witness :
    observed (find (fun _ => none)
        (addRoute (addRoute emptyRoot "/:paramb".toList (some [1])).tree
          "/:parama/start".toList (some [2])).tree "/1/start".toList (Params.make 1) false) =
      observed (find (fun _ => none)
        (addRoute (addRoute emptyRoot "/:parama/start".toList (some [2])).tree
          "/:paramb".toList (some [1])).tree "/1/start".toList (Params.make 1) false) ∧
    observed (find (fun _ => none)
        (addRoute (addRoute emptyRoot "/:parama/start".toList (some [2])).tree
          "/:paramb".toList (some [1])).tree "/1/start".toList (Params.make 1) false) =
      .ok (some [2], false, { arr := [⟨"parama".toList, "1".toList⟩], len := 1 }) :=
  ⟨find_order_independent Built.empty
      (rfl : addRoute emptyRoot "/:paramb".toList (some [1]) =
        .ok (addRoute emptyRoot "/:paramb".toList (some [1])).tree)
      (rfl : addRoute (addRoute emptyRoot "/:paramb".toList (some [1])).tree
          "/:parama/start".toList (some [2]) =
        .ok (addRoute (addRoute emptyRoot "/:paramb".toList (some [1])).tree
          "/:parama/start".toList (some [2])).tree)
      (rfl : addRoute emptyRoot "/:parama/start".toList (some [2]) =
        .ok (addRoute emptyRoot "/:parama/start".toList (some [2])).tree)
      (rfl : addRoute (addRoute emptyRoot "/:parama/start".toList (some [2])).tree
          "/:paramb".toList (some [1]) =
        .ok (addRoute (addRoute emptyRoot "/:parama/start".toList (some [2])).tree
          "/:paramb".toList (some [1])).tree)
      (fun _ => none) "/1/start".toList (Params.make 1),
    rfl⟩

end route


namespace route

/-- C21: on a tree built by successful registrations, the registration of a valid pattern
`p` with a chain that is not nil panics only with the duplicate panic and only when a
registered pattern has the collapsed form of `p`; when no registered pattern has it, the
registration succeeds and every registered route, also one that is a prefix of `p`, is a
route of the new tree with its chain and its names. -/
theorem addRoute_conflicts_only_on_collapsed_form {r : node}
    {rs : List (Str × List HandlerFunc)} (hb : Built r rs) {p : Str}
    (hv : checkPahtValid p = .ok ()) (h : List HandlerFunc) :
    (∀ e r1, addRoute r p (some h) = .panicked e r1 →
        (∃ X, e = .duplicate X) ∧ ∃ x ∈ rs, collapse x.1 = collapse p) ∧
      ((∀ x ∈ rs, collapse x.1 ≠ collapse p) →
        ∃ r1, addRoute r p (some h) = .ok r1 ∧
          ∀ x ∈ rs, (collapse x.1, some x.2, wildcardNames x.1) ∈ r1.routes []) := by
  obtain ⟨N, hN⟩ := exists_wildcard_bound (rs ++ [(p, h)])
  have hN0 : ∀ x ∈ rs, wcount (collapse x.1) ≤ N :=
    fun x hx => hN x (List.mem_append_left _ hx)
  obtain ⟨hg, _, _, hback, _⟩ := hb.holds N hN0
  have hdup : HasRoute r (collapse p) → ∃ x ∈ rs, collapse x.1 = collapse p := by
    rintro ⟨m, hat, hm⟩
    obtain ⟨x, hx, hxK, _⟩ := hback _ m hat hm
    exact ⟨x, hx, hxK⟩
  rcases addRoute_spec h hg hv (hN (p, h) (by simp)) with ⟨hr, X, he⟩ | ⟨_, r2, hok, _⟩
  · refine ⟨?_, ?_⟩
    · intro e r1 h1
      rw [he] at h1
      cases h1
      exact ⟨⟨X, rfl⟩, hdup hr⟩
    · intro hno
      obtain ⟨x, hx, hxK⟩ := hdup hr
      exact absurd hxK (hno x hx)
  · refine ⟨?_, ?_⟩
    · intro e r1 h1
      rw [hok] at h1
      cases h1
    · intro _
      refine ⟨r2, hok, ?_⟩
      intro x hx
      obtain ⟨_, _, hmem, _⟩ := (Built.add p h hb hok).holds N hN
      obtain ⟨m, hat, hmh, hmp⟩ := hmem x (List.mem_append_left _ hx)
      exact mem_routes_root.mpr ⟨m, hat, by rw [hmh]; rfl, hmh, hmp⟩

theorem addRoute_conflicts_only_on_collapsed_form_witness :
    ∃ r1, addRoute (addRoute emptyRoot "/search/".toList (some [1])).tree
        "/search/:query".toList (some [2]) = .ok r1 ∧
      ∀ x ∈ [("/search/".toList, ([1] : List HandlerFunc))],
        (collapse x.1, some x.2, wildcardNames x.1) ∈ r1.routes [] :=
  (addRoute_conflicts_only_on_collapsed_form
    (Built.add "/search/".toList [1] Built.empty rfl :
      Built (addRoute emptyRoot "/search/".toList (some [1])).tree
        [("/search/".toList, [1])])
    (rfl : checkPahtValid "/search/:query".toList = .ok ()) [2]).2 (by decide)

/-- C22: on a tree `T` built by successful registrations, a successful registration of the
pattern `p` with the chain `h` leaves a tree whose routes (key, chain and parameter names
of every node that holds handlers) are the routes of `T` and the entry of `p`: its
collapsed form, `h` and its wildcard names in order; no route of `T` has this key. -/
theorem addRoute_routes {T T1 : node} {rs : List (Str × List HandlerFunc)}
    (hb : Built T rs) {p : Str} {h : List HandlerFunc}
    (hok : addRoute T p (some h) = .ok T1) :
    (∀ e, e ∈ T1.routes [] ↔
        e ∈ T.routes [] ∨ e = (collapse p, some h, wildcardNames p)) ∧
      ∀ e ∈ T.routes [], e.1 ≠ collapse p := by
  obtain ⟨N, hN⟩ := exists_wildcard_bound (rs ++ [(p, h)])
  have hN0 : ∀ x ∈ rs, wcount (collapse x.1) ≤ N :=
    fun x hx => hN x (List.mem_append_left _ hx)
  have hg := (hb.holds N hN0).1
  rcases addRoute_spec h hg (checkPahtValid_of_addRoute_ok hok) (hN (p, h) (by simp)) with
    ⟨_, X, he⟩ | ⟨hno, r2, hok2, hpost⟩
  · rw [hok] at he
    cases he
  rw [hok] at hok2
  cases hok2
  refine ⟨?_, ?_⟩
  · rintro ⟨K, hs, pn⟩
    rw [mem_routes_root, mem_routes_root]
    constructor
    · rintro ⟨m1, hat, hm, h2, h3⟩
      rcases hpost.back K m1 hat hm with ⟨hK, hh1, hp1⟩ | ⟨m, hat0, hh0, hp0⟩
      · right
        rw [← h2, ← h3, hK, hh1, hp1]
      · left
        exact ⟨m, hat0, by rw [hh0]; exact hm, hh0.trans h2, hp0.trans h3⟩
    · rintro (⟨m, hat, hm, h2, h3⟩ | he)
      · obtain ⟨m1, hat1, hh1, hp1⟩ := hpost.keep K m hat hm
        exact ⟨m1, hat1, by rw [hh1]; exact hm, hh1.trans h2, hp1.trans h3⟩
      · simp only [Prod.mk.injEq] at he
        obtain ⟨e1, e2, e3⟩ := he
        obtain ⟨m1, hat1, hh1, hp1⟩ := hpost.added
        exact ⟨m1, by rw [e1]; exact hat1, by rw [hh1]; rfl, by rw [hh1, e2],
          by rw [hp1, e3]⟩
  · rintro ⟨K, hs, pn⟩ he hK
    obtain ⟨m, hat, hm, _⟩ := mem_routes_root.mp he
    simp only at hK
    exact hno ⟨m, by rw [← hK]; exact hat, hm⟩

theorem addRoute_routes_witness :
    (addRoute (addRoute emptyRoot "/abc".toList (some [1])).tree "/abd".toList
        (some [2])).tree.routes [] =
      [("/abc".toList, some [1], []), ("/abd".toList, some [2], [])] ∧
    ((("/abc".toList, some [1], []) : Str × HandlersChain × List Str) ∈
        (addRoute (addRoute emptyRoot "/abc".toList (some [1])).tree "/abd".toList
          (some [2])).tree.routes [] ↔
      (("/abc".toList, some [1], []) : Str × HandlersChain × List Str) ∈
          (addRoute emptyRoot "/abc".toList (some [1])).tree.routes [] ∨
        (("/abc".toList, some [1], []) : Str × HandlersChain × List Str) =
          (collapse "/abd".toList, some [2], wildcardNames "/abd".toList)) :=
  ⟨rfl,
    (addRoute_routes
      (Built.add "/abc".toList [1] Built.empty rfl :
        Built (addRoute emptyRoot "/abc".toList (some [1])).tree [("/abc".toList, [1])])
      (rfl : addRoute (addRoute emptyRoot "/abc".toList (some [1])).tree "/abd".toList
          (some [2]) =
        .ok (addRoute (addRoute emptyRoot "/abc".toList (some [1])).tree "/abd".toList
          (some [2])).tree)).1 _⟩

/-- C23: on a tree built by successful registrations, for every path, `find` with
`unescape = false` and an empty buffer that has room for the wildcards of every registered
pattern returns the handlers and the parameter values of the naive recursive matcher, and
no handlers and no values where the matcher fails. -/
theorem find_refines_naive (unescaped : Str → Option Str) {r : node}
    {rs : List (Str × List HandlerFunc)} (hb : Built r rs)
    (path : Str) {cap : Nat} (hcap : ∀ x ∈ rs, (wildcardNames x.1).length ≤ cap) :
    ∃ nv ps, find unescaped r path (Params.make cap) false = .ok (nv, ps) ∧
      (nv.handlers, ps.toList.map Param.Value) =
        (match naiveMatch r path with
         | some (h, vs) => (h, vs)
         | none => (none, [])) :=
  find_naive unescaped hb path hcap

theorem find_refines_naive_witness :
    naiveMatch
        (addRoute (addRoute emptyRoot "/a/b/:c".toList (some [1])).tree
          "/a/:b/c/d".toList (some [2])).tree "/a/b/c/d".toList =
      some (some [2], ["b".toList]) ∧
    ∃ nv ps, find (fun _ => none)
        (addRoute (addRoute emptyRoot "/a/b/:c".toList (some [1])).tree
          "/a/:b/c/d".toList (some [2])).tree "/a/b/c/d".toList (Params.make 2) false =
        .ok (nv, ps) ∧
      (nv.handlers, ps.toList.map Param.Value) =
        (match naiveMatch
          (addRoute (addRoute emptyRoot "/a/b/:c".toList (some [1])).tree
            "/a/:b/c/d".toList (some [2])).tree "/a/b/c/d".toList with
         | some (h, vs) => (h, vs)
         | none => (none, [])) :=
  ⟨rfl,
    find_refines_naive (fun _ => none)
      (Built.add "/a/:b/c/d".toList [2] (Built.add "/a/b/:c".toList [1] Built.empty rfl) rfl :
        Built (addRoute (addRoute emptyRoot "/a/b/:c".toList (some [1])).tree
          "/a/:b/c/d".toList (some [2])).tree
          [("/a/b/:c".toList, [1]), ("/a/:b/c/d".toList, [2])])
      "/a/b/c/d".toList (by decide)⟩

/-- C24: in a tree built by successful registrations, every node with a prefix that is not
empty has as label the first byte of its prefix, and no two static children of a node have
the same label, so that at most one of them has a given label. -/
theorem static_dispatch_invariant {r : node} {rs : List (Str × List HandlerFunc)}
    (hb : Built r rs) {K : Str} {m : node} (hat : At r K m) :
    (m.pfx ≠ [] → m.pfx.head? = some m.label) ∧ (m.children.map node.label).Nodup ∧
      ∀ x ∈ m.children, ∀ y ∈ m.children, x.label = y.label → x = y := by
  obtain ⟨N, hg⟩ := hb.isGood
  rcases hg with h0 | ⟨hinv, _, _⟩
  · subst h0
    obtain ⟨_, hm⟩ := at_emptyRoot hat
    subst hm
    exact ⟨fun h => absurd rfl h, List.nodup_nil, fun x hx => by cases hx⟩
  · obtain ⟨d1, hm⟩ := hat.inv N 0 hinv
    exact ⟨fun _ => hm.head, hm.nodup, fun x hx y hy hl => label_inj hm hx hy hl⟩

theorem static_dispatch_invariant_witness :
    ((addRoute (addRoute emptyRoot "/abc".toList (some [1])).tree "/abd".toList
          (some [2])).tree.pfx ≠ [] →
        (addRoute (addRoute emptyRoot "/abc".toList (some [1])).tree "/abd".toList
          (some [2])).tree.pfx.head? =
          some (addRoute (addRoute emptyRoot "/abc".toList (some [1])).tree "/abd".toList
            (some [2])).tree.label) ∧
      ((addRoute (addRoute emptyRoot "/abc".toList (some [1])).tree "/abd".toList
          (some [2])).tree.children.map node.label).Nodup ∧
      ∀ x ∈ (addRoute (addRoute emptyRoot "/abc".toList (some [1])).tree "/abd".toList
          (some [2])).tree.children,
        ∀ y ∈ (addRoute (addRoute emptyRoot "/abc".toList (some [1])).tree "/abd".toList
          (some [2])).tree.children, x.label = y.label → x = y :=
  static_dispatch_invariant
    (Built.add "/abd".toList [2] (Built.add "/abc".toList [1] Built.empty rfl) rfl :
      Built (addRoute (addRoute emptyRoot "/abc".toList (some [1])).tree "/abd".toList
        (some [2])).tree [("/abc".toList, [1]), ("/abd".toList, [2])])
    (At.here _)

/-- C28 (the code at the failing input): a group without handlers and a chain of 63
handlers make `combineHandlers` panic with "too many handlers", while 62 handlers are
accepted and returned in order after those of the group. -/
theorem combineHandlers_rejects_63 :
    combineHandlers none (some (List.replicate 63 0)) = .error .tooManyHandlers ∧
      combineHandlers (some [7]) (some (List.replicate 61 0)) =
        .ok (some (7 :: List.replicate 61 0)) :=
  ⟨rfl, rfl⟩

/-- C25: in a tree built by successful registrations, the param child of a node is a
param node with the prefix `:`, the catch-all child is a catch-all node with the prefix
`*`, and every node of a children list is static with a prefix that holds neither `:` nor
`*`; and in every call of `insert` that a call of `addRoute` makes on the tree, a turn of
the loop that splits a node splits a static node. -/
theorem wildcard_slot_invariant {r : node} {rs : List (Str × List HandlerFunc)}
    (hb : Built r rs) :
    (∀ K n, At r K n →
        (∀ c, n.paramChild = some c → c.kind = .pkind ∧ c.pfx = [':']) ∧
        (∀ c, n.anyChild = some c → c.kind = .akind ∧ c.pfx = ['*']) ∧
        (∀ c ∈ n.children, c.kind = .skind ∧ NoWild c.pfx)) ∧
      ∀ p h, ∀ e ∈ addRouteCalls r p h, ∀ x ∈ insertTrace (e.2.length + 1) e.1 e.2,
        x.2.2 = .split → x.1.kind = .skind := by
  refine ⟨?_, ?_⟩
  · intro K n hat
    obtain ⟨N, hg⟩ := hb.isGood
    rcases hg with h0 | ⟨hinv, _, _⟩
    · subst h0
      obtain ⟨_, hm⟩ := at_emptyRoot hat
      subst hm
      refine ⟨?_, ?_, ?_⟩
      · intro c hc
        cases hc
      · intro c hc
        cases hc
      · intro c hc
        cases hc
    · obtain ⟨d1, hn⟩ := hat.inv N 0 hinv
      refine ⟨fun c hc => hn.param_shape hc, fun c hc => ?_, fun c hc => ?_⟩
      · have := hn.any_shape hc
        exact ⟨this.1, this.2.1⟩
      · exact ⟨hn.child_kind hc, (hn.child hc).noWild (hn.child_kind hc)⟩
  · intro p h e he x hx
    exact ((addRouteCalls_turns hb p h e he).2 x hx).2.2.1

theorem wildcard_slot_invariant_witness :
    ((∀ c, (addRoute emptyRoot "/a/:x".toList (some [1])).tree.paramChild = some c →
          c.kind = .pkind ∧ c.pfx = [':']) ∧
        (∀ c, (addRoute emptyRoot "/a/:x".toList (some [1])).tree.anyChild = some c →
          c.kind = .akind ∧ c.pfx = ['*']) ∧
        (∀ c ∈ (addRoute emptyRoot "/a/:x".toList (some [1])).tree.children,
          c.kind = .skind ∧ NoWild c.pfx)) ∧
      (addRoute emptyRoot "/a/:x".toList (some [1])).tree.paramChild =
        some (.mk .pkind ':' [':'] [] [] ["x".toList] (some [1]) none none true) :=
  ⟨(wildcard_slot_invariant
      (Built.add "/a/:x".toList [1] Built.empty rfl :
        Built (addRoute emptyRoot "/a/:x".toList (some [1])).tree
          [("/a/:x".toList, [1])])).1 _ _ (At.here _),
    rfl⟩

/-- C26: in a tree built by successful registrations, every catch-all node holds a chain
that is not nil and has no static children, no param child and no catch-all child; and in
every call of `insert` that a call of `addRoute` makes on the tree, the loop ends at a
catch-all node that it reaches, in the branch of the exact match, so that nothing is added
below the node. -/
theorem catch_all_nodes_are_leaves {r : node} {rs : List (Str × List HandlerFunc)}
    (hb : Built r rs) :
    (∀ K m, At r K m → m.kind = .akind →
        m.handlers.isSome ∧ m.children = [] ∧ m.paramChild = none ∧ m.anyChild = none) ∧
      ∀ p h, ∀ e ∈ addRouteCalls r p h, ∀ x ∈ insertTrace (e.2.length + 1) e.1 e.2,
        x.1.kind = .akind → x.2.2 = .exact := by
  refine ⟨?_, ?_⟩
  · intro K m hat hk
    obtain ⟨N, hg⟩ := hb.isGood
    rcases hg with h0 | ⟨hinv, hrk, _⟩
    · subst h0
      obtain ⟨_, hm⟩ := at_emptyRoot hat
      subst hm
      cases hk
    · rcases hat.holder with h0 | ⟨K1, q, hq, hs⟩
      · subst h0
        rw [hrk] at hk
        cases hk
      · obtain ⟨d1, hqi⟩ := hq.inv N 0 hinv
        rcases hs with hs | hs | hs
        · rw [hqi.child_kind hs] at hk
          cases hk
        · rw [(hqi.param_shape hs).1] at hk
          cases hk
        · have := hqi.any_shape hs
          exact ⟨this.2.2.2.2.2, this.2.2.1, this.2.2.2.1, this.2.2.2.2.1⟩
  · intro p h e he x hx
    exact ((addRouteCalls_turns hb p h e he).2 x hx).2.2.2

theorem catch_all_nodes_are_leaves_witness :
    At (addRoute emptyRoot "/a/*x".toList (some [1])).tree "/a/*".toList
        (node.mk .akind '*' ['*'] [] "/a/*x".toList ["x".toList] (some [1]) none none true) ∧
      (node.mk .akind '*' ['*'] [] "/a/*x".toList ["x".toList] (some [1]) none none
          true).handlers.isSome ∧
      (node.mk .akind '*' ['*'] [] "/a/*x".toList ["x".toList] (some [1]) none none
          true).children = [] ∧
      (node.mk .akind '*' ['*'] [] "/a/*x".toList ["x".toList] (some [1]) none none
          true).paramChild = none ∧
      (node.mk .akind '*' ['*'] [] "/a/*x".toList ["x".toList] (some [1]) none none
          true).anyChild = none :=
  ⟨At.any (n := (addRoute emptyRoot "/a/*x".toList (some [1])).tree) rfl
      (At.here (node.mk .akind '*' ['*'] [] "/a/*x".toList ["x".toList] (some [1]) none none
        true)),
    (catch_all_nodes_are_leaves
      (Built.add "/a/*x".toList [1] Built.empty rfl :
        Built (addRoute emptyRoot "/a/*x".toList (some [1])).tree
          [("/a/*x".toList, [1])])).1 "/a/*".toList _
      (At.any (n := (addRoute emptyRoot "/a/*x".toList (some [1])).tree) rfl
        (At.here (node.mk .akind '*' ['*'] [] "/a/*x".toList ["x".toList] (some [1]) none none
          true)))
      rfl⟩

/-- C30: in every call of `insert` that a call of `addRoute` makes on a tree built by
successful registrations the text to insert is not empty, it is not empty at any turn of
the loop either, and a turn takes the branch of `lcpLen == 0`, in which the node adopts the
text as its prefix, only at the root of the tree when the tree is the empty root, whose
prefix is empty. -/
theorem adopt_branch_only_at_empty_root {r : node} {rs : List (Str × List HandlerFunc)}
    (hb : Built r rs) (p : Str) (h : HandlersChain) :
    ∀ e ∈ addRouteCalls r p h, e.2 ≠ [] ∧
      ∀ x ∈ insertTrace (e.2.length + 1) e.1 e.2,
        x.2.1 ≠ [] ∧ (x.2.2 = .adopt → x.1 = e.1 ∧ e.1 = emptyRoot ∧ x.1.pfx = []) := by
  intro e he
  obtain ⟨h1, h2⟩ := addRouteCalls_turns hb p h e he
  refine ⟨h1, ?_⟩
  intro x hx
  obtain ⟨h3, h4, _, _⟩ := h2 x hx
  refine ⟨h3, ?_⟩
  intro ha
  obtain ⟨h5, h6⟩ := h4 ha
  exact ⟨h5, h6, by rw [h5, h6]; rfl⟩

theorem adopt_branch_only_at_empty_root_witness :
    ("/a/".toList ≠ [] ∧
      ∀ x ∈ insertTrace ("/a/".toList.length + 1) emptyRoot "/a/".toList,
        x.2.1 ≠ [] ∧ (x.2.2 = .adopt → x.1 = emptyRoot ∧ emptyRoot = emptyRoot ∧
          x.1.pfx = [])) ∧
      insertTrace ("/a/".toList.length + 1) emptyRoot "/a/".toList =
        [(emptyRoot, "/a/".toList, .adopt)] :=
  ⟨adopt_branch_only_at_empty_root Built.empty "/a/:y/b".toList (some [1])
      (emptyRoot, "/a/".toList) (List.Mem.head _),
    rfl⟩

/-- C27, counterexample: with the pattern `/a/:p/b` registered, `find` answers the path
`/a//b` with the handlers of the pattern and binds the parameter `p` to the empty string. -/
theorem find_binds_empty_param_value :
    Built (addRoute emptyRoot "/a/:p/b".toList (some [1])).tree [("/a/:p/b".toList, [1])] ∧
      find (fun _ => none) (addRoute emptyRoot "/a/:p/b".toList (some [1])).tree
          "/a//b".toList (Params.make 1) false =
        .ok ({ handlers := some [1], tsr := false, fullPath := "/a/:p/b".toList },
          { arr := [⟨"p".toList, []⟩], len := 1 }) :=
  ⟨Built.add "/a/:p/b".toList [1] Built.empty rfl, rfl⟩

/-- C27, amended: when `find` (unescape=false, empty buffer) returns handlers on a tree
built by successful registrations, they are registered under a pattern `p` that gives the
path when its wildcards are replaced by the bound values, the keys bound are the wildcard
names of `p`, no value bound to a `:name` parameter contains a `/`, and the value bound to
a `:name` parameter that ends the pattern is not empty. -/
theorem find_param_values {r : node} {rs : List (Str × List HandlerFunc)} (hb : Built r rs)
    (unescaped : Str → Option Str) (path : Str) (cap : Nat) {nv : nodeValue} {ps : Params}
    (hfind : find unescaped r path (Params.make cap) false = .ok (nv, ps))
    (h : List HandlerFunc) (hh : nv.handlers = some h) :
    ∃ p, (p, h) ∈ rs ∧ instantiate p (ps.toList.map Param.Value) = some path ∧
      ps.toList.map Param.Key = wildcardNames p ∧
      valuesOk false (parsePattern p) (ps.toList.map Param.Value) = true ∧
      endValueOk (parsePattern p) (ps.toList.map Param.Value) = true := by
  rcases find_built unescaped hb path cap with ⟨_, tsr, ps1, hf⟩ | ⟨_, hf⟩ |
    ⟨K, vs, m, x, tsr, ps2, he, hx, hxK, hat, hxh, _, hkm2, hf, hv2, hk2⟩
  · rw [hf] at hfind
    simp only [Except.ok.injEq, Prod.mk.injEq] at hfind
    obtain ⟨h1, _⟩ := hfind
    subst h1
    cases hh
  · rw [hf] at hfind
    cases hfind
  · rw [hf] at hfind
    simp only [Except.ok.injEq, Prod.mk.injEq] at hfind
    obtain ⟨h1, h2⟩ := hfind
    subst h1 h2
    have hkm : keyMatch (collapse x.1) path = some vs := by rw [hxK]; exact hkm2
    have hinst := isInstance_of_keyMatch hkm
    have hend := endValue_of_keyMatch x.1.length x.1 path vs (le_refl _) hkm
    simp only [Option.some.injEq] at hh
    subst hh
    rw [hv2]
    exact ⟨x.1, hx, hinst.1, hk2, hinst.2, hend⟩

theorem find_param_values_witness :
    Built (addRoute emptyRoot "/a/:p".toList (some [1])).tree [("/a/:p".toList, [1])] ∧
      find (fun _ => none) (addRoute emptyRoot "/a/:p".toList (some [1])).tree "/a/v".toList
          (Params.make 1) false =
        .ok ({ handlers := some [1], tsr := false, fullPath := [] },
          { arr := [⟨"p".toList, "v".toList⟩], len := 1 }) ∧
      ∃ p, (p, [1]) ∈ [("/a/:p".toList, ([1] : List HandlerFunc))] ∧
        instantiate p
            ((Params.toList { arr := [⟨"p".toList, "v".toList⟩], len := 1 }).map Param.Value) =
          some "/a/v".toList ∧
        (Params.toList { arr := [⟨"p".toList, "v".toList⟩], len := 1 }).map Param.Key =
          wildcardNames p ∧
        valuesOk false (parsePattern p)
            ((Params.toList { arr := [⟨"p".toList, "v".toList⟩], len := 1 }).map Param.Value) =
          true ∧
        endValueOk (parsePattern p)
            ((Params.toList { arr := [⟨"p".toList, "v".toList⟩], len := 1 }).map Param.Value) =
          true :=
  ⟨Built.add "/a/:p".toList [1] Built.empty rfl, rfl,
    find_param_values
      (Built.add "/a/:p".toList [1] Built.empty rfl :
        Built (addRoute emptyRoot "/a/:p".toList (some [1])).tree [("/a/:p".toList, [1])])
      (fun _ => none) "/a/v".toList 1
      (rfl : find (fun _ => none) (addRoute emptyRoot "/a/:p".toList (some [1])).tree
          "/a/v".toList (Params.make 1) false =
        .ok ({ handlers := some [1], tsr := false, fullPath := [] },
          { arr := [⟨"p".toList, "v".toList⟩], len := 1 }))
      [1] rfl⟩

/-- C29: in every arena built from the empty tree by successful calls of `addRoute` the
root has no parent, and every node that an allocated node `n` holds in its children list,
as its param child or as its catch-all child is an allocated node whose parent is `n`,
also the nodes moved under the copy that a split creates; and no call of `addRoute` on
such an arena stops for want of budget. -/
theorem parent_back_references_consistent {H : Heap} (hb : HBuilt H) :
    (H.node 0).parent = none ∧
      (∀ n c, n < H.size →
        (c ∈ (H.node n).children ∨ (H.node n).paramChild = some c ∨
          (H.node n).anyChild = some c) →
        c < H.size ∧ (H.node c).parent = some n) ∧
      ∀ p h, H.addRoute p h ≠ .error .outOfBudget :=
  ⟨hb.parentsOk.2.1, fun n c hn hc => hb.parentsOk.2.2 n c hn hc,
    fun p h => Heap.addRoute_budget H p h⟩

theorem parent_back_references_consistent_witness :
    (((Heap.empty.after "/ab/c".toList (some [1])).after "/ab/:p/*q".toList
        (some [2])).after "/ax".toList (some [3])).toTree 4 0 =
      (addRoute (addRoute (addRoute emptyRoot "/ab/c".toList (some [1])).tree
        "/ab/:p/*q".toList (some [2])).tree "/ax".toList (some [3])).tree ∧
      ((((Heap.empty.after "/ab/c".toList (some [1])).after "/ab/:p/*q".toList
        (some [2])).after "/ax".toList (some [3])).node 0).children = [5, 6] ∧
      ((((Heap.empty.after "/ab/c".toList (some [1])).after "/ab/:p/*q".toList
        (some [2])).after "/ax".toList (some [3])).node 5).paramChild = some 2 ∧
      2 < (((Heap.empty.after "/ab/c".toList (some [1])).after "/ab/:p/*q".toList
        (some [2])).after "/ax".toList (some [3])).size ∧
      ((((Heap.empty.after "/ab/c".toList (some [1])).after "/ab/:p/*q".toList
        (some [2])).after "/ax".toList (some [3])).node 2).parent = some 5 :=
  ⟨rfl, rfl, rfl,
    (parent_back_references_consistent
      (HBuilt.add "/ax".toList [3]
        (HBuilt.add "/ab/:p/*q".toList [2]
          (HBuilt.add "/ab/c".toList [1] HBuilt.empty rfl) rfl) rfl :
        HBuilt (((Heap.empty.after "/ab/c".toList (some [1])).after "/ab/:p/*q".toList
          (some [2])).after "/ax".toList (some [3])))).2.1 5 2 (by decide)
      (Or.inr (Or.inl rfl))⟩

end route
